import Mathlib

/-!
# transplant: a shallow embedding of `src/src/transplant.c`

The program state (the globals of `global.h`, the two standard streams and the
file system) is an explicit record; every C function becomes a function on it
that returns the C return code together with the new state.

Conventions of the embedding

* bytes and characters are natural numbers below 256; a C string is the part of
  a list before its first `0` (the end of the list counts as the terminator);
* `int` is a 32-bit two's complement integer and `char` is signed (x86-64
  Linux); conversions are written out with `toInt32`, `toUInt32`, `toUInt64`,
  `toUChar`, `toSChar`;
* `PATH_MAX` and `NAME_MAX` (from the absent `global.h` / `limits.h`) are
  parameters;
* writes to the standard output and to files never fail, and the deserializer
  does not bound the name it reads into `name_buf`;
* recursion that the C code leaves to the call stack, and the one loop whose
  counter can wrap, take a `fuel` argument: `none` means that the fuel ran out;
* the `depth` argument of the recursive functions is an unbounded integer: the
  nesting of a run stays far below 2^31 (the C stack is exhausted long before),
  so `depth + 1` and `depth - 1` never overflow; the value is converted to
  `uint32_t` where it is written.
-/

namespace Transplant

/-! ## Constants of `<sys/stat.h>` and `<stdio.h>` -/

def S_IFMT : Nat := 0o170000
def S_IFDIR : Nat := 0o040000
def S_IFREG : Nat := 0o100000
def S_IFIFO : Nat := 0o010000
def S_IRWXU : Nat := 0o700
def S_IRWXG : Nat := 0o070
def S_IRWXO : Nat := 0o007

/-- The macro `S_ISDIR(m)`. -/
def S_ISDIR (m : Nat) : Bool := (m &&& S_IFMT) == S_IFDIR

/-- The macro `S_ISREG(m)`. -/
def S_ISREG (m : Nat) : Bool := (m &&& S_IFMT) == S_IFREG

/-- The value `EOF` of `<stdio.h>`. -/
def EOF : Int := -1

/-! ## Machine integers -/

/-- Conversion to `int` (32-bit two's complement). -/
def toInt32 (n : Int) : Int := (n + 2147483648) % 4294967296 - 2147483648

/-- Conversion to `uint32_t`. -/
def toUInt32 (n : Int) : Nat := (n % 4294967296).toNat

/-- Conversion to `uint64_t`. -/
def toUInt64 (n : Int) : Nat := (n % 18446744073709551616).toNat

/-- Conversion to `unsigned char`. -/
def toUChar (n : Int) : Nat := (n % 256).toNat

/-- Conversion of a byte to (signed) `char`. -/
def toSChar (b : Nat) : Int := if b % 256 < 128 then ((b % 256 : Nat) : Int) else ((b % 256 : Nat) : Int) - 256

/-! ## C strings -/

/-- The C string stored at a pointer: the cells before the first NUL. -/
def cstr (mem : List Nat) : List Nat := mem.takeWhile (fun c => c != 0)

/-- The character a pointer points to (NUL at the end of the modelled memory). -/
def deref (mem : List Nat) : Nat := mem.headD 0

/-- Function `len_string`: the number of characters before the NUL. -/
def len_string : List Nat → Int
  | [] => 0
  | c :: cs => if c != 0 then len_string cs + 1 else 0

/-! ## The file system -/

/-- A file name (one path component). -/
abbrev Name := List Nat

/-- A node of the file-system tree: a regular file with its permission bits and
content, a directory with its permission bits, the size `stat` reports for it
and its entries in enumeration order, or a FIFO (a node that is neither). -/
inductive Node where
  | file (perm : Nat) (content : List Nat) : Node
  | dir (perm : Nat) (size : Nat) (entries : List (Name × Node)) : Node
  | fifo (perm : Nat) : Node

/-- The part of `struct stat` the program reads. -/
structure Stat where
  st_mode : Nat
  st_size : Int
deriving DecidableEq

/-- What `stat` reports for a node. -/
def Node.stat : Node → Stat
  | .file perm content => { st_mode := S_IFREG ||| (perm % 4096), st_size := content.length }
  | .dir perm size _ => { st_mode := S_IFDIR ||| (perm % 4096), st_size := size }
  | .fifo perm => { st_mode := S_IFIFO ||| (perm % 4096), st_size := 0 }

/-- Replace the node of the first entry called `c`. -/
def setEntry : List (Name × Node) → Name → Node → List (Name × Node)
  | [], _, _ => []
  | (n, x) :: rest, c, new => if n = c then (n, new) :: rest else (n, x) :: setEntry rest c new

/-- The node at a canonical path (a list of components) below `root`. -/
def Node.get : Node → List Name → Option Node
  | n, [] => some n
  | .dir _ _ es, c :: cs =>
    match es.lookup c with
    | some ch => Node.get ch cs
    | none => none
  | _, _ :: _ => none

/-- Apply `f` to the node at a canonical path; `none` when there is no such node. -/
def Node.update : Node → List Name → (Node → Node) → Option Node
  | n, [], f => some (f n)
  | .dir p s es, c :: cs, f =>
    match es.lookup c with
    | some ch =>
      match Node.update ch cs f with
      | some ch' => some (.dir p s (setEntry es c ch'))
      | none => none
    | none => none
  | _, _ :: _, _ => none

/-- Append an entry to a directory node (other nodes are left alone). -/
def Node.addEntry (name : Name) (child : Node) : Node → Node
  | .dir p s es => .dir p s (es ++ [(name, child)])
  | n => n

mutual
/-- Boolean equality of nodes. -/
def Node.beq : Node → Node → Bool
  | .file p c, .file p' c' => p == p' && c == c'
  | .dir p s es, .dir p' s' es' => p == p' && s == s' && beqEntries es es'
  | .fifo p, .fifo p' => p == p'
  | _, _ => false
/-- Boolean equality of entry lists. -/
def beqEntries : List (Name × Node) → List (Name × Node) → Bool
  | [], [] => true
  | (n, x) :: r, (n', x') :: r' => n == n' && Node.beq x x' && beqEntries r r'
  | _, _ => false
end

/-- Whether a node is a directory. -/
def Node.isDir : Node → Bool
  | .dir _ _ _ => true
  | _ => false

/-- Split a path string at every `/`. -/
def splitPath : List Nat → List Name
  | [] => [[]]
  | c :: cs =>
    if c = 47 then [] :: splitPath cs
    else
      match splitPath cs with
      | [] => [[c]]
      | w :: ws => (c :: w) :: ws

/-- One step of path resolution: empty components and `.` stay, `..` goes up
(the root is its own parent), any other component goes down. -/
def resolveStep (acc : List Name) (c : Name) : List Name :=
  if c = [] ∨ c = [46] then acc
  else if c = [46, 46] then acc.dropLast
  else acc ++ [c]

/-- The canonical path a path string denotes; the working directory of the
process is the root of the modelled tree. -/
def normalize (path : List Nat) : List Name :=
  (splitPath path).foldl resolveStep []

/-- The file system: the tree, the process umask, and the size `stat` reports
for a directory that `mkdir` has just made. -/
structure FileSys where
  root : Node
  umask : Nat
  newDirSize : Nat

/-- The node a path string names. -/
def FileSys.lookup (fs : FileSys) (path : List Nat) : Option Node :=
  fs.root.get (normalize path)

/-- System call `stat`. -/
def FileSys.stat (fs : FileSys) (path : List Nat) : Option Stat :=
  (fs.lookup path).map Node.stat

/-- Outcome of `opendir` followed by reading the whole directory. -/
inductive DirResult where
  | ok (names : List Name) : DirResult
  | enoent : DirResult
  | failed : DirResult
deriving DecidableEq

/-- Library call `opendir`, with the names `readdir` then yields: `.` and `..`
first, then the entries in enumeration order. -/
def FileSys.opendir (fs : FileSys) (path : List Nat) : DirResult :=
  match fs.lookup path with
  | none => .enoent
  | some (.dir _ _ es) => .ok ([46] :: [46, 46] :: es.map Prod.fst)
  | some _ => .failed

/-- Clear in `mode` the bits set in `umask` (`mode & ~umask`). -/
def applyUmask (mode umask : Nat) : Nat := mode ^^^ (mode &&& umask)

/-- Create a node at a canonical path whose parent is a directory and which does
not exist yet. -/
def FileSys.create (fs : FileSys) (p : List Name) (node : Node) : Option FileSys :=
  match p.getLast? with
  | none => none
  | some name =>
    match fs.root.get p.dropLast, fs.root.get p with
    | some (.dir _ _ _), none =>
      (fs.root.update p.dropLast (Node.addEntry name node)).map
        (fun r => { fs with root := r })
    | _, _ => none

/-- System call `mkdir`. -/
def FileSys.mkdir (fs : FileSys) (path : List Nat) (mode : Nat) : Option FileSys :=
  fs.create (normalize path) (.dir (applyUmask (mode % 4096) fs.umask) fs.newDirSize [])

/-- Change the permission bits of a node. -/
def Node.chmod (mode : Nat) : Node → Node
  | .file _ c => .file (mode % 4096) c
  | .dir _ s es => .dir (mode % 4096) s es
  | .fifo _ => .fifo (mode % 4096)

/-- System call `chmod`. -/
def FileSys.chmod (fs : FileSys) (path : List Nat) (mode : Nat) : Option FileSys :=
  (fs.root.update (normalize path) (Node.chmod mode)).map (fun r => { fs with root := r })

/-- Library call `fopen(path, "r")` on a regular file: its content. -/
def FileSys.fopen_r (fs : FileSys) (path : List Nat) : Option (List Nat) :=
  match fs.lookup path with
  | some (.file _ content) => some content
  | _ => none

/-- Replace the content of a regular file. -/
def Node.setContent (content : List Nat) : Node → Node
  | .file p _ => .file p content
  | n => n

/-- Library call `fopen(path, "wb")`: truncate an existing regular file, or
create an empty one with mode `0666 & ~umask`. -/
def FileSys.fopen_w (fs : FileSys) (path : List Nat) : Option FileSys :=
  match fs.lookup path with
  | some (.file _ _) =>
    (fs.root.update (normalize path) (Node.setContent [])).map (fun r => { fs with root := r })
  | some _ => none
  | none => fs.create (normalize path) (.file (applyUmask 0o666 fs.umask) [])

/-- The bytes written through a `FILE *` reach the file when it is closed. -/
def FileSys.fclose_w (fs : FileSys) (path : List Nat) (content : List Nat) : Option FileSys :=
  (fs.root.update (normalize path) (Node.setContent content)).map (fun r => { fs with root := r })

/-- A file-system call the program has issued, with its arguments. -/
inductive Call where
  | stat (path : List Nat) : Call
  | opendir (path : List Nat) : Call
  | mkdir (path : List Nat) (mode : Nat) : Call
  | chmod (path : List Nat) (mode : Nat) : Call
  | fopen (path : List Nat) (write : Bool) : Call
deriving DecidableEq

/-! ## The program state -/

/-- The globals of `global.h`, the standard streams, the file system and the
record of the file-system calls issued so far. -/
structure State where
  path_buf : List Nat
  path_length : Nat
  global_options : Nat
  stdin : List Nat
  stdout : List Nat
  fs : FileSys
  calls : List Call

/-- The string the operating system reads from `path_buf`. -/
def State.path (st : State) : List Nat := cstr st.path_buf

/-- Record a file-system call. -/
def State.log (st : State) (c : Call) : State := { st with calls := st.calls ++ [c] }

/-- Append bytes to the standard output. -/
def State.put (st : State) (bytes : List Nat) : State := { st with stdout := st.stdout ++ bytes }

/-! ## File-system calls on `path_buf`

Every file-system call of the program takes `path_buf` as its path; each wrapper
records the call and returns its result with the new state. -/

/-- The call `stat(path_buf, &stat_buf)`. -/
def sys_stat (st : State) : Option Stat × State :=
  (st.fs.stat st.path, st.log (.stat st.path))

/-- The call `opendir(path_buf)` (with the names `readdir` will yield). -/
def sys_opendir (st : State) : DirResult × State :=
  (st.fs.opendir st.path, st.log (.opendir st.path))

/-- The call `mkdir(path_buf, mode)`: 0 on success, -1 on failure. -/
def sys_mkdir (mode : Nat) (st : State) : Int × State :=
  match st.fs.mkdir st.path mode with
  | some fs' => (0, { st.log (.mkdir st.path mode) with fs := fs' })
  | none => (-1, st.log (.mkdir st.path mode))

/-- The call `chmod(path_buf, mode)`: 0 on success, -1 on failure. -/
def sys_chmod (mode : Nat) (st : State) : Int × State :=
  match st.fs.chmod st.path mode with
  | some fs' => (0, { st.log (.chmod st.path mode) with fs := fs' })
  | none => (-1, st.log (.chmod st.path mode))

/-- The call `fopen(path_buf, "r")`: the content of the file, or `none` for a
null `FILE *`. -/
def sys_fopen_r (st : State) : Option (List Nat) × State :=
  (st.fs.fopen_r st.path, st.log (.fopen st.path false))

/-- The call `fopen(path_buf, "wb")`: 0 on success, -1 for a null `FILE *`. -/
def sys_fopen_w (st : State) : Int × State :=
  match st.fs.fopen_w st.path with
  | some fs' => (0, { st.log (.fopen st.path true) with fs := fs' })
  | none => (-1, st.log (.fopen st.path true))

/-- The call `fclose(file)` on a file opened for writing, after `written` has
been put into it: 0 on success, -1 on failure. -/
def sys_fclose_w (written : List Nat) (st : State) : Int × State :=
  match st.fs.fclose_w st.path written with
  | some fs' => (0, { st with fs := fs' })
  | none => (-1, st)

/-! ## Path buffer (`path_init`, `path_push`, `path_pop`) -/

/-- The copy loop shared by `path_init` and `path_push`:
`while (*name != 0 && dest < path_end) *dest++ = *name++;`
It returns what is left of `name`, the buffer and `dest`. -/
def copy_string (PATH_MAX : Nat) : List Nat → List Nat → Nat → List Nat × List Nat × Nat
  | [], buf, dest => ([], buf, dest)
  | c :: cs, buf, dest =>
    if c ≠ 0 ∧ dest < PATH_MAX - 1 then copy_string PATH_MAX cs (buf.set dest c) (dest + 1)
    else (c :: cs, buf, dest)

/-- Function `path_init`. -/
def path_init (PATH_MAX : Nat) (name : List Nat) (st : State) : Int × State :=
  match copy_string PATH_MAX name st.path_buf 0 with
  | (rest, buf, dest) =>
    if deref rest ≠ 0 then (-1, { st with path_buf := buf })
    else (0, { st with path_buf := buf.set dest 0, path_length := dest })

/-- The first loop of `path_push`: the length of the component, or `none` when
it contains `/`. -/
def scan_component : List Nat → Nat → Option Nat
  | [], n => some n
  | c :: cs, n =>
    if c = 0 then some n
    else if c = 47 then none
    else scan_component cs (n + 1)

/-- The tail of `path_push`: copy the component, terminate, set the length. -/
def push_copy (PATH_MAX : Nat) (name : List Nat) (st : State) (buf : List Nat) (dest : Nat) :
    Int × State :=
  match copy_string PATH_MAX name buf dest with
  | (rest, buf', dest') =>
    if deref rest ≠ 0 then (-1, { st with path_buf := buf' })
    else (0, { st with path_buf := buf'.set dest' 0, path_length := dest' })

/-- Function `path_push`. -/
def path_push (PATH_MAX : Nat) (name : List Nat) (st : State) : Int × State :=
  match scan_component name 0 with
  | none => (-1, st)
  | some name_length =>
    if st.path_length + 1 + name_length ≥ PATH_MAX then (-1, st)
    else if st.path_length > 0 ∧ st.path_buf.getD (st.path_length - 1) 0 ≠ 47 then
      if st.path_length < PATH_MAX - 1 then
        push_copy PATH_MAX name st (st.path_buf.set st.path_length 47) (st.path_length + 1)
      else (-1, st)
    else push_copy PATH_MAX name st st.path_buf st.path_length

/-- The backward search of `path_pop`: the index of the last `/` among the
first `k` cells. -/
def find_slash (buf : List Nat) : Nat → Option Nat
  | 0 => none
  | k + 1 => if buf.getD k 0 = 47 then some k else find_slash buf k

/-- Function `path_pop`. -/
def path_pop (st : State) : Int × State :=
  if st.path_length = 0 then (-1, st)
  else
    match find_slash st.path_buf st.path_length with
    | some i => (0, { st with path_buf := st.path_buf.set i 0, path_length := i })
    | none => (0, { st with path_buf := st.path_buf.set 0 0, path_length := 0 })

/-! ## Writing records -/

/-- The loop `for (i = n - 1; i >= 0; i--) fputc((v >> (i * 8)) & 0xFF, stdout)`:
the `n` low-order bytes of `v`, high-order byte first. -/
def be_bytes : Nat → Nat → List Nat
  | 0, _ => []
  | i + 1, v => ((v >>> (i * 8)) &&& 0xFF) :: be_bytes i v

/-- The sixteen header bytes every record starts with: the three magic bytes,
the type, the depth (4 bytes) and the size (8 bytes). -/
def header (type : Nat) (depth : Nat) (size : Nat) : List Nat :=
  [0x0C, 0x0D, 0xED, type % 256] ++ be_bytes 4 depth ++ be_bytes 8 size

/-- The mode word of a DIRECTORY_ENTRY record:
`stat_buf.st_mode & (S_IFMT | S_IRWXU | S_IRWXG | S_IRWXO)`. -/
def entry_mode (st_mode : Nat) : Nat :=
  st_mode &&& (S_IFMT ||| S_IRWXU ||| S_IRWXG ||| S_IRWXO)

/-- The DIRECTORY_ENTRY record `serialize_directory` writes for an entry (the
same code in the directory branch and in the file branch): header with
`entry_size = name_length + 16 + 12`, mode word, `st_size`, name. -/
def entry_record (depth : Int) (d_name : List Nat) (sb : Stat) : List Nat :=
  header 4 (toUInt32 depth) (toUInt64 (toInt32 (len_string d_name + 16 + 12)))
    ++ be_bytes 4 (entry_mode sb.st_mode)
    ++ be_bytes 8 (toUInt64 sb.st_size)
    ++ (cstr d_name).map (fun c => c % 256)

/-! ## Serializer -/

/-- The copy loop of `serialize_file`:
`while (size > 0) { c = fgetc(file); if (c == EOF) return -1; fputc(c, stdout); size--; }`
on the bytes still unread; it returns the return code and the bytes written. -/
def copy_file : Nat → List Nat → List Nat → Int × List Nat
  | 0, _, out => (0, out)
  | _ + 1, [], out => (-1, out)
  | size + 1, c :: cs, out => copy_file size cs (out ++ [c % 256])

/-- Function `serialize_file`. After the copy loop `size` has been decremented
once for every byte written; the final test `if (size != 0) return -1` is on
that value. -/
def serialize_file (depth : Int) (size : Int) (st : State) : Int × State :=
  if size = -1 then (-1, st)
  else
    match sys_fopen_r (st.put (header 5 (toUInt32 depth) (toUInt64 (toInt32 (size + 16))))) with
    | (none, st1) => (-1, st1)
    | (some content, st1) =>
      match copy_file size.toNat content [] with
      | (r, written) =>
        if r = -1 then (-1, st1.put written)
        else if size - (written.length : Int) ≠ 0 then (-1, st1.put written)
        else (0, st1.put written)

/-- The test that skips `.` and `..`:
`d[0] == '.' && (d[1] == 0 || (d[1] == '.' && d[2] == 0))`. -/
def is_dot_entry (d_name : List Nat) : Bool :=
  d_name.getD 0 0 == 46 && (d_name.getD 1 0 == 0 || (d_name.getD 1 0 == 46 && d_name.getD 2 0 == 0))

/-- The `while ((de = readdir(dir)) != NULL)` loop of `serialize_directory` over
the names still to come; `recurse` is the recursive call of
`serialize_directory`. -/
def serialize_entries (PATH_MAX : Nat) (recurse : Int → State → Option (Int × State))
    (depth : Int) : List Name → State → Option (Int × State)
  | [], st => some (0, st)
  | d_name :: rest, st =>
    if is_dot_entry d_name then serialize_entries PATH_MAX recurse depth rest st
    else
      match path_push PATH_MAX d_name st with
      | (r1, st1) =>
        if r1 = -1 then some (-1, st1)
        else
          match sys_stat st1 with
          | (none, st2) => some (-1, (path_pop st2).2)
          | (some sb, st2) =>
            if S_ISDIR sb.st_mode then
              match recurse (depth + 1) (st2.put (entry_record depth d_name sb)) with
              | none => none
              | some (r3, st3) =>
                if r3 = -1 then some (-1, (path_pop st3).2)
                else
                  match path_pop st3 with
                  | (r4, st4) =>
                    if r4 = -1 then some (-1, st4)
                    else serialize_entries PATH_MAX recurse depth rest st4
            else if S_ISREG sb.st_mode then
              match serialize_file depth sb.st_size (st2.put (entry_record depth d_name sb)) with
              | (r3, st3) =>
                if r3 = -1 then some (-1, (path_pop st3).2)
                else
                  match path_pop st3 with
                  | (r4, st4) =>
                    if r4 = -1 then some (-1, st4)
                    else serialize_entries PATH_MAX recurse depth rest st4
            else some (-1, st2)

/-- Function `serialize_directory`. -/
def serialize_directory (PATH_MAX : Nat) : Nat → Int → State → Option (Int × State)
  | 0, _, _ => none
  | fuel + 1, depth, st =>
    match sys_opendir (st.put (header 2 (toUInt32 depth) 16)) with
    | (.ok names, st1) =>
      match serialize_entries PATH_MAX (serialize_directory PATH_MAX fuel) depth names st1 with
      | none => none
      | some (r, st2) =>
        if r = -1 then some (-1, st2)
        else some (0, st2.put (header 3 (toUInt32 depth) 16))
    | (_, st1) => some (-1, st1)

/-- Function `serialize`. -/
def serialize (PATH_MAX : Nat) (fuel : Nat) (st : State) : Option (Int × State) :=
  match serialize_directory PATH_MAX fuel 1 (st.put (header 0 0 16)) with
  | none => none
  | some (r, st1) =>
    if r = -1 then some (-1, st1)
    else some (0, st1.put (header 1 0 16))

/-- The state `main` starts from: zeroed globals, the given file system,
options and standard input. -/
def initial (PATH_MAX : Nat) (fs : FileSys) (options : Nat) (input : List Nat) : State :=
  { path_buf := List.replicate PATH_MAX 0, path_length := 0, global_options := options,
    stdin := input, stdout := [], fs := fs, calls := [] }

/-- The tree of the reference run at the end of `transplant.c`, with the given
permission bits for the directory and for the files. -/
def referenceTree (dperm fperm : Nat) : Node :=
  .dir 0o755 4096
    [([100, 105, 114], .dir dperm 4096
        [([103, 111, 111, 100, 98, 121, 101], .file fperm [71, 111, 111, 100, 98, 121, 101, 33, 10]),
         ([104, 101, 108, 108, 111, 49], .file fperm [72, 101, 108, 108, 111, 49, 10])]),
     ([104, 101, 108, 108, 111], .file fperm [72, 101, 108, 108, 111, 10])]

/-- The hex dump in the comment at the end of `transplant.c`. -/
def referenceDump : List Nat :=
  [0x0c, 0x0d, 0xed, 0x00, 0x00, 0x00, 0x00, 0x00, 0x00, 0x00, 0x00, 0x00, 0x00, 0x00, 0x00, 0x10,
   0x0c, 0x0d, 0xed, 0x02, 0x00, 0x00, 0x00, 0x01, 0x00, 0x00, 0x00, 0x00, 0x00, 0x00, 0x00, 0x10,
   0x0c, 0x0d, 0xed, 0x04, 0x00, 0x00, 0x00, 0x01, 0x00, 0x00, 0x00, 0x00, 0x00, 0x00, 0x00, 0x1f,
   0x00, 0x00, 0x41, 0xfd, 0x00, 0x00, 0x00, 0x00, 0x00, 0x00, 0x10, 0x00, 0x64, 0x69, 0x72, 0x0c,
   0x0d, 0xed, 0x02, 0x00, 0x00, 0x00, 0x02, 0x00, 0x00, 0x00, 0x00, 0x00, 0x00, 0x00, 0x10, 0x0c,
   0x0d, 0xed, 0x04, 0x00, 0x00, 0x00, 0x02, 0x00, 0x00, 0x00, 0x00, 0x00, 0x00, 0x00, 0x23, 0x00,
   0x00, 0x81, 0xb4, 0x00, 0x00, 0x00, 0x00, 0x00, 0x00, 0x00, 0x09, 0x67, 0x6f, 0x6f, 0x64, 0x62,
   0x79, 0x65, 0x0c, 0x0d, 0xed, 0x05, 0x00, 0x00, 0x00, 0x02, 0x00, 0x00, 0x00, 0x00, 0x00, 0x00,
   0x00, 0x19, 0x47, 0x6f, 0x6f, 0x64, 0x62, 0x79, 0x65, 0x21, 0x0a, 0x0c, 0x0d, 0xed, 0x04, 0x00,
   0x00, 0x00, 0x02, 0x00, 0x00, 0x00, 0x00, 0x00, 0x00, 0x00, 0x22, 0x00, 0x00, 0x81, 0xb4, 0x00,
   0x00, 0x00, 0x00, 0x00, 0x00, 0x00, 0x07, 0x68, 0x65, 0x6c, 0x6c, 0x6f, 0x31, 0x0c, 0x0d, 0xed,
   0x05, 0x00, 0x00, 0x00, 0x02, 0x00, 0x00, 0x00, 0x00, 0x00, 0x00, 0x00, 0x17, 0x48, 0x65, 0x6c,
   0x6c, 0x6f, 0x31, 0x0a, 0x0c, 0x0d, 0xed, 0x03, 0x00, 0x00, 0x00, 0x02, 0x00, 0x00, 0x00, 0x00,
   0x00, 0x00, 0x00, 0x10, 0x0c, 0x0d, 0xed, 0x04, 0x00, 0x00, 0x00, 0x01, 0x00, 0x00, 0x00, 0x00,
   0x00, 0x00, 0x00, 0x21, 0x00, 0x00, 0x81, 0xb4, 0x00, 0x00, 0x00, 0x00, 0x00, 0x00, 0x00, 0x06,
   0x68, 0x65, 0x6c, 0x6c, 0x6f, 0x0c, 0x0d, 0xed, 0x05, 0x00, 0x00, 0x00, 0x01, 0x00, 0x00, 0x00,
   0x00, 0x00, 0x00, 0x00, 0x16, 0x48, 0x65, 0x6c, 0x6c, 0x6f, 0x0a, 0x0c, 0x0d, 0xed, 0x03, 0x00,
   0x00, 0x00, 0x01, 0x00, 0x00, 0x00, 0x00, 0x00, 0x00, 0x00, 0x10, 0x0c, 0x0d, 0xed, 0x01, 0x00,
   0x00, 0x00, 0x00, 0x00, 0x00, 0x00, 0x00, 0x00, 0x00, 0x00, 0x10]

/-- The run of `main` for `-s`: `path_init` on the base path, then `serialize`;
the result is the return code and the bytes on the standard output. -/
def run_serialize (PATH_MAX fuel : Nat) (fs : FileSys) (base : List Nat) : Option (Int × List Nat) :=
  match path_init PATH_MAX base (initial PATH_MAX fs 2 []) with
  | (r, st) =>
    if r = -1 then some (-1, st.stdout)
    else (serialize PATH_MAX fuel st).map (fun res => (res.1, res.2.stdout))

/-! ## Reading bytes -/

/-- Library call `getchar`: the next byte of the standard input, or `EOF`. -/
def getchar (st : State) : Int × State :=
  match st.stdin with
  | [] => (EOF, st)
  | b :: rest => (((b % 256 : Nat) : Int), { st with stdin := rest })

/-- Function `debug_getchar`: `getchar` with the result converted to
`unsigned char` (so that end of input is read as 255). -/
def debug_getchar (st : State) : Nat × State :=
  match getchar st with
  | (byte, st') => (toUChar byte, st')

/-- The assignment `int byte = debug_getchar();`. -/
def debug_getchar_int (st : State) : Int × State :=
  match debug_getchar st with
  | (byte, st') => ((byte : Int), st')

/-- The loops
`for (i = 0; i < n; i++) { int byte = get(); if (byte == EOF) return -1; x = (x << 8) | byte; }`
where `x` is `width` bits wide; `acc` is the bit pattern of `x`. The result is
`none` when the loop returned -1. -/
def read_be (get : State → Int × State) (width : Nat) : Nat → Nat → State → Option Nat × State
  | 0, acc, st => (some acc, st)
  | n + 1, acc, st =>
    match get st with
    | (byte, st') =>
      if byte = EOF then (none, st')
      else read_be get width n (((acc <<< 8) ||| byte.toNat) % 2 ^ width) st'

/-- The magic-byte check that opens every header read: three `debug_getchar`
calls stored in `unsigned char` variables, the (never true) comparison with
`EOF`, then the comparison with `0C 0D ED`. It returns -1 where the C code
returns -1, and 0 otherwise. -/
def read_magic (st : State) : Int × State :=
  match debug_getchar st with
  | (magic1, st1) =>
    match debug_getchar st1 with
    | (magic2, st2) =>
      match debug_getchar st2 with
      | (magic3, st3) =>
        if (magic1 : Int) = EOF ∨ (magic2 : Int) = EOF ∨ (magic3 : Int) = EOF then (-1, st3)
        else if magic1 ≠ 0x0C ∨ magic2 ≠ 0x0D ∨ magic3 ≠ 0xED then (-1, st3)
        else (0, st3)

/-- Function `check_while_condition`: the type of the next record, or -1. -/
def check_while_condition (depth : Int) (st : State) : Int × State :=
  match read_magic st with
  | (r, st1) =>
    if r = -1 then (-1, st1)
    else
      match debug_getchar st1 with
      | (type, st2) =>
        if toSChar type = EOF then (-1, st2)
        else
          match read_be debug_getchar_int 32 4 0 st2 with
          | (none, st3) => (-1, st3)
          | (some depth_parsed, st3) =>
            if toInt32 depth_parsed ≠ depth then (-1, st3)
            else (toSChar type, st3)

/-! ## Deserializer -/

/-- The copy loop of `deserialize_file`:
`for (unsigned int i = 0; i < file_size; i++) { c = debug_getchar(); if (c == EOF) ...; fputc(c, file); }`
with the 32-bit counter `i` compared to the 64-bit `file_size`. It returns the
return code (0 when the loop ends), the state and the bytes written. -/
def write_loop : Nat → Nat → Nat → State → List Nat → Option (Int × State × List Nat)
  | 0, _, _, _, _ => none
  | fuel + 1, i, file_size, st, written =>
    if i < file_size then
      match debug_getchar_int st with
      | (c, st') =>
        if c = EOF then some (-1, st', written)
        else write_loop fuel ((i + 1) % 4294967296) file_size st' (written ++ [c.toNat])
    else some (0, st, written)

/-- The clobber bit: `global_options & (1 << 3)`. -/
def clobber (st : State) : Bool := st.global_options &&& (1 <<< 3) != 0

/-- The value `file_size - 16` computed in `uint64_t`. -/
def content_size (size : Nat) : Nat :=
  (size + 18446744073709551616 - 16) % 18446744073709551616

/-- Function `deserialize_file`. -/
def deserialize_file (fuel : Nat) (depth : Int) (st : State) : Option (Int × State) :=
  match sys_stat st with
  | (exists_, st0) =>
    if exists_.isSome ∧ ¬ clobber st0 then some (-1, st0)
    else
      match read_magic st0 with
      | (r, st1) =>
        if r = -1 then some (-1, st1)
        else
          match debug_getchar st1 with
          | (type, st2) =>
            if type ≠ 5 ∨ (type : Int) = -1 ∨ (type : Int) = EOF then some (-1, st2)
            else
              match read_be debug_getchar_int 32 4 0 st2 with
              | (none, st3) => some (-1, st3)
              | (some depth_parsed, st3) =>
                if toInt32 depth_parsed ≠ depth then some (-1, st3)
                else
                  match read_be debug_getchar_int 64 8 0 st3 with
                  | (none, st4) => some (-1, st4)
                  | (some size, st4) =>
                    match sys_fopen_w st4 with
                    | (r5, st5) =>
                      if r5 = -1 then some (-1, st5)
                      else
                        match write_loop fuel 0 (content_size size) st5 [] with
                        | none => none
                        | some (r6, st6, written) =>
                          match sys_fclose_w written st6 with
                          | (r7, st7) =>
                            if r6 = -1 then some (-1, st7)
                            else if r7 = -1 then some (-1, st7)
                            else some (0, st7)

/-- The loop that skips the 8-byte size field of a DIRECTORY_ENTRY. -/
def skip_bytes : Nat → State → State
  | 0, st => st
  | n + 1, st => skip_bytes n (debug_getchar st).2

/-- The loop that reads `name_length` bytes into `name_buf`. -/
def read_name : Nat → State → List Nat → List Nat × State
  | 0, st, name => (name, st)
  | n + 1, st, name =>
    match debug_getchar st with
    | (byte, st') => read_name n st' (name ++ [byte])

/-- The directory branch of a DIRECTORY_ENTRY in `deserialize_directory`, up to
the recursive call: `opendir`, then the clobber test or `mkdir`, `stat`,
`chmod`. It returns 0 where the C code goes on to
`return deserialize_directory(depth + 1)` and -1 where it returns -1. -/
def enter_directory (st : State) : Int × State :=
  match sys_opendir st with
  | (.ok _, st1) => if clobber st1 then (0, st1) else (-1, st1)
  | (.enoent, st1) =>
    match sys_mkdir 0o777 st1 with
    | (r2, st2) =>
      if r2 ≠ 0 then (-1, st2)
      else
        match sys_stat st2 with
        | (none, st3) => (-1, st3)
        | (some stat_buf, st3) =>
          match sys_chmod (stat_buf.st_mode &&& 0o777) st3 with
          | (r4, st4) => if r4 ≠ 0 then (-1, st4) else (0, st4)
  | (.failed, st1) => (-1, st1)

/-- The DIRECTORY_ENTRY branch of the loop of `deserialize_directory` from
`path_push(name_buf)` on, for the mode word and the name read from the record;
`recurse` stands for the function itself, called with `depth + 1` for a
directory and, to go on with the loop, with `depth` after a regular file. -/
def entry_dispatch (PATH_MAX : Nat) (recurse : Int → State → Option (Int × State)) (fuel : Nat)
    (depth : Int) (mode : Nat) (name_buf : List Nat) (st4 : State) : Option (Int × State) :=
  match path_push PATH_MAX name_buf st4 with
  | (r, st5) =>
    if r = -1 then some (-1, st5)
    else if S_ISDIR mode then
      match enter_directory st5 with
      | (r1, st6) =>
        if r1 = -1 then some (-1, st6)
        else recurse (depth + 1) st6
    else if S_ISREG mode then
      match deserialize_file fuel depth st5 with
      | none => none
      | some (r1, st6) =>
        if r1 ≠ 0 then some (-1, st6)
        else
          match sys_chmod (mode &&& 0o777) st6 with
          | (r2, st7) =>
            if r2 ≠ 0 then some (-1, st7)
            else
              match path_pop st7 with
              | (r3, st8) =>
                if r3 = -1 then some (-1, st8)
                else recurse depth st8
    else some (-1, st5)

/-- The DIRECTORY_ENTRY branch of the loop of `deserialize_directory`: the
reads of the size field, of the mode word, of the 8 skipped bytes and of the
name (`read_name` yields the name and the state), then `entry_dispatch`. -/
def directory_entry (PATH_MAX : Nat) (recurse : Int → State → Option (Int × State)) (fuel : Nat)
    (depth : Int) (st1 : State) : Option (Int × State) :=
  match read_be debug_getchar_int 32 8 0 st1 with
  | (none, st2) => some (-1, st2)
  | (some total_size, st2) =>
    match read_be debug_getchar_int 32 4 0 st2 with
    | (none, st3) => some (-1, st3)
    | (some mode, st3) =>
      entry_dispatch PATH_MAX recurse fuel depth mode
        (read_name (toInt32 (toInt32 total_size - 16 - 12)).toNat (skip_bytes 8 st3) []).1
        (read_name (toInt32 (toInt32 total_size - 16 - 12)).toNat (skip_bytes 8 st3) []).2

/-- Function `deserialize_directory`. One unit of fuel is used by every turn
of the `while` loop and by every recursive call. -/
def deserialize_directory (PATH_MAX : Nat) : Nat → Int → State → Option (Int × State)
  | 0, _, _ => none
  | fuel + 1, depth, st =>
    match check_while_condition depth st with
    | (type, st1) =>
      if type = -1 then some (-1, st1)
      else if type = 2 then
        match read_be debug_getchar_int 32 8 0 st1 with
        | (none, st2) => some (-1, st2)
        | (some size, st2) =>
          if toInt32 size ≠ 16 then some (-1, st2)
          else deserialize_directory PATH_MAX fuel depth st2
      else if type = 3 then
        match read_be getchar 32 8 0 st1 with
        | (none, st2) => some (-1, st2)
        | (some size, st2) =>
          if toInt32 size ≠ 16 then some (-1, st2)
          else
            match path_pop st2 with
            | (r, st3) =>
              if r = -1 then some (-1, st3)
              else if depth = 1 then some (0, st3)
              else deserialize_directory PATH_MAX fuel (depth - 1) st3
      else if type = 4 then
        directory_entry PATH_MAX (deserialize_directory PATH_MAX fuel) fuel depth st1
      else some (-1, st1)

/-- The check of a transmission record in `deserialize`: magic bytes, the
expected type (held in an `unsigned char`), depth 0 and size 16 (both
accumulated in an `int`). -/
def read_transmission (expected : Nat) (st : State) : Int × State :=
  match read_magic st with
  | (r, st1) =>
    if r = -1 then (-1, st1)
    else
      match debug_getchar st1 with
      | (type, st2) =>
        if type ≠ expected ∨ (type : Int) = -1 ∨ (type : Int) = EOF then (-1, st2)
        else
          match read_be debug_getchar_int 32 4 0 st2 with
          | (none, st3) => (-1, st3)
          | (some depth, st3) =>
            if toInt32 depth ≠ 0 then (-1, st3)
            else
              match read_be debug_getchar_int 32 8 0 st3 with
              | (none, st4) => (-1, st4)
              | (some size, st4) =>
                if toInt32 size ≠ 16 then (-1, st4)
                else (0, st4)

/-- Function `deserialize`. -/
def deserialize (PATH_MAX : Nat) (fuel : Nat) (st : State) : Option (Int × State) :=
  match read_transmission 0 st with
  | (r, st1) =>
    if r = -1 then some (-1, st1)
    else
      match deserialize_directory PATH_MAX fuel 1 st1 with
      | none => none
      | some (r1, st2) =>
        if r1 ≠ 0 then some (-1, st2)
        else
          match read_transmission 1 st2 with
          | (r2, st3) =>
            if r2 = -1 then some (-1, st3)
            else some (0, st3)

/-- The run of `main` for `-d` (with `-c` when `options` has bit 3): `path_init`
on the base path, then `deserialize` on the given input. -/
def run_deserialize (PATH_MAX fuel : Nat) (fs : FileSys) (options : Nat) (base : List Nat)
    (input : List Nat) : Option (Int × State) :=
  match path_init PATH_MAX base (initial PATH_MAX fs options input) with
  | (r, st) =>
    if r = -1 then some (-1, st)
    else deserialize PATH_MAX fuel st

/-- A file system that holds one directory tree, with the usual umask 022. -/
def fsOf (root : Node) : FileSys := { root := root, umask := 0o022, newDirSize := 4096 }

/-- The state in which `serialize` starts for `-s` on base path `.` (Linux:
`PATH_MAX` is 4096). -/
def serializeStart (root : Node) : State :=
  (path_init 4096 [46] (initial 4096 (fsOf root) 2 [])).2

/-- The state in which `deserialize` starts for `-d` on base path `.`, with the
given options and standard input. -/
def deserializeStart (root : Node) (options : Nat) (input : List Nat) : State :=
  (path_init 4096 [46] (initial 4096 (fsOf root) options input)).2
/-- The four bytes of a 32-bit value, most significant byte first. -/
def bigEndian32 (v : Nat) : List Nat :=
  [v / 16777216 % 256, v / 65536 % 256, v / 256 % 256, v % 256]

/-- The eight bytes of a 64-bit value, most significant byte first. -/
def bigEndian64 (v : Nat) : List Nat :=
  [v / 72057594037927936 % 256, v / 281474976710656 % 256, v / 1099511627776 % 256,
   v / 4294967296 % 256, v / 16777216 % 256, v / 65536 % 256, v / 256 % 256, v % 256]

/-- The name `hello` of the reference tree. -/
def helloName : Name := [104, 101, 108, 108, 111]

/-- The state after the entry loop of `serialize_directory(1)` has processed the
single name `hello` in the base directory of the reference tree. -/
def helloDone : State :=
  ((serialize_entries 4096 (serialize_directory 4096 0) 1 [helloName]
      (serializeStart (referenceTree 0o775 0o664))).getD (0, serializeStart (referenceTree 0o775 0o664))).2

/-! ## Streams of records (the format of the specification) -/

/-- A record of the stream: the fields of its header and its payload. -/
structure Record where
  type : Nat
  depth : Nat
  size : Nat
  payload : List Nat
deriving DecidableEq

/-- The bytes of a record: the 16-byte header, then the payload. -/
def Record.bytes (r : Record) : List Nat :=
  header r.type r.depth r.size ++ r.payload

/-- The bytes of a sequence of records. -/
def streamBytes : List Record → List Nat
  | [] => []
  | r :: rs => r.bytes ++ streamBytes rs

/-- A record without payload (size 16): the transmission and directory brackets. -/
def bracket (type depth : Nat) : Record :=
  { type := type, depth := depth, size := 16, payload := [] }

/-- A DIRECTORY_ENTRY record: size `16 + 12 + |name|`, payload mode word (4
bytes), size (8 bytes) and name. -/
def entryOf (depth mode size : Nat) (name : List Nat) : Record :=
  { type := 4, depth := depth, size := 28 + name.length,
    payload := be_bytes 4 mode ++ be_bytes 8 size ++ name }

/-- A sequence of groups at depth `d`: each is a DIRECTORY_ENTRY at depth `d`
followed by `DIR(d + 1)`, that is START_OF_DIRECTORY, groups and
END_OF_DIRECTORY at depth `d + 1`, when its mode word is a directory's, or by
one FILE_DATA record at depth `d`, whose payload has the length the entry
declares, when its mode word is a regular file's. -/
inductive IsGroups : Nat → List Record → Prop
  | nil {d : Nat} : IsGroups d []
  | dir {d mode size : Nat} {name : List Nat} {sub rest : List Record} :
      S_ISDIR mode = true → IsGroups (d + 1) sub → IsGroups d rest →
      IsGroups d (entryOf d mode size name ::
        ((bracket 2 (d + 1) :: (sub ++ [bracket 3 (d + 1)])) ++ rest))
  | file {d mode size fsize : Nat} {name content : List Nat} {rest : List Record} :
      S_ISREG mode = true → size = content.length % 18446744073709551616 → IsGroups d rest →
      IsGroups d (entryOf d mode size name ::
        { type := 5, depth := d, size := fsize, payload := content } :: rest)

/-- The records of `DIR(d)`: START_OF_DIRECTORY at depth `d`, groups at depth
`d`, END_OF_DIRECTORY at depth `d`. -/
def IsDir (d : Nat) (recs : List Record) : Prop :=
  ∃ groups, IsGroups d groups ∧ recs = bracket 2 d :: (groups ++ [bracket 3 d])

/-- A valid stream: START_OF_TRANSMISSION, `DIR(1)`, END_OF_TRANSMISSION. -/
def IsStream (rs : List Record) : Prop :=
  ∃ body, IsDir 1 body ∧ rs = bracket 0 0 :: (body ++ [bracket 1 0])

/-- The records that follow a START_OF_DIRECTORY up to, and without, its
matching END_OF_DIRECTORY; `level` counts the directories opened since then and
not yet closed. -/
def inside : Nat → List Record → List Record
  | _, [] => []
  | level, r :: rs =>
    if r.type = 3 then (if level = 0 then [] else r :: inside (level - 1) rs)
    else if r.type = 2 then r :: inside (level + 1) rs
    else r :: inside level rs

/-- The depth law for one START_OF_DIRECTORY record `s` followed by `post`: its
matching END_OF_DIRECTORY is there, at the same depth, and no record between
the two has a smaller depth. -/
def DepthLaw (s : Record) (post : List Record) : Prop :=
  (∃ rest, post = inside 0 post ++ bracket 3 s.depth :: rest) ∧
    ∀ x ∈ inside 0 post, s.depth ≤ x.depth

/-- The depth law for every START_OF_DIRECTORY record of `recs`, whatever
records `cont` follow `recs`. -/
def DepthLawIn (recs : List Record) : Prop :=
  ∀ pre s post, recs = pre ++ s :: post → s.type = 2 → ∀ cont, DepthLaw s (post ++ cont)

/-- The final state of `serialize` on the reference tree from base path `.`. -/
def referenceDone : State :=
  ((serialize 4096 3 (serializeStart (referenceTree 0o775 0o664))).getD
    (0, serializeStart (referenceTree 0o775 0o664))).2

/-- A base directory that holds directory `a`, which holds the empty directory
`b` (all of mode 0o755 and reported size 4096). -/
def nestedTree : Node :=
  .dir 0o755 4096 [([97], .dir 0o755 4096 [([98], .dir 0o755 4096 [])])]

/-- The records `serialize` writes for `nestedTree`. -/
def nestedRecords : List Record :=
  [bracket 0 0, bracket 2 1, entryOf 1 0o40755 4096 [97], bracket 2 2,
   entryOf 2 0o40755 4096 [98], bracket 2 3, bracket 3 3, bracket 3 2, bracket 3 1,
   bracket 1 0]

/-- The final state of `serialize` on `nestedTree` from base path `.`. -/
def nestedDone : State :=
  ((serialize 4096 4 (serializeStart nestedTree)).getD (0, serializeStart nestedTree)).2

/-- A base directory that holds one regular file `f` of 2^31 - 16 zero bytes. -/
def bigTree : Node :=
  .dir 0o755 4096 [([102], .file 0o644 (List.replicate 2147483632 0))]

/-- The state in which `serialize_directory(1)` calls `serialize_file` for `f`:
base path `.` with `f` pushed. -/
def bigFileState : State :=
  (path_push 4096 [102] (serializeStart bigTree)).2

/-! ## Notions used to state the round trip -/

/-- The path buffer holds the string `p`: `p` without NUL, then the terminator,
in a buffer of `PATH_MAX` cells, and `path_length` is the length of `p`. -/
def PathIs (PATH_MAX : Nat) (st : State) (p : List Nat) : Prop :=
  ∃ tail, st.path_buf = p ++ 0 :: tail ∧ st.path_length = p.length ∧ (∀ c ∈ p, c ≠ 0) ∧
    st.path_buf.length = PATH_MAX

/-- The condition on a base path: not empty, without NUL, not ending in `/`, and
short enough for `path_init`. -/
def GoodBase (PATH_MAX : Nat) (base : List Nat) : Prop :=
  base ≠ [] ∧ (∀ c ∈ base, c ≠ 0) ∧ base.getLast? ≠ some 47 ∧ base.length < PATH_MAX

/-- The call `path_push(n)` in the state `st` returns 0 and leaves the path
`ps/n` in the path buffer, the rest of the state being unchanged. -/
def PushesTo (PATH_MAX : Nat) (n : List Nat) (st : State) (ps : List Nat) : Prop :=
  ∃ st1, path_push PATH_MAX n st = (0, st1) ∧ PathIs PATH_MAX st1 (ps ++ 47 :: n) ∧
    st1.fs = st.fs ∧ st1.stdout = st.stdout ∧ st1.stdin = st.stdin ∧
    st1.global_options = st.global_options

/-- The call `path_push(n)` in the state `st` returns 0 and leaves the path `pp`
in the path buffer, the file system and the standard output being unchanged,
and `path_pop` on a state whose path is `pp` returns 0 and leaves the path
`ps`, the file system and the standard output being unchanged. -/
def PushPop (PATH_MAX : Nat) (n : List Nat) (st : State) (pp ps : List Nat) : Prop :=
  (∃ st1, path_push PATH_MAX n st = (0, st1) ∧ PathIs PATH_MAX st1 pp ∧ st1.fs = st.fs ∧
    st1.stdout = st.stdout) ∧
  ∀ st3, PathIs PATH_MAX st3 pp →
    ∃ st4, path_pop st3 = (0, st4) ∧ PathIs PATH_MAX st4 ps ∧ st4.fs = st3.fs ∧
      st4.stdout = st3.stdout

/-- The condition on a base path for a round trip: without NUL, short enough
for `path_init`, and holding a character other than `/`. -/
def UsableBase (PATH_MAX : Nat) (base : List Nat) : Prop :=
  (∃ c ∈ base, c ≠ 47) ∧ (∀ c ∈ base, c ≠ 0) ∧ base.length < PATH_MAX

/-- The condition on a file name: plain bytes without NUL and `/`, not empty
and neither `.` nor `..`. -/
def GoodName (n : Name) : Prop :=
  n ≠ [] ∧ n ≠ [46] ∧ n ≠ [46, 46] ∧ ∀ c ∈ n, c ≠ 0 ∧ c ≠ 47 ∧ c < 256

mutual
/-- The condition on a node at depth `d` whose path string has length `len`: a
regular file of bytes, shorter than 2^31 - 16, or a directory of such nodes. -/
def GoodNode (PATH_MAX : Nat) (len : Nat) (d : Nat) : Node → Prop
  | .file _ content => content.length < 2147483632 ∧ ∀ b ∈ content, b < 256
  | .dir _ _ entries => d + 1 < 2147483648 ∧ GoodEntries PATH_MAX len (d + 1) entries
  | .fifo _ => False
/-- The condition on the entries, at depth `d`, of a directory whose path string
has length `len`: good names, distinct, whose paths fit in the path buffer, and
good nodes. -/
def GoodEntries (PATH_MAX : Nat) (len : Nat) (d : Nat) : List (Name × Node) → Prop
  | [] => True
  | (n, x) :: rest =>
    GoodName n ∧ len + 1 + n.length < PATH_MAX ∧ (∀ e ∈ rest, e.1 ≠ n) ∧
      GoodNode PATH_MAX (len + 1 + n.length) d x ∧ GoodEntries PATH_MAX len d rest
end

mutual
/-- The bytes `serialize_directory(d)` writes for one entry: the DIRECTORY_ENTRY
record, then `DIR(d + 1)` or the FILE_DATA record. -/
def encodeNode (d : Nat) (n : Name) : Node → List Nat
  | .file perm content =>
    entry_record d n (Node.file perm content).stat
      ++ header 5 (toUInt32 d) (toUInt64 (toInt32 ((content.length : Int) + 16)))
      ++ content.map (fun c => c % 256)
  | .dir perm size entries =>
    entry_record d n (Node.dir perm size entries).stat
      ++ header 2 (toUInt32 ((d : Int) + 1)) 16
      ++ encodeEntries (d + 1) entries
      ++ header 3 (toUInt32 ((d : Int) + 1)) 16
  | .fifo _ => []
/-- The bytes `serialize_directory(d)` writes for a list of entries. -/
def encodeEntries (d : Nat) : List (Name × Node) → List Nat
  | [] => []
  | (n, x) :: rest => encodeNode d n x ++ encodeEntries d rest
end

/-- The bytes `serialize` writes for a base directory with the given entries. -/
def encodeTree (entries : List (Name × Node)) : List Nat :=
  header 0 0 16 ++ header 2 (toUInt32 1) 16 ++ encodeEntries 1 entries
    ++ header 3 (toUInt32 1) 16 ++ header 1 0 16

mutual
/-- The nesting of directories below a node. -/
def heightNode : Node → Nat
  | .dir _ _ entries => heightEntries entries + 1
  | _ => 0
/-- The nesting of directories below a list of entries. -/
def heightEntries : List (Name × Node) → Nat
  | [] => 0
  | (_, x) :: rest => max (heightNode x) (heightEntries rest)
end

mutual
/-- Fuel that suffices to deserialize one entry: its file bytes plus two, or
three plus the fuel for its sub-entries. -/
def weightNode : Node → Nat
  | .file _ content => content.length + 2
  | .dir _ _ entries => weightEntries entries + 3
  | .fifo _ => 0
/-- Fuel that suffices to deserialize a list of entries. -/
def weightEntries : List (Name × Node) → Nat
  | [] => 0
  | (_, x) :: rest => weightNode x + weightEntries rest
end

mutual
/-- A restored node agrees with the original: a regular file with the same
content and with the original permission bits `& 0o777`, or a directory whose
entries agree (directory permissions and sizes are not compared). -/
def sameNode : Node → Node → Bool
  | .file p c, .file p' c' => p' == (p &&& 0o777) && c' == c
  | .dir _ _ es, .dir _ _ es' => sameEntries es es'
  | _, _ => false
/-- Two lists of entries agree: same names in the same order, nodes that agree. -/
def sameEntries : List (Name × Node) → List (Name × Node) → Bool
  | [], [] => true
  | (n, x) :: r, (n', x') :: r' => n' == n && sameNode x x' && sameEntries r r'
  | _, _ => false
end

/-- A context `C` rebuilds the whole tree around the node at canonical path `q`. -/
structure Focus (C : Node → Node) (q : List Name) : Prop where
  get : ∀ x rel, Node.get (C x) (q ++ rel) = Node.get x rel
  update : ∀ x rel f, Node.update (C x) (q ++ rel) f = (Node.update x rel f).map C

/-- What a big-endian read loop accumulates in a `width`-bit variable. -/
def accumulate (width : Nat) (acc : Nat) (bytes : List Nat) : Nat :=
  bytes.foldl (fun a b => ((a <<< 8) ||| b) % 2 ^ width) acc


/-- The state with the standard input replaced (what is left to read). -/
def State.feed (st : State) (input : List Nat) : State := { st with stdin := input }

/-- The state with the file system replaced. -/
def State.withFs (st : State) (fs : FileSys) : State := { st with fs := fs }

/-- The file system with the tree replaced. -/
def FileSys.withRoot (fs : FileSys) (root : Node) : FileSys := { fs with root := root }

/-! ## Concrete runs of the deserializer -/

/-- The state in which `deserialize_file` or the directory branch starts for
the entry `name` of the base directory `.`: `path_init(".")`, then
`path_push(name)`. -/
def entryStart (root : Node) (options : Nat) (name : Name) (input : List Nat) : State :=
  (path_push 4096 name (deserializeStart root options input)).2

/-- An empty base directory of mode 0o755. -/
def emptyBase : Node := .dir 0o755 4096 []

/-- The name `f`. -/
def fName : Name := [102]

/-- A FILE_DATA record at depth 1 that declares 10 payload bytes (size 26),
followed by 7 bytes only, then the end of the input. -/
def truncatedInput : List Nat := header 5 1 26 ++ [1, 2, 3, 4, 5, 6, 7]

/-- The state after `deserialize_file(1)` has run on the truncated record for
the new file `./f`. -/
def truncatedDone : State :=
  ((deserialize_file 11 1 (entryStart emptyBase 0 fName truncatedInput)).getD
    (0, entryStart emptyBase 0 fName truncatedInput)).2

/-- A FILE_DATA record at depth 1 with a payload of 2^32 zero bytes (size
2^32 + 16). -/
def fourGiBInput : List Nat := header 5 1 4294967312 ++ List.replicate 4294967296 0

/-- A stream of the four bracket records of an empty tree in which every size
field holds 2^32 + 16 (bytes `00 00 00 01 00 00 00 10`) instead of 16. -/
def wideSizeInput : List Nat :=
  header 0 0 4294967312 ++ header 2 1 4294967312 ++ header 3 1 4294967312 ++
    header 1 0 4294967312

/-- The state after `deserialize` has run on `wideSizeInput`. -/
def wideSizeDone : State :=
  ((deserialize 4096 3 (deserializeStart emptyBase 0 wideSizeInput)).getD
    (0, deserializeStart emptyBase 0 wideSizeInput)).2

/-- The name `d`. -/
def dName : Name := [100]

/-- The stream of a base directory that holds one empty directory `d` of mode
0o700 (mode word 0o40700). -/
def dirModeInput : List Nat :=
  header 0 0 16 ++ header 2 1 16 ++ entry_record 1 dName { st_mode := 0o40700, st_size := 4096 } ++
    header 2 2 16 ++ header 3 2 16 ++ header 3 1 16 ++ header 1 0 16

/-- The state after `deserialize` has run on `dirModeInput` in an empty base
directory, with umask 022. -/
def dirModeDone : State :=
  ((deserialize 4096 5 (deserializeStart emptyBase 0 dirModeInput)).getD
    (0, deserializeStart emptyBase 0 dirModeInput)).2

/-- The stream of the entry `f`, a regular file of mode 0o644 with content
`01 02 03`, at depth 1: the DIRECTORY_ENTRY record, then the FILE_DATA record. -/
def fileEntryInput : List Nat :=
  entry_record 1 fName { st_mode := 0o100644, st_size := 3 } ++ header 5 1 19 ++ [1, 2, 3]

/-- A tree whose root holds the empty directory `d`. -/
def dBase : Node := .dir 0o755 4096 [(dName, .dir 0o755 4096 [])]

/-- The state in which `deserialize` starts for `-d -p d/` (a base path with a
trailing `/`), with the given standard input. -/
def slashStart (input : List Nat) : State :=
  (path_init 4096 [100, 47] (initial 4096 (fsOf dBase) 0 input)).2

/-- The state with which the loop of `deserialize_directory(1)` goes on after
the entry `f` (mode word 0o100644) has been processed from `slashStart`, the
FILE_DATA record being the input. -/
def slashDone : State :=
  ((entry_dispatch 4096 (fun _ s => some (0, s)) 4 1 0o100644 fName
      (slashStart (header 5 1 19 ++ [1, 2, 3]))).getD
    (0, slashStart (header 5 1 19 ++ [1, 2, 3]))).2

/-- A base directory that holds the regular file `f` (mode 0o644, content `09`). -/
def fBase : Node := .dir 0o755 4096 [(fName, .file 0o644 [9])]

/-- The DIRECTORY_ENTRY record of the regular file `f` with mode word 0o100600
at depth 1, its FILE_DATA record with the content `01 02 03`, and the
END_OF_DIRECTORY record of depth 1. -/
def modeEntryInput : List Nat :=
  entry_record 1 fName { st_mode := 0o100600, st_size := 3 } ++ header 5 1 19 ++ [1, 2, 3] ++
    header 3 1 16

/-- The state in which `deserialize_directory(1)` starts in the empty base
directory `.`, with clobber off, on the entry `f` of mode 0o600 followed by the
END_OF_DIRECTORY record of depth 1. -/
def fileTurnStart : State := deserializeStart emptyBase 0 modeEntryInput

/-- Two states agree on the path buffer, the options and the standard streams
(they may differ in the file system and in the record of calls). -/
structure SameIO (st st' : State) : Prop where
  path_buf : st'.path_buf = st.path_buf
  path_length : st'.path_length = st.path_length
  global_options : st'.global_options = st.global_options
  stdin : st'.stdin = st.stdin
  stdout : st'.stdout = st.stdout

/-- The entries of a source tree for a round trip: the file `f` of mode 0o4755
(setuid) with content `01 02 03`, and the directory `d` of mode 0o700 that
holds the file `g` of mode 0o600 with content `07`. -/
def tripEntries : List (Name × Node) :=
  [(fName, Node.file 0o4755 [1, 2, 3]),
   (dName, Node.dir 0o700 4096 [([103], Node.file 0o600 [7])])]

/-- The source tree of the round trip. -/
def tripSource : Node := .dir 0o755 4096 tripEntries

/-- A component of 4093 letters `a`. -/
def longName : Name := List.replicate 4093 97

/-- The path-buffer scenario: the state after `path_init(".")`. -/
def scenarioInit : State := (path_init 4096 [46] (initial 4096 (fsOf emptyBase) 0 [])).2

/-- The path-buffer scenario: the state after `path_push("a")`. -/
def scenarioA : State := (path_push 4096 [97] scenarioInit).2

/-- The path-buffer scenario: the state after `path_push("b")`. -/
def scenarioAB : State := (path_push 4096 [98] scenarioA).2

/-- The path-buffer scenario: the state after `path_pop()`. -/
def scenarioPop : State := (path_pop scenarioAB).2

/-- A name of 4096 letters `a`: with its NUL it is one longer than the buffer. -/
def tooLongName : Name := List.replicate 4096 97

/-- The path-buffer invariant, for a buffer of `PATH_MAX` cells: `path_length`
is below `PATH_MAX`, the cell at index `path_length` holds NUL, and no cell
before it does. -/
def PathInv (PATH_MAX : Nat) (st : State) : Prop :=
  st.path_buf.length = PATH_MAX ∧ st.path_length < PATH_MAX ∧
    st.path_buf[st.path_length]? = some 0 ∧
    ∀ i, i < st.path_length → st.path_buf[i]? ≠ some 0

/-- A base directory that holds one regular file `f` of 2^32 zero bytes. -/
def hugeTree : Node :=
  .dir 0o755 4096 [([102], .file 0o644 (List.replicate 4294967296 0))]

/-- The state in which `serialize_directory(1)` calls `serialize_file` for the
file `f` of `hugeTree`: base path `.` with `f` pushed. -/
def hugeFileState : State :=
  (path_push 4096 [102] (serializeStart hugeTree)).2

/-- Entries whose names start with dots: the files `.x` and `...` and the empty
directory `..a`. -/
def dottedEntries : List (Name × Node) :=
  [([46, 120], Node.file 0o644 [1]), ([46, 46, 46], Node.file 0o644 [2]),
   ([46, 46, 97], Node.dir 0o755 4096 [])]

/-- A base directory that holds `dottedEntries`. -/
def dottedTree : Node := .dir 0o755 4096 dottedEntries

/-! ## Concrete inputs of the deserializer, continued -/

/-- A FILE_DATA header at depth 1 whose size field holds 0, with nothing after. -/
def smallSizeInput : List Nat := header 5 1 0

/-- The entries of a base directory that holds one file: `f`, mode 0o644,
content `01 02 03`. -/
def oneFileEntries : List (Name × Node) := [(fName, Node.file 0o644 [1, 2, 3])]

/-- The first 69 bytes of the stream of `oneFileEntries`: everything up to the
depth field of the FILE_DATA header, the size field and what follows cut off. -/
def cutInput : List Nat := (encodeTree oneFileEntries).take 69

/-- The state after `-d` has run on the whole stream of `oneFileEntries` in an
empty base directory. -/
def oneFileDone : State :=
  ((run_deserialize 4096 8 (fsOf emptyBase) 4 [46] (encodeTree oneFileEntries)).getD
    (0, initial 4096 (fsOf emptyBase) 4 [])).2

/-- The name `..`. -/
def dotdotName : Name := [46, 46]

/-- The name `x`. -/
def xName : Name := [120]

/-- A stream whose first entry is a directory called `..`, which holds the
file `x` (mode 0o644, content `07`). -/
def dotdotInput : List Nat :=
  header 0 0 16 ++ header 2 1 16
    ++ entry_record 1 dotdotName { st_mode := 0o40755, st_size := 4096 }
    ++ header 2 2 16
    ++ entry_record 2 xName { st_mode := 0o100644, st_size := 1 }
    ++ header 5 2 17 ++ [7]
    ++ header 3 2 16 ++ header 3 1 16 ++ header 1 0 16

/-- The state after `-d -c -p d` has run on `dotdotInput`, the working directory
holding the empty directory `d`. -/
def dotdotDone : State :=
  ((run_deserialize 4096 8 (fsOf dBase) 12 dName dotdotInput).getD
    (0, initial 4096 (fsOf dBase) 12 [])).2

/-- The state after `-d -p d` (no `-c`) has run on `dotdotInput`. -/
def dotdotRefused : State :=
  ((run_deserialize 4096 8 (fsOf dBase) 4 dName dotdotInput).getD
    (0, initial 4096 (fsOf dBase) 4 [])).2

/-- The state in which `deserialize_file(1)` is called for `./f` when `-d` runs
on `cutInput`: what is left of the input is the FILE_DATA header up to its
depth field. -/
def cutFileState : State := entryStart emptyBase 4 fName [0x0C, 0x0D, 0xED, 5, 0, 0, 0, 1]

/-- The stream of a base directory that holds the file `f` (content
`01 02 03`) and the directory `d` with the file `g` (content `07`) in it, with
the given bytes in the size fields of the three DIRECTORY_ENTRY records. -/
def sizedStream (a b c : List Nat) : List Nat :=
  header 0 0 16 ++ header 2 1 16
    ++ header 4 1 29 ++ be_bytes 4 0o100644 ++ a ++ fName ++ header 5 1 19 ++ [1, 2, 3]
    ++ header 4 1 29 ++ be_bytes 4 0o40755 ++ b ++ dName ++ header 2 2 16
    ++ header 4 2 29 ++ be_bytes 4 0o100600 ++ c ++ [103] ++ header 5 2 17 ++ [7]
    ++ header 3 2 16 ++ header 3 1 16 ++ header 1 0 16

/-! ## Command-line arguments (`validargs`) -/

/-- The local variables of `validargs`, with the globals it writes:
`global_options` and the string in `name_buf`. -/
structure ArgState where
  s_flag : Bool
  d_flag : Bool
  c_flag : Bool
  p_flag : Bool
  pos_flag_found : Bool
  global_options : Nat
  name_buf : List Nat

/-- The test `*arg == '-' && *(arg + 1) == c && *(arg + 2) == '\0'`. -/
def is_flag (arg : List Nat) (c : Nat) : Bool :=
  arg.getD 0 0 == 45 && arg.getD 1 0 == c && arg.getD 2 0 == 0

/-- The copy of a directory path into `name_buf`: at most `NAME_MAX - 1`
characters, then the terminator. -/
def copy_path (NAME_MAX : Nat) (dir_path : List Nat) : List Nat :=
  (cstr dir_path).take (NAME_MAX - 1)

/-- The block after the loop of `validargs`: when `-p` was not given, the
default path `.` is copied into `name_buf`. -/
def default_path (NAME_MAX : Nat) (a : ArgState) : ArgState :=
  if a.p_flag then a else { a with name_buf := copy_path NAME_MAX [46] }

/-- The end of `validargs`, after the loop: the default path, then the two
final tests. -/
def validargs_end (NAME_MAX : Nat) (a : ArgState) : Int × ArgState :=
  if a.s_flag = false ∧ a.d_flag = false then (-1, default_path NAME_MAX a)
  else if a.c_flag = true ∧ a.d_flag = false then (-1, default_path NAME_MAX a)
  else (0, default_path NAME_MAX a)

/-- The loop of `validargs` over the arguments still to be read; `first` tells
whether the current argument is the one right after the program name. -/
def validargs_loop (NAME_MAX : Nat) : Bool → List (List Nat) → ArgState → Int × ArgState
  | _, [], a => validargs_end NAME_MAX a
  | first, arg :: rest, a =>
    if is_flag arg 104 then
      if first = false then (-1, a)
      else (0, { a with global_options := a.global_options ||| (1 <<< 0) })
    else if is_flag arg 115 then
      if a.s_flag then (-1, a)
      else if a.pos_flag_found then (-1, a)
      else validargs_loop NAME_MAX false rest
        { a with s_flag := true, global_options := a.global_options ||| (1 <<< 1),
                 pos_flag_found := true }
    else if is_flag arg 100 then
      if a.d_flag then (-1, a)
      else if a.pos_flag_found then (-1, a)
      else validargs_loop NAME_MAX false rest
        { a with d_flag := true, global_options := a.global_options ||| (1 <<< 2),
                 pos_flag_found := true }
    else if a.pos_flag_found = false then (-1, a)
    else if is_flag arg 99 then
      if a.d_flag = false then (-1, a)
      else validargs_loop NAME_MAX false rest
        { a with c_flag := true, global_options := a.global_options ||| (1 <<< 3) }
    else if is_flag arg 112 then
      match rest with
      | [] => (-1, a)
      | dir_path :: rest' =>
        validargs_loop NAME_MAX false rest'
          { a with p_flag := true, name_buf := copy_path NAME_MAX dir_path }
    else (-1, a)

/-- Function `validargs`, on the argument vector (program name first; `argc`
is its length) and the string `name_buf` holds at the call. -/
def validargs (NAME_MAX : Nat) (argv : List (List Nat)) (name_buf : List Nat) :
    Int × ArgState :=
  if argv.length < 2 then
    (-1, { s_flag := false, d_flag := false, c_flag := false, p_flag := false,
           pos_flag_found := false, global_options := 0, name_buf := name_buf })
  else
    validargs_loop NAME_MAX true argv.tail
      { s_flag := false, d_flag := false, c_flag := false, p_flag := false,
        pos_flag_found := false, global_options := 0, name_buf := name_buf }

/-- The arguments that are given as options: every argument except the
operand that follows a `-p`. -/
def optionArgs : List (List Nat) → List (List Nat)
  | [] => []
  | [arg] => [arg]
  | arg :: operand :: rest =>
    if is_flag arg 112 then arg :: optionArgs rest else arg :: optionArgs (operand :: rest)

/-- The option `-c` (for the letter `c`) is among the arguments. -/
def hasFlag (c : Nat) (args : List (List Nat)) : Bool := args.any (fun arg => is_flag arg c)

/-- What the flags of `validargs` say, and the value of `global_options` that
goes with them. -/
structure ArgInv (a : ArgState) : Prop where
  both : ¬ (a.s_flag = true ∧ a.d_flag = true)
  clob : a.c_flag = true → a.d_flag = true
  pos : a.pos_flag_found = (a.s_flag || a.d_flag)
  opts : a.global_options =
    ((if a.s_flag then 2 else 0) ||| (if a.d_flag then 4 else 0)) ||| (if a.c_flag then 8 else 0)

/-- The argument vector of `t -d -c -p -s`: deserialize with clobber into the
directory called `-s`. -/
def sampleArgv : List (List Nat) := [[116], [45, 100], [45, 99], [45, 112], [45, 115]]

/-! ## Trees with entries that are neither directories nor regular files -/

mutual
/-- The names in a node are those of directory entries: good names, distinct
within a directory (no condition on lengths or on the kinds of the nodes). -/
def NamedNode : Node → Prop
  | .dir _ _ entries => NamedEntries entries
  | _ => True
/-- The names in a list of entries are those of directory entries. -/
def NamedEntries : List (Name × Node) → Prop
  | [] => True
  | (n, x) :: rest =>
    GoodName n ∧ (∀ e ∈ rest, e.1 ≠ n) ∧ NamedNode x ∧ NamedEntries rest
end

mutual
/-- A node is, or holds at some depth, an entry that is neither a directory nor
a regular file. -/
def hasOtherNode : Node → Bool
  | .file _ _ => false
  | .dir _ _ entries => hasOtherEntries entries
  | .fifo _ => true
/-- A list of entries holds, at some depth, an entry that is neither a
directory nor a regular file. -/
def hasOtherEntries : List (Name × Node) → Bool
  | [] => false
  | (_, x) :: rest => hasOtherNode x || hasOtherEntries rest
end

/-- The entries of a base directory that holds the file `f` and the directory
`d`, in which there is a FIFO called `x`. -/
def fifoEntries : List (Name × Node) :=
  [(fName, Node.file 0o644 [1, 2, 3]), (dName, Node.dir 0o755 4096 [(xName, Node.fifo 0o644)])]

/-- A base directory that holds `fifoEntries`. -/
def fifoTree : Node := .dir 0o755 4096 fifoEntries

/-- What is found at a relative path in the source tree and in the restored
tree agrees: nothing on both sides, a directory on both sides, or a regular
file on both sides, the restored one with the same content and with the
permission bits of the source `& 0o777`. -/
def agreeAt : Option Node → Option Node → Prop
  | none, none => True
  | some (.dir _ _ _), some (.dir _ _ _) => True
  | some (.file p c), some (.file p' c') => p' = p &&& 0o777 ∧ c' = c
  | _, _ => False

/-! # Theorems -/

mutual
theorem Node.beq_iff : ∀ a b : Node, Node.beq a b = true ↔ a = b
  | .file p c, .file p' c' => by simp [Node.beq]
  | .dir p s es, .dir p' s' es' => by simp [Node.beq, beqEntries_iff es es', and_assoc]
  | .fifo p, .fifo p' => by simp [Node.beq]
  | .file _ _, .dir _ _ _ => by simp [Node.beq]
  | .file _ _, .fifo _ => by simp [Node.beq]
  | .dir _ _ _, .file _ _ => by simp [Node.beq]
  | .dir _ _ _, .fifo _ => by simp [Node.beq]
  | .fifo _, .file _ _ => by simp [Node.beq]
  | .fifo _, .dir _ _ _ => by simp [Node.beq]
theorem beqEntries_iff : ∀ a b : List (Name × Node), beqEntries a b = true ↔ a = b
  | [], [] => by simp [beqEntries]
  | [], _ :: _ => by simp [beqEntries]
  | _ :: _, [] => by simp [beqEntries]
  | (n, x) :: r, (n', x') :: r' => by
    simp [beqEntries, Node.beq_iff x x', beqEntries_iff r r', and_assoc]
end

instance : DecidableEq Node := fun a b => decidable_of_iff _ (Node.beq_iff a b)

deriving instance DecidableEq for FileSys

deriving instance DecidableEq for State

@[simp] theorem put_fs (st : State) (b : List Nat) : (st.put b).fs = st.fs := rfl
@[simp] theorem put_path_buf (st : State) (b : List Nat) : (st.put b).path_buf = st.path_buf := rfl
@[simp] theorem put_path (st : State) (b : List Nat) : (st.put b).path = st.path := rfl
@[simp] theorem put_stdout (st : State) (b : List Nat) : (st.put b).stdout = st.stdout ++ b := rfl
@[simp] theorem log_fs (st : State) (c : Call) : (st.log c).fs = st.fs := rfl
@[simp] theorem log_path (st : State) (c : Call) : (st.log c).path = st.path := rfl
@[simp] theorem log_stdout (st : State) (c : Call) : (st.log c).stdout = st.stdout := rfl

/-- The loop over a directory listing that holds only `.` and `..` does nothing. -/
theorem serialize_entries_dots (PATH_MAX : Nat) (recurse : Int → State → Option (Int × State))
    (depth : Int) (names : List Name) (st : State)
    (h : ∀ n ∈ names, n = [46] ∨ n = [46, 46]) :
    serialize_entries PATH_MAX recurse depth names st = some (0, st) := by
  induction names with
  | nil => rfl
  | cons n rest ih =>
    have hn : is_dot_entry n = true := by
      rcases h n (List.mem_cons_self _ _) with h1 | h1 <;> subst h1 <;> decide
    simp only [serialize_entries, hn, if_true]
    exact ih (fun m hm => h m (List.mem_cons_of_mem _ hm))

/-- C5: serializing a directory whose enumeration holds nothing but `.` and `..`
succeeds and writes exactly the four 16-byte records START_OF_TRANSMISSION,
START_OF_DIRECTORY (depth 1), END_OF_DIRECTORY (depth 1) and END_OF_TRANSMISSION,
64 bytes in all. -/
theorem serialize_empty_directory (PATH_MAX fuel : Nat) (st : State) (names : List Name)
    (hdir : st.fs.opendir st.path = .ok names)
    (hdots : ∀ n ∈ names, n = [46] ∨ n = [46, 46]) :
    ∃ st', serialize PATH_MAX (fuel + 1) st = some (0, st') ∧
      st'.stdout = st.stdout ++
        [0x0C, 0x0D, 0xED, 0, 0, 0, 0, 0, 0, 0, 0, 0, 0, 0, 0, 16,
         0x0C, 0x0D, 0xED, 2, 0, 0, 0, 1, 0, 0, 0, 0, 0, 0, 0, 16,
         0x0C, 0x0D, 0xED, 3, 0, 0, 0, 1, 0, 0, 0, 0, 0, 0, 0, 16,
         0x0C, 0x0D, 0xED, 1, 0, 0, 0, 0, 0, 0, 0, 0, 0, 0, 0, 16] := by
  simp only [serialize, serialize_directory, sys_opendir, put_fs, put_path, hdir,
    serialize_entries_dots PATH_MAX _ 1 names _ hdots]
  refine ⟨_, rfl, ?_⟩
  simp only [put_stdout, log_stdout, List.append_assoc]
  rfl

/-- Witness of C5: an empty directory serialized from base path `.`. -/
theorem serialize_empty_directory_witness :
    (serializeStart (.dir 0o755 4096 [])).fs.opendir (serializeStart (.dir 0o755 4096 [])).path
        = .ok [[46], [46, 46]] ∧
      (∀ n ∈ [[46], [46, 46]], n = [46] ∨ n = [46, 46]) ∧
      ∃ st', serialize 4096 1 (serializeStart (.dir 0o755 4096 [])) = some (0, st') ∧
        st'.stdout = (serializeStart (.dir 0o755 4096 [])).stdout ++
          [0x0C, 0x0D, 0xED, 0, 0, 0, 0, 0, 0, 0, 0, 0, 0, 0, 0, 16,
           0x0C, 0x0D, 0xED, 2, 0, 0, 0, 1, 0, 0, 0, 0, 0, 0, 0, 16,
           0x0C, 0x0D, 0xED, 3, 0, 0, 0, 1, 0, 0, 0, 0, 0, 0, 0, 16,
           0x0C, 0x0D, 0xED, 1, 0, 0, 0, 0, 0, 0, 0, 0, 0, 0, 0, 16] :=
  ⟨by decide, by decide,
    serialize_empty_directory 4096 0 (serializeStart (.dir 0o755 4096 [])) [[46], [46, 46]]
      (by decide) (by decide)⟩

set_option maxRecDepth 1000000 in
/-- C6 as stated fails: with directory mode 0o755 and file mode 0o644 the output
is not the dump at the end of `transplant.c` (its mode words are 0o40775 and
0o100664). -/
theorem reference_dump_not_from_755_644 :
    run_serialize 4096 3 (fsOf (referenceTree 0o755 0o644)) [46] ≠ some (0, referenceDump) := by
  decide

set_option maxRecDepth 1000000 in
/-- C6 (amended): serializing the reference tree, `dir` of mode 0o775 and reported
size 4096 enumerated as goodbye, hello1, the three files of mode 0o664, the base
directory enumerated as dir, hello, succeeds and writes exactly the 299 bytes of
the dump at the end of `transplant.c`. -/
theorem reference_dump_from_775_664 :
    run_serialize 4096 3 (fsOf (referenceTree 0o775 0o664)) [46] = some (0, referenceDump) ∧
      referenceDump.length = 299 := by
  decide

/-- C8 as stated fails: the set-user-ID bit of mode 0o104755 does not reach the
mode word of the DIRECTORY_ENTRY record. -/
theorem entry_mode_drops_setuid :
    entry_mode 0o104755 ≠ 0o104755 &&& (S_IFMT ||| 0o7777) ∧
      ((entry_record 1 [102] { st_mode := 0o104755, st_size := 0 }).drop 16).take 4
        ≠ be_bytes 4 (0o104755 &&& (S_IFMT ||| 0o7777)) := by
  decide

/-- C8 (amended): the mode word written in a DIRECTORY_ENTRY record, bytes 16 to
19 of the record, is `m & (S_IFMT | 0o777)` for the entry's `stat` mode `m`: the
file-type bits and the nine `rwx` bits survive, the set-user-ID, set-group-ID and
sticky bits (0o7000) are cleared. -/
theorem entry_mode_keeps_type_and_rwx (depth : Int) (d_name : List Nat) (sb : Stat) :
    ((entry_record depth d_name sb).drop 16).take 4 = be_bytes 4 (entry_mode sb.st_mode) ∧
      entry_mode sb.st_mode = sb.st_mode &&& (S_IFMT ||| 0o777) ∧
      entry_mode sb.st_mode &&& 0o7000 = 0 := by
  refine ⟨?_, ?_, ?_⟩
  · simp [entry_record, header, be_bytes]
  · rfl
  · have h : (S_IFMT ||| S_IRWXU ||| S_IRWXG ||| S_IRWXO) &&& 0o7000 = 0 := by decide
    rw [entry_mode, Nat.and_assoc, h, Nat.and_zero]

set_option maxRecDepth 1000000 in
/-- C9 fails on the code: the 48-byte stream START_OF_TRANSMISSION,
END_OF_DIRECTORY (depth 1), END_OF_TRANSMISSION, which has no START_OF_DIRECTORY
record, is accepted by `deserialize` (return code 0, all input consumed). -/
theorem deserialize_accepts_stream_without_start_of_directory :
    (deserialize 4096 1
        (deserializeStart (.dir 0o755 4096 []) 4 (header 0 0 16 ++ header 3 1 16 ++ header 1 0 16))).map
      (fun r => (r.1, r.2.stdin)) = some (0, []) := by
  decide

theorem debug_getchar_eq (st : State) :
    debug_getchar st =
      match st.stdin with
      | [] => (255, st)
      | b :: rest => (b % 256, { st with stdin := rest }) := by
  cases h : st.stdin with
  | nil => simp only [debug_getchar, getchar, h, toUChar, EOF]; rfl
  | cons b rest =>
    simp only [debug_getchar, getchar, h, toUChar]
    congr 1
    omega

/-- The magic-byte check reads three bytes and fails unless they are `0C 0D ED`. -/
theorem read_magic_bad (st : State) (hbytes : ∀ b ∈ st.stdin, b < 256)
    (hbad : st.stdin.take 3 ≠ [0x0C, 0x0D, 0xED]) :
    read_magic st = (-1, { st with stdin := st.stdin.drop 3 }) := by
  obtain ⟨pb, pl, go, si, so, fs, calls⟩ := st
  simp only at hbytes hbad
  match si, hbytes, hbad with
  | [], _, _ => simp [read_magic, debug_getchar_eq, EOF]
  | [a], _, _ => simp [read_magic, debug_getchar_eq, EOF]
  | [a, b], _, _ => simp [read_magic, debug_getchar_eq, EOF]
  | a :: b :: c :: rest, hbytes, hbad =>
    have ha : a < 256 := hbytes a (by simp)
    have hb : b < 256 := hbytes b (by simp)
    have hc : c < 256 := hbytes c (by simp)
    have hne : ¬ (a = 12 ∧ b = 13 ∧ c = 237) := by
      intro h
      apply hbad
      simp [h.1, h.2.1, h.2.2]
    simp only [read_magic, debug_getchar_eq,
      Nat.mod_eq_of_lt ha, Nat.mod_eq_of_lt hb, Nat.mod_eq_of_lt hc, EOF, List.drop]
    have h1 : ¬ ((a : Int) = -1 ∨ (b : Int) = -1 ∨ (c : Int) = -1) := by omega
    have h2 : (a ≠ 12 ∨ b ≠ 13 ∨ c ≠ 237) := by omega
    simp only [h1, h2, if_false, if_true]

/-- C10: on every input whose first three bytes are not `0C 0D ED`, `deserialize`
returns -1 after reading those three bytes (the first header read): the file
system is untouched and no file-system call has been issued, since the state is
the initial one except for the consumed input. -/
theorem deserialize_bad_magic (PATH_MAX fuel : Nat) (st : State)
    (hbytes : ∀ b ∈ st.stdin, b < 256)
    (hbad : st.stdin.take 3 ≠ [0x0C, 0x0D, 0xED]) :
    deserialize PATH_MAX fuel st = some (-1, { st with stdin := st.stdin.drop 3 }) := by
  simp [deserialize, read_transmission, read_magic_bad st hbytes hbad]

set_option maxRecDepth 1000000 in
/-- Witness of C10: the input `0C 0D EE`. -/
theorem deserialize_bad_magic_witness :
    (∀ b ∈ (deserializeStart (.dir 0o755 4096 []) 4 [0x0C, 0x0D, 0xEE]).stdin, b < 256) ∧
      (deserializeStart (.dir 0o755 4096 []) 4 [0x0C, 0x0D, 0xEE]).stdin.take 3 ≠ [0x0C, 0x0D, 0xED] ∧
      deserialize 4096 0 (deserializeStart (.dir 0o755 4096 []) 4 [0x0C, 0x0D, 0xEE]) =
        some (-1, { deserializeStart (.dir 0o755 4096 []) 4 [0x0C, 0x0D, 0xEE] with
          stdin := (deserializeStart (.dir 0o755 4096 []) 4 [0x0C, 0x0D, 0xEE]).stdin.drop 3 }) :=
  ⟨by decide, by decide,
    deserialize_bad_magic 4096 0 (deserializeStart (.dir 0o755 4096 []) 4 [0x0C, 0x0D, 0xEE])
      (by decide) (by decide)⟩


/-- Function `path_push` changes nothing but `path_buf` and `path_length`. -/
theorem path_push_frame (PATH_MAX : Nat) (name : List Nat) (st : State) :
    ∃ buf len, (path_push PATH_MAX name st).2 = { st with path_buf := buf, path_length := len } := by
  unfold path_push
  split
  · exact ⟨_, _, rfl⟩
  · split
    · exact ⟨_, _, rfl⟩
    · split
      · split
        · unfold push_copy
          split
          split <;> exact ⟨_, _, rfl⟩
        · exact ⟨_, _, rfl⟩
      · unfold push_copy
        split
        split <;> exact ⟨_, _, rfl⟩

/-- Function `path_pop` changes nothing but `path_buf` and `path_length`. -/
theorem path_pop_frame (st : State) :
    ∃ buf len, (path_pop st).2 = { st with path_buf := buf, path_length := len } := by
  unfold path_pop
  split
  · exact ⟨_, _, rfl⟩
  · split <;> exact ⟨_, _, rfl⟩

@[simp] theorem path_push_stdout (PATH_MAX : Nat) (name : List Nat) (st : State) :
    (path_push PATH_MAX name st).2.stdout = st.stdout := by
  obtain ⟨b, l, h⟩ := path_push_frame PATH_MAX name st
  rw [h]

@[simp] theorem path_pop_stdout (st : State) : (path_pop st).2.stdout = st.stdout := by
  obtain ⟨b, l, h⟩ := path_pop_frame st
  rw [h]

/-- The copy loop of `serialize_file` only appends to what has been written. -/
theorem copy_file_extends (n : Nat) : ∀ (content out : List Nat),
    ∃ tail, (copy_file n content out).2 = out ++ tail := by
  induction n with
  | zero => intro content out; exact ⟨[], by simp [copy_file]⟩
  | succ n ih =>
    intro content out
    cases content with
    | nil => exact ⟨[], by simp [copy_file]⟩
    | cons c cs =>
      obtain ⟨t, ht⟩ := ih cs (out ++ [c % 256])
      exact ⟨_, by rw [copy_file, ht, List.append_assoc]⟩

/-- Function `serialize_file` only appends to the standard output. -/
theorem serialize_file_extends (depth size : Int) (st : State) :
    ∃ tail, (serialize_file depth size st).2.stdout = st.stdout ++ tail := by
  unfold serialize_file
  split
  · exact ⟨[], by simp⟩
  · simp only [sys_fopen_r]
    split
    · rename_i h
      simp only [Prod.mk.injEq] at h
      exact ⟨_, by rw [← h.2]; simp only [log_stdout, put_stdout]; rfl⟩
    · rename_i h
      simp only [Prod.mk.injEq] at h
      split
      · exact ⟨_, by rw [← h.2]; simp only [log_stdout, put_stdout, List.append_assoc]; rfl⟩
      · split
        · exact ⟨_, by rw [← h.2]; simp only [log_stdout, put_stdout, List.append_assoc]; rfl⟩
        · exact ⟨_, by rw [← h.2]; simp only [log_stdout, put_stdout, List.append_assoc]; rfl⟩

/-- The entry loop only appends to the standard output when the recursive call does. -/
theorem serialize_entries_extends (PATH_MAX : Nat) (recurse : Int → State → Option (Int × State))
    (hrec : ∀ d s r s', recurse d s = some (r, s') → ∃ tail, s'.stdout = s.stdout ++ tail)
    (depth : Int) (names : List Name) :
    ∀ (st : State) (r : Int) (st' : State),
      serialize_entries PATH_MAX recurse depth names st = some (r, st') →
      ∃ tail, st'.stdout = st.stdout ++ tail := by
  induction names with
  | nil =>
    intro st r st' h
    simp only [serialize_entries, Option.some.injEq, Prod.mk.injEq] at h
    exact ⟨[], by rw [← h.2]; simp⟩
  | cons n rest ih =>
    intro st r st' h
    simp only [serialize_entries, sys_stat] at h
    split at h
    · exact ih st r st' h
    · have hst1 := path_push_stdout PATH_MAX n st
      split at h
      · simp only [Option.some.injEq, Prod.mk.injEq] at h
        exact ⟨[], by rw [← h.2, hst1]; simp⟩
      · split at h
        · simp only [Option.some.injEq, Prod.mk.injEq] at h
          rename_i heq
          simp only [Prod.mk.injEq] at heq
          exact ⟨[], by rw [← h.2, path_pop_stdout, ← heq.2, log_stdout, hst1]; simp⟩
        · rename_i sb st2 heq
          simp only [Prod.mk.injEq] at heq
          have hst2 : st2.stdout = st.stdout := by rw [← heq.2, log_stdout, hst1]
          split at h
          · split at h
            · exact absurd h (by simp)
            · rename_i r3 st3 hrec3
              obtain ⟨t3, ht3⟩ := hrec _ _ _ _ hrec3
              simp only [put_stdout, hst2] at ht3
              split at h
              · simp only [Option.some.injEq, Prod.mk.injEq] at h
                exact ⟨_, by rw [← h.2, path_pop_stdout, ht3, List.append_assoc]⟩
              · split at h
                · simp only [Option.some.injEq, Prod.mk.injEq] at h
                  exact ⟨_, by rw [← h.2, path_pop_stdout, ht3, List.append_assoc]⟩
                · obtain ⟨t5, ht5⟩ := ih _ r st' h
                  exact ⟨_, by rw [ht5, path_pop_stdout, ht3, List.append_assoc, List.append_assoc]⟩
          · split at h
            · obtain ⟨t3, ht3⟩ := serialize_file_extends depth sb.st_size
                (st2.put (entry_record depth n sb))
              simp only [put_stdout, hst2] at ht3
              split at h
              · simp only [Option.some.injEq, Prod.mk.injEq] at h
                exact ⟨_, by rw [← h.2, path_pop_stdout, ht3, List.append_assoc]⟩
              · split at h
                · simp only [Option.some.injEq, Prod.mk.injEq] at h
                  exact ⟨_, by rw [← h.2, path_pop_stdout, ht3, List.append_assoc]⟩
                · obtain ⟨t5, ht5⟩ := ih _ r st' h
                  exact ⟨_, by rw [ht5, path_pop_stdout, ht3, List.append_assoc, List.append_assoc]⟩
            · simp only [Option.some.injEq, Prod.mk.injEq] at h
              exact ⟨[], by rw [← h.2, hst2]; simp⟩

/-- Function `serialize_directory` only appends to the standard output. -/
theorem serialize_directory_extends (PATH_MAX : Nat) (fuel : Nat) :
    ∀ (depth : Int) (st : State) (r : Int) (st' : State),
      serialize_directory PATH_MAX fuel depth st = some (r, st') →
      ∃ tail, st'.stdout = st.stdout ++ tail := by
  induction fuel with
  | zero => intro depth st r st' h; simp [serialize_directory] at h
  | succ fuel ih =>
    intro depth st r st' h
    simp only [serialize_directory, sys_opendir] at h
    split at h
    · rename_i names st1 heq
      simp only [Prod.mk.injEq] at heq
      have hst1 : st1.stdout = st.stdout ++ header 2 (toUInt32 depth) 16 := by
        rw [← heq.2, log_stdout, put_stdout]
      split at h
      · exact absurd h (by simp)
      · rename_i r3 st3 hent
        obtain ⟨t, ht⟩ := serialize_entries_extends PATH_MAX _ ih depth names _ _ _ hent
        rw [hst1] at ht
        split at h
        · simp only [Option.some.injEq, Prod.mk.injEq] at h
          exact ⟨_, by rw [← h.2, ht, List.append_assoc]⟩
        · simp only [Option.some.injEq, Prod.mk.injEq] at h
          exact ⟨_, by rw [← h.2, put_stdout, ht, List.append_assoc, List.append_assoc]⟩
    · rename_i st1 _ heq
      simp only [Prod.mk.injEq] at heq
      simp only [Option.some.injEq, Prod.mk.injEq] at h
      exact ⟨_, by rw [← h.2, ← heq.2]; simp only [log_stdout, put_stdout]; rfl⟩



theorem shift_and_byte (v k : Nat) : (v >>> k) &&& 0xFF = v / 2 ^ k % 256 := by
  rw [Nat.shiftRight_eq_div_pow]
  exact Nat.and_pow_two_sub_one_eq_mod _ 8

theorem and_byte (v : Nat) : v &&& 255 = v % 256 :=
  Nat.and_pow_two_sub_one_eq_mod v 8

theorem be_bytes_four (v : Nat) : be_bytes 4 v = bigEndian32 v := by
  simp [be_bytes, bigEndian32, and_byte, Nat.shiftRight_eq_div_pow]

theorem be_bytes_eight (v : Nat) : be_bytes 8 v = bigEndian64 v := by
  simp [be_bytes, bigEndian64, and_byte, Nat.shiftRight_eq_div_pow]

theorem cstr_of_no_nul (l : List Nat) (h : ∀ c ∈ l, c ≠ 0) : cstr l = l := by
  unfold cstr
  rw [List.takeWhile_eq_self_iff]
  intro c hc
  simpa using h c hc

theorem len_string_eq (l : List Nat) : len_string l = ((cstr l).length : Int) := by
  induction l with
  | nil => rfl
  | cons c cs ih =>
    by_cases hc : c = 0
    · simp [len_string, cstr, hc]
    · simp [len_string, cstr, hc, List.takeWhile_cons]
      simpa [cstr] using ih

theorem map_mod_of_bytes (l : List Nat) (h : ∀ c ∈ l, c < 256) : l.map (fun c => c % 256) = l := by
  induction l with
  | nil => rfl
  | cons c cs ih =>
    simp only [List.map_cons]
    rw [Nat.mod_eq_of_lt (h c (List.mem_cons_self _ _)), ih (fun x hx => h x (List.mem_cons_of_mem _ hx))]

/-- The DIRECTORY_ENTRY record of a name of plain bytes, spelled out. -/
theorem entry_record_eq (depth : Int) (d_name : Name) (sb : Stat)
    (hname : ∀ c ∈ d_name, 0 < c ∧ c < 256) (hlen : d_name.length + 28 < 2147483648)
    (hdepth : 0 ≤ depth ∧ depth < 4294967296)
    (hsize : 0 ≤ sb.st_size ∧ sb.st_size < 18446744073709551616) :
    entry_record depth d_name sb =
      [0x0C, 0x0D, 0xED, 0x04] ++ bigEndian32 depth.toNat ++ bigEndian64 (28 + d_name.length)
        ++ bigEndian32 (sb.st_mode &&& (S_IFMT ||| 0o777)) ++ bigEndian64 sb.st_size.toNat
        ++ d_name := by
  have hc : cstr d_name = d_name := cstr_of_no_nul d_name (fun c hc => by have := hname c hc; omega)
  have hm : d_name.map (fun c => c % 256) = d_name :=
    map_mod_of_bytes d_name (fun c hc => (hname c hc).2)
  have h1 : toUInt32 depth = depth.toNat := by
    unfold toUInt32
    congr 1
    omega
  have h2 : toUInt64 (toInt32 (len_string d_name + 16 + 12)) = 28 + d_name.length := by
    rw [len_string_eq, hc]
    unfold toUInt64 toInt32
    omega
  have h3 : toUInt64 sb.st_size = sb.st_size.toNat := by
    unfold toUInt64
    congr 1
    omega
  have h4 : entry_mode sb.st_mode = sb.st_mode &&& (S_IFMT ||| 0o777) := rfl
  simp only [entry_record, header, h1, h2, h3, h4, hc, hm, be_bytes_four, be_bytes_eight]

/-- C7: for a child entry named `n` that `serialize_directory(d)` has pushed and
found, by `stat`, to be a directory or a regular file with mode `m` and size
`s`, the bytes written next are exactly the DIRECTORY_ENTRY record
`0C 0D ED 04`, big-endian 32-bit `d`, big-endian 64-bit `28 + |n|`, big-endian
32-bit `m & (S_IFMT | 0o777)`, big-endian 64-bit `s`, then the bytes of `n`
without terminator. -/
theorem directory_entry_record (PATH_MAX fuel : Nat) (depth : Int) (d_name : Name)
    (rest : List Name) (st : State) (sb : Stat) (r : Int) (st' : State)
    (hdot : is_dot_entry d_name = false)
    (hpush : (path_push PATH_MAX d_name st).1 = 0)
    (hstat : (sys_stat (path_push PATH_MAX d_name st).2).1 = some sb)
    (hkind : S_ISDIR sb.st_mode = true ∨ S_ISREG sb.st_mode = true)
    (hname : ∀ c ∈ d_name, 0 < c ∧ c < 256) (hlen : d_name.length + 28 < 2147483648)
    (hdepth : 0 ≤ depth ∧ depth < 4294967296)
    (hsize : 0 ≤ sb.st_size ∧ sb.st_size < 18446744073709551616)
    (hrun : serialize_entries PATH_MAX (serialize_directory PATH_MAX fuel) depth
      (d_name :: rest) st = some (r, st')) :
    ∃ tail, st'.stdout = st.stdout ++
      ([0x0C, 0x0D, 0xED, 0x04] ++ bigEndian32 depth.toNat ++ bigEndian64 (28 + d_name.length)
        ++ bigEndian32 (sb.st_mode &&& (S_IFMT ||| 0o777)) ++ bigEndian64 sb.st_size.toNat
        ++ d_name) ++ tail := by
  rw [← entry_record_eq depth d_name sb hname hlen hdepth hsize]
  have hst1 := path_push_stdout PATH_MAX d_name st
  have hst2 : (sys_stat (path_push PATH_MAX d_name st).2).2.stdout = st.stdout := by
    simp only [sys_stat, log_stdout, hst1]
  have h01 : ¬ ((0 : Int) = -1) := by decide
  simp only [serialize_entries, hdot, hpush, Bool.false_eq_true, if_false, h01] at hrun
  rcases hs : sys_stat (path_push PATH_MAX d_name st).2 with ⟨res, st2⟩
  rw [hs] at hstat hst2
  simp only at hstat hst2
  subst hstat
  simp only [hs] at hrun
  rcases hkind with hd | hr
  · simp only [hd, if_true] at hrun
    split at hrun
    · exact absurd hrun (by simp)
    · rename_i r3 st3 hrec3
      obtain ⟨t3, ht3⟩ := serialize_directory_extends PATH_MAX fuel _ _ _ _ hrec3
      simp only [put_stdout, hst2] at ht3
      split at hrun
      · simp only [Option.some.injEq, Prod.mk.injEq] at hrun
        exact ⟨_, by rw [← hrun.2, path_pop_stdout, ht3]⟩
      · split at hrun
        · simp only [Option.some.injEq, Prod.mk.injEq] at hrun
          exact ⟨_, by rw [← hrun.2, path_pop_stdout, ht3]⟩
        · obtain ⟨t5, ht5⟩ := serialize_entries_extends PATH_MAX _
            (serialize_directory_extends PATH_MAX fuel) depth rest _ r st' hrun
          exact ⟨_, by rw [ht5, path_pop_stdout, ht3, List.append_assoc]⟩
  · have hnd : S_ISDIR sb.st_mode = false := by
      unfold S_ISDIR S_ISREG at *
      simp only [beq_iff_eq] at hr
      simp [hr, S_IFREG, S_IFDIR]
    simp only [hnd, hr, if_true, Bool.false_eq_true, if_false] at hrun
    obtain ⟨t3, ht3⟩ := serialize_file_extends depth sb.st_size (st2.put (entry_record depth d_name sb))
    simp only [put_stdout, hst2] at ht3
    split at hrun
    · simp only [Option.some.injEq, Prod.mk.injEq] at hrun
      exact ⟨_, by rw [← hrun.2, path_pop_stdout, ht3]⟩
    · split at hrun
      · simp only [Option.some.injEq, Prod.mk.injEq] at hrun
        exact ⟨_, by rw [← hrun.2, path_pop_stdout, ht3]⟩
      · obtain ⟨t5, ht5⟩ := serialize_entries_extends PATH_MAX _
          (serialize_directory_extends PATH_MAX fuel) depth rest _ r st' hrun
        exact ⟨_, by rw [ht5, path_pop_stdout, ht3, List.append_assoc]⟩



set_option maxRecDepth 1000000 in
/-- Witness of C7: the entry `hello` (mode 0o100664, size 6) of the reference tree
at depth 1. -/
theorem directory_entry_record_witness :
    is_dot_entry helloName = false ∧
    (path_push 4096 helloName (serializeStart (referenceTree 0o775 0o664))).1 = 0 ∧
    (sys_stat (path_push 4096 helloName (serializeStart (referenceTree 0o775 0o664))).2).1
      = some { st_mode := 0o100664, st_size := 6 } ∧
    serialize_entries 4096 (serialize_directory 4096 0) 1 [helloName]
      (serializeStart (referenceTree 0o775 0o664)) = some (0, helloDone) ∧
    ∃ tail, helloDone.stdout = (serializeStart (referenceTree 0o775 0o664)).stdout ++
      ([0x0C, 0x0D, 0xED, 0x04] ++ bigEndian32 (1 : Int).toNat ++ bigEndian64 (28 + helloName.length)
        ++ bigEndian32 (0o100664 &&& (S_IFMT ||| 0o777)) ++ bigEndian64 (6 : Int).toNat
        ++ helloName) ++ tail :=
  ⟨by decide, by decide, by decide, by rfl,
    directory_entry_record 4096 0 1 helloName [] (serializeStart (referenceTree 0o775 0o664))
      { st_mode := 0o100664, st_size := 6 } 0 helloDone (by decide) (by decide) (by decide)
      (by decide) (by decide) (by decide) (by decide) (by decide) (by rfl)⟩



theorem low12_and_fmt (x : Nat) (h : x < 4096) : x &&& 61440 = 0 := by
  apply Nat.eq_of_testBit_eq
  intro i
  simp only [Nat.testBit_and, Nat.zero_testBit]
  by_cases hi : i < 12
  · have : Nat.testBit 61440 i = false := by
      interval_cases i <;> decide
    rw [this, Bool.and_false]
  · have : x.testBit i = false := by
      apply Nat.testBit_lt_two_pow
      calc x < 2 ^ 12 := h
        _ ≤ 2 ^ i := Nat.pow_le_pow_right (by decide) (by omega)
    rw [this, Bool.false_and]

/-- The file-type bits of `type | perm` when `perm` has only permission bits. -/
theorem type_bits (t p : Nat) : (t ||| (p % 4096)) &&& S_IFMT = t &&& S_IFMT := by
  have h := low12_and_fmt (p % 4096) (Nat.mod_lt _ (by decide))
  show (t ||| (p % 4096)) &&& 61440 = t &&& 61440
  rw [Nat.and_distrib_right, h, Nat.or_zero]

theorem isreg_file (p : Nat) : S_ISREG (S_IFREG ||| (p % 4096)) = true := by
  simp only [S_ISREG, type_bits]; decide
theorem isdir_file (p : Nat) : S_ISDIR (S_IFREG ||| (p % 4096)) = false := by
  simp only [S_ISDIR, type_bits]; decide
theorem isreg_dir (p : Nat) : S_ISREG (S_IFDIR ||| (p % 4096)) = false := by
  simp only [S_ISREG, type_bits]; decide
theorem isdir_dir (p : Nat) : S_ISDIR (S_IFDIR ||| (p % 4096)) = true := by
  simp only [S_ISDIR, type_bits]; decide
theorem isreg_fifo (p : Nat) : S_ISREG (S_IFIFO ||| (p % 4096)) = false := by
  simp only [S_ISREG, type_bits]; decide
theorem isdir_fifo (p : Nat) : S_ISDIR (S_IFIFO ||| (p % 4096)) = false := by
  simp only [S_ISDIR, type_bits]; decide

/-- When `stat` reports a regular file, the path names a file node, and the
size reported is the length of its content. -/
theorem stat_reg (fs : FileSys) (path : List Nat) (sb : Stat)
    (h : fs.stat path = some sb) (hreg : S_ISREG sb.st_mode = true) :
    ∃ perm content, fs.lookup path = some (.file perm content) ∧
      sb = (Node.file perm content).stat := by
  unfold FileSys.stat at h
  cases hl : fs.lookup path with
  | none => simp [hl] at h
  | some node =>
    simp only [hl, Option.map_some', Option.some.injEq] at h
    subst h
    cases node with
    | file perm content => exact ⟨perm, content, rfl, rfl⟩
    | dir perm size es => simp [Node.stat, isreg_dir] at hreg
    | fifo perm => simp [Node.stat, isreg_fifo] at hreg



theorem streamBytes_append (a b : List Record) :
    streamBytes (a ++ b) = streamBytes a ++ streamBytes b := by
  induction a with
  | nil => rfl
  | cons r rs ih => simp [streamBytes, ih]

theorem bigEndian32_mod (d : Nat) : bigEndian32 (d % 4294967296) = bigEndian32 d := by
  simp only [bigEndian32]
  congr 1
  · omega
  congr 1
  · omega
  congr 1
  · omega
  congr 1
  omega

/-- The depth field holds the low 32 bits of the depth. -/
theorem header_depth (t : Nat) (d : Nat) (s : Nat) :
    header t (toUInt32 (d : Int)) s = header t d s := by
  have h : toUInt32 (d : Int) = d % 4294967296 := by
    unfold toUInt32
    omega
  simp only [header, h, be_bytes_four, bigEndian32_mod]

theorem bracket_bytes (t : Nat) (d : Nat) :
    (bracket t d).bytes = header t (toUInt32 (d : Int)) 16 := by
  simp [Record.bytes, bracket, header_depth]

/-- The copy loop of `serialize_file` when the file has at least `n` bytes. -/
theorem copy_file_enough (n : Nat) : ∀ (content out : List Nat), n ≤ content.length →
    copy_file n content out = (0, out ++ (content.take n).map (fun c => c % 256)) := by
  induction n with
  | zero => intro content out _; simp [copy_file]
  | succ n ih =>
    intro content out h
    cases content with
    | nil => simp at h
    | cons c cs =>
      rw [copy_file, ih cs _ (by simpa using h)]
      simp

/-- The copy loop of `serialize_file` when the file has fewer than `n` bytes. -/
theorem copy_file_short (n : Nat) : ∀ (content out : List Nat), content.length < n →
    copy_file n content out = (-1, out ++ content.map (fun c => c % 256)) := by
  induction n with
  | zero => intro content out h; simp at h
  | succ n ih =>
    intro content out h
    cases content with
    | nil => simp [copy_file]
    | cons c cs =>
      rw [copy_file, ih cs _ (by simpa using h)]
      simp

/-- What the first loop of `path_push` computes. -/
theorem scan_component_eq (l : List Nat) : ∀ k : Nat,
    scan_component l k = if 47 ∈ cstr l then none else some (k + (cstr l).length) := by
  induction l with
  | nil => intro k; simp [scan_component, cstr]
  | cons c cs ih =>
    intro k
    by_cases h0 : c = 0
    · simp [scan_component, cstr, h0]
    · by_cases h47 : c = 47
      · simp [scan_component, cstr, h47]
      · have hc : cstr (c :: cs) = c :: cstr cs := by simp [cstr, h0, List.takeWhile_cons]
        rw [scan_component, hc, ih]
        simp only [h0, h47, if_false, List.mem_cons, List.length_cons]
        have : ¬ (47 = c) := fun h => h47 h.symm
        simp only [this, false_or]
        split <;> simp
        omega

/-- A successful `path_push` pushed a component without `/` that fits. -/
theorem path_push_ok (PATH_MAX : Nat) (name : List Nat) (st : State)
    (h : (path_push PATH_MAX name st).1 ≠ -1) :
    47 ∉ cstr name ∧ st.path_length + 1 + (cstr name).length < PATH_MAX := by
  unfold path_push at h
  rw [scan_component_eq] at h
  by_cases h47 : 47 ∈ cstr name
  · simp [h47] at h
  · simp only [h47, if_false, Nat.zero_add] at h
    refine ⟨h47, ?_⟩
    by_contra hlt
    have : st.path_length + 1 + (cstr name).length ≥ PATH_MAX := by omega
    simp [this] at h

@[simp] theorem path_push_fs (PATH_MAX : Nat) (name : List Nat) (st : State) :
    (path_push PATH_MAX name st).2.fs = st.fs := by
  obtain ⟨b, l, h⟩ := path_push_frame PATH_MAX name st
  rw [h]

@[simp] theorem path_pop_fs (st : State) : (path_pop st).2.fs = st.fs := by
  obtain ⟨b, l, h⟩ := path_pop_frame st
  rw [h]



/-- Function `serialize_file` on a path that names a regular file, called with
the size of that file: header, then the whole content. -/
theorem serialize_file_whole (depth : Int) (st : State) (perm : Nat) (content : List Nat)
    (hfile : st.fs.lookup st.path = some (.file perm content)) :
    serialize_file depth content.length st =
      (0, ((st.put (header 5 (toUInt32 depth)
          (toUInt64 (toInt32 ((content.length : Int) + 16))))).log (.fopen st.path false)).put
        (content.map (fun c => c % 256))) := by
  have hne : ¬ ((content.length : Int) = -1) := by omega
  simp only [serialize_file, hne, if_false, sys_fopen_r, put_fs, put_path, FileSys.fopen_r, hfile,
    Int.toNat_ofNat, copy_file_enough content.length content [] (Nat.le_refl _), List.take_length,
    List.nil_append]
  rw [if_neg (by decide), List.length_map, if_neg (by simp)]

/-- The records written by the entry loop of `serialize_directory(d)`, given
that the recursive call writes `DIR(d + 1)`. -/
theorem serialize_entries_records (PATH_MAX : Nat) (hPM : PATH_MAX ≤ 2147483620)
    (recurse : Int → State → Option (Int × State)) (d : Nat)
    (hrec : ∀ s r s', recurse ((d : Int) + 1) s = some (r, s') → r ≠ -1 →
      ∃ sub, IsDir (d + 1) sub ∧ s'.stdout = s.stdout ++ streamBytes sub)
    (names : List Name) :
    ∀ (st : State) (r : Int) (st' : State),
      serialize_entries PATH_MAX recurse d names st = some (r, st') → r ≠ -1 →
      ∃ groups, IsGroups d groups ∧ st'.stdout = st.stdout ++ streamBytes groups := by
  induction names with
  | nil =>
    intro st r st' h _
    simp only [serialize_entries, Option.some.injEq, Prod.mk.injEq] at h
    exact ⟨[], IsGroups.nil, by rw [← h.2]; simp [streamBytes]⟩
  | cons n rest ih =>
    intro st r st' h hr
    simp only [serialize_entries, sys_stat] at h
    split at h
    · exact ih st r st' h hr
    · have hst1 := path_push_stdout PATH_MAX n st
      split at h
      · simp only [Option.some.injEq, Prod.mk.injEq] at h
        exact absurd h.1.symm hr
      · rename_i hpush
        have hlen := (path_push_ok PATH_MAX n st hpush).2
        have hsz : toUInt64 (toInt32 (len_string n + 16 + 12)) = 28 + (cstr n).length := by
          rw [len_string_eq]
          unfold toUInt64 toInt32
          omega
        split at h
        · simp only [Option.some.injEq, Prod.mk.injEq] at h
          exact absurd h.1.symm hr
        · rename_i sb st2 heq
          simp only [Prod.mk.injEq] at heq
          obtain ⟨hstat, hst2⟩ := heq
          have hst2o : st2.stdout = st.stdout := by rw [← hst2, log_stdout, hst1]
          have hrecbytes : entry_record (d : Int) n sb =
              (entryOf d (entry_mode sb.st_mode) (toUInt64 sb.st_size)
                ((cstr n).map (fun c => c % 256))).bytes := by
            simp only [entry_record, Record.bytes, entryOf, hsz, header_depth, List.length_map,
              List.append_assoc]
          split at h
          · rename_i hdir
            split at h
            · exact absurd h (by simp)
            · rename_i r3 st3 hrec3
              split at h
              · simp only [Option.some.injEq, Prod.mk.injEq] at h
                exact absurd h.1.symm hr
              · rename_i hr3
                obtain ⟨sub, hsub, hout3⟩ := hrec _ _ _ hrec3 hr3
                simp only [put_stdout, hst2o] at hout3
                split at h
                · simp only [Option.some.injEq, Prod.mk.injEq] at h
                  exact absurd h.1.symm hr
                · obtain ⟨groups, hg, hout⟩ := ih _ r st' h hr
                  refine ⟨entryOf d (entry_mode sb.st_mode) (toUInt64 sb.st_size)
                    ((cstr n).map (fun c => c % 256)) :: (sub ++ groups), ?_, ?_⟩
                  · obtain ⟨g', hg', rfl⟩ := hsub
                    refine IsGroups.dir ?_ hg' hg
                    have : entry_mode sb.st_mode &&& S_IFMT = sb.st_mode &&& S_IFMT := by
                      have hm : (S_IFMT ||| S_IRWXU ||| S_IRWXG ||| S_IRWXO) &&& S_IFMT = S_IFMT := by
                        decide
                      rw [entry_mode, Nat.and_assoc, hm]
                    simpa [S_ISDIR, this] using hdir
                  · rw [hout, path_pop_stdout, hout3, hrecbytes]
                    simp only [streamBytes, streamBytes_append, List.append_assoc]
          · split at h
            · rename_i hndir hreg
              obtain ⟨perm, content, hlook, hsb⟩ := stat_reg _ _ sb hstat hreg
              have hsize : sb.st_size = (content.length : Int) := by rw [hsb]; rfl
              have hfile : (st2.put (entry_record (d : Int) n sb)).fs.lookup
                  (st2.put (entry_record (d : Int) n sb)).path = some (.file perm content) := by
                rw [put_fs, put_path, ← hst2, log_fs, log_path]
                exact hlook
              rw [hsize, serialize_file_whole (d : Int) _ perm content hfile] at h
              simp only at h
              have h01 : ¬ ((0 : Int) = -1) := by decide
              simp only [h01, if_false] at h
              split at h
              · simp only [Option.some.injEq, Prod.mk.injEq] at h
                exact absurd h.1.symm hr
              · obtain ⟨groups, hg, hout⟩ := ih _ r st' h hr
                refine ⟨entryOf d (entry_mode sb.st_mode) (toUInt64 sb.st_size)
                    ((cstr n).map (fun c => c % 256)) ::
                  { type := 5, depth := d,
                    size := toUInt64 (toInt32 ((content.length : Int) + 16)),
                    payload := content.map (fun c => c % 256) } :: groups, ?_, ?_⟩
                · refine IsGroups.file ?_ ?_ hg
                  · have : entry_mode sb.st_mode &&& S_IFMT = sb.st_mode &&& S_IFMT := by
                      have hm : (S_IFMT ||| S_IRWXU ||| S_IRWXG ||| S_IRWXO) &&& S_IFMT = S_IFMT := by
                        decide
                      rw [entry_mode, Nat.and_assoc, hm]
                    simpa [S_ISREG, this] using hreg
                  · rw [hsize, List.length_map]
                    unfold toUInt64
                    omega
                · rw [hout, path_pop_stdout]
                  simp only [put_stdout, log_stdout, hst2o, hrecbytes, streamBytes, Record.bytes,
                    header_depth, List.append_assoc]
            · simp only [Option.some.injEq, Prod.mk.injEq] at h
              exact absurd h.1.symm hr

/-- The records written by a successful `serialize_directory(d)`: `DIR(d)`. -/
theorem serialize_directory_records (PATH_MAX : Nat) (hPM : PATH_MAX ≤ 2147483620) (fuel : Nat) :
    ∀ (d : Nat) (st : State) (r : Int) (st' : State),
      serialize_directory PATH_MAX fuel d st = some (r, st') → r ≠ -1 →
      ∃ recs, IsDir d recs ∧ st'.stdout = st.stdout ++ streamBytes recs := by
  induction fuel with
  | zero => intro d st r st' h; simp [serialize_directory] at h
  | succ fuel ih =>
    intro d st r st' h hr
    simp only [serialize_directory, sys_opendir] at h
    split at h
    · rename_i names st1 heq
      simp only [Prod.mk.injEq] at heq
      have hst1 : st1.stdout = st.stdout ++ header 2 (toUInt32 (d : Int)) 16 := by
        rw [← heq.2, log_stdout, put_stdout]
      split at h
      · exact absurd h (by simp)
      · rename_i r3 st3 hent
        split at h
        · simp only [Option.some.injEq, Prod.mk.injEq] at h
          exact absurd h.1.symm hr
        · rename_i hr3
          have hrec : ∀ s r s', serialize_directory PATH_MAX fuel ((d : Int) + 1) s = some (r, s') →
              r ≠ -1 → ∃ sub, IsDir (d + 1) sub ∧ s'.stdout = s.stdout ++ streamBytes sub := by
            intro s r s' hs hr'
            exact ih (d + 1) s r s' (by simpa using hs) hr'
          obtain ⟨groups, hg, hout⟩ :=
            serialize_entries_records PATH_MAX hPM _ d hrec names _ _ _ hent hr3
          simp only [Option.some.injEq, Prod.mk.injEq] at h
          refine ⟨_, ⟨groups, hg, rfl⟩, ?_⟩
          rw [← h.2, put_stdout, hout, hst1]
          simp only [streamBytes, streamBytes_append, bracket_bytes, List.append_assoc,
            List.append_nil]
    · simp only [Option.some.injEq, Prod.mk.injEq] at h
      exact absurd h.1.symm hr

/-- The records written by a successful `serialize`: a valid stream. -/
theorem serialize_records (PATH_MAX : Nat) (hPM : PATH_MAX ≤ 2147483620) (fuel : Nat)
    (st st' : State) (h : serialize PATH_MAX fuel st = some (0, st')) :
    ∃ recs, IsStream recs ∧ st'.stdout = st.stdout ++ streamBytes recs := by
  simp only [serialize] at h
  split at h
  · exact absurd h (by simp)
  · rename_i r1 st1 hdir
    split at h
    · simp at h
    · rename_i hr1
      obtain ⟨body, hbody, hout⟩ :=
        serialize_directory_records PATH_MAX hPM fuel 1 _ r1 st1 (by simpa using hdir) hr1
      simp only [Option.some.injEq, Prod.mk.injEq, true_and] at h
      refine ⟨_, ⟨body, hbody, rfl⟩, ?_⟩
      rw [← h, put_stdout, hout, put_stdout]
      have h0 : header 0 0 16 = (bracket 0 0).bytes := by simp [Record.bytes, bracket]
      have h1 : header 1 0 16 = (bracket 1 0).bytes := by simp [Record.bytes, bracket]
      simp only [streamBytes, streamBytes_append, h0, h1, List.append_assoc, List.append_nil]



/-- Every record of a sequence of groups at depth `d` is a directory bracket, an
entry or file data, at depth `d` or deeper. -/
theorem isGroups_types {d : Nat} {recs : List Record} (h : IsGroups d recs) :
    ∀ r ∈ recs, 2 ≤ r.type ∧ r.type ≤ 5 ∧ d ≤ r.depth := by
  induction h with
  | nil => intro r hr; simp at hr
  | dir _ _ _ ihsub ihrest =>
    intro r hr
    simp only [List.mem_cons, List.mem_append, List.cons_append, List.not_mem_nil,
      or_false] at hr
    rcases hr with h | h | (h | h) | h
    · subst h; simp [entryOf]
    · subst h; simp [bracket]
    · have := ihsub r h
      omega
    · subst h; simp [bracket]
    · exact ihrest r h
  | file _ _ _ ihrest =>
    intro r hr
    simp only [List.mem_cons] at hr
    rcases hr with h | h | h
    · subst h; simp [entryOf]
    · subst h; simp
    · exact ihrest r h

theorem isDir_types {d : Nat} {recs : List Record} (h : IsDir d recs) :
    ∀ r ∈ recs, 2 ≤ r.type ∧ r.type ≤ 5 ∧ d ≤ r.depth := by
  obtain ⟨g, hg, rfl⟩ := h
  intro r hr
  simp only [List.mem_cons, List.mem_append, List.not_mem_nil, or_false] at hr
  rcases hr with h | h | h
  · subst h; simp [bracket]
  · exact isGroups_types hg r h
  · subst h; simp [bracket]

theorem inside_bracket_open (level d : Nat) (rs : List Record) :
    inside level (bracket 2 d :: rs) = bracket 2 d :: inside (level + 1) rs := by
  simp [inside, bracket]

theorem inside_bracket_close (level d : Nat) (rs : List Record) :
    inside (level + 1) (bracket 3 d :: rs) = bracket 3 d :: inside level rs := by
  simp [inside, bracket]

theorem inside_bracket_end (d : Nat) (rs : List Record) :
    inside 0 (bracket 3 d :: rs) = [] := by
  simp [inside, bracket]

theorem inside_other (level : Nat) (r : Record) (rs : List Record) (h3 : r.type ≠ 3)
    (h2 : r.type ≠ 2) : inside level (r :: rs) = r :: inside level rs := by
  simp [inside, h3, h2]

/-- Scanning for the matching END_OF_DIRECTORY passes over whole groups. -/
theorem inside_isGroups {d : Nat} {recs : List Record} (h : IsGroups d recs) :
    ∀ (level : Nat) (rest : List Record),
      inside level (recs ++ rest) = recs ++ inside level rest := by
  induction h with
  | nil => intro level rest; rfl
  | dir _ _ _ ihsub ihrest =>
    intro level rest
    simp only [List.cons_append, List.append_assoc, List.nil_append]
    rw [inside_other _ _ _ (by simp [entryOf]) (by simp [entryOf]), inside_bracket_open, ihsub,
      inside_bracket_close, ihrest]
  | file _ _ _ ihrest =>
    intro level rest
    simp only [List.cons_append]
    rw [inside_other _ _ _ (by simp [entryOf]) (by simp [entryOf]),
      inside_other _ _ _ (by simp) (by simp), ihrest]



theorem depthLawIn_nil : DepthLawIn [] := by
  intro pre s post h
  simp at h

theorem depthLawIn_single (r : Record) (hr : r.type ≠ 2) : DepthLawIn [r] := by
  intro pre s post h hs
  cases pre with
  | nil =>
    simp only [List.nil_append, List.cons.injEq] at h
    rw [h.1] at hr
    exact absurd hs hr
  | cons a pre' =>
    simp only [List.cons_append, List.cons.injEq] at h
    have := h.2
    simp at this

theorem depthLawIn_append {xs ys : List Record} (hx : DepthLawIn xs) (hy : DepthLawIn ys) :
    DepthLawIn (xs ++ ys) := by
  intro pre s post h hs cont
  rcases List.append_eq_append_iff.1 h with ⟨a', hpre, hys⟩ | ⟨c', hxs, hsp⟩
  · exact hy a' s post hys hs cont
  · cases c' with
    | nil =>
      simp only [List.nil_append] at hsp
      exact hy [] s post hsp.symm hs cont
    | cons c c'' =>
      simp only [List.cons_append, List.cons.injEq] at hsp
      obtain ⟨rfl, rfl⟩ := hsp
      have := hx pre s c'' hxs hs (ys ++ cont)
      rwa [← List.append_assoc] at this

/-- The depth law inside `DIR(d)`, given the law inside its groups. -/
theorem depthLawIn_block {d : Nat} {groups : List Record} (hg : IsGroups d groups)
    (hlaw : DepthLawIn groups) : DepthLawIn (bracket 2 d :: (groups ++ [bracket 3 d])) := by
  intro pre s post h hs cont
  cases pre with
  | nil =>
    simp only [List.nil_append, List.cons.injEq] at h
    obtain ⟨rfl, rfl⟩ := h
    have hin : inside 0 (groups ++ [bracket 3 d] ++ cont) = groups := by
      rw [List.append_assoc, inside_isGroups hg, List.singleton_append, inside_bracket_end,
        List.append_nil]
    refine ⟨⟨cont, ?_⟩, ?_⟩
    · rw [hin]
      simp [bracket]
    · rw [hin]
      intro x hx
      exact (isGroups_types hg x hx).2.2
  | cons a pre' =>
    simp only [List.cons_append, List.cons.injEq] at h
    exact depthLawIn_append hlaw (depthLawIn_single _ (by simp [bracket])) pre' s post h.2 hs cont

theorem depthLawIn_cons {r : Record} {rs : List Record} (hr : r.type ≠ 2)
    (h : DepthLawIn rs) : DepthLawIn (r :: rs) :=
  depthLawIn_append (depthLawIn_single r hr) h

/-- The depth law inside a sequence of groups. -/
theorem depthLawIn_groups {d : Nat} {recs : List Record} (h : IsGroups d recs) :
    DepthLawIn recs := by
  induction h with
  | nil => exact depthLawIn_nil
  | dir _ hsub _ ihsub ihrest =>
    exact depthLawIn_cons (by simp [entryOf])
      (depthLawIn_append (depthLawIn_block hsub ihsub) ihrest)
  | file _ _ _ ihrest =>
    exact depthLawIn_cons (by simp [entryOf]) (depthLawIn_cons (by simp) ihrest)

/-- The depth law in a valid stream. -/
theorem depthLawIn_stream {recs : List Record} (h : IsStream recs) : DepthLawIn recs := by
  obtain ⟨body, ⟨groups, hg, rfl⟩, rfl⟩ := h
  have h1 := depthLawIn_single (bracket 1 0) (by simp [bracket])
  have hb := depthLawIn_block hg (depthLawIn_groups hg)
  exact depthLawIn_cons (by simp [bracket]) (depthLawIn_append hb h1)



/-- C3: the output of every successful `serialize` is the byte sequence of a
valid stream of records: START_OF_TRANSMISSION (depth 0, size 16), `DIR(1)`,
END_OF_TRANSMISSION (depth 0, size 16), with `DIR(d)` = START_OF_DIRECTORY(d),
groups, END_OF_DIRECTORY(d) and a group a DIRECTORY_ENTRY at depth `d` followed
by `DIR(d + 1)` for a directory or by one FILE_DATA record at depth `d` for a
regular file; the transmission markers are the first and the last record and
occur once each. -/
theorem serialize_valid_stream (PATH_MAX : Nat) (hPM : PATH_MAX ≤ 2147483620) (fuel : Nat)
    (st st' : State) (h : serialize PATH_MAX fuel st = some (0, st')) :
    ∃ recs, st'.stdout = st.stdout ++ streamBytes recs ∧ IsStream recs ∧
      recs.head? = some (bracket 0 0) ∧ recs.getLast? = some (bracket 1 0) ∧
      recs.countP (fun r => r.type == 0) = 1 ∧ recs.countP (fun r => r.type == 1) = 1 := by
  obtain ⟨recs, hs, hout⟩ := serialize_records PATH_MAX hPM fuel st st' h
  refine ⟨recs, hout, hs, ?_⟩
  obtain ⟨body, hbody, rfl⟩ := hs
  have hty := isDir_types hbody
  have h0 : body.countP (fun r => r.type == 0) = 0 := by
    rw [List.countP_eq_zero]
    intro r hr
    have := hty r hr
    simp only [beq_iff_eq]
    omega
  have h1 : body.countP (fun r => r.type == 1) = 0 := by
    rw [List.countP_eq_zero]
    intro r hr
    have := hty r hr
    simp only [beq_iff_eq]
    omega
  refine ⟨rfl, ?_, ?_, ?_⟩
  · rw [← List.cons_append, List.getLast?_append]
    rfl
  · simp [List.countP_cons, List.countP_append, h0, bracket]
  · simp [List.countP_cons, List.countP_append, h1, bracket]

set_option maxRecDepth 1000000 in
/-- Witness of C3: the run on the reference tree. -/
theorem serialize_valid_stream_witness :
    4096 ≤ 2147483620 ∧
    serialize 4096 3 (serializeStart (referenceTree 0o775 0o664)) = some (0, referenceDone) ∧
    ∃ recs, referenceDone.stdout =
        (serializeStart (referenceTree 0o775 0o664)).stdout ++ streamBytes recs ∧ IsStream recs ∧
      recs.head? = some (bracket 0 0) ∧ recs.getLast? = some (bracket 1 0) ∧
      recs.countP (fun r => r.type == 0) = 1 ∧ recs.countP (fun r => r.type == 1) = 1 :=
  ⟨by decide, by rfl,
    serialize_valid_stream 4096 (by decide) 3 (serializeStart (referenceTree 0o775 0o664))
      referenceDone (by rfl)⟩

set_option maxRecDepth 1000000 in
/-- C4 as stated fails: for a base directory that holds `a`, which holds the
empty directory `b`, the START_OF_DIRECTORY at depth 3 lies between the
START_OF_DIRECTORY at depth 1 and its matching END_OF_DIRECTORY. -/
theorem depth_law_fails_three_levels :
    serialize 4096 4 (serializeStart nestedTree) = some (0, nestedDone) ∧
    nestedDone.stdout = streamBytes nestedRecords ∧
    IsStream nestedRecords ∧
    nestedRecords = [bracket 0 0] ++ bracket 2 1 :: nestedRecords.drop 2 ∧
    bracket 2 3 ∈ inside 0 (nestedRecords.drop 2) ∧
    ¬ ((bracket 2 3).depth = (bracket 2 1).depth ∨ (bracket 2 3).depth = (bracket 2 1).depth + 1) := by
  refine ⟨by rfl, by decide, ?_, by decide, by decide, by decide⟩
  refine ⟨[bracket 2 1, entryOf 1 0o40755 4096 [97], bracket 2 2, entryOf 2 0o40755 4096 [98],
      bracket 2 3, bracket 3 3, bracket 3 2, bracket 3 1],
    ⟨[entryOf 1 0o40755 4096 [97], bracket 2 2, entryOf 2 0o40755 4096 [98], bracket 2 3,
      bracket 3 3, bracket 3 2], ?_, rfl⟩, rfl⟩
  exact @IsGroups.dir 1 0o40755 4096 [97] [entryOf 2 0o40755 4096 [98], bracket 2 3, bracket 3 3] []
    (by decide)
    (@IsGroups.dir 2 0o40755 4096 [98] [] [] (by decide) IsGroups.nil IsGroups.nil) IsGroups.nil

/-- C4 (amended): in the stream written by a successful `serialize`, every
START_OF_DIRECTORY at depth `d` is followed by its matching END_OF_DIRECTORY at
depth `d`, and every record between the two has depth at least `d`. -/
theorem serialize_depth_law (PATH_MAX : Nat) (hPM : PATH_MAX ≤ 2147483620) (fuel : Nat)
    (st st' : State) (h : serialize PATH_MAX fuel st = some (0, st')) :
    ∃ recs, st'.stdout = st.stdout ++ streamBytes recs ∧ IsStream recs ∧
      ∀ pre s post, recs = pre ++ s :: post → s.type = 2 →
        (∃ rest, post = inside 0 post ++ bracket 3 s.depth :: rest) ∧
          ∀ x ∈ inside 0 post, s.depth ≤ x.depth := by
  obtain ⟨recs, hs, hout⟩ := serialize_records PATH_MAX hPM fuel st st' h
  refine ⟨recs, hout, hs, ?_⟩
  intro pre s post hsplit htype
  have := depthLawIn_stream hs pre s post hsplit htype []
  simpa [DepthLaw] using this

set_option maxRecDepth 1000000 in
/-- Witness of C4 (amended): the run on the three-level tree. -/
theorem serialize_depth_law_witness :
    4096 ≤ 2147483620 ∧
    serialize 4096 4 (serializeStart nestedTree) = some (0, nestedDone) ∧
    ∃ recs, nestedDone.stdout = (serializeStart nestedTree).stdout ++ streamBytes recs ∧
      IsStream recs ∧
      ∀ pre s post, recs = pre ++ s :: post → s.type = 2 →
        (∃ rest, post = inside 0 post ++ bracket 3 s.depth :: rest) ∧
          ∀ x ∈ inside 0 post, s.depth ≤ x.depth :=
  ⟨by decide, by rfl,
    serialize_depth_law 4096 (by decide) 4 (serializeStart nestedTree) nestedDone (by rfl)⟩



set_option maxRecDepth 1000000 in
/-- C2 fails on the code: for a regular file of 2^31 - 16 bytes, `serialize_file`
succeeds and writes a FILE_DATA record of 2^31 bytes (16 header bytes and the
content) whose size field is `FF FF FF FF 80 00 00 00`, not the big-endian
encoding `00 00 00 00 80 00 00 00` of its length: `size + 16` is stored in an
`int` before it is written. -/
theorem file_data_size_field_wraps :
    (serialize_file 1 2147483632 bigFileState).1 = 0 ∧
    (serialize_file 1 2147483632 bigFileState).2.stdout =
      [0x0C, 0x0D, 0xED, 5, 0, 0, 0, 1, 0xFF, 0xFF, 0xFF, 0xFF, 0x80, 0, 0, 0]
        ++ List.replicate 2147483632 0 ∧
    ([0x0C, 0x0D, 0xED, 5, 0, 0, 0, 1, 0xFF, 0xFF, 0xFF, 0xFF, 0x80, 0, 0, 0]
        ++ List.replicate 2147483632 0).length = 2147483648 ∧
    bigEndian64 2147483648 = [0, 0, 0, 0, 0x80, 0, 0, 0] := by
  have hfile : bigFileState.fs.lookup bigFileState.path
      = some (.file 0o644 (List.replicate 2147483632 0)) := by rfl
  have hlen : ((List.replicate 2147483632 0 : List Nat).length : Int) = 2147483632 := by
    rw [List.length_replicate]; rfl
  have h := serialize_file_whole 1 bigFileState 0o644 (List.replicate 2147483632 0) hfile
  rw [hlen] at h
  have hmap : (List.replicate 2147483632 0).map (fun c => c % 256) = List.replicate 2147483632 0 := by
    rw [List.map_replicate]
  have hout : bigFileState.stdout = [] := by rfl
  have hhdr : header 5 (toUInt32 1) (toUInt64 (toInt32 ((2147483632 : Int) + 16)))
      = [0x0C, 0x0D, 0xED, 5, 0, 0, 0, 1, 0xFF, 0xFF, 0xFF, 0xFF, 0x80, 0, 0, 0] := by decide
  refine ⟨by rw [h], ?_, ?_, by decide⟩
  · rw [h]
    simp only [put_stdout, log_stdout, hmap, hout, hhdr, List.nil_append]
  · rw [List.length_append, List.length_replicate]
    rfl



theorem cstr_append_nul (p tail : List Nat) (h : ∀ c ∈ p, c ≠ 0) : cstr (p ++ 0 :: tail) = p := by
  induction p with
  | nil => simp [cstr]
  | cons c cs ih =>
    have hc : c ≠ 0 := h c (List.mem_cons_self _ _)
    have := ih (fun x hx => h x (List.mem_cons_of_mem _ hx))
    simp only [cstr] at this ⊢
    simp [List.takeWhile_cons, hc, this]

/-- The operating system reads from the path buffer the string it holds. -/
theorem PathIs.path {PATH_MAX : Nat} {st : State} {p : List Nat} (h : PathIs PATH_MAX st p) :
    st.path = p := by
  obtain ⟨tail, hbuf, _, hnul, _⟩ := h
  rw [State.path, hbuf, cstr_append_nul p tail hnul]

theorem set_at_length (pre : List Nat) (j c : Nat) (junk : List Nat) :
    (pre ++ j :: junk).set pre.length c = pre ++ c :: junk := by
  induction pre with
  | nil => rfl
  | cons a pre ih => simp [List.set, ih]

theorem getD_at_length (pre : List Nat) (j : Nat) (junk : List Nat) (dflt : Nat) :
    (pre ++ j :: junk).getD pre.length dflt = j := by
  induction pre with
  | nil => rfl
  | cons a pre ih => simpa [List.getD] using ih

/-- The copy loop copies a whole string that fits. -/
theorem copy_string_all (PATH_MAX : Nat) (name : List Nat) :
    ∀ (pre junk : List Nat), (∀ c ∈ name, c ≠ 0) → pre.length + name.length ≤ PATH_MAX - 1 →
      name.length ≤ junk.length →
      copy_string PATH_MAX name (pre ++ junk) pre.length =
        ([], pre ++ name ++ junk.drop name.length, pre.length + name.length) := by
  induction name with
  | nil => intro pre junk _ _ _; simp [copy_string]
  | cons c cs ih =>
    intro pre junk hnul hfit hjunk
    cases junk with
    | nil => simp at hjunk
    | cons j junk' =>
      have hc : c ≠ 0 := hnul c (List.mem_cons_self _ _)
      have hlt : pre.length < PATH_MAX - 1 := by
        simp only [List.length_cons] at hfit
        omega
      rw [copy_string]
      simp only [hc, hlt, ne_eq, not_false_eq_true, and_self, if_true]
      rw [set_at_length]
      have := ih (pre ++ [c]) junk' (fun x hx => hnul x (List.mem_cons_of_mem _ hx))
        (by simp only [List.length_append, List.length_cons, List.length_nil] at hfit ⊢; omega)
        (by simpa using hjunk)
      simp only [List.append_assoc, List.singleton_append, List.length_append, List.length_cons,
        List.length_nil] at this
      rw [this]
      simp only [List.length_cons, List.drop_succ_cons, List.cons_append, List.append_assoc,
        Prod.mk.injEq, true_and]
      omega



/-- Function `path_init` on a string without NUL that fits: success, and the
buffer holds the string. -/
theorem path_init_good (PATH_MAX : Nat) (name : List Nat) (st : State)
    (hbuf : st.path_buf.length = PATH_MAX) (hnul : ∀ c ∈ name, c ≠ 0)
    (hfit : name.length < PATH_MAX) :
    ∃ buf, path_init PATH_MAX name st = (0, { st with path_buf := buf, path_length := name.length })
      ∧ PathIs PATH_MAX { st with path_buf := buf, path_length := name.length } name := by
  have hjunk : name.length ≤ st.path_buf.length := by omega
  have h := copy_string_all PATH_MAX name [] st.path_buf hnul (by simp; omega) hjunk
  simp only [List.nil_append, List.length_nil, Nat.zero_add] at h
  have hdrop : ∃ t tail, st.path_buf.drop name.length = t :: tail := by
    cases hd : st.path_buf.drop name.length with
    | nil =>
      have := congrArg List.length hd
      simp only [List.length_drop, List.length_nil] at this
      omega
    | cons t tail => exact ⟨t, tail, rfl⟩
  obtain ⟨t, tail, hd⟩ := hdrop
  refine ⟨name ++ 0 :: tail, ?_, ⟨tail, rfl, rfl, hnul, ?_⟩⟩
  · simp only [path_init, h, deref, List.headD_nil, ne_eq, not_true_eq_false, if_false, hd,
      set_at_length]
  · have := congrArg List.length hd
    simp only [List.length_drop, List.length_cons] at this
    simp only [List.length_append, List.length_cons]
    omega

theorem getD_last (p : List Nat) (hp : p ≠ []) (rest : List Nat) (dflt : Nat) :
    (p ++ rest).getD (p.length - 1) dflt = p.getLast hp := by
  induction p with
  | nil => exact absurd rfl hp
  | cons a p ih =>
    cases p with
    | nil => simp [List.getD]
    | cons b p' =>
      have := ih (by simp)
      simp only [List.length_cons, Nat.add_sub_cancel, List.cons_append, List.getLast_cons_cons] at *
      simpa [List.getD] using this

/-- Function `path_push` of a component without NUL and `/` that fits, onto a
non-empty path that does not end in `/`: success, and the buffer holds the path,
a `/` and the component. -/
theorem path_push_good (PATH_MAX : Nat) (name : List Nat) (st : State) (p : List Nat)
    (hp : PathIs PATH_MAX st p) (hne : p ≠ []) (hlast : p.getLast hne ≠ 47)
    (hname : ∀ c ∈ name, c ≠ 0 ∧ c ≠ 47) (hfit : p.length + 1 + name.length < PATH_MAX) :
    ∃ buf, path_push PATH_MAX name st =
        (0, { st with path_buf := buf, path_length := p.length + 1 + name.length })
      ∧ PathIs PATH_MAX { st with path_buf := buf, path_length := p.length + 1 + name.length }
          (p ++ 47 :: name) := by
  obtain ⟨tail, hbuf, hlen, hnul, hsize⟩ := hp
  have hc : cstr name = name := cstr_of_no_nul name (fun c hc => (hname c hc).1)
  have h47 : 47 ∉ cstr name := by
    rw [hc]
    intro h
    exact (hname 47 h).2 rfl
  have hscan : scan_component name 0 = some name.length := by
    rw [scan_component_eq, if_neg h47, hc, Nat.zero_add]
  have htail : name.length < tail.length := by
    rw [hbuf] at hsize
    simp only [List.length_append, List.length_cons] at hsize
    omega
  have hlen0 : st.path_length > 0 := by
    rw [hlen]
    exact List.length_pos.2 hne
  have hsep : st.path_buf.getD (st.path_length - 1) 0 ≠ 47 := by
    rw [hbuf, hlen, getD_last p hne]
    exact hlast
  have hroom : st.path_length < PATH_MAX - 1 := by omega
  have hnot : ¬ (st.path_length + 1 + name.length ≥ PATH_MAX) := by omega
  have hset : st.path_buf.set st.path_length 47 = (p ++ [47]) ++ tail := by
    rw [hbuf, hlen, set_at_length]
    simp
  have hcopy := copy_string_all PATH_MAX name (p ++ [47]) tail (fun c hc => (hname c hc).1)
    (by simp only [List.length_append, List.length_cons, List.length_nil]; omega) (by omega)
  obtain ⟨t, tail', hd⟩ : ∃ t tail', tail.drop name.length = t :: tail' := by
    cases hd : tail.drop name.length with
    | nil =>
      have := congrArg List.length hd
      simp only [List.length_drop, List.length_nil] at this
      omega
    | cons t tail' => exact ⟨t, tail', rfl⟩
  have hdest : (p ++ [47]).length = st.path_length + 1 := by simp [hlen]
  rw [hdest] at hcopy
  refine ⟨p ++ 47 :: name ++ 0 :: tail', ?_, ⟨tail', by simp, by simp; omega, ?_, ?_⟩⟩
  · simp only [path_push, hscan, hnot, if_false, hlen0, hsep, ne_eq, not_false_eq_true, and_self,
      if_true, hroom, push_copy, hset, hcopy, deref, List.headD_nil, not_true_eq_false, hd]
    have : (p ++ [47] ++ name ++ t :: tail').set (st.path_length + 1 + name.length) 0
        = p ++ 47 :: name ++ 0 :: tail' := by
      have := set_at_length (p ++ [47] ++ name) t 0 tail'
      simp only [List.length_append, List.length_cons, List.length_nil, ← hlen] at this
      rw [show st.path_length + 1 + name.length = st.path_length + (0 + 1) + name.length by omega,
        this]
      simp
    rw [this, hlen]
  · intro c hcm
    simp only [List.mem_append, List.mem_cons] at hcm
    rcases hcm with h | h | h
    · exact hnul c h
    · rw [h]; decide
    · exact (hname c h).1
  · have := congrArg List.length hd
    simp only [List.length_drop, List.length_cons] at this
    rw [hbuf] at hsize
    simp only [List.length_append, List.length_cons] at hsize ⊢
    omega



/-- The backward search of `path_pop` finds the `/` before a last component
that has none. -/
theorem find_slash_last (p : List Nat) (name : List Nat) :
    ∀ rest : List Nat, 47 ∉ name →
      find_slash (p ++ 47 :: name ++ rest) (p.length + 1 + name.length) = some p.length := by
  induction name using List.reverseRecOn with
  | nil =>
    intro rest _
    simp only [List.length_nil, Nat.add_zero, find_slash, List.append_assoc, List.cons_append,
      List.nil_append, getD_at_length, if_true]
  | append_singleton init l ih =>
    intro rest h47
    have hl : l ≠ 47 := by
      intro h
      apply h47
      simp [h]
    have hinit : 47 ∉ init := by
      intro h
      apply h47
      simp [h]
    have hlen : p.length + 1 + (init ++ [l]).length = (p.length + 1 + init.length) + 1 := by
      simp only [List.length_append, List.length_cons, List.length_nil]
      omega
    have hbuf : p ++ 47 :: (init ++ [l]) ++ rest = (p ++ 47 :: init) ++ l :: rest := by simp
    rw [hlen, find_slash, hbuf]
    have hidx : p.length + 1 + init.length = (p ++ 47 :: init).length := by
      simp only [List.length_append, List.length_cons]
      omega
    rw [hidx, getD_at_length, if_neg hl, ← hidx]
    have := ih (l :: rest) hinit
    simpa using this

/-- Function `path_pop` after a push: success, and the buffer holds the path
without its last component. -/
theorem path_pop_good (PATH_MAX : Nat) (name : List Nat) (st : State) (p : List Nat)
    (hp : PathIs PATH_MAX st (p ++ 47 :: name)) (h47 : 47 ∉ name) :
    ∃ buf, path_pop st = (0, { st with path_buf := buf, path_length := p.length })
      ∧ PathIs PATH_MAX { st with path_buf := buf, path_length := p.length } p := by
  obtain ⟨tail, hbuf, hlen, hnul, hsize⟩ := hp
  have hlen' : st.path_length = p.length + 1 + name.length := by
    rw [hlen]
    simp only [List.length_append, List.length_cons]
    omega
  have hne : ¬ (st.path_length = 0) := by omega
  have hfind : find_slash st.path_buf st.path_length = some p.length := by
    rw [hbuf, hlen']
    have := find_slash_last p name (0 :: tail) h47
    simpa using this
  have hset : st.path_buf.set p.length 0 = p ++ 0 :: (name ++ 0 :: tail) := by
    rw [hbuf]
    have := set_at_length p 47 0 (name ++ 0 :: tail)
    simp [this]
  refine ⟨p ++ 0 :: (name ++ 0 :: tail), ?_, ⟨name ++ 0 :: tail, rfl, rfl, ?_, ?_⟩⟩
  · simp only [path_pop, hne, if_false, hfind, hset]
  · intro c hc
    exact hnul c (by simp [hc])
  · rw [← hsize, hbuf]
    simp

/-- Function `path_pop` on a non-empty path returns 0. -/
theorem path_pop_nonempty (st : State) (h : st.path_length ≠ 0) : (path_pop st).1 = 0 := by
  unfold path_pop
  rw [if_neg h]
  split <;> rfl



theorem splitPath_ne_nil (l : List Nat) : splitPath l ≠ [] := by
  cases l with
  | nil => simp [splitPath]
  | cons c cs =>
    rw [splitPath]
    split
    · simp
    · split <;> simp

theorem splitPath_single (n : List Nat) (h : 47 ∉ n) : splitPath n = [n] := by
  induction n with
  | nil => rfl
  | cons c cs ih =>
    have hc : c ≠ 47 := by
      intro hc
      apply h
      simp [hc]
    have hcs : 47 ∉ cs := by
      intro hcs
      apply h
      simp [hcs]
    rw [splitPath, if_neg hc, ih hcs]

theorem splitPath_push (p n : List Nat) (h : 47 ∉ n) :
    splitPath (p ++ 47 :: n) = splitPath p ++ [n] := by
  induction p with
  | nil => simp [splitPath, splitPath_single n h]
  | cons c cs ih =>
    by_cases hc : c = 47
    · simp [splitPath, hc, ih]
    · cases hs : splitPath cs with
      | nil => exact absurd hs (splitPath_ne_nil cs)
      | cons w ws =>
        rw [hs] at ih
        show splitPath (c :: (cs ++ 47 :: n)) = splitPath (c :: cs) ++ [n]
        rw [splitPath, if_neg hc, ih, splitPath, if_neg hc, hs]
        rfl

/-- Resolution of a path extended by one ordinary component. -/
theorem normalize_push (p n : List Nat) (h47 : 47 ∉ n) (hne : n ≠ []) (hdot : n ≠ [46])
    (hdots : n ≠ [46, 46]) : normalize (p ++ 47 :: n) = normalize p ++ [n] := by
  simp only [normalize, splitPath_push p n h47, List.foldl_append, List.foldl_cons, List.foldl_nil,
    resolveStep, hne, hdot, hdots, or_self, if_false]



theorem lookup_setEntry (es : List (Name × Node)) (c : Name) (v : Node) :
    (es.lookup c).isSome → (setEntry es c v).lookup c = some v := by
  induction es with
  | nil => simp
  | cons e es ih =>
    obtain ⟨n, x⟩ := e
    intro h
    by_cases hn : n = c
    · subst hn
      simp [setEntry, List.lookup_cons]
    · have hcn : (c == n) = false := by simp [Ne.symm hn]
      simp only [List.lookup_cons, hcn] at h
      simp only [setEntry, hn, if_false, List.lookup_cons, hcn]
      exact ih h

theorem setEntry_setEntry (es : List (Name × Node)) (c : Name) (a b : Node) :
    setEntry (setEntry es c a) c b = setEntry es c b := by
  induction es with
  | nil => rfl
  | cons e es ih =>
    obtain ⟨n, x⟩ := e
    by_cases hn : n = c
    · simp [setEntry, hn]
    · simp [setEntry, hn, ih]

theorem setEntry_self (es : List (Name × Node)) (c : Name) (ch : Node) :
    es.lookup c = some ch → setEntry es c ch = es := by
  induction es with
  | nil => simp
  | cons e es ih =>
    obtain ⟨n, x⟩ := e
    intro h
    by_cases hn : n = c
    · subst hn
      simp only [List.lookup_cons, beq_self_eq_true, Option.some.injEq] at h
      simp [setEntry, h]
    · have hcn : (c == n) = false := by simp [Ne.symm hn]
      simp only [List.lookup_cons, hcn] at h
      simp [setEntry, hn, ih h]

theorem lookup_none_of_new (es : List (Name × Node)) (n : Name) (h : ∀ e ∈ es, e.1 ≠ n) :
    es.lookup n = none := by
  induction es with
  | nil => rfl
  | cons e es ih =>
    obtain ⟨m, x⟩ := e
    have hm : m ≠ n := h (m, x) (List.mem_cons_self _ _)
    have hnm : (n == m) = false := by simp [Ne.symm hm]
    simp only [List.lookup_cons, hnm]
    exact ih (fun e he => h e (List.mem_cons_of_mem _ he))

theorem lookup_append_new (pre : List (Name × Node)) (n : Name) (y : Node)
    (rest : List (Name × Node)) (h : ∀ e ∈ pre, e.1 ≠ n) :
    (pre ++ (n, y) :: rest).lookup n = some y := by
  induction pre with
  | nil => simp [List.lookup_cons]
  | cons e es ih =>
    obtain ⟨m, x⟩ := e
    have hm : m ≠ n := h (m, x) (List.mem_cons_self _ _)
    have hnm : (n == m) = false := by simp [Ne.symm hm]
    simp only [List.cons_append, List.lookup_cons, hnm]
    exact ih (fun e he => h e (List.mem_cons_of_mem _ he))

theorem setEntry_append_new (pre : List (Name × Node)) (n : Name) (y y' : Node)
    (h : ∀ e ∈ pre, e.1 ≠ n) : setEntry (pre ++ [(n, y)]) n y' = pre ++ [(n, y')] := by
  induction pre with
  | nil => simp [setEntry]
  | cons e es ih =>
    obtain ⟨m, x⟩ := e
    have hm : m ≠ n := h (m, x) (List.mem_cons_self _ _)
    simp only [List.cons_append, setEntry, hm, if_false, List.cons.injEq, true_and]
    exact ih (fun e he => h e (List.mem_cons_of_mem _ he))

/-- The identity context focuses on the root. -/
theorem focus_root : Focus id [] :=
  { get := fun _ _ => rfl
    update := fun x rel f => by simp }

/-- Every node of a tree is in the focus of some context. -/
theorem focus_exists (q : List Name) : ∀ (root x : Node), Node.get root q = some x →
    ∃ C, Focus C q ∧ C x = root := by
  induction q with
  | nil =>
    intro root x h
    simp only [Node.get, Option.some.injEq] at h
    exact ⟨id, focus_root, h.symm⟩
  | cons c cs ih =>
    intro root x h
    cases root with
    | file p content => simp [Node.get] at h
    | fifo p => simp [Node.get] at h
    | dir p s es =>
      simp only [Node.get] at h
      cases hl : es.lookup c with
      | none => simp [hl] at h
      | some ch =>
        simp only [hl] at h
        obtain ⟨C', hC', hx⟩ := ih ch x h
        refine ⟨fun y => .dir p s (setEntry es c (C' y)), ⟨?_, ?_⟩, ?_⟩
        · intro y rel
          rw [List.cons_append, Node.get, lookup_setEntry es c (C' y) (by simp [hl])]
          exact hC'.get y rel
        · intro y rel f
          rw [List.cons_append, Node.update, lookup_setEntry es c (C' y) (by simp [hl])]
          simp only [hC'.update]
          cases Node.update y rel f with
          | none => rfl
          | some y' => simp [setEntry_setEntry]
        · simp only [hx, setEntry_self es c ch hl]

/-- Descending into the last entry of the directory in focus. -/
theorem focus_child {C : Node → Node} {q : List Name} (hC : Focus C q) (p s : Nat)
    (pre : List (Name × Node)) (n : Name) (hnew : ∀ e ∈ pre, e.1 ≠ n) :
    Focus (fun y => C (.dir p s (pre ++ [(n, y)]))) (q ++ [n]) := by
  refine ⟨?_, ?_⟩
  · intro y rel
    rw [List.append_assoc, List.singleton_append, hC.get, Node.get,
      lookup_append_new pre n y [] hnew]
  · intro y rel f
    rw [List.append_assoc, List.singleton_append, hC.update, Node.update,
      lookup_append_new pre n y [] hnew]
    simp only
    cases h : Node.update y rel f with
    | none => rfl
    | some y' => simp [setEntry_append_new pre n y y' hnew]



theorem get_append (q : List Name) : ∀ (root : Node) (rel : List Name),
    Node.get root (q ++ rel) = (Node.get root q).bind (fun x => Node.get x rel) := by
  induction q with
  | nil => intro root rel; simp [Node.get]
  | cons c cs ih =>
    intro root rel
    cases root with
    | file p content => simp [Node.get]
    | fifo p => simp [Node.get]
    | dir p s es =>
      rw [List.cons_append, Node.get, Node.get]
      cases es.lookup c with
      | none => rfl
      | some ch => exact ih ch rel

/-- The node a child's path string names. -/
theorem lookup_child (fs : FileSys) (ps : List Nat) (n : Name) (p s : Nat)
    (all : List (Name × Node)) (hn : GoodName n)
    (hdir : fs.lookup ps = some (.dir p s all)) :
    fs.lookup (ps ++ 47 :: n) = all.lookup n := by
  have h47 : 47 ∉ n := fun h => (hn.2.2.2 47 h).2.1 rfl
  unfold FileSys.lookup at *
  rw [normalize_push ps n h47 hn.1 hn.2.1 hn.2.2.1, get_append, hdir]
  show Node.get (.dir p s all) [n] = all.lookup n
  rw [Node.get]
  cases all.lookup n with
  | none => rfl
  | some ch => simp [Node.get]

theorem good_not_dot (n : Name) (hn : GoodName n) : is_dot_entry n = false := by
  obtain ⟨hne, hdot, hdots, hc⟩ := hn
  match n, hne, hdot, hdots, hc with
  | [], hne, _, _, _ => exact absurd rfl hne
  | [a], _, hdot, _, _ =>
    have : a ≠ 46 := fun h => hdot (by rw [h])
    simp [is_dot_entry, List.getD, this]
  | [a, b], _, _, hdots, hc =>
    have hb : b ≠ 0 := (hc b (by simp)).1
    by_cases ha : a = 46
    · have : b ≠ 46 := fun h => hdots (by rw [ha, h])
      simp [is_dot_entry, List.getD, this, hb]
    · simp [is_dot_entry, List.getD, ha]
  | a :: b :: c :: rest, _, _, _, hc =>
    have hb : b ≠ 0 := (hc b (by simp)).1
    have hcc : c ≠ 0 := (hc c (by simp)).1
    simp [is_dot_entry, List.getD, hb, hcc]

theorem good_name_chars (n : Name) (hn : GoodName n) : ∀ c ∈ n, c ≠ 0 ∧ c ≠ 47 :=
  fun c hc => ⟨(hn.2.2.2 c hc).1, (hn.2.2.2 c hc).2.1⟩

theorem getLast?_push (ps n : List Nat) (hn : GoodName n) :
    (ps ++ 47 :: n).getLast? ≠ some 47 := by
  have hne : n ≠ [] := hn.1
  rw [show ps ++ 47 :: n = (ps ++ [47]) ++ n by simp, List.getLast?_append_of_ne_nil _ hne,
    List.getLast?_eq_getLast _ hne]
  intro h
  simp only [Option.some.injEq] at h
  have := (hn.2.2.2 _ (List.getLast_mem hne)).2.1
  exact this h

theorem getLast_of_getLast? (ps : List Nat) (hne : ps ≠ []) (h : ps.getLast? ≠ some 47) :
    ps.getLast hne ≠ 47 := by
  intro h'
  apply h
  rw [List.getLast?_eq_getLast _ hne, h']



/-- Pushing the name of an entry: success, and the other parts of the state are
unchanged. -/
theorem push_entry (PATH_MAX : Nat) (st : State) (ps : List Nat) (n : Name)
    (hp : PathIs PATH_MAX st ps) (hne : ps ≠ []) (hlast : ps.getLast? ≠ some 47)
    (hn : GoodName n) (hfit : ps.length + 1 + n.length < PATH_MAX) :
    ∃ st1, path_push PATH_MAX n st = (0, st1) ∧ PathIs PATH_MAX st1 (ps ++ 47 :: n) ∧
      st1.fs = st.fs ∧ st1.stdout = st.stdout ∧ st1.stdin = st.stdin ∧
      st1.global_options = st.global_options := by
  obtain ⟨buf, h, hp'⟩ := path_push_good PATH_MAX n st ps hp hne
    (getLast_of_getLast? ps hne hlast) (good_name_chars n hn) hfit
  exact ⟨_, h, hp', rfl, rfl, rfl, rfl⟩

/-- Popping the name of an entry: success, and the other parts of the state are
unchanged. -/
theorem pop_entry (PATH_MAX : Nat) (st : State) (ps : List Nat) (n : Name)
    (hp : PathIs PATH_MAX st (ps ++ 47 :: n)) (hn : GoodName n) :
    ∃ st1, path_pop st = (0, st1) ∧ PathIs PATH_MAX st1 ps ∧
      st1.fs = st.fs ∧ st1.stdout = st.stdout ∧ st1.stdin = st.stdin ∧
      st1.global_options = st.global_options := by
  have h47 : 47 ∉ n := fun h => (hn.2.2.2 47 h).2.1 rfl
  obtain ⟨buf, h, hp'⟩ := path_pop_good PATH_MAX n st ps hp h47
  exact ⟨_, h, hp', rfl, rfl, rfl, rfl⟩

theorem PathIs.put {PATH_MAX : Nat} {st : State} {p : List Nat} (h : PathIs PATH_MAX st p)
    (b : List Nat) : PathIs PATH_MAX (st.put b) p := h

theorem PathIs.log {PATH_MAX : Nat} {st : State} {p : List Nat} (h : PathIs PATH_MAX st p)
    (c : Call) : PathIs PATH_MAX (st.log c) p := h

/-- Pushing a good name onto a path and popping it again, when the push leaves
`ps/n`. -/
theorem pushPop_of_pushesTo (PATH_MAX : Nat) (n : Name) (st : State) (ps : List Nat)
    (h : PushesTo PATH_MAX n st ps) (hn : GoodName n) :
    PushPop PATH_MAX n st (ps ++ 47 :: n) ps := by
  obtain ⟨st1, hpush, hp1, hfs1, hout1, _, _⟩ := h
  refine ⟨⟨st1, hpush, hp1, hfs1, hout1⟩, ?_⟩
  intro st3 hp3
  obtain ⟨st4, hpop, hp4, hfs4, hout4, _, _⟩ := pop_entry PATH_MAX st3 ps n hp3 hn
  exact ⟨st4, hpop, hp4, hfs4, hout4⟩

/-- One turn of the entry loop of `serialize_directory` for a regular file, when
`path_push` leaves the path `pp` that names the file and `path_pop` then
leaves the path `ps`. -/
theorem serialize_entries_file_at (PATH_MAX : Nat)
    (recurse : Int → State → Option (Int × State))
    (d : Nat) (n : Name) (names : List Name) (st : State) (pp ps : List Nat)
    (perm : Nat) (content : List Nat)
    (hpp : PushPop PATH_MAX n st pp ps) (hn : GoodName n)
    (hlookpp : st.fs.lookup pp = some (.file perm content)) :
    ∃ st', serialize_entries PATH_MAX recurse d (n :: names) st =
        serialize_entries PATH_MAX recurse d names st' ∧
      st'.stdout = st.stdout ++ encodeNode d n (.file perm content) ∧
      PathIs PATH_MAX st' ps ∧ st'.fs = st.fs := by
  obtain ⟨⟨st1, hpush, hp1, hfs1, hout1⟩, hpopper⟩ := hpp
  have hlook : st1.fs.lookup st1.path = some (.file perm content) := by
    rw [hp1.path, hfs1]
    exact hlookpp
  have hstat : sys_stat st1 = (some (Node.file perm content).stat, st1.log (.stat st1.path)) := by
    simp only [sys_stat, FileSys.stat, hlook, Option.map_some']
  have hsize : (Node.file perm content).stat.st_size = (content.length : Int) := rfl
  have hreg : S_ISREG (Node.file perm content).stat.st_mode = true := isreg_file perm
  have hndir : S_ISDIR (Node.file perm content).stat.st_mode = false := isdir_file perm
  have hfile : ((st1.log (.stat st1.path)).put
        (entry_record (d : Int) n (Node.file perm content).stat)).fs.lookup
      ((st1.log (.stat st1.path)).put
        (entry_record (d : Int) n (Node.file perm content).stat)).path
      = some (.file perm content) := hlook
  have hp3 : PathIs PATH_MAX (((((st1.log (.stat st1.path)).put
      (entry_record (d : Int) n (Node.file perm content).stat)).put
      (header 5 (toUInt32 (d : Int)) (toUInt64 (toInt32 ((content.length : Int) + 16))))).log
      (.fopen ((st1.log (.stat st1.path)).put
        (entry_record (d : Int) n (Node.file perm content).stat)).path false)).put
      (content.map (fun c => c % 256))) pp := hp1
  obtain ⟨st4, hpop, hp4, hfs4, hout4⟩ := hpopper _ hp3
  refine ⟨st4, ?_, ?_, hp4, ?_⟩
  · have h01 : ¬ ((0 : Int) = -1) := by decide
    simp only [serialize_entries, good_not_dot n hn, Bool.false_eq_true, if_false, hpush, h01,
      hstat, hndir, hreg, if_true, hsize, serialize_file_whole (d : Int) _ perm content hfile,
      hpop]
  · rw [hout4]
    simp only [put_stdout, log_stdout, hout1, encodeNode, List.append_assoc]
  · rw [hfs4]
    exact hfs1

/-- One turn of the entry loop of `serialize_directory` for a regular file. -/
theorem serialize_entries_file (PATH_MAX : Nat) (recurse : Int → State → Option (Int × State))
    (d : Nat) (n : Name) (names : List Name) (st : State) (ps : List Nat) (p s : Nat)
    (all : List (Name × Node)) (perm : Nat) (content : List Nat)
    (hp : PathIs PATH_MAX st ps) (hne : ps ≠ []) (hlast : ps.getLast? ≠ some 47)
    (hn : GoodName n) (hfit : ps.length + 1 + n.length < PATH_MAX)
    (hdir : st.fs.lookup ps = some (.dir p s all))
    (hx : all.lookup n = some (.file perm content)) :
    ∃ st', serialize_entries PATH_MAX recurse d (n :: names) st =
        serialize_entries PATH_MAX recurse d names st' ∧
      st'.stdout = st.stdout ++ encodeNode d n (.file perm content) ∧
      PathIs PATH_MAX st' ps ∧ st'.fs = st.fs :=
  serialize_entries_file_at PATH_MAX recurse d n names st (ps ++ 47 :: n) ps perm content
    (pushPop_of_pushesTo PATH_MAX n st ps (push_entry PATH_MAX st ps n hp hne hlast hn hfit) hn) hn
    (by rw [lookup_child st.fs ps n p s all hn hdir, hx])

/-- One turn of the entry loop of `serialize_directory` for a directory, given
the result of the recursive call, when `path_push` leaves the path `pp` that
names the directory and `path_pop` then leaves the path `ps`. -/
theorem serialize_entries_dir_at (PATH_MAX : Nat)
    (recurse : Int → State → Option (Int × State))
    (d : Nat) (n : Name) (names : List Name) (st : State) (pp ps : List Nat)
    (perm size : Nat) (sub : List (Name × Node))
    (hpp : PushPop PATH_MAX n st pp ps) (hn : GoodName n)
    (hlookpp : st.fs.lookup pp = some (.dir perm size sub)) :
    ∃ st3, PathIs PATH_MAX st3 pp ∧ st3.fs = st.fs ∧
      st3.stdout = st.stdout ++ entry_record (d : Int) n (Node.dir perm size sub).stat ∧
      ∀ st4, recurse ((d : Int) + 1) st3 = some (0, st4) → PathIs PATH_MAX st4 pp →
        ∃ st', serialize_entries PATH_MAX recurse d (n :: names) st =
            serialize_entries PATH_MAX recurse d names st' ∧
          st'.stdout = st4.stdout ∧ PathIs PATH_MAX st' ps ∧ st'.fs = st4.fs := by
  obtain ⟨⟨st1, hpush, hp1, hfs1, hout1⟩, hpopper⟩ := hpp
  have hlook : st1.fs.lookup st1.path = some (.dir perm size sub) := by
    rw [hp1.path, hfs1]
    exact hlookpp
  have hstat : sys_stat st1 = (some (Node.dir perm size sub).stat, st1.log (.stat st1.path)) := by
    simp only [sys_stat, FileSys.stat, hlook, Option.map_some']
  have hisdir : S_ISDIR (Node.dir perm size sub).stat.st_mode = true := isdir_dir perm
  refine ⟨(st1.log (.stat st1.path)).put (entry_record (d : Int) n (Node.dir perm size sub).stat),
    hp1, hfs1, by simp only [put_stdout, log_stdout, hout1], ?_⟩
  intro st4 hrec hp4
  obtain ⟨st5, hpop, hp5, hfs5, hout5⟩ := hpopper st4 hp4
  refine ⟨st5, ?_, hout5, hp5, hfs5⟩
  have h01 : ¬ ((0 : Int) = -1) := by decide
  simp only [serialize_entries, good_not_dot n hn, Bool.false_eq_true, if_false, hpush, h01,
    hstat, hisdir, if_true, hrec, hpop]

/-- One turn of the entry loop of `serialize_directory` for a directory, given
the result of the recursive call. -/
theorem serialize_entries_dir (PATH_MAX : Nat) (recurse : Int → State → Option (Int × State))
    (d : Nat) (n : Name) (names : List Name) (st : State) (ps : List Nat) (p s : Nat)
    (all : List (Name × Node)) (perm size : Nat) (sub : List (Name × Node))
    (hp : PathIs PATH_MAX st ps) (hne : ps ≠ []) (hlast : ps.getLast? ≠ some 47)
    (hn : GoodName n) (hfit : ps.length + 1 + n.length < PATH_MAX)
    (hdir : st.fs.lookup ps = some (.dir p s all))
    (hx : all.lookup n = some (.dir perm size sub)) :
    ∃ st3, PathIs PATH_MAX st3 (ps ++ 47 :: n) ∧ st3.fs = st.fs ∧
      st3.stdout = st.stdout ++ entry_record (d : Int) n (Node.dir perm size sub).stat ∧
      ∀ st4, recurse ((d : Int) + 1) st3 = some (0, st4) → PathIs PATH_MAX st4 (ps ++ 47 :: n) →
        ∃ st', serialize_entries PATH_MAX recurse d (n :: names) st =
            serialize_entries PATH_MAX recurse d names st' ∧
          st'.stdout = st4.stdout ∧ PathIs PATH_MAX st' ps ∧ st'.fs = st4.fs :=
  serialize_entries_dir_at PATH_MAX recurse d n names st (ps ++ 47 :: n) ps perm size sub
    (pushPop_of_pushesTo PATH_MAX n st ps (push_entry PATH_MAX st ps n hp hne hlast hn hfit) hn) hn
    (by rw [lookup_child st.fs ps n p s all hn hdir, hx])

/-- Function `serialize_directory` on a path that names a directory: the
START_OF_DIRECTORY record, the entry loop over its names, the END_OF_DIRECTORY
record. -/
theorem serialize_directory_open (PATH_MAX fuel : Nat) (depth : Int) (st : State)
    (ps : List Nat) (perm size : Nat) (sub : List (Name × Node))
    (hp : PathIs PATH_MAX st ps) (hlook : st.fs.lookup ps = some (.dir perm size sub)) :
    serialize_directory PATH_MAX (fuel + 1) depth st =
      match serialize_entries PATH_MAX (serialize_directory PATH_MAX fuel) depth
          (sub.map Prod.fst) ((st.put (header 2 (toUInt32 depth) 16)).log (.opendir ps)) with
      | none => none
      | some (r, st2) =>
        if r = -1 then some (-1, st2) else some (0, st2.put (header 3 (toUInt32 depth) 16)) := by
  have hpath : (st.put (header 2 (toUInt32 depth) 16)).path = ps := hp.path
  have hopen : sys_opendir (st.put (header 2 (toUInt32 depth) 16)) =
      (.ok ([46] :: [46, 46] :: sub.map Prod.fst),
        (st.put (header 2 (toUInt32 depth) 16)).log (.opendir ps)) := by
    simp only [sys_opendir, hpath, put_fs, FileSys.opendir, hlook]
  have hd1 : is_dot_entry [46] = true := by decide
  have hd2 : is_dot_entry [46, 46] = true := by decide
  simp only [serialize_directory, hopen, serialize_entries, hd1, hd2, if_true]

theorem good_lookup (PATH_MAX len d : Nat) : ∀ (entries : List (Name × Node)),
    GoodEntries PATH_MAX len d entries → ∀ e ∈ entries, entries.lookup e.1 = some e.2
  | [], _ => by intro e he; simp at he
  | (n, x) :: rest, hg => by
    intro e he
    simp only [GoodEntries] at hg
    obtain ⟨_, _, hnew, _, hrest⟩ := hg
    simp only [List.mem_cons] at he
    rcases he with rfl | he
    · simp [List.lookup_cons]
    · have hne : e.1 ≠ n := hnew e he
      have : (e.1 == n) = false := by simp [hne]
      simp only [List.lookup_cons, this]
      exact good_lookup PATH_MAX len d rest hrest e he



/-- The entry loop of `serialize_directory(d)` on a directory of good entries:
success, and the bytes written are the encoding of the entries. -/
theorem serialize_entries_good (PATH_MAX : Nat) :
    ∀ (entries : List (Name × Node)) (fuel d : Nat) (st : State) (ps : List Nat) (p s : Nat)
      (all : List (Name × Node)),
      heightEntries entries ≤ fuel → GoodEntries PATH_MAX ps.length d entries →
      PathIs PATH_MAX st ps → ps ≠ [] → ps.getLast? ≠ some 47 →
      st.fs.lookup ps = some (.dir p s all) →
      (∀ e ∈ entries, all.lookup e.1 = some e.2) →
      ∃ st', serialize_entries PATH_MAX (serialize_directory PATH_MAX fuel) d
          (entries.map Prod.fst) st = some (0, st') ∧
        st'.stdout = st.stdout ++ encodeEntries d entries ∧ PathIs PATH_MAX st' ps ∧
        st'.fs = st.fs
  | [], fuel, d, st, ps, p, s, all, _, _, hp, _, _, _, _ =>
    ⟨st, rfl, by simp [encodeEntries], hp, rfl⟩
  | (n, .file perm content) :: rest, fuel, d, st, ps, p, s, all, hh, hg, hp, hne, hlast, hdir,
      hall => by
    simp only [GoodEntries] at hg
    obtain ⟨hn, hfit, _, _, hgrest⟩ := hg
    have hx : all.lookup n = some (.file perm content) := hall (n, .file perm content) (by simp)
    obtain ⟨st1, hstep, hout1, hp1, hfs1⟩ := serialize_entries_file PATH_MAX
      (serialize_directory PATH_MAX fuel) d n (rest.map Prod.fst) st ps p s all perm content
      hp hne hlast hn hfit hdir hx
    have hh' : heightEntries rest ≤ fuel := by
      simp only [heightEntries] at hh
      omega
    obtain ⟨st', h', hout', hp', hfs'⟩ := serialize_entries_good PATH_MAX rest fuel d st1 ps p s
      all hh' hgrest hp1 hne hlast (by rw [hfs1]; exact hdir)
      (fun e he => hall e (List.mem_cons_of_mem _ he))
    refine ⟨st', ?_, ?_, hp', by rw [hfs', hfs1]⟩
    · rw [List.map_cons, hstep, h']
    · rw [hout', hout1, encodeEntries, List.append_assoc]
  | (n, .dir perm size sub) :: rest, fuel, d, st, ps, p, s, all, hh, hg, hp, hne, hlast, hdir,
      hall => by
    simp only [GoodEntries, GoodNode] at hg
    obtain ⟨hn, hfit, _, ⟨_, hgsub⟩, hgrest⟩ := hg
    have hx : all.lookup n = some (.dir perm size sub) := hall (n, .dir perm size sub) (by simp)
    simp only [heightEntries, heightNode] at hh
    obtain ⟨f, rfl⟩ : ∃ f, fuel = f + 1 := ⟨fuel - 1, by omega⟩
    have hhsub : heightEntries sub ≤ f := by omega
    have hhrest : heightEntries rest ≤ f + 1 := by omega
    obtain ⟨st3, hp3, hfs3, hout3, hcont⟩ := serialize_entries_dir PATH_MAX
      (serialize_directory PATH_MAX (f + 1)) d n (rest.map Prod.fst) st ps p s all perm size sub
      hp hne hlast hn hfit hdir hx
    have hlook3 : st3.fs.lookup (ps ++ 47 :: n) = some (.dir perm size sub) := by
      rw [hfs3, lookup_child st.fs ps n p s all hn hdir, hx]
    have hlen : (ps ++ 47 :: n).length = ps.length + 1 + n.length := by
      simp only [List.length_append, List.length_cons]
      omega
    obtain ⟨st4, h4, hout4, hp4, hfs4⟩ := serialize_entries_good PATH_MAX sub f (d + 1)
      ((st3.put (header 2 (toUInt32 ((d : Int) + 1)) 16)).log (.opendir (ps ++ 47 :: n)))
      (ps ++ 47 :: n) perm size sub hhsub (by rw [hlen]; exact hgsub) hp3 (by simp)
      (getLast?_push ps n hn) hlook3 (good_lookup PATH_MAX _ _ sub hgsub)
    have hrec : serialize_directory PATH_MAX (f + 1) ((d : Int) + 1) st3 =
        some (0, st4.put (header 3 (toUInt32 ((d : Int) + 1)) 16)) := by
      rw [serialize_directory_open PATH_MAX f _ st3 (ps ++ 47 :: n) perm size sub hp3 hlook3]
      have hcast : (((d + 1 : Nat) : Int)) = (d : Int) + 1 := by push_cast; rfl
      rw [hcast] at h4
      rw [h4]
      simp
    obtain ⟨st5, hstep, hout5, hp5, hfs5⟩ := hcont _ hrec hp4
    obtain ⟨st', h', hout', hp', hfs'⟩ := serialize_entries_good PATH_MAX rest (f + 1) d st5 ps p
      s all hhrest hgrest hp5 hne hlast
      (by rw [hfs5]; show st4.fs.lookup ps = _; rw [hfs4]; show st3.fs.lookup ps = _; rw [hfs3]
          exact hdir)
      (fun e he => hall e (List.mem_cons_of_mem _ he))
    refine ⟨st', ?_, ?_, hp', ?_⟩
    · rw [List.map_cons, hstep, h']
    · rw [hout', hout5]
      simp only [put_stdout, hout4, log_stdout, hout3, encodeEntries, encodeNode,
        List.append_assoc]
    · rw [hfs', hfs5]
      show st4.fs = _
      rw [hfs4]
      show st3.fs = _
      rw [hfs3]
  | (n, .fifo perm) :: rest, fuel, d, st, ps, p, s, all, _, hg, _, _, _, _, _ => by
    simp only [GoodEntries, GoodNode] at hg
    exact absurd hg.2.2.2.1 id


@[simp] theorem feed_feed (st : State) (a b : List Nat) : (st.feed a).feed b = st.feed b := rfl
@[simp] theorem feed_stdin (st : State) (a : List Nat) : (st.feed a).stdin = a := rfl
@[simp] theorem feed_fs (st : State) (a : List Nat) : (st.feed a).fs = st.fs := rfl
@[simp] theorem feed_path (st : State) (a : List Nat) : (st.feed a).path = st.path := rfl
@[simp] theorem feed_options (st : State) (a : List Nat) :
    (st.feed a).global_options = st.global_options := rfl
@[simp] theorem feed_path_length (st : State) (a : List Nat) :
    (st.feed a).path_length = st.path_length := rfl
@[simp] theorem log_stdin (st : State) (c : Call) : (st.log c).stdin = st.stdin := rfl
@[simp] theorem log_options (st : State) (c : Call) :
    (st.log c).global_options = st.global_options := rfl
@[simp] theorem withFs_fs (st : State) (fs : FileSys) : (st.withFs fs).fs = fs := rfl
@[simp] theorem withFs_stdin (st : State) (fs : FileSys) : (st.withFs fs).stdin = st.stdin := rfl
@[simp] theorem withFs_path (st : State) (fs : FileSys) : (st.withFs fs).path = st.path := rfl
@[simp] theorem withFs_options (st : State) (fs : FileSys) :
    (st.withFs fs).global_options = st.global_options := rfl
@[simp] theorem log_path_length (st : State) (c : Call) :
    (st.log c).path_length = st.path_length := rfl
@[simp] theorem log_calls (st : State) (c : Call) : (st.log c).calls = st.calls ++ [c] := rfl
@[simp] theorem feed_calls (st : State) (a : List Nat) : (st.feed a).calls = st.calls := rfl
@[simp] theorem feed_stdout (st : State) (a : List Nat) : (st.feed a).stdout = st.stdout := rfl
@[simp] theorem withFs_calls (st : State) (fs : FileSys) : (st.withFs fs).calls = st.calls := rfl
@[simp] theorem withFs_path_length (st : State) (fs : FileSys) :
    (st.withFs fs).path_length = st.path_length := rfl
@[simp] theorem withFs_stdout (st : State) (fs : FileSys) :
    (st.withFs fs).stdout = st.stdout := rfl
@[simp] theorem withFs_withFs (st : State) (a b : FileSys) :
    (st.withFs a).withFs b = st.withFs b := rfl
@[simp] theorem withRoot_root (fs : FileSys) (r : Node) : (fs.withRoot r).root = r := rfl
@[simp] theorem withRoot_umask (fs : FileSys) (r : Node) : (fs.withRoot r).umask = fs.umask := rfl
@[simp] theorem withRoot_newDirSize (fs : FileSys) (r : Node) :
    (fs.withRoot r).newDirSize = fs.newDirSize := rfl
@[simp] theorem withRoot_withRoot (fs : FileSys) (r r' : Node) :
    (fs.withRoot r).withRoot r' = fs.withRoot r' := rfl
@[simp] theorem clobber_log (st : State) (c : Call) : clobber (st.log c) = clobber st := rfl
@[simp] theorem clobber_feed (st : State) (a : List Nat) : clobber (st.feed a) = clobber st := rfl
@[simp] theorem clobber_withFs (st : State) (fs : FileSys) :
    clobber (st.withFs fs) = clobber st := rfl


theorem PathIs.feed {PATH_MAX : Nat} {st : State} {p : List Nat} (h : PathIs PATH_MAX st p)
    (a : List Nat) : PathIs PATH_MAX (st.feed a) p := h

theorem PathIs.withFs {PATH_MAX : Nat} {st : State} {p : List Nat} (h : PathIs PATH_MAX st p)
    (fs : FileSys) : PathIs PATH_MAX (st.withFs fs) p := h


theorem shl8_or (a b : Nat) (hb : b < 256) : (a <<< 8) ||| b = a * 256 + b := by
  have h := Nat.mul_add_lt_is_or (i := 8) (b := b) (by simpa using hb) a
  rw [Nat.shiftLeft_eq]
  simp only [Nat.reducePow] at h ⊢
  rw [Nat.mul_comm] at h
  exact h.symm

/-- Function `debug_getchar` on input that starts with a byte. -/
theorem debug_getchar_byte (st : State) (b : Nat) (rest : List Nat) (h : st.stdin = b :: rest)
    (hb : b < 256) : debug_getchar st = (b, st.feed rest) := by
  rw [debug_getchar_eq, h]
  simp only [Nat.mod_eq_of_lt hb]
  rfl

/-- Function `getchar` on input that starts with a byte. -/
theorem getchar_byte (st : State) (b : Nat) (rest : List Nat) (h : st.stdin = b :: rest)
    (hb : b < 256) : getchar st = ((b : Int), st.feed rest) := by
  simp only [getchar, h, Nat.mod_eq_of_lt hb]
  rfl

/-- The magic-byte check on input that starts with `0C 0D ED`. -/
theorem read_magic_good (st : State) (rest : List Nat)
    (h : st.stdin = 0x0C :: 0x0D :: 0xED :: rest) :
    read_magic st = (0, st.feed rest) := by
  simp [read_magic, debug_getchar_eq, h, EOF, State.feed]

/-- The read loop over `debug_getchar` on input that starts with the bytes it
reads. -/
theorem read_be_debug (width : Nat) (bytes : List Nat) :
    ∀ (acc : Nat) (st : State) (rest : List Nat), st.stdin = bytes ++ rest →
      (∀ b ∈ bytes, b < 256) →
      read_be debug_getchar_int width bytes.length acc st =
        (some (accumulate width acc bytes), st.feed rest) := by
  induction bytes with
  | nil =>
    intro acc st rest h _
    simp only [List.nil_append] at h
    simp only [List.length_nil, read_be, accumulate, List.foldl_nil, ← h]
    rfl
  | cons b bs ih =>
    intro acc st rest h hb
    have hb0 : b < 256 := hb b (List.mem_cons_self _ _)
    have hne : ¬ ((b : Int) = EOF) := by
      simp only [EOF]
      omega
    rw [List.length_cons, read_be]
    simp only [debug_getchar_int, debug_getchar_byte st b (bs ++ rest) h hb0, hne, if_false,
      Int.toNat_ofNat]
    rw [ih _ _ rest rfl (fun x hx => hb x (List.mem_cons_of_mem _ hx))]
    simp [accumulate]

/-- The read loop over `getchar` on input that starts with the bytes it reads. -/
theorem read_be_getchar (width : Nat) (bytes : List Nat) :
    ∀ (acc : Nat) (st : State) (rest : List Nat), st.stdin = bytes ++ rest →
      (∀ b ∈ bytes, b < 256) →
      read_be getchar width bytes.length acc st =
        (some (accumulate width acc bytes), st.feed rest) := by
  induction bytes with
  | nil =>
    intro acc st rest h _
    simp only [List.nil_append] at h
    simp only [List.length_nil, read_be, accumulate, List.foldl_nil, ← h]
    rfl
  | cons b bs ih =>
    intro acc st rest h hb
    have hb0 : b < 256 := hb b (List.mem_cons_self _ _)
    have hne : ¬ ((b : Int) = EOF) := by
      simp only [EOF]
      omega
    rw [List.length_cons, read_be]
    simp only [getchar_byte st b (bs ++ rest) h hb0, hne, if_false, Int.toNat_ofNat]
    rw [ih _ _ rest rfl (fun x hx => hb x (List.mem_cons_of_mem _ hx))]
    simp [accumulate]

theorem accumulate32_four (v : Nat) : accumulate 32 0 (be_bytes 4 v) = v % 4294967296 := by
  rw [be_bytes_four]
  simp only [accumulate, bigEndian32, List.foldl_cons, List.foldl_nil, Nat.zero_shiftLeft,
    Nat.zero_or]
  have h1 : v / 16777216 % 256 < 256 := Nat.mod_lt _ (by decide)
  have h2 : v / 65536 % 256 < 256 := Nat.mod_lt _ (by decide)
  have h3 : v / 256 % 256 < 256 := Nat.mod_lt _ (by decide)
  have h4 : v % 256 < 256 := Nat.mod_lt _ (by decide)
  rw [shl8_or _ _ h2, shl8_or _ _ h3, shl8_or _ _ h4]
  simp only [Nat.reducePow]
  omega



theorem accumulate32_eight (v : Nat) : accumulate 32 0 (be_bytes 8 v) = v % 4294967296 := by
  rw [be_bytes_eight]
  simp only [accumulate, bigEndian64, List.foldl_cons, List.foldl_nil, Nat.zero_shiftLeft,
    Nat.zero_or]
  have h1 : v / 281474976710656 % 256 < 256 := Nat.mod_lt _ (by decide)
  have h2 : v / 1099511627776 % 256 < 256 := Nat.mod_lt _ (by decide)
  have h3 : v / 4294967296 % 256 < 256 := Nat.mod_lt _ (by decide)
  have h4 : v / 16777216 % 256 < 256 := Nat.mod_lt _ (by decide)
  have h5 : v / 65536 % 256 < 256 := Nat.mod_lt _ (by decide)
  have h6 : v / 256 % 256 < 256 := Nat.mod_lt _ (by decide)
  have h7 : v % 256 < 256 := Nat.mod_lt _ (by decide)
  rw [shl8_or _ _ h1, shl8_or _ _ h2, shl8_or _ _ h3, shl8_or _ _ h4, shl8_or _ _ h5,
    shl8_or _ _ h6, shl8_or _ _ h7]
  simp only [Nat.reducePow]
  omega

theorem accumulate64_eight (v : Nat) :
    accumulate 64 0 (be_bytes 8 v) = v % 18446744073709551616 := by
  rw [be_bytes_eight]
  simp only [accumulate, bigEndian64, List.foldl_cons, List.foldl_nil, Nat.zero_shiftLeft,
    Nat.zero_or]
  have h1 : v / 281474976710656 % 256 < 256 := Nat.mod_lt _ (by decide)
  have h2 : v / 1099511627776 % 256 < 256 := Nat.mod_lt _ (by decide)
  have h3 : v / 4294967296 % 256 < 256 := Nat.mod_lt _ (by decide)
  have h4 : v / 16777216 % 256 < 256 := Nat.mod_lt _ (by decide)
  have h5 : v / 65536 % 256 < 256 := Nat.mod_lt _ (by decide)
  have h6 : v / 256 % 256 < 256 := Nat.mod_lt _ (by decide)
  have h7 : v % 256 < 256 := Nat.mod_lt _ (by decide)
  rw [shl8_or _ _ h1, shl8_or _ _ h2, shl8_or _ _ h3, shl8_or _ _ h4, shl8_or _ _ h5,
    shl8_or _ _ h6, shl8_or _ _ h7]
  simp only [Nat.reducePow]
  omega

theorem be_bytes_length (n v : Nat) : (be_bytes n v).length = n := by
  induction n with
  | zero => rfl
  | succ n ih => simp [be_bytes, ih]

theorem be_bytes_lt (n v : Nat) : ∀ b ∈ be_bytes n v, b < 256 := by
  induction n with
  | zero => intro b hb; simp [be_bytes] at hb
  | succ n ih =>
    intro b hb
    simp only [be_bytes, List.mem_cons] at hb
    rcases hb with rfl | hb
    · rw [and_byte]
      exact Nat.mod_lt _ (by decide)
    · exact ih b hb



theorem good_normalize (ps : List Nat) (n : Name) (hn : GoodName n) :
    normalize (ps ++ 47 :: n) = normalize ps ++ [n] :=
  normalize_push ps n (fun h => (hn.2.2.2 47 h).2.1 rfl) hn.1 hn.2.1 hn.2.2.1

/-- A name that the directory in focus does not hold names nothing. -/
theorem focus_lookup_new {C : Node → Node} {q : List Name} (hC : Focus C q) (fs : FileSys)
    (p s : Nat) (es : List (Name × Node)) (ps : List Nat) (n : Name)
    (hq : normalize ps = q) (hroot : fs.root = C (.dir p s es)) (hn : GoodName n)
    (hnew : ∀ e ∈ es, e.1 ≠ n) : fs.lookup (ps ++ 47 :: n) = none := by
  unfold FileSys.lookup
  rw [good_normalize ps n hn, hq, hroot, hC.get, Node.get, lookup_none_of_new es n hnew]

/-- Creating a node under a new name in the directory in focus appends an entry. -/
theorem focus_create {C : Node → Node} {q : List Name} (hC : Focus C q) (fs : FileSys)
    (p s : Nat) (es : List (Name × Node)) (ps : List Nat) (n : Name) (node : Node)
    (hq : normalize ps = q) (hroot : fs.root = C (.dir p s es)) (hn : GoodName n)
    (hnew : ∀ e ∈ es, e.1 ≠ n) :
    fs.create (normalize (ps ++ 47 :: n)) node =
      some { fs with root := C (.dir p s (es ++ [(n, node)])) } := by
  have hget : fs.root.get q = some (.dir p s es) := by
    have := hC.get (.dir p s es) []
    rw [List.append_nil] at this
    rw [hroot, this]
    simp [Node.get]
  have hnone : fs.root.get (q ++ [n]) = none := by
    rw [hroot, hC.get, Node.get, lookup_none_of_new es n hnew]
  have hupd : fs.root.update q (Node.addEntry n node) = some (C (.dir p s (es ++ [(n, node)]))) := by
    have := hC.update (.dir p s es) [] (Node.addEntry n node)
    rw [List.append_nil] at this
    rw [hroot, this]
    simp [Node.update, Node.addEntry]
  have hl : (q ++ [n]).getLast? = some n := by simp
  rw [good_normalize ps n hn, hq]
  simp only [FileSys.create, hl, List.dropLast_concat, hget, hnone, hupd, Option.map_some']

/-- Updating the last entry of the directory in focus. -/
theorem focus_update {C : Node → Node} {q : List Name} (hC : Focus C q) (root : Node)
    (p s : Nat) (es : List (Name × Node)) (ps : List Nat) (n : Name) (y : Node)
    (f : Node → Node)
    (hq : normalize ps = q) (hroot : root = C (.dir p s (es ++ [(n, y)]))) (hn : GoodName n)
    (hnew : ∀ e ∈ es, e.1 ≠ n) :
    root.update (normalize (ps ++ 47 :: n)) f = some (C (.dir p s (es ++ [(n, f y)]))) := by
  have hC' := focus_child hC p s es n hnew
  have := hC'.update y [] f
  rw [List.append_nil] at this
  rw [good_normalize ps n hn, hq, hroot, this]
  simp [Node.update]

/-- The last entry of the directory in focus is found under its name. -/
theorem focus_lookup_last {C : Node → Node} {q : List Name} (hC : Focus C q) (fs : FileSys)
    (p s : Nat) (es : List (Name × Node)) (ps : List Nat) (n : Name) (y : Node)
    (hq : normalize ps = q) (hroot : fs.root = C (.dir p s (es ++ [(n, y)]))) (hn : GoodName n)
    (hnew : ∀ e ∈ es, e.1 ≠ n) : fs.lookup (ps ++ 47 :: n) = some y := by
  have hC' := focus_child hC p s es n hnew
  have := hC'.get y []
  rw [List.append_nil] at this
  unfold FileSys.lookup
  rw [good_normalize ps n hn, hq, hroot, this]
  simp [Node.get]


theorem toUInt32_small (d : Nat) (hd : d < 4294967296) : toUInt32 (d : Int) = d := by
  unfold toUInt32
  omega

theorem toInt32_small (d : Nat) (hd : d < 2147483648) : toInt32 (d : Int) = (d : Int) := by
  unfold toInt32
  omega

theorem toSChar_small (t : Nat) (ht : t < 128) : toSChar t = (t : Int) := by
  unfold toSChar
  have : t % 256 = t := Nat.mod_eq_of_lt (by omega)
  rw [this, if_pos ht]

/-- Reading a 4-byte field into an `int`. -/
theorem read32_debug4 (st : State) (v : Nat) (rest : List Nat)
    (h : st.stdin = be_bytes 4 v ++ rest) :
    read_be debug_getchar_int 32 4 0 st = (some (v % 4294967296), st.feed rest) := by
  have := read_be_debug 32 (be_bytes 4 v) 0 st rest h (be_bytes_lt 4 v)
  rwa [be_bytes_length, accumulate32_four] at this

/-- Reading an 8-byte field into an `int`. -/
theorem read32_debug8 (st : State) (v : Nat) (rest : List Nat)
    (h : st.stdin = be_bytes 8 v ++ rest) :
    read_be debug_getchar_int 32 8 0 st = (some (v % 4294967296), st.feed rest) := by
  have := read_be_debug 32 (be_bytes 8 v) 0 st rest h (be_bytes_lt 8 v)
  rwa [be_bytes_length, accumulate32_eight] at this

/-- Reading an 8-byte field into an `int` with `getchar`. -/
theorem read32_getchar8 (st : State) (v : Nat) (rest : List Nat)
    (h : st.stdin = be_bytes 8 v ++ rest) :
    read_be getchar 32 8 0 st = (some (v % 4294967296), st.feed rest) := by
  have := read_be_getchar 32 (be_bytes 8 v) 0 st rest h (be_bytes_lt 8 v)
  rwa [be_bytes_length, accumulate32_eight] at this

/-- Reading an 8-byte field into a `uint64_t`. -/
theorem read64_debug8 (st : State) (v : Nat) (rest : List Nat)
    (h : st.stdin = be_bytes 8 v ++ rest) :
    read_be debug_getchar_int 64 8 0 st = (some (v % 18446744073709551616), st.feed rest) := by
  have := read_be_debug 64 (be_bytes 8 v) 0 st rest h (be_bytes_lt 8 v)
  rwa [be_bytes_length, accumulate64_eight] at this

theorem header_cons (t dep size : Nat) (rest : List Nat) :
    header t dep size ++ rest =
      0x0C :: 0x0D :: 0xED :: (t % 256) :: (be_bytes 4 dep ++ (be_bytes 8 size ++ rest)) := by
  simp [header]

/-- Function `check_while_condition` on input that starts with a header of the
expected depth: the type, with the size field still to be read. -/
theorem check_while_header (st : State) (t d size : Nat) (rest : List Nat) (ht : t < 128)
    (hd : d < 2147483648)
    (h : st.stdin = header t (toUInt32 (d : Int)) size ++ rest) :
    check_while_condition (d : Int) st = ((t : Int), st.feed (be_bytes 8 size ++ rest)) := by
  have ht256 : t % 256 = t := Nat.mod_eq_of_lt (by omega)
  rw [header_cons, ht256, toUInt32_small d (by omega)] at h
  have hmagic := read_magic_good st _ h
  have htype := debug_getchar_byte (st.feed (t :: (be_bytes 4 d ++ (be_bytes 8 size ++ rest))))
    t _ rfl (by omega)
  have hdepth := read32_debug4 (st.feed (be_bytes 4 d ++ (be_bytes 8 size ++ rest))) d
    (be_bytes 8 size ++ rest) rfl
  rw [Nat.mod_eq_of_lt (by omega : d < 4294967296)] at hdepth
  simp only [feed_feed] at htype hdepth
  have hne : ¬ ((t : Int) = EOF) := by
    simp only [EOF]
    omega
  have h01 : ¬ ((0 : Int) = -1) := by decide
  simp only [check_while_condition, hmagic, h01, if_false, htype, toSChar_small t ht, hne, hdepth,
    toInt32_small d hd, ne_eq, not_true_eq_false]

/-- The DIRECTORY_ENTRY record of a good name, as header and fields. -/
theorem entry_record_good (d : Nat) (n : Name) (sb : Stat) (hn : GoodName n)
    (hlen : n.length + 28 < 2147483648) :
    entry_record (d : Int) n sb =
      header 4 (toUInt32 (d : Int)) (28 + n.length) ++
        (be_bytes 4 (entry_mode sb.st_mode) ++ (be_bytes 8 (toUInt64 sb.st_size) ++ n)) := by
  have hc : cstr n = n := cstr_of_no_nul n (fun c hc => (hn.2.2.2 c hc).1)
  have hm : n.map (fun c => c % 256) = n := map_mod_of_bytes n (fun c hc => (hn.2.2.2 c hc).2.2)
  have hs : toUInt64 (toInt32 (len_string n + 16 + 12)) = 28 + n.length := by
    rw [len_string_eq, hc]
    unfold toUInt64 toInt32
    omega
  rw [entry_record, hc, hm, hs]
  simp only [List.append_assoc]

/-- The loop that skips bytes. -/
theorem skip_bytes_eq (bytes : List Nat) : ∀ (st : State) (rest : List Nat),
    st.stdin = bytes ++ rest → (∀ b ∈ bytes, b < 256) →
    skip_bytes bytes.length st = st.feed rest := by
  induction bytes with
  | nil =>
    intro st rest h _
    simp only [List.nil_append] at h
    simp only [List.length_nil, skip_bytes, ← h]
    rfl
  | cons b bs ih =>
    intro st rest h hb
    rw [List.length_cons, skip_bytes,
      debug_getchar_byte st b (bs ++ rest) h (hb b (List.mem_cons_self _ _)),
      ih _ rest rfl (fun x hx => hb x (List.mem_cons_of_mem _ hx)), feed_feed]

/-- The loop that reads a name. -/
theorem read_name_eq (bytes : List Nat) : ∀ (st : State) (acc rest : List Nat),
    st.stdin = bytes ++ rest → (∀ b ∈ bytes, b < 256) →
    read_name bytes.length st acc = (acc ++ bytes, st.feed rest) := by
  induction bytes with
  | nil =>
    intro st acc rest h _
    simp only [List.nil_append] at h
    simp only [List.length_nil, read_name, ← h, List.append_nil]
    rfl
  | cons b bs ih =>
    intro st acc rest h hb
    rw [List.length_cons, read_name]
    simp only [debug_getchar_byte st b (bs ++ rest) h (hb b (List.mem_cons_self _ _))]
    rw [ih _ _ rest rfl (fun x hx => hb x (List.mem_cons_of_mem _ hx)), feed_feed]
    simp

/-- The copy loop of `deserialize_file` with enough fuel and input: all the
bytes are written. -/
theorem write_loop_eq (size : Nat) (hsize : size < 4294967296) (bytes : List Nat) :
    ∀ (fuel i : Nat) (st : State) (written rest : List Nat),
    st.stdin = bytes ++ rest → (∀ b ∈ bytes, b < 256) → i + bytes.length = size →
    bytes.length < fuel →
    write_loop fuel i size st written = some (0, st.feed rest, written ++ bytes) := by
  induction bytes with
  | nil =>
    intro fuel i st written rest h _ hi hf
    obtain ⟨f, rfl⟩ : ∃ f, fuel = f + 1 := ⟨fuel - 1, by simp at hf; omega⟩
    simp only [List.nil_append] at h
    simp only [List.length_nil, Nat.add_zero] at hi
    rw [write_loop, if_neg (by omega), List.append_nil, ← h]
    rfl
  | cons b bs ih =>
    intro fuel i st written rest h hb hi hf
    simp only [List.length_cons] at hi hf
    obtain ⟨f, rfl⟩ : ∃ f, fuel = f + 1 := ⟨fuel - 1, by omega⟩
    have hb0 : b < 256 := hb b (List.mem_cons_self _ _)
    have hne : ¬ ((b : Int) = EOF) := by
      simp only [EOF]
      omega
    rw [write_loop, if_pos (by omega)]
    simp only [debug_getchar_int, debug_getchar_byte st b (bs ++ rest) h hb0, hne, if_false,
      Int.toNat_ofNat]
    rw [Nat.mod_eq_of_lt (by omega : i + 1 < 4294967296),
      ih f (i + 1) _ _ rest rfl (fun x hx => hb x (List.mem_cons_of_mem _ hx)) (by omega)
        (by omega), feed_feed]
    simp

/-- A turn of the loop of `deserialize_directory` on a START_OF_DIRECTORY record. -/
theorem deserialize_directory_start (PATH_MAX fuel d : Nat) (st : State) (rest : List Nat)
    (hd : d < 2147483648) (h : st.stdin = header 2 (toUInt32 (d : Int)) 16 ++ rest) :
    deserialize_directory PATH_MAX (fuel + 1) (d : Int) st =
      deserialize_directory PATH_MAX fuel (d : Int) (st.feed rest) := by
  have h1 := check_while_header st 2 d 16 rest (by decide) hd h
  have h2 := read32_debug8 (st.feed (be_bytes 8 16 ++ rest)) 16 rest rfl
  simp only [feed_feed] at h2
  rw [deserialize_directory]
  simp only [h1, h2]
  simp [toInt32]

/-- A turn of the loop of `deserialize_directory` on an END_OF_DIRECTORY record
below depth 1: the path is popped and the loop goes on one level up. -/
theorem deserialize_directory_end (PATH_MAX fuel d : Nat) (st : State) (ps : List Nat) (n : Name)
    (rest : List Nat) (hd : d + 1 < 2147483648) (hd1 : 1 ≤ d)
    (hp : PathIs PATH_MAX st (ps ++ 47 :: n)) (hn : GoodName n)
    (h : st.stdin = header 3 (toUInt32 ((d : Int) + 1)) 16 ++ rest) :
    ∃ st', deserialize_directory PATH_MAX (fuel + 1) ((d : Int) + 1) st =
        deserialize_directory PATH_MAX fuel (d : Int) st' ∧
      PathIs PATH_MAX st' ps ∧ st'.stdin = rest ∧ st'.fs = st.fs ∧
      st'.global_options = st.global_options := by
  have hcast : (d : Int) + 1 = ((d + 1 : Nat) : Int) := by push_cast; rfl
  rw [hcast] at h ⊢
  have h1 := check_while_header st 3 (d + 1) 16 rest (by decide) hd h
  have h2 := read32_getchar8 (st.feed (be_bytes 8 16 ++ rest)) 16 rest rfl
  simp only [feed_feed] at h2
  obtain ⟨st', h3, hp', hfs, _, hin, hopt⟩ := pop_entry PATH_MAX (st.feed rest) ps n (hp.feed rest) hn
  refine ⟨st', ?_, hp', by rw [hin]; rfl, by rw [hfs]; rfl, by rw [hopt]; rfl⟩
  rw [deserialize_directory]
  simp only [h1, h2, h3]
  have hd0 : d ≠ 0 := by omega
  simp [toInt32, hd0]

/-- A turn of the loop of `deserialize_directory(1)` on the END_OF_DIRECTORY
record of depth 1: the function returns 0. -/
theorem deserialize_directory_last (PATH_MAX fuel : Nat) (st : State) (rest : List Nat)
    (hlen : st.path_length ≠ 0) (h : st.stdin = header 3 (toUInt32 1) 16 ++ rest) :
    ∃ st', deserialize_directory PATH_MAX (fuel + 1) 1 st = some (0, st') ∧
      st'.stdin = rest ∧ st'.fs = st.fs := by
  have h1 := check_while_header st 3 1 16 rest (by decide) (by decide) h
  have h2 := read32_getchar8 (st.feed (be_bytes 8 16 ++ rest)) 16 rest rfl
  simp only [feed_feed] at h2
  have h3 : (path_pop (st.feed rest)).1 = 0 := path_pop_nonempty _ hlen
  refine ⟨(path_pop (st.feed rest)).2, ?_, ?_, ?_⟩
  · rw [deserialize_directory]
    simp only [Nat.cast_one] at h1
    simp only [h1, h2]
    rcases hpop : path_pop (st.feed rest) with ⟨r, st3⟩
    rw [hpop] at h3
    simp only at h3
    subst h3
    simp [toInt32]
  · obtain ⟨b, l, hfr⟩ := path_pop_frame (st.feed rest)
    rw [hfr]
    rfl
  · rw [path_pop_fs]
    rfl

theorem toUInt32_lt (d : Int) : toUInt32 d < 4294967296 := by
  unfold toUInt32
  omega

theorem toInt32_toUInt32 (d : Int) (hd : -2147483648 ≤ d ∧ d < 2147483648) :
    toInt32 ((toUInt32 d : Nat) : Int) = d := by
  unfold toInt32 toUInt32
  omega

/-- Function `deserialize_file` on a well-formed FILE_DATA record of the
expected depth whose payload is shorter than 2^32 bytes, when the target may
be written (it does not exist, or the clobber bit is set) and `fopen` and
`fclose` succeed: it returns 0 with the record consumed, and the file system
is the one `fclose` leaves with the payload as content. -/
theorem deserialize_file_ok (fuel : Nat) (depth : Int) (st : State) (size : Nat)
    (content rest : List Nat) (fs1 fs2 : FileSys)
    (hdepth : -2147483648 ≤ depth ∧ depth < 2147483648)
    (hgo : ¬ ((st.fs.stat st.path).isSome ∧ ¬ clobber st))
    (hin : st.stdin = header 5 (toUInt32 depth) size ++ (content ++ rest))
    (hsize : size < 18446744073709551616) (hlen : content.length + 16 = size)
    (h32 : content.length < 4294967296) (hbytes : ∀ b ∈ content, b < 256)
    (hopen : st.fs.fopen_w st.path = some fs1)
    (hclose : fs1.fclose_w st.path content = some fs2)
    (hfuel : content.length < fuel) :
    ∃ st', deserialize_file fuel depth st = some (0, st') ∧ st'.stdin = rest ∧ st'.fs = fs2 ∧
      st'.path_buf = st.path_buf ∧ st'.path_length = st.path_length ∧
      st'.global_options = st.global_options ∧ st'.stdout = st.stdout ∧
      st'.calls = st.calls ++ [.stat st.path] ++ [.fopen st.path true] := by
  rw [header_cons] at hin
  simp only [Nat.reduceMod] at hin
  have h0 : sys_stat st = (st.fs.stat st.path, st.log (.stat st.path)) := rfl
  have h1 := read_magic_good (st.log (.stat st.path)) _ hin
  have h2 := debug_getchar_byte ((st.log (.stat st.path)).feed
    (5 :: (be_bytes 4 (toUInt32 depth) ++ (be_bytes 8 size ++ (content ++ rest))))) 5
    (be_bytes 4 (toUInt32 depth) ++ (be_bytes 8 size ++ (content ++ rest))) rfl (by decide)
  rw [feed_feed] at h2
  have h3 := read32_debug4 ((st.log (.stat st.path)).feed
    (be_bytes 4 (toUInt32 depth) ++ (be_bytes 8 size ++ (content ++ rest)))) (toUInt32 depth)
    (be_bytes 8 size ++ (content ++ rest)) rfl
  rw [feed_feed, Nat.mod_eq_of_lt (toUInt32_lt depth)] at h3
  have h4 := read64_debug8 ((st.log (.stat st.path)).feed (be_bytes 8 size ++ (content ++ rest)))
    size (content ++ rest) rfl
  rw [feed_feed, Nat.mod_eq_of_lt hsize] at h4
  have hcs : content_size size = content.length := by
    unfold content_size
    omega
  have h5 : sys_fopen_w ((st.log (.stat st.path)).feed (content ++ rest)) =
      (0, (((st.log (.stat st.path)).feed (content ++ rest)).log
        (.fopen st.path true)).withFs fs1) := by
    have hp : ((st.log (.stat st.path)).feed (content ++ rest)).path = st.path := rfl
    have hf : ((st.log (.stat st.path)).feed (content ++ rest)).fs = st.fs := rfl
    simp only [sys_fopen_w, hp, hf, hopen]
    rfl
  have h6 := write_loop_eq content.length h32 content fuel 0
    ((((st.log (.stat st.path)).feed (content ++ rest)).log (.fopen st.path true)).withFs fs1)
    [] rest rfl hbytes (by omega) hfuel
  rw [List.nil_append] at h6
  have h7 : sys_fclose_w content (((((st.log (.stat st.path)).feed (content ++ rest)).log
        (.fopen st.path true)).withFs fs1).feed rest) =
      (0, (((((st.log (.stat st.path)).feed (content ++ rest)).log
        (.fopen st.path true)).withFs fs1).feed rest).withFs fs2) := by
    have hp : (((((st.log (.stat st.path)).feed (content ++ rest)).log
        (.fopen st.path true)).withFs fs1).feed rest).path = st.path := rfl
    have hf : (((((st.log (.stat st.path)).feed (content ++ rest)).log
        (.fopen st.path true)).withFs fs1).feed rest).fs = fs1 := rfl
    simp only [sys_fclose_w, hp, hf, hclose]
    rfl
  refine ⟨(((((st.log (.stat st.path)).feed (content ++ rest)).log
        (.fopen st.path true)).withFs fs1).feed rest).withFs fs2, ?_, ?_⟩
  · rw [deserialize_file, h0]
    simp only [clobber_log]
    rw [if_neg hgo, h1]
    simp only [h2, h3, toInt32_toUInt32 depth hdepth, h4, hcs, h5, h6, h7]
    simp [EOF]
  · exact ⟨rfl, rfl, rfl, rfl, rfl, rfl, rfl⟩

/-- Function `check_while_condition` on a record with the magic bytes whose
depth field differs from the expected depth: -1. -/
theorem check_while_depth_mismatch (d : Nat) (st : State) (t f size : Nat) (rest : List Nat)
    (hd : d < 2147483648) (hf : f < 4294967296) (hne : f ≠ d)
    (h : st.stdin = header t f size ++ rest) :
    (check_while_condition (d : Int) st).1 = -1 := by
  rw [header_cons] at h
  have hmagic := read_magic_good st _ h
  have htype := debug_getchar_byte (st.feed ((t % 256) :: (be_bytes 4 f ++ (be_bytes 8 size ++ rest))))
    (t % 256) _ rfl (Nat.mod_lt _ (by decide))
  have hdepth := read32_debug4 (st.feed (be_bytes 4 f ++ (be_bytes 8 size ++ rest))) f
    (be_bytes 8 size ++ rest) rfl
  rw [Nat.mod_eq_of_lt hf] at hdepth
  rw [feed_feed] at htype hdepth
  have hmis : toInt32 (f : Int) ≠ (d : Int) := by
    unfold toInt32
    omega
  have h01 : ¬ ((0 : Int) = -1) := by decide
  simp only [check_while_condition, hmagic, h01, if_false, htype, hdepth]
  by_cases ht : toSChar (t % 256) = EOF
  · rw [if_pos ht]
  · rw [if_neg ht, if_pos hmis]

/-- Claim C11. Depth mismatch is fatal: when the next record of the input has
the magic bytes but a depth field `f` different from the expected depth `d`,
`check_while_condition(d)` returns -1, so `deserialize_directory(d)` returns
-1, and `deserialize_file(d)` returns -1 as well (whatever the record type,
the state of the file system and the options). -/
theorem depth_mismatch_is_fatal (PATH_MAX fuel d : Nat) (st : State) (t f size : Nat)
    (rest : List Nat) (hd : d < 2147483648) (hf : f < 4294967296) (hne : f ≠ d)
    (h : st.stdin = header t f size ++ rest) :
    (check_while_condition (d : Int) st).1 = -1 ∧
    (∃ st', deserialize_directory PATH_MAX (fuel + 1) (d : Int) st = some (-1, st')) ∧
    (∃ st', deserialize_file fuel (d : Int) st = some (-1, st')) := by
  have hc := check_while_depth_mismatch d st t f size rest hd hf hne h
  refine ⟨hc, ?_, ?_⟩
  · rw [deserialize_directory]
    rcases hcw : check_while_condition (d : Int) st with ⟨r, st1⟩
    rw [hcw] at hc
    simp only at hc
    subst hc
    exact ⟨st1, by simp⟩
  · rw [header_cons] at h
    have hmis : toInt32 (f : Int) ≠ (d : Int) := by
      unfold toInt32
      omega
    have h0 : sys_stat st = (st.fs.stat st.path, st.log (.stat st.path)) := rfl
    have h1 := read_magic_good (st.log (.stat st.path)) _ h
    have h2 := debug_getchar_byte ((st.log (.stat st.path)).feed
      ((t % 256) :: (be_bytes 4 f ++ (be_bytes 8 size ++ rest)))) (t % 256) _ rfl
      (Nat.mod_lt _ (by decide))
    have h3 := read32_debug4 ((st.log (.stat st.path)).feed
      (be_bytes 4 f ++ (be_bytes 8 size ++ rest))) f (be_bytes 8 size ++ rest) rfl
    rw [Nat.mod_eq_of_lt hf] at h3
    rw [feed_feed] at h2 h3
    have h01 : ¬ ((0 : Int) = -1) := by decide
    rw [deserialize_file, h0]
    simp only [clobber_log]
    by_cases hgo : (st.fs.stat st.path).isSome ∧ ¬ clobber st
    · rw [if_pos hgo]
      exact ⟨_, rfl⟩
    · rw [if_neg hgo, h1]
      simp only [h01, if_false, h2]
      by_cases ht : t % 256 ≠ 5 ∨ ((t % 256 : Nat) : Int) = -1 ∨ ((t % 256 : Nat) : Int) = EOF
      · rw [if_pos ht]
        exact ⟨_, rfl⟩
      · rw [if_neg ht]
        simp only [h3]
        rw [if_pos hmis]
        exact ⟨_, rfl⟩

set_option maxRecDepth 1000000 in
/-- Witness of C11: an END_OF_DIRECTORY record of depth 2 where depth 1 is
expected. -/
theorem depth_mismatch_is_fatal_witness :
    (1 < 2147483648 ∧ 2 < 4294967296 ∧ 2 ≠ 1 ∧
      (deserializeStart (.dir 0o755 4096 []) 0 (header 3 2 16)).stdin = header 3 2 16 ++ []) ∧
    ((check_while_condition ((1 : Nat) : Int)
        (deserializeStart (.dir 0o755 4096 []) 0 (header 3 2 16))).1 = -1 ∧
    (∃ st', deserialize_directory 4096 (0 + 1) ((1 : Nat) : Int)
        (deserializeStart (.dir 0o755 4096 []) 0 (header 3 2 16)) = some (-1, st')) ∧
    (∃ st', deserialize_file 0 ((1 : Nat) : Int)
        (deserializeStart (.dir 0o755 4096 []) 0 (header 3 2 16)) = some (-1, st'))) :=
  ⟨⟨by decide, by decide, by decide, by decide⟩,
    depth_mismatch_is_fatal 4096 0 1 (deserializeStart (.dir 0o755 4096 []) 0 (header 3 2 16))
      3 2 16 [] (by decide) (by decide) (by decide) (by decide)⟩

set_option maxRecDepth 1000000 in
/-- Claim C12 fails in the code. On a FILE_DATA record that declares 10 payload
bytes and is followed by 7 bytes only, `deserialize_file(1)` returns 0, not
-1: `debug_getchar` returns `unsigned char`, so the end of the input is read
as the byte 255 and never as `EOF`, and the file is completed with three bytes
255. -/
theorem truncated_file_data_is_accepted :
    (entryStart emptyBase 0 fName truncatedInput).path = [46, 47, 102] ∧
    (entryStart emptyBase 0 fName truncatedInput).stdin = header 5 1 26 ++ [1, 2, 3, 4, 5, 6, 7] ∧
    (entryStart emptyBase 0 fName truncatedInput).fs.lookup [46, 47, 102] = none ∧
    deserialize_file 11 1 (entryStart emptyBase 0 fName truncatedInput) =
      some (0, truncatedDone) ∧
    truncatedDone.stdin = [] ∧
    truncatedDone.fs.lookup [46, 47, 102] =
      some (.file 0o644 [1, 2, 3, 4, 5, 6, 7, 255, 255, 255]) := by
  refine ⟨by rfl, by rfl, by rfl, by rfl, by rfl, by rfl⟩

/-- The copy loop of `deserialize_file` never ends when the payload size is
2^32 or more: the 32-bit counter stays below it and `debug_getchar` never
yields `EOF`. -/
theorem write_loop_never (size : Nat) (hsize : 4294967296 ≤ size) :
    ∀ (fuel i : Nat) (st : State) (written : List Nat), i < 4294967296 →
      write_loop fuel i size st written = none := by
  intro fuel
  induction fuel with
  | zero => intro i st written _; rfl
  | succ f ih =>
    intro i st written hi
    rw [write_loop, if_pos (by omega)]
    have hne : ¬ ((debug_getchar_int st).1 = EOF) := by
      simp only [debug_getchar_int, EOF]
      omega
    rcases hg : debug_getchar_int st with ⟨c, st'⟩
    rw [hg] at hne
    simp only at hne ⊢
    rw [if_neg hne]
    exact ih _ _ _ (Nat.mod_lt _ (by decide))

/-- Function `deserialize_file` never returns on a FILE_DATA record of the
expected depth whose payload size, `size - 16` in `uint64_t`, is 2^32 or more,
once the target has been opened. -/
theorem deserialize_file_never (depth : Int) (st : State) (size : Nat) (rest : List Nat)
    (hdepth : -2147483648 ≤ depth ∧ depth < 2147483648)
    (hgo : ¬ ((st.fs.stat st.path).isSome ∧ ¬ clobber st))
    (hin : st.stdin = header 5 (toUInt32 depth) size ++ rest)
    (hsize : size < 18446744073709551616) (hbig : 4294967296 ≤ content_size size)
    (hopen : (st.fs.fopen_w st.path).isSome) (fuel : Nat) :
    deserialize_file fuel depth st = none := by
  rw [header_cons] at hin
  simp only [Nat.reduceMod] at hin
  obtain ⟨fs1, hopen⟩ := Option.isSome_iff_exists.mp hopen
  have h0 : sys_stat st = (st.fs.stat st.path, st.log (.stat st.path)) := rfl
  have h1 := read_magic_good (st.log (.stat st.path)) _ hin
  have h2 := debug_getchar_byte ((st.log (.stat st.path)).feed
    (5 :: (be_bytes 4 (toUInt32 depth) ++ (be_bytes 8 size ++ rest)))) 5
    (be_bytes 4 (toUInt32 depth) ++ (be_bytes 8 size ++ rest)) rfl (by decide)
  rw [feed_feed] at h2
  have h3 := read32_debug4 ((st.log (.stat st.path)).feed
    (be_bytes 4 (toUInt32 depth) ++ (be_bytes 8 size ++ rest))) (toUInt32 depth)
    (be_bytes 8 size ++ rest) rfl
  rw [feed_feed, Nat.mod_eq_of_lt (toUInt32_lt depth)] at h3
  have h4 := read64_debug8 ((st.log (.stat st.path)).feed (be_bytes 8 size ++ rest))
    size rest rfl
  rw [feed_feed, Nat.mod_eq_of_lt hsize] at h4
  have h5 : sys_fopen_w ((st.log (.stat st.path)).feed rest) =
      (0, (((st.log (.stat st.path)).feed rest).log (.fopen st.path true)).withFs fs1) := by
    have hp : ((st.log (.stat st.path)).feed rest).path = st.path := rfl
    have hf : ((st.log (.stat st.path)).feed rest).fs = st.fs := rfl
    simp only [sys_fopen_w, hp, hf, hopen]
    rfl
  have h6 := write_loop_never (content_size size) hbig fuel 0
    ((((st.log (.stat st.path)).feed rest).log (.fopen st.path true)).withFs fs1) []
    (by decide)
  rw [deserialize_file, h0]
  simp only [clobber_log]
  rw [if_neg hgo, h1]
  simp only [h2, h3, toInt32_toUInt32 depth hdepth, h4, h5, h6]
  simp [EOF]

set_option maxRecDepth 1000000 in
/-- Claim C13 fails in the code for a payload of 2^32 bytes. The input holds a
FILE_DATA header of depth 1 and size 2^32 + 16 followed by 2^32 bytes, the
target `./f` does not exist and its directory does: `deserialize_file(1)` does
not return, whatever the fuel, because the loop counter `unsigned int i`
stays below the 64-bit `file_size`. -/
theorem deserialize_file_4GiB_never_returns (fuel : Nat) :
    (entryStart emptyBase 0 fName fourGiBInput).stdin =
      header 5 1 (4294967296 + 16) ++ List.replicate 4294967296 0 ∧
    (entryStart emptyBase 0 fName fourGiBInput).fs.lookup
      (entryStart emptyBase 0 fName fourGiBInput).path = none ∧
    deserialize_file fuel 1 (entryStart emptyBase 0 fName fourGiBInput) = none :=
  ⟨by rfl, by rfl,
    deserialize_file_never 1 (entryStart emptyBase 0 fName fourGiBInput) 4294967312
      (List.replicate 4294967296 0) (by decide)
      (fun h => by
        have h' : ((entryStart emptyBase 0 fName fourGiBInput).fs.stat
            (entryStart emptyBase 0 fName fourGiBInput).path).isSome = false := by rfl
        rw [h'] at h
        exact Bool.false_ne_true h.1)
      (by rfl) (by decide) (by decide) (by rfl) fuel⟩

set_option maxRecDepth 1000000 in
/-- Claim C14 fails in the code. The size fields of the bracket records are
accumulated in an `int`, so only their low 32 bits are compared with 16: a
stream whose four bracket records all carry the size 2^32 + 16 is accepted,
`deserialize` returns 0 and consumes it entirely. -/
theorem deserialize_accepts_size_with_high_bits :
    wideSizeInput.drop 8 = [0, 0, 0, 1, 0, 0, 0, 16] ++ wideSizeInput.drop 16 ∧
    deserialize 4096 3 (deserializeStart emptyBase 0 wideSizeInput) = some (0, wideSizeDone) ∧
    wideSizeDone.stdin = [] :=
  ⟨by rfl, by rfl, by rfl⟩

set_option maxRecDepth 1000000 in
/-- Claim C15 fails in the code. For a DIRECTORY_ENTRY naming the new
directory `d` with mode word 0o40700, under umask 022, the deserializer calls
`mkdir` with 0o777 and then `chmod` with the mode `stat` reports for the new
directory, 0o755: the directory is left with permission bits 0o755, not with
the 0o700 carried in the stream. -/
theorem directory_mode_of_stream_is_ignored :
    deserialize 4096 5 (deserializeStart emptyBase 0 dirModeInput) = some (0, dirModeDone) ∧
    dirModeDone.fs.lookup [46, 47, 100] = some (.dir 0o755 4096 []) ∧
    dirModeDone.calls =
      [.opendir [46, 47, 100], .mkdir [46, 47, 100] 0o777, .stat [46, 47, 100],
        .chmod [46, 47, 100] 0o755] ∧
    0o40700 &&& 0o777 = 0o700 :=
  ⟨by rfl, by rfl, by rfl, by rfl⟩

theorem new_of_lookup_none (es : List (Name × Node)) (n : Name) (h : es.lookup n = none) :
    ∀ e ∈ es, e.1 ≠ n := by
  induction es with
  | nil => intro e he; simp at he
  | cons a es ih =>
    obtain ⟨m, x⟩ := a
    by_cases hm : n = m
    · subst hm
      simp [List.lookup_cons] at h
    · have hb : (n == m) = false := by simpa using hm
      simp only [List.lookup_cons, hb] at h
      intro e he
      rcases List.mem_cons.mp he with rfl | he
      · exact fun h' => hm h'.symm
      · exact ih h e he

/-- Updating the node at an existing path succeeds, and the updated node is
then found at that path. -/
theorem update_get (root : Node) (q : List Name) (x : Node) (f : Node → Node)
    (h : root.get q = some x) :
    ∃ r', root.update q f = some r' ∧ r'.get q = some (f x) := by
  obtain ⟨C, hC, hroot⟩ := focus_exists q root x h
  have hu := hC.update x [] f
  have hg := hC.get (f x) []
  rw [List.append_nil] at hu hg
  refine ⟨C (f x), ?_, ?_⟩
  · rw [← hroot, hu]
    simp [Node.update]
  · rw [hg]
    simp [Node.get]

/-- Creating a node under a new name in an existing directory succeeds, and
the node is then found at its path. -/
theorem create_get (fs : FileSys) (q : List Name) (n : Name) (p s : Nat)
    (es : List (Name × Node)) (node : Node) (hdir : fs.root.get q = some (.dir p s es))
    (hnew : fs.root.get (q ++ [n]) = none) :
    ∃ fs1, fs.create (q ++ [n]) node = some fs1 ∧ fs1.root.get (q ++ [n]) = some node ∧
      fs1.umask = fs.umask ∧ fs1.newDirSize = fs.newDirSize := by
  obtain ⟨C, hC, hroot⟩ := focus_exists q fs.root _ hdir
  have hlook : es.lookup n = none := by
    rw [get_append, hdir] at hnew
    cases hl : es.lookup n with
    | none => rfl
    | some ch => simp [hl, Node.get] at hnew
  have hne := new_of_lookup_none es n hlook
  have hu := hC.update (.dir p s es) [] (Node.addEntry n node)
  have hg := hC.get (.dir p s (es ++ [(n, node)])) [n]
  rw [List.append_nil] at hu
  refine ⟨fs.withRoot (C (.dir p s (es ++ [(n, node)]))), ?_, ?_, rfl, rfl⟩
  · unfold FileSys.create
    have hl : (q ++ [n]).getLast? = some n := by simp
    have hd : (q ++ [n]).dropLast = q := by simp
    simp only [hl, hd, hdir, hnew]
    rw [← hroot, hu]
    simp [Node.update, Node.addEntry, FileSys.withRoot]
  · rw [withRoot_root, hg, Node.get, lookup_append_new es n node [] hne]
    simp [Node.get]

/-- Closing a written regular file stores the bytes written. -/
theorem fclose_w_lookup (fs : FileSys) (path : List Nat) (perm : Nat) (c0 content : List Nat)
    (h : fs.lookup path = some (.file perm c0)) :
    ∃ fs2, fs.fclose_w path content = some fs2 ∧ fs2.lookup path = some (.file perm content) ∧
      fs2.umask = fs.umask := by
  obtain ⟨r', hu, hg⟩ := update_get fs.root (normalize path) _ (Node.setContent content) h
  exact ⟨fs.withRoot r', by simp only [FileSys.fclose_w, hu]; rfl, hg, rfl⟩

/-- The call `chmod` on an existing path sets the permission bits of its node. -/
theorem chmod_lookup (fs : FileSys) (path : List Nat) (x : Node) (mode : Nat)
    (h : fs.lookup path = some x) :
    ∃ fs2, fs.chmod path mode = some fs2 ∧ fs2.lookup path = some (x.chmod mode) ∧
      fs2.umask = fs.umask := by
  obtain ⟨r', hu, hg⟩ := update_get fs.root (normalize path) _ (Node.chmod mode) h
  exact ⟨fs.withRoot r', by simp only [FileSys.chmod, hu]; rfl, hg, rfl⟩

/-- Opening an existing regular file for writing truncates it. -/
theorem fopen_w_existing (fs : FileSys) (path : List Nat) (perm : Nat) (c0 : List Nat)
    (h : fs.lookup path = some (.file perm c0)) :
    ∃ fs1, fs.fopen_w path = some fs1 ∧ fs1.lookup path = some (.file perm []) ∧
      fs1.umask = fs.umask := by
  obtain ⟨r', hu, hg⟩ := update_get fs.root (normalize path) _ (Node.setContent []) h
  refine ⟨fs.withRoot r', ?_, hg, rfl⟩
  unfold FileSys.fopen_w
  rw [h]
  simp only [hu]
  rfl

/-- Opening for writing a path that does not exist, in an existing directory,
creates an empty regular file of mode `0666 & ~umask`. -/
theorem fopen_w_new (fs : FileSys) (path : List Nat) (q : List Name) (n : Name) (p s : Nat)
    (es : List (Name × Node)) (hq : normalize path = q ++ [n])
    (hdir : fs.root.get q = some (.dir p s es)) (h : fs.lookup path = none) :
    ∃ fs1, fs.fopen_w path = some fs1 ∧
      fs1.lookup path = some (.file (applyUmask 0o666 fs.umask) []) ∧ fs1.umask = fs.umask := by
  unfold FileSys.lookup at h
  rw [hq] at h
  obtain ⟨fs1, hc, hg, hum, _⟩ := create_get fs q n p s es
    (.file (applyUmask 0o666 fs.umask) []) hdir h
  refine ⟨fs1, ?_, ?_, hum⟩
  · unfold FileSys.fopen_w FileSys.lookup
    rw [hq, h]
    exact hc
  · unfold FileSys.lookup
    rw [hq]
    exact hg

/-- The call `mkdir` on a path that does not exist, in an existing directory,
creates an empty directory of mode `mode & ~umask`. -/
theorem mkdir_new (fs : FileSys) (path : List Nat) (mode : Nat) (q : List Name) (n : Name)
    (p s : Nat) (es : List (Name × Node)) (hq : normalize path = q ++ [n])
    (hdir : fs.root.get q = some (.dir p s es)) (h : fs.lookup path = none) :
    ∃ fs1, fs.mkdir path mode = some fs1 ∧
      fs1.lookup path = some (.dir (applyUmask (mode % 4096) fs.umask) fs.newDirSize []) ∧
      fs1.umask = fs.umask := by
  unfold FileSys.lookup at h
  rw [hq] at h
  obtain ⟨fs1, hc, hg, hum, _⟩ := create_get fs q n p s es
    (.dir (applyUmask (mode % 4096) fs.umask) fs.newDirSize []) hdir h
  refine ⟨fs1, ?_, ?_, hum⟩
  · unfold FileSys.mkdir
    rw [hq]
    exact hc
  · unfold FileSys.lookup
    rw [hq]
    exact hg

/-- A turn of the loop of `deserialize_directory` on a DIRECTORY_ENTRY record
of the expected depth: the mode word and the name are read (the 8 bytes of the
entry's size are skipped, and the name takes the low 32 bits of the record size
minus 28 bytes), then `entry_dispatch` runs on them. -/
theorem deserialize_directory_entry (PATH_MAX fuel d : Nat) (st : State) (m total : Nat)
    (skip name rest : List Nat) (hd : d < 2147483648) (hm : m < 4294967296)
    (hskip : skip.length = 8) (hskipb : ∀ b ∈ skip, b < 256) (hname : ∀ b ∈ name, b < 256)
    (htotal : total % 4294967296 = 28 + name.length) (hnl : name.length + 28 < 2147483648)
    (hin : st.stdin = header 4 (toUInt32 (d : Int)) total ++
      (be_bytes 4 m ++ (skip ++ (name ++ rest)))) :
    deserialize_directory PATH_MAX (fuel + 1) (d : Int) st =
      entry_dispatch PATH_MAX (deserialize_directory PATH_MAX fuel) fuel (d : Int) m name
        (st.feed rest) := by
  have h1 := check_while_header st 4 d total _ (by decide) hd hin
  have h2 := read32_debug8 (st.feed (be_bytes 8 total ++ (be_bytes 4 m ++ (skip ++ (name ++ rest)))))
    total _ rfl
  rw [feed_feed, htotal] at h2
  have h3 := read32_debug4 (st.feed (be_bytes 4 m ++ (skip ++ (name ++ rest)))) m _ rfl
  rw [feed_feed, Nat.mod_eq_of_lt hm] at h3
  have h4 := skip_bytes_eq skip (st.feed (skip ++ (name ++ rest))) (name ++ rest) rfl hskipb
  rw [hskip, feed_feed] at h4
  have h5 := read_name_eq name (st.feed (name ++ rest)) [] rest rfl hname
  rw [feed_feed, List.nil_append] at h5
  have hlen : (toInt32 (toInt32 ((28 + name.length : Nat) : Int) - 16 - 12)).toNat =
      name.length := by
    unfold toInt32
    omega
  rw [deserialize_directory]
  simp only [h1]
  rw [directory_entry, h2]
  simp only [h3, hlen, h4]
  rw [h5]
  simp

theorem PathIs.of_eq {PATH_MAX : Nat} {st st' : State} {p : List Nat}
    (h : PathIs PATH_MAX st p) (hb : st'.path_buf = st.path_buf)
    (hl : st'.path_length = st.path_length) : PathIs PATH_MAX st' p := by
  obtain ⟨tail, h1, h2, h3, h4⟩ := h
  exact ⟨tail, by rw [hb, h1], by rw [hl, h2], h3, by rw [hb, h4]⟩

theorem path_of_buf_eq {st st' : State} (hb : st'.path_buf = st.path_buf) : st'.path = st.path := by
  unfold State.path
  rw [hb]

theorem not_isdir_of_isreg (m : Nat) (h : S_ISREG m = true) : S_ISDIR m = false := by
  unfold S_ISREG at h
  unfold S_ISDIR
  have h1 : m &&& S_IFMT = S_IFREG := by simpa using h
  rw [h1]
  decide

theorem and_777_mod (m : Nat) : (m &&& 0o777) % 4096 = m &&& 0o777 := by
  have : m &&& 0o777 ≤ 0o777 := Nat.and_le_right
  omega

/-- The regular-file branch of `entry_dispatch`, for a good name pushed onto a
path that does not end in `/`, a complete FILE_DATA record of the expected
depth with a payload shorter than 2^32 bytes, and a target that may be
written: it does not exist and its directory does, or it is a regular file and
the clobber bit is set. The file is left with the payload as content and with
permission bits `mode & 0o777`, the name is popped and the loop goes on: the
branch ends with the call `recurse depth`, whatever `recurse` is. -/
theorem entry_dispatch_file (PATH_MAX : Nat)
    (fuel d : Nat) (st : State) (ps : List Nat) (n : Name) (m : Nat) (content rest : List Nat)
    (p s : Nat) (es : List (Name × Node))
    (hp : PathIs PATH_MAX st ps) (hne : ps ≠ []) (hlast : ps.getLast? ≠ some 47)
    (hn : GoodName n) (hfit : ps.length + 1 + n.length < PATH_MAX)
    (hreg : S_ISREG m = true) (hd : d < 2147483648)
    (hin : st.stdin = header 5 (toUInt32 (d : Int)) (content.length + 16) ++ (content ++ rest))
    (h32 : content.length < 4294967296) (hbytes : ∀ b ∈ content, b < 256)
    (hdir : st.fs.lookup ps = some (Node.dir p s es))
    (htarget : st.fs.lookup (ps ++ 47 :: n) = none ∨
      (clobber st = true ∧ ∃ perm c0, st.fs.lookup (ps ++ 47 :: n) = some (Node.file perm c0)))
    (hfuel : content.length < fuel) :
    ∃ st', (∀ recurse, entry_dispatch PATH_MAX recurse fuel (d : Int) m n st = recurse (d : Int) st') ∧
      PathIs PATH_MAX st' ps ∧ st'.stdin = rest ∧
      st'.fs.lookup (ps ++ 47 :: n) = some (Node.file (m &&& 0o777) content) ∧
      st'.global_options = st.global_options ∧ st'.fs.umask = st.fs.umask := by
  obtain ⟨st1, hpush, hp1, hfs1, _, hin1, hopt1⟩ := push_entry PATH_MAX st ps n hp hne hlast hn hfit
  have hpath1 : st1.path = ps ++ 47 :: n := hp1.path
  -- the target may be written
  have hgo : ¬ ((st1.fs.stat st1.path).isSome ∧ ¬ clobber st1) := by
    rw [hpath1, hfs1]
    rcases htarget with hnone | ⟨hc, _⟩
    · simp [FileSys.stat, hnone]
    · have : clobber st1 = true := by
        unfold clobber at hc ⊢
        rw [hopt1]
        exact hc
      simp [this]
  -- fopen and fclose
  have hopen : ∃ fs1 perm0, st1.fs.fopen_w st1.path = some fs1 ∧
      fs1.lookup (ps ++ 47 :: n) = some (Node.file perm0 []) ∧ fs1.umask = st.fs.umask := by
    rw [hpath1, hfs1]
    rcases htarget with hnone | ⟨_, perm, c0, hsome⟩
    · obtain ⟨fs1, h1, h2, h3⟩ := fopen_w_new st.fs (ps ++ 47 :: n) (normalize ps) n p s es
        (good_normalize ps n hn) hdir hnone
      exact ⟨fs1, _, h1, h2, h3⟩
    · obtain ⟨fs1, h1, h2, h3⟩ := fopen_w_existing st.fs (ps ++ 47 :: n) perm c0 hsome
      exact ⟨fs1, _, h1, h2, h3⟩
  obtain ⟨fs1, perm0, hopen, hlook1, hum1⟩ := hopen
  obtain ⟨fs2, hclose, hlook2, hum2⟩ := fclose_w_lookup fs1 (ps ++ 47 :: n) perm0 [] content hlook1
  rw [← hpath1] at hclose
  have hsize : content.length + 16 < 18446744073709551616 := by omega
  obtain ⟨st2, hfile, hin2, hfs2, hbuf2, hlen2, hopt2, _, _⟩ :=
    deserialize_file_ok fuel (d : Int) st1 (content.length + 16) content rest fs1 fs2
      (by omega) hgo (by rw [hin1]; exact hin) hsize rfl h32 hbytes hopen hclose hfuel
  have hp2 : PathIs PATH_MAX st2 (ps ++ 47 :: n) := hp1.of_eq hbuf2 hlen2
  have hpath2 : st2.path = ps ++ 47 :: n := hp2.path
  -- chmod
  obtain ⟨fs3, hchmod, hlook3, hum3⟩ := chmod_lookup fs2 (ps ++ 47 :: n) _ (m &&& 0o777) hlook2
  have hsys : sys_chmod (m &&& 0o777) st2 =
      (0, (st2.log (.chmod (ps ++ 47 :: n) (m &&& 0o777))).withFs fs3) := by
    simp only [sys_chmod, hpath2, hfs2, hchmod]
    rfl
  -- pop
  obtain ⟨st4, hpop, hp4, hfs4, _, hin4, hopt4⟩ := pop_entry PATH_MAX
    ((st2.log (.chmod (ps ++ 47 :: n) (m &&& 0o777))).withFs fs3) ps n hp2 hn
  refine ⟨st4, ?_, hp4, ?_, ?_, ?_, ?_⟩
  · intro recurse
    have h01 : ¬ ((0 : Int) = -1) := by decide
    rw [entry_dispatch, hpush]
    simp only [h01, if_false, not_isdir_of_isreg m hreg, hreg, Bool.false_eq_true, if_true, hfile,
      ne_eq, not_true_eq_false, hsys, hpop]
  · rw [hin4]
    exact hin2
  · rw [hfs4]
    show fs3.lookup _ = _
    rw [hlook3, Node.chmod, and_777_mod]
  · rw [hopt4]
    show st2.global_options = _
    rw [hopt2, hopt1]
  · rw [hfs4]
    show fs3.umask = _
    rw [hum3, hum2, hum1]

/-- The state in which `deserialize` starts holds the base path `.`. -/
theorem deserializeStart_pathIs (root : Node) (options : Nat) (input : List Nat) :
    PathIs 4096 (deserializeStart root options input) [46] := by
  obtain ⟨buf, h, hp⟩ := path_init_good 4096 [46] (initial 4096 (fsOf root) options input)
    (List.length_replicate 4096 0) (by decide) (by decide)
  unfold deserializeStart
  rw [h]
  exact hp

theorem path_push_calls (PATH_MAX : Nat) (name : List Nat) (st : State) :
    (path_push PATH_MAX name st).2.calls = st.calls := by
  obtain ⟨b, l, h⟩ := path_push_frame PATH_MAX name st
  rw [h]

theorem path_pop_calls (st : State) : (path_pop st).2.calls = st.calls := by
  obtain ⟨b, l, h⟩ := path_pop_frame st
  rw [h]

/-- The directory branch on a path that exists, the clobber bit being clear:
-1 after the `opendir` call alone. -/
theorem enter_directory_exists (st : State) (node : Node)
    (hex : st.fs.lookup st.path = some node) (hclob : clobber st = false) :
    enter_directory st = (-1, st.log (.opendir st.path)) := by
  have hc : clobber (st.log (.opendir st.path)) = false := hclob
  unfold enter_directory sys_opendir FileSys.opendir
  rw [hex]
  cases node with
  | file p c => rfl
  | fifo p => rfl
  | dir p s es =>
    simp only [hc]
    rfl

/-- Function `deserialize_file` on a path that exists, the clobber bit being
clear: -1 after the `stat` call alone, no byte being read. -/
theorem deserialize_file_exists (fuel : Nat) (depth : Int) (st : State) (node : Node)
    (hex : st.fs.lookup st.path = some node) (hclob : clobber st = false) :
    deserialize_file fuel depth st = some (-1, st.log (.stat st.path)) := by
  have h0 : sys_stat st = (st.fs.stat st.path, st.log (.stat st.path)) := rfl
  rw [deserialize_file, h0]
  simp only [clobber_log, FileSys.stat, hex, hclob]
  simp

/-- Claim C17. With the clobber bit clear, a turn of the loop of
`deserialize_directory(d)` on a DIRECTORY_ENTRY that names a path that exists
returns -1; the file system is unchanged, the only file-system call issued is
`opendir` (directory mode word) or `stat` (regular-file mode word) on that
path, so neither `mkdir` nor `fopen` nor `chmod` is called, and no byte is
read after the DIRECTORY_ENTRY record. -/
theorem existing_target_without_clobber (PATH_MAX : Nat) (hPM : PATH_MAX ≤ 2147483620)
    (fuel d : Nat) (st : State) (ps : List Nat) (n : Name) (m sz : Nat) (rest : List Nat)
    (node : Node)
    (hp : PathIs PATH_MAX st ps) (hne : ps ≠ []) (hlast : ps.getLast? ≠ some 47)
    (hn : GoodName n) (hfit : ps.length + 1 + n.length < PATH_MAX)
    (hm : m < 4294967296) (hd : d < 2147483648)
    (hin : st.stdin = header 4 (toUInt32 (d : Int)) (28 + n.length) ++
      (be_bytes 4 m ++ (be_bytes 8 sz ++ (n ++ rest))))
    (hex : st.fs.lookup (ps ++ 47 :: n) = some node) (hclob : clobber st = false) :
    ∃ st', deserialize_directory PATH_MAX (fuel + 1) (d : Int) st = some (-1, st') ∧
      st'.fs = st.fs ∧ st'.stdin = rest ∧
      st'.calls = st.calls ++
        (if S_ISDIR m then [.opendir (ps ++ 47 :: n)]
         else if S_ISREG m then [.stat (ps ++ 47 :: n)] else []) := by
  have hturn := deserialize_directory_entry PATH_MAX fuel d st m (28 + n.length) (be_bytes 8 sz) n
    rest hd hm (be_bytes_length 8 sz) (be_bytes_lt 8 sz) (fun b hb => (hn.2.2.2 b hb).2.2)
    (Nat.mod_eq_of_lt (by omega)) (by omega) hin
  obtain ⟨st1, hpush, hp1, hfs1, _, hin1, hopt1⟩ := push_entry PATH_MAX (st.feed rest) ps n
    (hp.feed rest) hne hlast hn hfit
  have hcalls1 : st1.calls = st.calls := by
    have := path_push_calls PATH_MAX n (st.feed rest)
    rw [hpush] at this
    exact this
  have hpath1 : st1.path = ps ++ 47 :: n := hp1.path
  have hex1 : st1.fs.lookup st1.path = some node := by
    rw [hpath1, hfs1]
    exact hex
  have hclob1 : clobber st1 = false := by
    unfold clobber at hclob ⊢
    rw [hopt1]
    exact hclob
  have h01 : ¬ ((0 : Int) = -1) := by decide
  rw [hturn, entry_dispatch, hpush]
  simp only [h01, if_false]
  by_cases hdir : S_ISDIR m = true
  · rw [if_pos hdir, enter_directory_exists st1 node hex1 hclob1]
    refine ⟨st1.log (.opendir st1.path), rfl, hfs1, hin1, ?_⟩
    rw [if_pos hdir, log_calls, hcalls1, hpath1]
  · rw [if_neg hdir]
    by_cases hreg : S_ISREG m = true
    · rw [if_pos hreg, deserialize_file_exists fuel _ st1 node hex1 hclob1]
      refine ⟨st1.log (.stat st1.path), by simp, hfs1, hin1, ?_⟩
      rw [if_neg hdir, if_pos hreg, log_calls, hcalls1, hpath1]
    · rw [if_neg hreg]
      refine ⟨st1, rfl, hfs1, hin1, ?_⟩
      rw [if_neg hdir, if_neg hreg, hcalls1, List.append_nil]

set_option maxRecDepth 1000000 in
/-- Witness of C17: the entry `f` (mode word 0o100644) when the base directory
already holds `f`, without `-c`. -/
theorem existing_target_without_clobber_witness :
    (4096 ≤ 2147483620 ∧ PathIs 4096 (deserializeStart fBase 0 fileEntryInput) [46] ∧
      GoodName fName ∧
      (deserializeStart fBase 0 fileEntryInput).fs.lookup ([46] ++ 47 :: fName) =
        some (Node.file 0o644 [9]) ∧
      clobber (deserializeStart fBase 0 fileEntryInput) = false) ∧
    ∃ st', deserialize_directory 4096 (0 + 1) ((1 : Nat) : Int)
        (deserializeStart fBase 0 fileEntryInput) = some (-1, st') ∧
      st'.fs = (deserializeStart fBase 0 fileEntryInput).fs ∧
      st'.stdin = header 5 1 19 ++ [1, 2, 3] ∧
      st'.calls = (deserializeStart fBase 0 fileEntryInput).calls ++
        (if S_ISDIR 0o100644 then [.opendir ([46] ++ 47 :: fName)]
         else if S_ISREG 0o100644 then [.stat ([46] ++ 47 :: fName)] else []) :=
  have hp : PathIs 4096 (deserializeStart fBase 0 fileEntryInput) [46] :=
    deserializeStart_pathIs fBase 0 fileEntryInput
  have hn : GoodName fName := by unfold GoodName; decide
  ⟨⟨by decide, hp, hn, by rfl, by rfl⟩,
    existing_target_without_clobber 4096 (by decide) 0 1 (deserializeStart fBase 0 fileEntryInput)
      [46] fName 0o100644 3 (header 5 1 19 ++ [1, 2, 3]) (Node.file 0o644 [9]) hp (by decide)
      (by decide) hn (by decide) (by decide) (by decide) (by rfl) (by rfl) (by rfl)⟩

/-- The head of a turn of the loop of `deserialize_directory` on a
DIRECTORY_ENTRY record of the expected depth, for any continuation `recurse`:
`check_while_condition` yields the type 4, and `directory_entry` reads the mode
word and the name (the 8 bytes of the entry's size are skipped) and runs
`entry_dispatch` on them. -/
theorem directory_entry_reads (PATH_MAX fuel d : Nat)
    (recurse : Int → State → Option (Int × State)) (st : State) (m total : Nat)
    (skip name rest : List Nat) (hd : d < 2147483648) (hm : m < 4294967296)
    (hskip : skip.length = 8) (hskipb : ∀ b ∈ skip, b < 256) (hname : ∀ b ∈ name, b < 256)
    (htotal : total % 4294967296 = 28 + name.length) (hnl : name.length + 28 < 2147483648)
    (hin : st.stdin = header 4 (toUInt32 (d : Int)) total ++
      (be_bytes 4 m ++ (skip ++ (name ++ rest)))) :
    (check_while_condition (d : Int) st).1 = 4 ∧
    directory_entry PATH_MAX recurse fuel (d : Int) (check_while_condition (d : Int) st).2 =
      entry_dispatch PATH_MAX recurse fuel (d : Int) m name (st.feed rest) := by
  have h1 := check_while_header st 4 d total _ (by decide) hd hin
  have h2 := read32_debug8 (st.feed (be_bytes 8 total ++ (be_bytes 4 m ++ (skip ++ (name ++ rest)))))
    total _ rfl
  rw [feed_feed, htotal] at h2
  have h3 := read32_debug4 (st.feed (be_bytes 4 m ++ (skip ++ (name ++ rest)))) m _ rfl
  rw [feed_feed, Nat.mod_eq_of_lt hm] at h3
  have h4 := skip_bytes_eq skip (st.feed (skip ++ (name ++ rest))) (name ++ rest) rfl hskipb
  rw [hskip, feed_feed] at h4
  have h5 := read_name_eq name (st.feed (name ++ rest)) [] rest rfl hname
  rw [feed_feed, List.nil_append] at h5
  have hlen : (toInt32 (toInt32 ((28 + name.length : Nat) : Int) - 16 - 12)).toNat =
      name.length := by
    unfold toInt32
    omega
  rw [h1]
  refine ⟨rfl, ?_⟩
  show directory_entry PATH_MAX recurse fuel (d : Int) (st.feed _) = _
  rw [directory_entry, h2]
  simp only [h3, hlen, h4]
  rw [h5]

/-- A turn of the loop of `deserialize_directory` whose `check_while_condition`
fails (no record of the expected depth follows): the function returns -1. -/
theorem deserialize_directory_stops (PATH_MAX fuel : Nat) (depth : Int) (st st1 : State)
    (h : check_while_condition depth st = (-1, st1)) :
    deserialize_directory PATH_MAX (fuel + 1) depth st = some (-1, st1) := by
  rw [deserialize_directory]
  simp only [h]
  rfl


/-- A turn of the loop of `deserialize_directory(d)` on a DIRECTORY_ENTRY with a
regular-file mode word and a good name, followed by a complete FILE_DATA record
of depth `d` with a payload shorter than 2^32 bytes, the target being writable:
the state `st'` in which the entry branch ends with the call `recurse d`, and
what `deserialize_directory` returns when the next turn ends the run. -/
theorem file_entry_turn (PATH_MAX : Nat) (hPM : PATH_MAX ≤ 2147483620)
    (fuel d : Nat) (st : State) (ps : List Nat) (n : Name) (m sz : Nat)
    (content rest : List Nat) (p s : Nat) (es : List (Name × Node))
    (hp : PathIs PATH_MAX st ps) (hne : ps ≠ []) (hlast : ps.getLast? ≠ some 47)
    (hn : GoodName n) (hfit : ps.length + 1 + n.length < PATH_MAX)
    (hm : m < 4294967296) (hreg : S_ISREG m = true) (hd : d < 2147483648)
    (hin : st.stdin = header 4 (toUInt32 (d : Int)) (28 + n.length) ++
      (be_bytes 4 m ++ (be_bytes 8 sz ++ (n ++
        (header 5 (toUInt32 (d : Int)) (content.length + 16) ++ (content ++ rest))))))
    (h32 : content.length < 4294967296) (hbytes : ∀ b ∈ content, b < 256)
    (hdir : st.fs.lookup ps = some (Node.dir p s es))
    (htarget : st.fs.lookup (ps ++ 47 :: n) = none ∨
      (clobber st = true ∧ ∃ perm c0, st.fs.lookup (ps ++ 47 :: n) = some (Node.file perm c0)))
    (hfuel : content.length < fuel) :
    ∃ st', (check_while_condition (d : Int) st).1 = 4 ∧
      (∀ recurse, directory_entry PATH_MAX recurse fuel (d : Int)
        (check_while_condition (d : Int) st).2 = recurse (d : Int) st') ∧
      deserialize_directory PATH_MAX (fuel + 1) (d : Int) st =
        deserialize_directory PATH_MAX fuel (d : Int) st' ∧
      PathIs PATH_MAX st' ps ∧ st'.stdin = rest ∧
      st'.fs.lookup (ps ++ 47 :: n) = some (Node.file (m &&& 0o777) content) ∧
      (∀ st'', check_while_condition (d : Int) st' = (-1, st'') →
        deserialize_directory PATH_MAX (fuel + 1) (d : Int) st = some (-1, st'')) ∧
      (d = 1 → ∀ rest', rest = header 3 (toUInt32 1) 16 ++ rest' →
        ∃ st'', deserialize_directory PATH_MAX (fuel + 1) (d : Int) st = some (0, st'') ∧
          st''.fs = st'.fs ∧ st''.stdin = rest') := by
  have hreads := fun recurse => directory_entry_reads PATH_MAX fuel d recurse st m (28 + n.length)
    (be_bytes 8 sz) n
    (header 5 (toUInt32 (d : Int)) (content.length + 16) ++ (content ++ rest)) hd hm
    (be_bytes_length 8 sz) (be_bytes_lt 8 sz) (fun b hb => (hn.2.2.2 b hb).2.2)
    (Nat.mod_eq_of_lt (by omega)) (by omega) hin
  have hturn := deserialize_directory_entry PATH_MAX fuel d st m (28 + n.length) (be_bytes 8 sz) n
    (header 5 (toUInt32 (d : Int)) (content.length + 16) ++ (content ++ rest)) hd hm
    (be_bytes_length 8 sz) (be_bytes_lt 8 sz) (fun b hb => (hn.2.2.2 b hb).2.2)
    (Nat.mod_eq_of_lt (by omega)) (by omega) hin
  obtain ⟨st', hdis, hp', hin', hlook, _, _⟩ := entry_dispatch_file PATH_MAX fuel d
    (st.feed (header 5 (toUInt32 (d : Int)) (content.length + 16) ++ (content ++ rest)))
    ps n m content rest p s es (hp.feed _) hne hlast hn hfit hreg hd rfl h32 hbytes hdir htarget
    hfuel
  have heq : deserialize_directory PATH_MAX (fuel + 1) (d : Int) st =
      deserialize_directory PATH_MAX fuel (d : Int) st' := by rw [hturn, hdis]
  obtain ⟨f, rfl⟩ : ∃ f, fuel = f + 1 := ⟨fuel - 1, by omega⟩
  refine ⟨st', (hreads (fun _ s => some (0, s))).1, ?_, heq, hp', hin', hlook, ?_, ?_⟩
  · intro recurse
    rw [(hreads recurse).2, hdis]
  · intro st'' h
    rw [heq]
    exact deserialize_directory_stops PATH_MAX f (d : Int) st' st'' h
  · intro hd1 rest' hr
    subst hd1
    have hlen : st'.path_length ≠ 0 := by
      obtain ⟨_, _, h2, _⟩ := hp'
      rw [h2]
      exact fun h => hne (List.length_eq_zero.mp h)
    obtain ⟨st'', h, hs, hf⟩ := deserialize_directory_last PATH_MAX f st' rest' hlen
      (by rw [hin', hr])
    refine ⟨st'', ?_, hf, hs⟩
    rw [heq]
    simp only [Nat.cast_one]
    exact h

/-- Claim C16, amended. A turn of the loop of `deserialize_directory(d)` on a
DIRECTORY_ENTRY with a regular-file mode word `m` and a good name `n`, followed
by a complete FILE_DATA record of depth `d` with a payload shorter than 2^32
bytes, when the path in `path_buf` does not end in `/`, names an existing
directory, and the target does not exist (or is a regular file, the clobber bit
being set). `check_while_condition` yields the type 4, and the entry branch
ends, whatever the continuation `recurse` is, with the call `recurse d` in one
state `st'`: there the file holds the payload and has permission bits
`m & 0o777`, the name is popped, so the path and `path_length` are what they
were before the entry was read, and the rest of the input is left to read. So
`deserialize_directory` goes on with the loop in `st'`; it returns -1 in the
state the next `check_while_condition` leaves when that one fails, and for
`d = 1` it returns 0, with the file system of `st'`, when the END_OF_DIRECTORY
record of depth 1 follows. -/
theorem file_entry_sets_mode_and_pops (PATH_MAX : Nat) (hPM : PATH_MAX ≤ 2147483620)
    (fuel d : Nat) (st : State) (ps : List Nat) (n : Name) (m sz : Nat)
    (content rest : List Nat) (p s : Nat) (es : List (Name × Node))
    (hp : PathIs PATH_MAX st ps) (hne : ps ≠ []) (hlast : ps.getLast? ≠ some 47)
    (hn : GoodName n) (hfit : ps.length + 1 + n.length < PATH_MAX)
    (hm : m < 4294967296) (hreg : S_ISREG m = true) (hd : d < 2147483648)
    (hin : st.stdin = header 4 (toUInt32 (d : Int)) (28 + n.length) ++
      (be_bytes 4 m ++ (be_bytes 8 sz ++ (n ++
        (header 5 (toUInt32 (d : Int)) (content.length + 16) ++ (content ++ rest))))))
    (h32 : content.length < 4294967296) (hbytes : ∀ b ∈ content, b < 256)
    (hdir : st.fs.lookup ps = some (Node.dir p s es))
    (htarget : st.fs.lookup (ps ++ 47 :: n) = none ∨
      (clobber st = true ∧ ∃ perm c0, st.fs.lookup (ps ++ 47 :: n) = some (Node.file perm c0)))
    (hfuel : content.length < fuel) :
    ∃ st', (check_while_condition (d : Int) st).1 = 4 ∧
      (∀ recurse, directory_entry PATH_MAX recurse fuel (d : Int)
        (check_while_condition (d : Int) st).2 = recurse (d : Int) st') ∧
      deserialize_directory PATH_MAX (fuel + 1) (d : Int) st =
        deserialize_directory PATH_MAX fuel (d : Int) st' ∧
      st'.fs.lookup (ps ++ 47 :: n) = some (Node.file (m &&& 0o777) content) ∧
      st'.path = st.path ∧ st'.path_length = st.path_length ∧ st'.stdin = rest ∧
      (∀ st'', check_while_condition (d : Int) st' = (-1, st'') →
        deserialize_directory PATH_MAX (fuel + 1) (d : Int) st = some (-1, st'')) ∧
      (d = 1 → ∀ rest', rest = header 3 (toUInt32 1) 16 ++ rest' →
        ∃ st'', deserialize_directory PATH_MAX (fuel + 1) (d : Int) st = some (0, st'') ∧
          st''.fs = st'.fs ∧ st''.stdin = rest') := by
  obtain ⟨st', hty, hbody, heq, hp', hin', hlook, hstop, hlast'⟩ := file_entry_turn PATH_MAX hPM
    fuel d st ps n m sz content rest p s es hp hne hlast hn hfit hm hreg hd hin h32 hbytes hdir
    htarget hfuel
  refine ⟨st', hty, hbody, heq, hlook, ?_, ?_, hin', hstop, hlast'⟩
  · rw [hp'.path, hp.path]
  · obtain ⟨_, _, h1, _⟩ := hp
    obtain ⟨_, _, h2, _⟩ := hp'
    rw [h1, h2]

set_option maxRecDepth 1000000 in
/-- Witness of C16: the entry `f` (mode word 0o100600, content `01 02 03`) in
the empty base directory `.` (umask 022), followed by the END_OF_DIRECTORY
record of depth 1: `deserialize_directory(1)` returns 0 and leaves `./f` with
mode 0o600 and content `01 02 03`. -/
theorem file_entry_sets_mode_and_pops_witness :
    (4096 ≤ 2147483620 ∧ PathIs 4096 fileTurnStart [46] ∧
      GoodName fName ∧ S_ISREG 0o100600 = true ∧
      fileTurnStart.fs.lookup [46] = some (Node.dir 0o755 4096 []) ∧
      fileTurnStart.fs.lookup ([46] ++ 47 :: fName) = none) ∧
    (∃ st', (check_while_condition ((1 : Nat) : Int) fileTurnStart).1 = 4 ∧
      (∀ recurse, directory_entry 4096 recurse 4 ((1 : Nat) : Int)
        (check_while_condition ((1 : Nat) : Int) fileTurnStart).2 =
          recurse ((1 : Nat) : Int) st') ∧
      deserialize_directory 4096 (4 + 1) ((1 : Nat) : Int) fileTurnStart =
        deserialize_directory 4096 4 ((1 : Nat) : Int) st' ∧
      st'.fs.lookup ([46] ++ 47 :: fName) = some (Node.file (0o100600 &&& 0o777) [1, 2, 3]) ∧
      st'.path = fileTurnStart.path ∧ st'.path_length = fileTurnStart.path_length ∧
      st'.stdin = header 3 1 16 ∧
      (∀ st'', check_while_condition ((1 : Nat) : Int) st' = (-1, st'') →
        deserialize_directory 4096 (4 + 1) ((1 : Nat) : Int) fileTurnStart = some (-1, st'')) ∧
      (1 = 1 → ∀ rest', header 3 1 16 = header 3 (toUInt32 1) 16 ++ rest' →
        ∃ st'', deserialize_directory 4096 (4 + 1) ((1 : Nat) : Int) fileTurnStart =
            some (0, st'') ∧
          st''.fs = st'.fs ∧ st''.stdin = rest')) ∧
    ∃ st'', deserialize_directory 4096 5 1 fileTurnStart = some (0, st'') ∧
      st''.fs.lookup [46, 47, 102] = some (Node.file 0o600 [1, 2, 3]) ∧ st''.stdin = [] :=
  have hp : PathIs 4096 fileTurnStart [46] :=
    deserializeStart_pathIs emptyBase 0 modeEntryInput
  have hn : GoodName fName := by unfold GoodName; decide
  have h := file_entry_sets_mode_and_pops 4096 (by decide) 4 1 fileTurnStart
    [46] fName 0o100600 3 [1, 2, 3] (header 3 1 16) 0o755 4096 [] hp (by decide) (by decide) hn
    (by decide) (by decide) (by rfl) (by decide) (by rfl) (by decide) (by decide) (by rfl)
    (Or.inl (by rfl)) (by decide)
  ⟨⟨by decide, hp, hn, by rfl, by rfl, by rfl⟩, h, by
    obtain ⟨st', _, _, _, hlook, _, _, _, _, hend⟩ := h
    obtain ⟨st'', hr, hfs, hin⟩ := hend rfl [] rfl
    exact ⟨st'', hr, by rw [hfs]; exact hlook, hin⟩⟩

set_option maxRecDepth 1000000 in
/-- Claim C16 as stated fails when the path in `path_buf` ends in `/` (base path
`d/`): `path_push` adds no separator, so after the entry `f` has been processed
`path_pop` cuts the path at the trailing `/`, and the path buffer holds `d`,
of length 1, where it held `d/`, of length 2. -/
theorem path_after_file_entry_loses_trailing_slash :
    (slashStart (header 5 1 19 ++ [1, 2, 3])).path = [100, 47] ∧
    (slashStart (header 5 1 19 ++ [1, 2, 3])).path_length = 2 ∧
    entry_dispatch 4096 (fun _ s => some (0, s)) 4 1 0o100644 fName
      (slashStart (header 5 1 19 ++ [1, 2, 3])) = some (0, slashDone) ∧
    slashDone.fs.lookup [100, 47, 102] = some (Node.file 0o644 [1, 2, 3]) ∧
    slashDone.path = [100] ∧ slashDone.path_length = 1 :=
  ⟨by rfl, by rfl, by rfl, by rfl, by rfl, by rfl⟩

/-- Function `path_push` when no separator is added (the path is empty or ends
in `/`) and the component fits: success, and the buffer holds the path followed
by the component. -/
theorem path_push_nosep_good (PATH_MAX : Nat) (c : List Nat) (st : State) (p : List Nat)
    (hp : PathIs PATH_MAX st p) (hc : ∀ x ∈ c, x ≠ 0) (h47 : 47 ∉ c)
    (hfit : st.path_length + 1 + c.length < PATH_MAX)
    (hcase : p = [] ∨ p.getLast? = some 47) :
    (path_push PATH_MAX c st).1 = 0 ∧ PathIs PATH_MAX (path_push PATH_MAX c st).2 (p ++ c) := by
  have hcs : cstr c = c := cstr_of_no_nul c hc
  obtain ⟨tail, hbuf, hlen, hnul, hsize⟩ := hp
  have hscan : scan_component c 0 = some c.length := by
    rw [scan_component_eq, hcs, if_neg h47, Nat.zero_add]
  have hnot : ¬ (st.path_length + 1 + c.length ≥ PATH_MAX) := by omega
  have hsep : ¬ (st.path_length > 0 ∧ st.path_buf.getD (st.path_length - 1) 0 ≠ 47) := by
    rintro ⟨hpos, hne47⟩
    rcases hcase with h | h
    · rw [hlen, h] at hpos
      simp at hpos
    · have hne : p ≠ [] := by
        intro h0
        rw [hlen, h0] at hpos
        simp at hpos
      apply hne47
      rw [hbuf, hlen, getD_last p hne]
      rw [List.getLast?_eq_getLast _ hne] at h
      exact Option.some.inj h
  have hjunk : c.length ≤ (0 :: tail).length := by
    rw [hbuf] at hsize
    simp only [List.length_append, List.length_cons] at hsize ⊢
    omega
  have hcopy := copy_string_all PATH_MAX c p (0 :: tail) hc (by rw [← hlen]; omega) hjunk
  obtain ⟨t, tail', hd⟩ : ∃ t tail', (0 :: tail).drop c.length = t :: tail' := by
    cases hd : (0 :: tail).drop c.length with
    | nil =>
      have := congrArg List.length hd
      rw [hbuf] at hsize
      simp only [List.length_drop, List.length_nil, List.length_cons, List.length_append]
        at this hsize
      omega
    | cons t tail' => exact ⟨t, tail', rfl⟩
  have hres : path_push PATH_MAX c st =
      (0, { st with path_buf := p ++ c ++ 0 :: tail', path_length := p.length + c.length }) := by
    simp only [path_push, hscan, hnot, if_false, hsep, push_copy]
    rw [hbuf, hlen, hcopy]
    simp only [deref, List.headD_nil, ne_eq, not_true_eq_false, if_false, hd]
    have := set_at_length (p ++ c) t 0 tail'
    simp only [List.length_append] at this
    rw [this]
  rw [hres]
  refine ⟨rfl, tail', rfl, by simp, ?_, ?_⟩
  · intro x hx
    rcases List.mem_append.mp hx with h | h
    · exact hnul x h
    · exact hc x h
  · have := congrArg List.length hd
    rw [hbuf] at hsize
    simp only [List.length_drop, List.length_cons, List.length_append] at this hsize ⊢
    omega

/-- The copy loop on a string without NUL that does not fit: it stops before
the end of the string. -/
theorem copy_string_long (PATH_MAX : Nat) (name : List Nat) :
    ∀ (buf : List Nat) (dest : Nat), (∀ c ∈ name, c ≠ 0) → dest ≤ PATH_MAX - 1 →
      PATH_MAX - 1 - dest < name.length →
      deref (copy_string PATH_MAX name buf dest).1 ≠ 0 := by
  induction name with
  | nil => intro buf dest _ _ h; simp at h
  | cons c cs ih =>
    intro buf dest hnul hdest hlong
    have hc : c ≠ 0 := hnul c (List.mem_cons_self _ _)
    rw [copy_string]
    by_cases hroom : dest < PATH_MAX - 1
    · rw [if_pos ⟨hc, hroom⟩]
      apply ih _ _ (fun x hx => hnul x (List.mem_cons_of_mem _ hx)) (by omega)
      simp only [List.length_cons] at hlong
      omega
    · rw [if_neg (fun h => hroom h.2)]
      exact hc

/-- Claim C19. Function `path_init` on a string `name` (without NUL), for a
path buffer of `PATH_MAX` cells: it returns 0 if and only if the length of
`name` plus one is at most `PATH_MAX`, and -1 otherwise; on success `path_buf`
holds `name` followed by NUL and `path_length` is the length of `name`. -/
theorem path_init_succeeds_iff_fits (PATH_MAX : Nat) (name : List Nat) (st : State)
    (hPM : 0 < PATH_MAX) (hbuf : st.path_buf.length = PATH_MAX) (hnul : ∀ c ∈ name, c ≠ 0) :
    ((path_init PATH_MAX name st).1 = 0 ↔ name.length + 1 ≤ PATH_MAX) ∧
    ((path_init PATH_MAX name st).1 = 0 ∨ (path_init PATH_MAX name st).1 = -1) ∧
    ((path_init PATH_MAX name st).1 = 0 →
      (∃ tail, (path_init PATH_MAX name st).2.path_buf = name ++ 0 :: tail) ∧
      (path_init PATH_MAX name st).2.path = name ∧
      (path_init PATH_MAX name st).2.path_length = name.length ∧
      (path_init PATH_MAX name st).2.path_buf.length = PATH_MAX) := by
  by_cases hfit : name.length + 1 ≤ PATH_MAX
  · obtain ⟨buf, h, hp⟩ := path_init_good PATH_MAX name st hbuf hnul (by omega)
    rw [h]
    refine ⟨⟨fun _ => hfit, fun _ => rfl⟩, Or.inl rfl, fun _ => ?_⟩
    obtain ⟨tail, h1, h2, _, h4⟩ := hp
    exact ⟨⟨tail, h1⟩, PathIs.path ⟨tail, h1, h2, hnul, h4⟩, h2, h4⟩
  · have hlong := copy_string_long PATH_MAX name st.path_buf 0 hnul (by omega) (by omega)
    have hfail : (path_init PATH_MAX name st).1 = -1 := by
      unfold path_init
      rcases hcp : copy_string PATH_MAX name st.path_buf 0 with ⟨r, b, dst⟩
      rw [hcp] at hlong
      simp only at hlong ⊢
      rw [if_pos hlong]
    rw [hfail]
    refine ⟨⟨fun h => absurd h (by decide), fun h => absurd h hfit⟩, Or.inr rfl,
      fun h => absurd h (by decide)⟩

set_option maxRecDepth 1000000 in
/-- Witness of C19: `path_init(".")` from the initial state. -/
theorem path_init_succeeds_iff_fits_witness :
    (0 < 4096 ∧ (initial 4096 (fsOf emptyBase) 0 []).path_buf.length = 4096 ∧
      ∀ c ∈ ([46] : List Nat), c ≠ 0) ∧
    (((path_init 4096 [46] (initial 4096 (fsOf emptyBase) 0 [])).1 = 0 ↔
        ([46] : List Nat).length + 1 ≤ 4096) ∧
    ((path_init 4096 [46] (initial 4096 (fsOf emptyBase) 0 [])).1 = 0 ∨
      (path_init 4096 [46] (initial 4096 (fsOf emptyBase) 0 [])).1 = -1) ∧
    ((path_init 4096 [46] (initial 4096 (fsOf emptyBase) 0 [])).1 = 0 →
      (∃ tail, (path_init 4096 [46] (initial 4096 (fsOf emptyBase) 0 [])).2.path_buf =
        [46] ++ 0 :: tail) ∧
      (path_init 4096 [46] (initial 4096 (fsOf emptyBase) 0 [])).2.path = [46] ∧
      (path_init 4096 [46] (initial 4096 (fsOf emptyBase) 0 [])).2.path_length =
        ([46] : List Nat).length ∧
      (path_init 4096 [46] (initial 4096 (fsOf emptyBase) 0 [])).2.path_buf.length = 4096)) :=
  ⟨⟨by decide, List.length_replicate 4096 0, by decide⟩,
    path_init_succeeds_iff_fits 4096 [46] (initial 4096 (fsOf emptyBase) 0 []) (by decide)
      (List.length_replicate 4096 0) (by decide)⟩

/-- Claim C20. For a path buffer that holds the string `p` and a component `c`
(without NUL) for which `path_push(c)` returns 0: the buffer then holds
`p ++ c` when `p` is empty or ends in `/`, and `p ++ "/" ++ c` otherwise,
followed by NUL, and `path_length` is the length of that string. -/
theorem path_push_appends (PATH_MAX : Nat) (c : List Nat) (st : State) (p : List Nat)
    (hp : PathIs PATH_MAX st p) (hc : ∀ x ∈ c, x ≠ 0)
    (hok : (path_push PATH_MAX c st).1 = 0) :
    PathIs PATH_MAX (path_push PATH_MAX c st).2
      (if p = [] ∨ p.getLast? = some 47 then p ++ c else p ++ 47 :: c) := by
  have hcs : cstr c = c := cstr_of_no_nul c hc
  obtain ⟨h47, hfit⟩ := path_push_ok PATH_MAX c st (by rw [hok]; decide)
  rw [hcs] at h47 hfit
  by_cases hcase : p = [] ∨ p.getLast? = some 47
  · rw [if_pos hcase]
    exact (path_push_nosep_good PATH_MAX c st p hp hc h47 hfit hcase).2
  · rw [if_neg hcase]
    have hne : p ≠ [] := fun h => hcase (Or.inl h)
    have hlast : p.getLast hne ≠ 47 := by
      intro h
      apply hcase
      right
      rw [List.getLast?_eq_getLast _ hne, h]
    obtain ⟨buf, h, hp'⟩ := path_push_good PATH_MAX c st p hp hne hlast
      (fun x hx => ⟨hc x hx, fun h => h47 (h ▸ hx)⟩)
      (by obtain ⟨_, _, hlen, _, _⟩ := hp; rw [← hlen]; exact hfit)
    rw [h]
    exact hp'

set_option maxRecDepth 1000000 in
/-- Witness of C20: `path_push("f")` onto the base path `.`. -/
theorem path_push_appends_witness :
    (PathIs 4096 (deserializeStart emptyBase 0 []) [46] ∧ (∀ x ∈ fName, x ≠ 0) ∧
      (path_push 4096 fName (deserializeStart emptyBase 0 [])).1 = 0) ∧
    PathIs 4096 (path_push 4096 fName (deserializeStart emptyBase 0 [])).2
      (if ([46] : List Nat) = [] ∨ ([46] : List Nat).getLast? = some 47 then [46] ++ fName
       else [46] ++ 47 :: fName) :=
  ⟨⟨deserializeStart_pathIs emptyBase 0 [], by decide, by rfl⟩,
    path_push_appends 4096 fName (deserializeStart emptyBase 0 []) [46]
      (deserializeStart_pathIs emptyBase 0 []) (by decide) (by rfl)⟩

theorem entry_mode_fmt (x : Nat) : entry_mode x &&& S_IFMT = x &&& S_IFMT := by
  unfold entry_mode
  rw [Nat.and_assoc]
  rfl

theorem entry_mode_lt (x : Nat) : entry_mode x < 4294967296 := by
  unfold entry_mode
  have : x &&& (S_IFMT ||| S_IRWXU ||| S_IRWXG ||| S_IRWXO) ≤
      (S_IFMT ||| S_IRWXU ||| S_IRWXG ||| S_IRWXO) := Nat.and_le_right
  have h2 : (S_IFMT ||| S_IRWXU ||| S_IRWXG ||| S_IRWXO) = 61951 := by decide
  omega

theorem entry_mode_isreg (p : Nat) : S_ISREG (entry_mode (S_IFREG ||| (p % 4096))) = true := by
  have := isreg_file p
  unfold S_ISREG at this ⊢
  rw [entry_mode_fmt]
  exact this

theorem entry_mode_isdir (p : Nat) : S_ISDIR (entry_mode (S_IFDIR ||| (p % 4096))) = true := by
  have := isdir_dir p
  unfold S_ISDIR at this ⊢
  rw [entry_mode_fmt]
  exact this

/-- The permission bits `chmod` gets for a regular file written by the
serializer: the low nine bits of the original permission bits. -/
theorem entry_mode_perm (p : Nat) :
    entry_mode (S_IFREG ||| (p % 4096)) &&& 0o777 = p &&& 0o777 := by
  unfold entry_mode
  rw [Nat.and_assoc]
  have h1 : (S_IFMT ||| S_IRWXU ||| S_IRWXG ||| S_IRWXO) &&& 0o777 = 0o777 := by decide
  rw [h1, Nat.and_distrib_right]
  have h2 : S_IFREG &&& 0o777 = 0 := by decide
  rw [h2, Nat.zero_or]
  have h3 : p % 4096 = p &&& 4095 := (Nat.and_pow_two_sub_one_eq_mod p 12).symm
  rw [h3, Nat.and_assoc]
  rfl

/-- The regular-file branch of `entry_dispatch` for a new name in the directory
in focus, when `path_push` leaves the path `ps/n`: the file is appended to the
entries of that directory, with the payload as content and the permission bits
`mode & 0o777`, and the path is `ps` afterwards. -/
theorem entry_dispatch_file_focus_pushed (PATH_MAX : Nat)
    (recurse : Int → State → Option (Int × State)) (fuel d : Nat) (st : State) (ps : List Nat)
    (n : Name) (m : Nat) (content rest : List Nat) {C : Node → Node} {q : List Name}
    (hC : Focus C q) (p s : Nat) (pre : List (Name × Node))
    (hpushes : PushesTo PATH_MAX n st ps) (hn : GoodName n)
    (hreg : S_ISREG m = true) (hd : d < 2147483648)
    (hin : st.stdin = header 5 (toUInt32 (d : Int)) (content.length + 16) ++ (content ++ rest))
    (h32 : content.length < 4294967296) (hbytes : ∀ b ∈ content, b < 256)
    (hq : normalize ps = q) (hroot : st.fs.root = C (Node.dir p s pre))
    (hnew : ∀ e ∈ pre, e.1 ≠ n) (hfuel : content.length < fuel) :
    ∃ st', entry_dispatch PATH_MAX recurse fuel (d : Int) m n st = recurse (d : Int) st' ∧
      PathIs PATH_MAX st' ps ∧ st'.stdin = rest ∧
      st'.fs.root = C (Node.dir p s (pre ++ [(n, Node.file (m &&& 0o777) content)])) ∧
      st'.fs.umask = st.fs.umask ∧ st'.fs.newDirSize = st.fs.newDirSize ∧
      st'.global_options = st.global_options := by
  obtain ⟨st1, hpush, hp1, hfs1, _, hin1, hopt1⟩ := hpushes
  have hpath1 : st1.path = ps ++ 47 :: n := hp1.path
  have hlook : st.fs.lookup (ps ++ 47 :: n) = none :=
    focus_lookup_new hC st.fs p s pre ps n hq hroot hn hnew
  have hgo : ¬ ((st1.fs.stat st1.path).isSome ∧ ¬ clobber st1) := by
    rw [hpath1, hfs1]
    simp [FileSys.stat, hlook]
  have hopen : st1.fs.fopen_w st1.path = some (st.fs.withRoot
      (C (Node.dir p s (pre ++ [(n, Node.file (applyUmask 0o666 st.fs.umask) [])])))) := by
    rw [hpath1, hfs1]
    simp only [FileSys.fopen_w, hlook]
    exact focus_create hC st.fs p s pre ps n _ hq hroot hn hnew
  have hclose : FileSys.fclose_w (st.fs.withRoot
      (C (Node.dir p s (pre ++ [(n, Node.file (applyUmask 0o666 st.fs.umask) [])]))))
      st1.path content = some (st.fs.withRoot
        (C (Node.dir p s (pre ++ [(n, Node.file (applyUmask 0o666 st.fs.umask) content)])))) := by
    rw [hpath1]
    simp only [FileSys.fclose_w, withRoot_root]
    rw [focus_update hC _ p s pre ps n _ (Node.setContent content) hq rfl hn hnew]
    rfl
  have hsize : content.length + 16 < 18446744073709551616 := by omega
  obtain ⟨st2, hfile, hin2, hfs2, hbuf2, hlen2, hopt2, _, _⟩ :=
    deserialize_file_ok fuel (d : Int) st1 (content.length + 16) content rest _ _
      (by omega) hgo (by rw [hin1]; exact hin) hsize rfl h32 hbytes hopen hclose hfuel
  have hp2 : PathIs PATH_MAX st2 (ps ++ 47 :: n) := hp1.of_eq hbuf2 hlen2
  have hpath2 : st2.path = ps ++ 47 :: n := hp2.path
  have hchmod : st2.fs.chmod st2.path (m &&& 0o777) = some (st.fs.withRoot
      (C (Node.dir p s (pre ++ [(n, Node.file (m &&& 0o777) content)])))) := by
    rw [hpath2, hfs2]
    simp only [FileSys.chmod, withRoot_root]
    rw [focus_update hC _ p s pre ps n _ (Node.chmod (m &&& 0o777)) hq rfl hn hnew]
    simp only [Node.chmod, and_777_mod]
    rfl
  have hsys : sys_chmod (m &&& 0o777) st2 =
      (0, (st2.log (.chmod st2.path (m &&& 0o777))).withFs (st.fs.withRoot
        (C (Node.dir p s (pre ++ [(n, Node.file (m &&& 0o777) content)]))))) := by
    simp only [sys_chmod, hchmod]
    rfl
  obtain ⟨st4, hpop, hp4, hfs4, _, hin4, hopt4⟩ := pop_entry PATH_MAX
    ((st2.log (.chmod st2.path (m &&& 0o777))).withFs (st.fs.withRoot
      (C (Node.dir p s (pre ++ [(n, Node.file (m &&& 0o777) content)]))))) ps n hp2 hn
  refine ⟨st4, ?_, hp4, ?_, ?_, ?_, ?_, ?_⟩
  · have h01 : ¬ ((0 : Int) = -1) := by decide
    rw [entry_dispatch, hpush]
    simp only [h01, if_false, not_isdir_of_isreg m hreg, hreg, Bool.false_eq_true, if_true, hfile,
      ne_eq, not_true_eq_false, hsys, hpop]
  · rw [hin4]
    exact hin2
  · rw [hfs4]
    rfl
  · rw [hfs4]
    rfl
  · rw [hfs4]
    rfl
  · rw [hopt4]
    show st2.global_options = _
    rw [hopt2, hopt1]

/-- The regular-file branch of `entry_dispatch` for a new name in the directory
in focus: the file is appended to the entries of that directory, with the
payload as content and the permission bits `mode & 0o777`. -/
theorem entry_dispatch_file_focus (PATH_MAX : Nat)
    (recurse : Int → State → Option (Int × State)) (fuel d : Nat) (st : State) (ps : List Nat)
    (n : Name) (m : Nat) (content rest : List Nat) {C : Node → Node} {q : List Name}
    (hC : Focus C q) (p s : Nat) (pre : List (Name × Node))
    (hp : PathIs PATH_MAX st ps) (hne : ps ≠ []) (hlast : ps.getLast? ≠ some 47)
    (hn : GoodName n) (hfit : ps.length + 1 + n.length < PATH_MAX)
    (hreg : S_ISREG m = true) (hd : d < 2147483648)
    (hin : st.stdin = header 5 (toUInt32 (d : Int)) (content.length + 16) ++ (content ++ rest))
    (h32 : content.length < 4294967296) (hbytes : ∀ b ∈ content, b < 256)
    (hq : normalize ps = q) (hroot : st.fs.root = C (Node.dir p s pre))
    (hnew : ∀ e ∈ pre, e.1 ≠ n) (hfuel : content.length < fuel) :
    ∃ st', entry_dispatch PATH_MAX recurse fuel (d : Int) m n st = recurse (d : Int) st' ∧
      PathIs PATH_MAX st' ps ∧ st'.stdin = rest ∧
      st'.fs.root = C (Node.dir p s (pre ++ [(n, Node.file (m &&& 0o777) content)])) ∧
      st'.fs.umask = st.fs.umask ∧ st'.fs.newDirSize = st.fs.newDirSize ∧
      st'.global_options = st.global_options :=
  entry_dispatch_file_focus_pushed PATH_MAX recurse fuel d st ps n m content rest hC p s pre
    (push_entry PATH_MAX st ps n hp hne hlast hn hfit) hn hreg hd hin h32 hbytes hq hroot hnew hfuel

theorem SameIO.rfl_ (st : State) : SameIO st st := ⟨rfl, rfl, rfl, rfl, rfl⟩

theorem SameIO.trans {a b c : State} (h1 : SameIO a b) (h2 : SameIO b c) : SameIO a c :=
  ⟨h2.path_buf.trans h1.path_buf, h2.path_length.trans h1.path_length,
    h2.global_options.trans h1.global_options, h2.stdin.trans h1.stdin,
    h2.stdout.trans h1.stdout⟩

theorem SameIO.same_path {a b : State} (h : SameIO a b) : b.path = a.path :=
  path_of_buf_eq h.path_buf

theorem SameIO.pathIs {PATH_MAX : Nat} {a b : State} {p : List Nat} (h : SameIO a b)
    (hp : PathIs PATH_MAX a p) : PathIs PATH_MAX b p :=
  hp.of_eq h.path_buf h.path_length

/-- The call `opendir`: its result, and a state that differs in the record of
calls only. -/
theorem sys_opendir_same (st : State) :
    ∃ st', sys_opendir st = (st.fs.opendir st.path, st') ∧ st'.fs = st.fs ∧ SameIO st st' :=
  ⟨st.log (.opendir st.path), rfl, rfl, ⟨rfl, rfl, rfl, rfl, rfl⟩⟩

/-- The call `stat`: its result, and a state that differs in the record of
calls only. -/
theorem sys_stat_same (st : State) :
    ∃ st', sys_stat st = (st.fs.stat st.path, st') ∧ st'.fs = st.fs ∧ SameIO st st' :=
  ⟨st.log (.stat st.path), rfl, rfl, ⟨rfl, rfl, rfl, rfl, rfl⟩⟩

/-- A successful call `mkdir`. -/
theorem sys_mkdir_same (mode : Nat) (st : State) (fs1 : FileSys)
    (h : st.fs.mkdir st.path mode = some fs1) :
    ∃ st', sys_mkdir mode st = (0, st') ∧ st'.fs = fs1 ∧ SameIO st st' := by
  refine ⟨(st.log (.mkdir st.path mode)).withFs fs1, ?_, rfl, ⟨rfl, rfl, rfl, rfl, rfl⟩⟩
  simp only [sys_mkdir, h]
  rfl

/-- A successful call `chmod`. -/
theorem sys_chmod_same (mode : Nat) (st : State) (fs1 : FileSys)
    (h : st.fs.chmod st.path mode = some fs1) :
    ∃ st', sys_chmod mode st = (0, st') ∧ st'.fs = fs1 ∧ SameIO st st' := by
  refine ⟨(st.log (.chmod st.path mode)).withFs fs1, ?_, rfl, ⟨rfl, rfl, rfl, rfl, rfl⟩⟩
  simp only [sys_chmod, h]
  rfl

/-- The directory branch of `entry_dispatch` for a new name in the directory in
focus, when `path_push` leaves the path `ps/n`: an empty directory is appended
to the entries of that directory, and the function goes on one level down with
the path of the new directory. -/
theorem entry_dispatch_dir_focus_pushed (PATH_MAX : Nat)
    (recurse : Int → State → Option (Int × State)) (fuel d : Nat) (st : State) (ps : List Nat)
    (n : Name) (m : Nat) {C : Node → Node} {q : List Name}
    (hC : Focus C q) (p s : Nat) (pre : List (Name × Node))
    (hpushes : PushesTo PATH_MAX n st ps) (hn : GoodName n)
    (hdir : S_ISDIR m = true)
    (hq : normalize ps = q) (hroot : st.fs.root = C (Node.dir p s pre))
    (hnew : ∀ e ∈ pre, e.1 ≠ n) :
    ∃ st' perm, entry_dispatch PATH_MAX recurse fuel (d : Int) m n st =
        recurse ((d : Int) + 1) st' ∧
      PathIs PATH_MAX st' (ps ++ 47 :: n) ∧ st'.stdin = st.stdin ∧
      st'.fs.root = C (Node.dir p s (pre ++ [(n, Node.dir perm st.fs.newDirSize [])])) ∧
      st'.fs.umask = st.fs.umask ∧ st'.fs.newDirSize = st.fs.newDirSize ∧
      st'.global_options = st.global_options := by
  obtain ⟨st1, hpush, hp1, hfs1, _, hin1, hopt1⟩ := hpushes
  have hpath1 : st1.path = ps ++ 47 :: n := hp1.path
  have hlook : st.fs.lookup (ps ++ 47 :: n) = none :=
    focus_lookup_new hC st.fs p s pre ps n hq hroot hn hnew
  -- opendir
  obtain ⟨sa, hopen, hfsa, hsa⟩ := sys_opendir_same st1
  have hres : st1.fs.opendir st1.path = .enoent := by
    simp only [FileSys.opendir, hpath1, hfs1, hlook]
  rw [hres] at hopen
  -- mkdir
  obtain ⟨perm0, hperm0⟩ : ∃ x, x = applyUmask (0o777 % 4096) st.fs.umask := ⟨_, rfl⟩
  obtain ⟨size0, hsize0⟩ : ∃ x, x = st.fs.newDirSize := ⟨_, rfl⟩
  obtain ⟨fs2, hfs2⟩ : ∃ x, x = st.fs.withRoot (C (Node.dir p s
      (pre ++ [(n, Node.dir perm0 size0 [])]))) := ⟨_, rfl⟩
  have hmk : sa.fs.mkdir sa.path 0o777 = some fs2 := by
    rw [hsa.same_path, hpath1, hfsa, hfs1, hfs2, hperm0, hsize0]
    simp only [FileSys.mkdir]
    exact focus_create hC st.fs p s pre ps n _ hq hroot hn hnew
  obtain ⟨sb, hmkdir, hfsb, hsb⟩ := sys_mkdir_same 0o777 sa fs2 hmk
  -- stat
  have hl : fs2.lookup (ps ++ 47 :: n) = some (Node.dir perm0 size0 []) := by
    rw [hfs2]
    exact focus_lookup_last hC _ p s pre ps n _ hq rfl hn hnew
  obtain ⟨sc, hstat, hfsc, hsc⟩ := sys_stat_same sb
  have hpathb : sb.path = ps ++ 47 :: n := by rw [hsb.same_path, hsa.same_path, hpath1]
  have hst : sb.fs.stat sb.path = some (Node.dir perm0 size0 []).stat := by
    rw [hpathb, hfsb]
    simp only [FileSys.stat, hl]
    rfl
  rw [hst] at hstat
  -- chmod
  obtain ⟨mode1, hmode1⟩ : ∃ x, x = (Node.dir perm0 size0 []).stat.st_mode &&& 0o777 := ⟨_, rfl⟩
  obtain ⟨fs3, hfs3⟩ : ∃ x, x = st.fs.withRoot (C (Node.dir p s
      (pre ++ [(n, Node.dir (mode1 % 4096) size0 [])]))) := ⟨_, rfl⟩
  have hpathc : sc.path = ps ++ 47 :: n := by rw [hsc.same_path, hpathb]
  have hch : sc.fs.chmod sc.path mode1 = some fs3 := by
    rw [hpathc, hfsc, hfsb, hfs2, hfs3]
    simp only [FileSys.chmod, withRoot_root]
    rw [focus_update hC _ p s pre ps n _ (Node.chmod _) hq rfl hn hnew]
    rfl
  obtain ⟨sd, hchmod, hfsd, hsd⟩ := sys_chmod_same mode1 sc fs3 hch
  have h01 : ¬ ((0 : Int) = -1) := by decide
  have h00 : ¬ ((0 : Int) ≠ 0) := by decide
  have henter : enter_directory st1 = (0, sd) := by
    rw [enter_directory, hopen]
    simp only [hmkdir, h00, if_false, hstat, ← hmode1, hchmod]
  have hall : SameIO st1 sd := ((hsa.trans hsb).trans hsc).trans hsd
  refine ⟨sd, mode1 % 4096, ?_, hall.pathIs hp1, ?_, ?_, ?_, ?_, ?_⟩
  · rw [entry_dispatch, hpush]
    simp only [h01, if_false, hdir, if_true, henter]
  · rw [hall.stdin, hin1]
  · rw [hfsd, hfs3, withRoot_root, hsize0]
  · rw [hfsd, hfs3, withRoot_umask]
  · rw [hfsd, hfs3, withRoot_newDirSize]
  · rw [hall.global_options, hopt1]

/-- The directory branch of `entry_dispatch` for a new name in the directory in
focus: an empty directory is appended to the entries of that directory, and the
function goes on one level down with the path of the new directory. -/
theorem entry_dispatch_dir_focus (PATH_MAX : Nat)
    (recurse : Int → State → Option (Int × State)) (fuel d : Nat) (st : State) (ps : List Nat)
    (n : Name) (m : Nat) {C : Node → Node} {q : List Name}
    (hC : Focus C q) (p s : Nat) (pre : List (Name × Node))
    (hp : PathIs PATH_MAX st ps) (hne : ps ≠ []) (hlast : ps.getLast? ≠ some 47)
    (hn : GoodName n) (hfit : ps.length + 1 + n.length < PATH_MAX)
    (hdir : S_ISDIR m = true)
    (hq : normalize ps = q) (hroot : st.fs.root = C (Node.dir p s pre))
    (hnew : ∀ e ∈ pre, e.1 ≠ n) :
    ∃ st' perm, entry_dispatch PATH_MAX recurse fuel (d : Int) m n st =
        recurse ((d : Int) + 1) st' ∧
      PathIs PATH_MAX st' (ps ++ 47 :: n) ∧ st'.stdin = st.stdin ∧
      st'.fs.root = C (Node.dir p s (pre ++ [(n, Node.dir perm st.fs.newDirSize [])])) ∧
      st'.fs.umask = st.fs.umask ∧ st'.fs.newDirSize = st.fs.newDirSize ∧
      st'.global_options = st.global_options :=
  entry_dispatch_dir_focus_pushed PATH_MAX recurse fuel d st ps n m hC p s pre
    (push_entry PATH_MAX st ps n hp hne hlast hn hfit) hn hdir hq hroot hnew
theorem encodeNode_file (d : Nat) (n : Name) (perm : Nat) (content : List Nat)
    (hn : GoodName n) (hnl : n.length + 28 < 2147483648)
    (hlen : content.length < 2147483632) (hbytes : ∀ b ∈ content, b < 256) :
    encodeNode d n (Node.file perm content) =
      header 4 (toUInt32 (d : Int)) (28 + n.length) ++
        (be_bytes 4 (entry_mode (S_IFREG ||| (perm % 4096))) ++
          (be_bytes 8 (toUInt64 ((content.length : Nat) : Int)) ++ (n ++
            (header 5 (toUInt32 (d : Int)) (content.length + 16) ++ content)))) := by
  have hs : toUInt64 (toInt32 ((content.length : Int) + 16)) = content.length + 16 := by
    unfold toUInt64 toInt32
    omega
  rw [encodeNode, entry_record_good d n _ hn hnl, hs, map_mod_of_bytes content hbytes]
  simp only [Node.stat, List.append_assoc]

theorem encodeNode_dir (d : Nat) (n : Name) (perm size : Nat) (sub : List (Name × Node))
    (hn : GoodName n) (hnl : n.length + 28 < 2147483648) :
    encodeNode d n (Node.dir perm size sub) =
      header 4 (toUInt32 (d : Int)) (28 + n.length) ++
        (be_bytes 4 (entry_mode (S_IFDIR ||| (perm % 4096))) ++
          (be_bytes 8 (toUInt64 ((size : Nat) : Int)) ++ (n ++
            (header 2 (toUInt32 ((d : Int) + 1)) 16 ++ (encodeEntries (d + 1) sub ++
              header 3 (toUInt32 ((d : Int) + 1)) 16))))) := by
  rw [encodeNode, entry_record_good d n _ hn hnl]
  simp only [Node.stat, List.append_assoc]

/-- The loop of `deserialize_directory(d)` on the encoding of good entries,
for new names in the directory in focus: after enough turns the loop goes on
with the rest of the input, the path as before, and the directory in focus
extended by entries that agree with the encoded ones. -/
theorem deserialize_entries_good (PATH_MAX : Nat) (hPM : PATH_MAX ≤ 2147483620) :
    ∀ (entries : List (Name × Node)) (fuel d : Nat) (st : State) (ps : List Nat)
      (C : Node → Node) (q : List Name) (p s : Nat) (pre : List (Name × Node))
      (rest : List Nat),
      weightEntries entries ≤ fuel → GoodEntries PATH_MAX ps.length d entries →
      1 ≤ d → d < 2147483648 →
      PathIs PATH_MAX st ps → ps ≠ [] → ps.getLast? ≠ some 47 → normalize ps = q →
      Focus C q → st.fs.root = C (Node.dir p s pre) →
      (∀ e ∈ entries, ∀ e' ∈ pre, e'.1 ≠ e.1) →
      st.stdin = encodeEntries d entries ++ rest →
      ∃ fuel' st' es', fuel ≤ fuel' + weightEntries entries ∧
        deserialize_directory PATH_MAX fuel (d : Int) st =
          deserialize_directory PATH_MAX fuel' (d : Int) st' ∧
        PathIs PATH_MAX st' ps ∧ st'.stdin = rest ∧
        st'.fs.root = C (Node.dir p s (pre ++ es')) ∧ sameEntries entries es' = true
  | [], fuel, d, st, ps, C, q, p, s, pre, rest, _, _, _, _, hp, _, _, _, _, hroot, _, hin =>
    ⟨fuel, st, [], by simp [weightEntries], rfl, hp, by simpa [encodeEntries] using hin,
      by simpa using hroot, by simp [sameEntries]⟩
  | (n, .file perm content) :: more, fuel, d, st, ps, C, q, p, s, pre, rest, hfuel, hg, hd1, hd,
      hp, hne, hlast, hq, hC, hroot, hnames, hin => by
    simp only [GoodEntries, GoodNode] at hg
    obtain ⟨hn, hfit, hdist, ⟨hlen, hbytes⟩, hgmore⟩ := hg
    simp only [weightEntries, weightNode] at hfuel
    obtain ⟨f, rfl⟩ : ∃ f, fuel = f + 1 := ⟨fuel - 1, by omega⟩
    have hnl : n.length + 28 < 2147483648 := by omega
    rw [encodeEntries, encodeNode_file d n perm content hn hnl hlen hbytes] at hin
    simp only [List.append_assoc] at hin
    have hturn := deserialize_directory_entry PATH_MAX f d st _ (28 + n.length)
      (be_bytes 8 (toUInt64 ((content.length : Nat) : Int))) n _ hd
      (entry_mode_lt _) (be_bytes_length 8 _) (be_bytes_lt 8 _)
      (fun b hb => (hn.2.2.2 b hb).2.2) (Nat.mod_eq_of_lt (by omega)) hnl hin
    have hnew : ∀ e ∈ pre, e.1 ≠ n := fun e he => hnames (n, Node.file perm content)
      (List.mem_cons_self _ _) e he
    obtain ⟨st1, hdis, hp1, hin1, hroot1, _, _, _⟩ := entry_dispatch_file_focus PATH_MAX
      (deserialize_directory PATH_MAX f) f d
      (st.feed (header 5 (toUInt32 (d : Int)) (content.length + 16) ++
        (content ++ (encodeEntries d more ++ rest))))
      ps n _ content (encodeEntries d more ++ rest) hC p s pre (hp.feed _) hne hlast hn hfit
      (entry_mode_isreg perm) hd rfl (by omega) hbytes hq hroot hnew (by omega)
    rw [entry_mode_perm] at hroot1
    have hnames' : ∀ e ∈ more, ∀ e' ∈ pre ++ [(n, Node.file (perm &&& 0o777) content)],
        e'.1 ≠ e.1 := by
      intro e he e' he'
      rcases List.mem_append.mp he' with h | h
      · exact hnames e (List.mem_cons_of_mem _ he) e' h
      · simp only [List.mem_singleton] at h
        rw [h]
        exact fun h' => hdist e he h'.symm
    obtain ⟨fuel', st', es', hf', hrun, hp', hin', hroot', hsame⟩ :=
      deserialize_entries_good PATH_MAX hPM more f d st1 ps C q p s
        (pre ++ [(n, Node.file (perm &&& 0o777) content)]) rest (by omega) hgmore hd1 hd hp1 hne
        hlast hq hC hroot1 hnames' hin1
    refine ⟨fuel', st', (n, Node.file (perm &&& 0o777) content) :: es', ?_, ?_, hp', hin', ?_, ?_⟩
    · simp only [weightEntries, weightNode]
      omega
    · rw [hturn, hdis, hrun]
    · rw [hroot', List.append_assoc]
      rfl
    · simp [sameEntries, sameNode, hsame]
  | (n, .dir perm size sub) :: more, fuel, d, st, ps, C, q, p, s, pre, rest, hfuel, hg, hd1, hd,
      hp, hne, hlast, hq, hC, hroot, hnames, hin => by
    simp only [GoodEntries, GoodNode] at hg
    obtain ⟨hn, hfit, hdist, ⟨hdsub, hgsub⟩, hgmore⟩ := hg
    simp only [weightEntries, weightNode] at hfuel
    obtain ⟨f1, rfl⟩ : ∃ f, fuel = f + 1 + 1 := ⟨fuel - 2, by omega⟩
    have hnl : n.length + 28 < 2147483648 := by omega
    have hcast : (((d + 1 : Nat)) : Int) = (d : Int) + 1 := by push_cast; rfl
    rw [encodeEntries, encodeNode_dir d n perm size sub hn hnl] at hin
    simp only [List.append_assoc] at hin
    have hturn := deserialize_directory_entry PATH_MAX (f1 + 1) d st _ (28 + n.length)
      (be_bytes 8 (toUInt64 ((size : Nat) : Int))) n _ hd
      (entry_mode_lt _) (be_bytes_length 8 _) (be_bytes_lt 8 _)
      (fun b hb => (hn.2.2.2 b hb).2.2) (Nat.mod_eq_of_lt (by omega)) hnl hin
    have hnew : ∀ e ∈ pre, e.1 ≠ n := fun e he => hnames (n, Node.dir perm size sub)
      (List.mem_cons_self _ _) e he
    obtain ⟨st1, perm1, hdis, hp1, hin1, hroot1, _, _, _⟩ := entry_dispatch_dir_focus PATH_MAX
      (deserialize_directory PATH_MAX (f1 + 1)) (f1 + 1) d
      (st.feed (header 2 (toUInt32 ((d : Int) + 1)) 16 ++ (encodeEntries (d + 1) sub ++
        (header 3 (toUInt32 ((d : Int) + 1)) 16 ++ (encodeEntries d more ++ rest)))))
      ps n _ hC p s pre (hp.feed _) hne hlast hn hfit (entry_mode_isdir perm) hq hroot hnew
    -- START_OF_DIRECTORY of the sub-directory
    have hstart := deserialize_directory_start PATH_MAX f1 (d + 1) st1
      (encodeEntries (d + 1) sub ++
        (header 3 (toUInt32 ((d : Int) + 1)) 16 ++ (encodeEntries d more ++ rest)))
      hdsub (by rw [hcast, hin1]; rfl)
    -- the entries of the sub-directory
    have hlen : (ps ++ 47 :: n).length = ps.length + 1 + n.length := by
      simp only [List.length_append, List.length_cons]
      omega
    obtain ⟨fuel2, st2, es2, hf2, hrun2, hp2, hin2, hroot2, hsame2⟩ :=
      deserialize_entries_good PATH_MAX hPM sub f1 (d + 1)
        (st1.feed (encodeEntries (d + 1) sub ++
          (header 3 (toUInt32 ((d : Int) + 1)) 16 ++ (encodeEntries d more ++ rest))))
        (ps ++ 47 :: n) (fun y => C (Node.dir p s (pre ++ [(n, y)]))) (q ++ [n]) perm1
        st.fs.newDirSize [] (header 3 (toUInt32 ((d : Int) + 1)) 16 ++ (encodeEntries d more ++ rest))
        (by omega) (by rw [hlen]; exact hgsub) (by omega) hdsub (hp1.feed _) (by simp)
        (getLast?_push ps n hn) (by rw [good_normalize ps n hn, hq])
        (focus_child hC p s pre n hnew) hroot1 (fun _ _ e' he' => by simp at he') rfl
    -- END_OF_DIRECTORY of the sub-directory
    obtain ⟨f3, rfl⟩ : ∃ f, fuel2 = f + 1 := ⟨fuel2 - 1, by omega⟩
    obtain ⟨st3, hend, hp3, hin3, hfs3, _⟩ := deserialize_directory_end PATH_MAX f3 d st2 ps n
      (encodeEntries d more ++ rest) hdsub hd1 hp2 hn hin2
    have hroot3 : st3.fs.root = C (Node.dir p s (pre ++ [(n, Node.dir perm1 st.fs.newDirSize es2)])) := by
      rw [hfs3, hroot2, List.nil_append]
    have hnames' : ∀ e ∈ more, ∀ e' ∈ pre ++ [(n, Node.dir perm1 st.fs.newDirSize es2)],
        e'.1 ≠ e.1 := by
      intro e he e' he'
      rcases List.mem_append.mp he' with h | h
      · exact hnames e (List.mem_cons_of_mem _ he) e' h
      · simp only [List.mem_singleton] at h
        rw [h]
        exact fun h' => hdist e he h'.symm
    obtain ⟨fuel', st', es', hf', hrun, hp', hin', hroot', hsame⟩ :=
      deserialize_entries_good PATH_MAX hPM more f3 d st3 ps C q p s
        (pre ++ [(n, Node.dir perm1 st.fs.newDirSize es2)]) rest (by omega) hgmore hd1 hd hp3 hne
        hlast hq hC hroot3 hnames' hin3
    refine ⟨fuel', st', (n, Node.dir perm1 st.fs.newDirSize es2) :: es', ?_, ?_, hp', hin', ?_, ?_⟩
    · simp only [weightEntries, weightNode]
      omega
    · rw [hturn, hdis, ← hcast, hstart, hrun2, hcast, hend, hrun]
    · rw [hroot', List.append_assoc]
      rfl
    · simp [sameEntries, sameNode, hsame, hsame2]
  | (n, .fifo perm) :: more, fuel, d, st, ps, C, q, p, s, pre, rest, _, hg, _, _, _, _, _, _, _,
      _, _, _ => by
    simp only [GoodEntries, GoodNode] at hg
    exact absurd hg.2.2.2.1 id

/-- The check of a transmission record on a well-formed one. -/
theorem read_transmission_good (t : Nat) (st : State) (rest : List Nat) (ht : t < 256)
    (h : st.stdin = header t 0 16 ++ rest) :
    read_transmission t st = (0, st.feed rest) := by
  rw [header_cons, Nat.mod_eq_of_lt ht] at h
  have h1 := read_magic_good st _ h
  have h2 := debug_getchar_byte (st.feed (t :: (be_bytes 4 0 ++ (be_bytes 8 16 ++ rest)))) t
    (be_bytes 4 0 ++ (be_bytes 8 16 ++ rest)) rfl ht
  rw [feed_feed] at h2
  have h3 := read32_debug4 (st.feed (be_bytes 4 0 ++ (be_bytes 8 16 ++ rest))) 0
    (be_bytes 8 16 ++ rest) rfl
  rw [feed_feed] at h3
  have h4 := read32_debug8 (st.feed (be_bytes 8 16 ++ rest)) 16 rest rfl
  rw [feed_feed] at h4
  have h01 : ¬ ((0 : Int) = -1) := by decide
  have hty : ¬ (t ≠ t ∨ (t : Int) = -1 ∨ (t : Int) = EOF) := by
    simp only [EOF]
    omega
  rw [read_transmission, h1]
  simp only [h01, if_false, h2]
  rw [if_neg hty]
  simp only [h3, h4]
  simp [toInt32]

/-- A trailing `/` does not change the canonical path. -/
theorem normalize_slash (p : List Nat) : normalize (p ++ [47]) = normalize p := by
  unfold normalize
  rw [splitPath_push p [] (by simp), List.foldl_append]
  simp [resolveStep]

/-- Trailing `/` characters do not change the canonical path. -/
theorem normalize_slashes (b : List Nat) : ∀ k : Nat,
    normalize (b ++ List.replicate k 47) = normalize b
  | 0 => by simp
  | k + 1 => by
    rw [List.replicate_succ', ← List.append_assoc, normalize_slash, normalize_slashes b k]

/-- Trailing `/` characters do not change the node a path names. -/
theorem lookup_slashes (fs : FileSys) (b : List Nat) (k : Nat) :
    fs.lookup (b ++ List.replicate k 47) = fs.lookup b := by
  unfold FileSys.lookup
  rw [normalize_slashes]

/-- The condition on entries stays true for a shorter path. -/
theorem goodEntries_mono (PATH_MAX : Nat) : ∀ (entries : List (Name × Node)) (len len' d : Nat),
    len' ≤ len → GoodEntries PATH_MAX len d entries → GoodEntries PATH_MAX len' d entries
  | [], _, _, _, _, _ => by simp only [GoodEntries]
  | (n, .file perm content) :: rest, len, len', d, hle, hg => by
    simp only [GoodEntries, GoodNode] at hg ⊢
    obtain ⟨hn, hfit, hnew, hx, hrest⟩ := hg
    exact ⟨hn, by omega, hnew, hx, goodEntries_mono PATH_MAX rest len len' d hle hrest⟩
  | (n, .dir perm size sub) :: rest, len, len', d, hle, hg => by
    simp only [GoodEntries, GoodNode] at hg ⊢
    obtain ⟨hn, hfit, hnew, ⟨hd, hsub⟩, hrest⟩ := hg
    exact ⟨hn, by omega, hnew,
      ⟨hd, goodEntries_mono PATH_MAX sub (len + 1 + n.length) (len' + 1 + n.length) (d + 1)
        (by omega) hsub⟩,
      goodEntries_mono PATH_MAX rest len len' d hle hrest⟩
  | (n, .fifo perm) :: rest, len, len', d, _, hg => by
    simp only [GoodEntries, GoodNode] at hg
    exact absurd hg.2.2.2.1 id

/-- Pushing the name of an entry onto a path that ends in `/`: no separator is
added, so the path is the one without that `/`, followed by `/` and the name. -/
theorem push_after_slash (PATH_MAX : Nat) (st : State) (ps : List Nat) (n : Name)
    (hp : PathIs PATH_MAX st (ps ++ [47])) (hn : GoodName n)
    (hfit : ps.length + 1 + 1 + n.length < PATH_MAX) : PushesTo PATH_MAX n st ps := by
  have hlen : st.path_length = ps.length + 1 := by
    obtain ⟨_, _, h, _⟩ := hp
    rw [h]
    simp
  have h := path_push_nosep_good PATH_MAX n st (ps ++ [47]) hp
    (fun x hx => (hn.2.2.2 x hx).1) (fun h => (hn.2.2.2 47 h).2.1 rfl) (by rw [hlen]; exact hfit)
    (Or.inr (by simp))
  obtain ⟨buf, len, hfr⟩ := path_push_frame PATH_MAX n st
  refine ⟨(path_push PATH_MAX n st).2, ?_, ?_, ?_, ?_, ?_, ?_⟩
  · exact Prod.ext h.1 rfl
  · have := h.2
    rwa [List.append_assoc, List.singleton_append] at this
  all_goals rw [hfr]


theorem find_slash_absent (buf : List Nat) : ∀ k : Nat,
    (∀ j, j < k → buf.getD j 0 ≠ 47) → find_slash buf k = none
  | 0, _ => rfl
  | k + 1, h => by
    rw [find_slash, if_neg (h k (by omega))]
    exact find_slash_absent buf k (fun j hj => h j (by omega))

/-- Function `path_pop` on a path that is a single good name: the path is
empty afterwards. -/
theorem pop_name (PATH_MAX : Nat) (st : State) (n : Name) (hp : PathIs PATH_MAX st n)
    (hn : GoodName n) :
    ∃ st1, path_pop st = (0, st1) ∧ PathIs PATH_MAX st1 [] ∧ st1.fs = st.fs ∧
      st1.stdout = st.stdout := by
  obtain ⟨tail, hbuf, hlen, hnul, hsize⟩ := hp
  have hne : st.path_length ≠ 0 := by
    rw [hlen]
    exact fun h => hn.1 (List.length_eq_zero.mp h)
  have hfind : find_slash st.path_buf st.path_length = none := by
    apply find_slash_absent
    intro j hj
    rw [hlen] at hj
    rw [hbuf, List.getD_append _ _ _ _ hj, List.getD_eq_getElem _ _ hj]
    exact (hn.2.2.2 _ (List.getElem_mem _)).2.1
  refine ⟨{ st with path_buf := st.path_buf.set 0 0, path_length := 0 }, ?_, ?_, rfl, rfl⟩
  · simp only [path_pop, if_neg hne, hfind]
  · obtain ⟨c, n', rfl⟩ := List.exists_cons_of_ne_nil hn.1
    refine ⟨n' ++ 0 :: tail, ?_, rfl, by simp, ?_⟩
    · show st.path_buf.set 0 0 = _
      rw [hbuf]
      rfl
    · show (st.path_buf.set 0 0).length = _
      rw [List.length_set]
      exact hsize

/-- Pushing a good name onto the empty path and popping it again: the path is
the name, then empty again. -/
theorem pushPop_empty (PATH_MAX : Nat) (n : Name) (st : State) (hp : PathIs PATH_MAX st [])
    (hn : GoodName n) (hfit : 1 + n.length < PATH_MAX) : PushPop PATH_MAX n st n [] := by
  have hlen : st.path_length = 0 := by
    obtain ⟨_, _, h, _⟩ := hp
    exact h
  have h := path_push_nosep_good PATH_MAX n st [] hp
    (fun x hx => (hn.2.2.2 x hx).1) (fun h => (hn.2.2.2 47 h).2.1 rfl)
    (by rw [hlen]; omega) (Or.inl rfl)
  obtain ⟨buf, len, hfr⟩ := path_push_frame PATH_MAX n st
  refine ⟨⟨(path_push PATH_MAX n st).2, Prod.ext h.1 rfl, ?_, ?_, ?_⟩, ?_⟩
  · simpa using h.2
  · rw [hfr]
  · rw [hfr]
  · intro st3 hp3
    exact pop_name PATH_MAX st3 n hp3 hn

/-- The canonical path of a good name. -/
theorem normalize_name (n : Name) (hn : GoodName n) : normalize n = [n] := by
  have h47 : 47 ∉ n := fun h => (hn.2.2.2 47 h).2.1 rfl
  unfold normalize
  rw [splitPath_single n h47]
  simp [resolveStep, hn.1, hn.2.1, hn.2.2.1]

/-- The node a good name names, as a path relative to the root. -/
theorem lookup_name (fs : FileSys) (n : Name) (p s : Nat) (all : List (Name × Node))
    (hn : GoodName n) (hdir : fs.lookup [] = some (.dir p s all)) :
    fs.lookup n = all.lookup n := by
  rw [← lookup_child fs [] n p s all hn hdir]
  unfold FileSys.lookup
  rw [normalize_name n hn, good_normalize [] n hn]
  rfl

theorem getLast?_name (n : Name) (hn : GoodName n) : n.getLast? ≠ some 47 := by
  rw [List.getLast?_eq_getLast _ hn.1]
  intro h
  exact (hn.2.2.2 _ (List.getLast_mem hn.1)).2.1 (Option.some.inj h)

/-- Every path is a path that does not end in `/` (it may be empty), followed
by `/` characters. -/
theorem split_trailing_slashes (base : List Nat) :
    ∃ b k, base = b ++ List.replicate k 47 ∧ b.getLast? ≠ some 47 := by
  induction base using List.reverseRecOn with
  | nil => exact ⟨[], 0, rfl, by simp⟩
  | append_singleton l a ih =>
    by_cases ha : a = 47
    · subst ha
      obtain ⟨b, k, rfl, hlast⟩ := ih
      exact ⟨b, k + 1, by rw [List.replicate_succ', List.append_assoc], hlast⟩
    · refine ⟨l ++ [a], 0, by simp, ?_⟩
      rw [List.getLast?_append_of_ne_nil _ (by simp)]
      simpa using ha


/-- A base path that holds a character other than `/` is a path that is not
empty and does not end in `/`, followed by `/` characters. -/
theorem split_usable (base : List Nat) (h : ∃ c ∈ base, c ≠ 47) :
    ∃ b k, base = b ++ List.replicate k 47 ∧ b ≠ [] ∧ b.getLast? ≠ some 47 := by
  obtain ⟨b, k, rfl, hlast⟩ := split_trailing_slashes base
  refine ⟨b, k, rfl, ?_, hlast⟩
  rintro rfl
  obtain ⟨c, hc, hc47⟩ := h
  simp only [List.nil_append] at hc
  exact hc47 (List.eq_of_mem_replicate hc)

/-- The push and the pop of an entry name when the path in the path buffer is
`b` followed by `k` characters `/`, where `b` does not end in `/` and names a
directory: the push leaves a path `pp` that names the entry, is not empty and
does not end in `/`, and the pop leaves `b` followed by `k - 1` characters
`/`. -/
theorem pushPop_slashes (PATH_MAX : Nat) (n : Name) (st : State) (b : List Nat) (k : Nat)
    (p s : Nat) (all : List (Name × Node))
    (hp : PathIs PATH_MAX st (b ++ List.replicate k 47)) (hlast : b.getLast? ≠ some 47)
    (hn : GoodName n) (hfit : b.length + k + 1 + n.length < PATH_MAX)
    (hdir : st.fs.lookup b = some (.dir p s all)) :
    ∃ pp, PushPop PATH_MAX n st pp (b ++ List.replicate (k - 1) 47) ∧
      st.fs.lookup pp = all.lookup n ∧ pp ≠ [] ∧ pp.getLast? ≠ some 47 ∧
      pp.length ≤ b.length + k + 1 + n.length := by
  rcases k with _ | k
  · simp only [List.replicate_zero, List.append_nil, Nat.zero_sub] at hp ⊢
    by_cases hb : b = []
    · subst hb
      exact ⟨n, pushPop_empty PATH_MAX n st hp hn (by simpa using hfit),
        lookup_name st.fs n p s all hn hdir, hn.1, getLast?_name n hn, by simp⟩
    · refine ⟨b ++ 47 :: n, pushPop_of_pushesTo PATH_MAX n st b
        (push_entry PATH_MAX st b n hp hb hlast hn (by omega)) hn,
        lookup_child st.fs b n p s all hn hdir, by simp, getLast?_push b n hn, ?_⟩
      simp only [List.length_append, List.length_cons]
      omega
  · rw [List.replicate_succ', ← List.append_assoc] at hp
    have hdirk : st.fs.lookup (b ++ List.replicate k 47) = some (.dir p s all) := by
      rw [lookup_slashes]
      exact hdir
    refine ⟨b ++ List.replicate k 47 ++ 47 :: n, pushPop_of_pushesTo PATH_MAX n st _
        (push_after_slash PATH_MAX st _ n hp hn (by
          simp only [List.length_append, List.length_replicate]
          omega)) hn,
      lookup_child st.fs _ n p s all hn hdirk, by simp, getLast?_push _ n hn, ?_⟩
    simp only [List.length_append, List.length_cons, List.length_replicate]
    omega

/-- The entry loop of `serialize_directory(d)` on a directory of good entries,
when the path in the path buffer is `b` followed by `k` characters `/`, where
`b` does not end in `/` (it may be empty): success, the bytes written are the
encoding of the entries, and the path is `b` followed by `/` characters again
(each entry processed removes one). -/
theorem serialize_entries_slashes (PATH_MAX : Nat) :
    ∀ (entries : List (Name × Node)) (k fuel d : Nat) (st : State) (b : List Nat) (p s : Nat)
      (all : List (Name × Node)),
      heightEntries entries ≤ fuel → GoodEntries PATH_MAX (b.length + k) d entries →
      PathIs PATH_MAX st (b ++ List.replicate k 47) → b.getLast? ≠ some 47 →
      st.fs.lookup b = some (.dir p s all) →
      (∀ e ∈ entries, all.lookup e.1 = some e.2) →
      ∃ st' k', serialize_entries PATH_MAX (serialize_directory PATH_MAX fuel) d
          (entries.map Prod.fst) st = some (0, st') ∧
        st'.stdout = st.stdout ++ encodeEntries d entries ∧
        PathIs PATH_MAX st' (b ++ List.replicate k' 47) ∧ st'.fs = st.fs
  | [], k, fuel, d, st, b, p, s, all, _, _, hp, _, _, _ =>
    ⟨st, k, rfl, by simp [encodeEntries], hp, rfl⟩
  | (n, .file perm content) :: rest, k, fuel, d, st, b, p, s, all, hh, hg, hp, hlast,
      hdir, hall => by
    simp only [GoodEntries] at hg
    obtain ⟨hn, hfit, _, _, hgrest⟩ := hg
    have hx : all.lookup n = some (.file perm content) := hall (n, .file perm content) (by simp)
    obtain ⟨pp, hpp, hlookpp, _, _, _⟩ := pushPop_slashes PATH_MAX n st b k p s all hp hlast hn
      hfit hdir
    obtain ⟨st1, hstep, hout1, hp1, hfs1⟩ := serialize_entries_file_at PATH_MAX
      (serialize_directory PATH_MAX fuel) d n (rest.map Prod.fst) st pp _ perm content
      hpp hn (by rw [hlookpp, hx])
    have hh' : heightEntries rest ≤ fuel := by
      simp only [heightEntries] at hh
      omega
    obtain ⟨st', k', h', hout', hp', hfs'⟩ := serialize_entries_slashes PATH_MAX rest (k - 1) fuel d
      st1 b p s all hh' (goodEntries_mono PATH_MAX rest _ _ d (by omega) hgrest) hp1 hlast
      (by rw [hfs1]; exact hdir) (fun e he => hall e (List.mem_cons_of_mem _ he))
    refine ⟨st', k', ?_, ?_, hp', by rw [hfs', hfs1]⟩
    · rw [List.map_cons, hstep, h']
    · rw [hout', hout1, encodeEntries, List.append_assoc]
  | (n, .dir perm size sub) :: rest, k, fuel, d, st, b, p, s, all, hh, hg, hp, hlast,
      hdir, hall => by
    simp only [GoodEntries, GoodNode] at hg
    obtain ⟨hn, hfit, _, ⟨_, hgsub⟩, hgrest⟩ := hg
    have hx : all.lookup n = some (.dir perm size sub) := hall (n, .dir perm size sub) (by simp)
    simp only [heightEntries, heightNode] at hh
    obtain ⟨f, rfl⟩ : ∃ f, fuel = f + 1 := ⟨fuel - 1, by omega⟩
    have hhsub : heightEntries sub ≤ f := by omega
    have hhrest : heightEntries rest ≤ f + 1 := by omega
    obtain ⟨pp, hpp, hlookpp, hppne, hpplast, hpplen⟩ := pushPop_slashes PATH_MAX n st b k p s all
      hp hlast hn hfit hdir
    obtain ⟨st3, hp3, hfs3, hout3, hcont⟩ := serialize_entries_dir_at PATH_MAX
      (serialize_directory PATH_MAX (f + 1)) d n (rest.map Prod.fst) st pp _ perm size sub
      hpp hn (by rw [hlookpp, hx])
    have hlook3 : st3.fs.lookup pp = some (.dir perm size sub) := by
      rw [hfs3, hlookpp, hx]
    obtain ⟨st4, h4, hout4, hp4, hfs4⟩ := serialize_entries_good PATH_MAX sub f (d + 1)
      ((st3.put (header 2 (toUInt32 ((d : Int) + 1)) 16)).log (.opendir pp))
      pp perm size sub hhsub
      (goodEntries_mono PATH_MAX sub _ _ (d + 1) hpplen hgsub) hp3 hppne hpplast hlook3
      (good_lookup PATH_MAX _ _ sub hgsub)
    have hrec : serialize_directory PATH_MAX (f + 1) ((d : Int) + 1) st3 =
        some (0, st4.put (header 3 (toUInt32 ((d : Int) + 1)) 16)) := by
      rw [serialize_directory_open PATH_MAX f _ st3 _ perm size sub hp3 hlook3]
      have hcast : (((d + 1 : Nat) : Int)) = (d : Int) + 1 := by push_cast; rfl
      rw [hcast] at h4
      rw [h4]
      simp
    obtain ⟨st5, hstep, hout5, hp5, hfs5⟩ := hcont _ hrec hp4
    obtain ⟨st', k', h', hout', hp', hfs'⟩ := serialize_entries_slashes PATH_MAX rest (k - 1)
      (f + 1) d st5 b p s all hhrest (goodEntries_mono PATH_MAX rest _ _ d (by omega) hgrest) hp5
      hlast
      (by rw [hfs5]; show st4.fs.lookup b = _; rw [hfs4]; show st3.fs.lookup b = _; rw [hfs3]
          exact hdir)
      (fun e he => hall e (List.mem_cons_of_mem _ he))
    refine ⟨st', k', ?_, ?_, hp', ?_⟩
    · rw [List.map_cons, hstep, h']
    · rw [hout', hout5]
      simp only [put_stdout, hout4, log_stdout, hout3, encodeEntries, encodeNode,
        List.append_assoc]
    · rw [hfs', hfs5]
      show st4.fs = _
      rw [hfs4]
      show st3.fs = _
      rw [hfs3]
  | (n, .fifo perm) :: rest, k, fuel, d, st, b, p, s, all, _, hg, _, _, _, _ => by
    simp only [GoodEntries, GoodNode] at hg
    exact absurd hg.2.2.2.1 id

/-- The run of `-s` on a base directory of good entries, for any base path
that fits in the path buffer: success, and the output is the encoding of the
tree. -/
theorem run_serialize_any (PATH_MAX fuel : Nat) (fs : FileSys) (base : List Nat)
    (perm size : Nat) (entries : List (Name × Node))
    (hnul : ∀ c ∈ base, c ≠ 0) (hfit : base.length < PATH_MAX)
    (hlook : fs.lookup base = some (Node.dir perm size entries))
    (hg : GoodEntries PATH_MAX base.length 1 entries) (hfuel : heightEntries entries < fuel) :
    run_serialize PATH_MAX fuel fs base = some (0, encodeTree entries) := by
  obtain ⟨buf, hinit, hp⟩ := path_init_good PATH_MAX base (initial PATH_MAX fs 2 [])
    (List.length_replicate _ _) hnul hfit
  obtain ⟨b, k, rfl, hlast⟩ := split_trailing_slashes base
  obtain ⟨f, rfl⟩ : ∃ f, fuel = f + 1 := ⟨fuel - 1, by omega⟩
  obtain ⟨st0, hst0⟩ : ∃ x, x = ({ initial PATH_MAX fs 2 [] with
      path_buf := buf, path_length := (b ++ List.replicate k 47).length } : State) := ⟨_, rfl⟩
  rw [← hst0] at hinit hp
  have hfs0 : st0.fs = fs := by rw [hst0]; rfl
  have hout0 : st0.stdout = [] := by rw [hst0]; rfl
  have hopen := serialize_directory_open PATH_MAX f 1 (st0.put (header 0 0 16))
    (b ++ List.replicate k 47) perm size entries (hp.put _) (by rw [put_fs, hfs0]; exact hlook)
  have hlen : (b ++ List.replicate k 47).length = b.length + k := by simp
  rw [hlen] at hg
  obtain ⟨st2, k', hent, hout2, _, _⟩ := serialize_entries_slashes PATH_MAX entries k f 1
    (((st0.put (header 0 0 16)).put (header 2 (toUInt32 1) 16)).log
      (.opendir (b ++ List.replicate k 47))) b perm
    size entries (by omega) hg (((hp.put _).put _).log _) hlast
    (by rw [log_fs, put_fs, put_fs, hfs0, ← lookup_slashes fs b k]; exact hlook)
    (good_lookup PATH_MAX _ _ entries hg)
  have h01 : ¬ ((0 : Int) = -1) := by decide
  simp only [Nat.cast_one] at hent
  rw [run_serialize, hinit]
  simp only [h01, if_false]
  rw [serialize, hopen, hent]
  simp only [h01, if_false, Option.map_some', put_stdout, hout2, log_stdout, hout0, encodeTree,
    List.nil_append, List.append_assoc]

/-- The loop of `deserialize_directory(d)` on the encoding of good entries,
for new names in the directory in focus, when the path in the path buffer is
`b` followed by `k` characters `/`: after enough turns the loop goes on with
the rest of the input, the path being `b` followed by `/` characters again
(each entry processed removes one), and the directory in focus extended by
entries that agree with the encoded ones. -/
theorem deserialize_entries_slashes (PATH_MAX : Nat) (hPM : PATH_MAX ≤ 2147483620) :
    ∀ (entries : List (Name × Node)) (k fuel d : Nat) (st : State) (b : List Nat)
      (C : Node → Node) (q : List Name) (p s : Nat) (pre : List (Name × Node))
      (rest : List Nat),
      weightEntries entries ≤ fuel → GoodEntries PATH_MAX (b.length + k) d entries →
      1 ≤ d → d < 2147483648 →
      PathIs PATH_MAX st (b ++ List.replicate k 47) → b ≠ [] → b.getLast? ≠ some 47 →
      normalize b = q → Focus C q → st.fs.root = C (Node.dir p s pre) →
      (∀ e ∈ entries, ∀ e' ∈ pre, e'.1 ≠ e.1) →
      st.stdin = encodeEntries d entries ++ rest →
      ∃ fuel' st' es' k', fuel ≤ fuel' + weightEntries entries ∧
        deserialize_directory PATH_MAX fuel (d : Int) st =
          deserialize_directory PATH_MAX fuel' (d : Int) st' ∧
        PathIs PATH_MAX st' (b ++ List.replicate k' 47) ∧ st'.stdin = rest ∧
        st'.fs.root = C (Node.dir p s (pre ++ es')) ∧ sameEntries entries es' = true
  | [], k, fuel, d, st, b, C, q, p, s, pre, rest, _, _, _, _, hp, _, _, _, _, hroot, _, hin =>
    ⟨fuel, st, [], k, by simp [weightEntries], rfl, hp, by simpa [encodeEntries] using hin,
      by simpa using hroot, by simp [sameEntries]⟩
  | (n, x) :: more, 0, fuel, d, st, b, C, q, p, s, pre, rest, hfuel, hg, hd1, hd, hp, hne, hlast,
      hq, hC, hroot, hnames, hin => by
    simp only [List.replicate_zero, List.append_nil, Nat.add_zero] at hg hp
    obtain ⟨fuel', st', es', hf, hrun, hp', hin', hroot', hsame⟩ := deserialize_entries_good
      PATH_MAX hPM ((n, x) :: more) fuel d st b C q p s pre rest hfuel hg hd1 hd hp hne hlast hq hC
      hroot hnames hin
    exact ⟨fuel', st', es', 0, hf, hrun, by simpa using hp', hin', hroot', hsame⟩
  | (n, .file perm content) :: more, k + 1, fuel, d, st, b, C, q, p, s, pre, rest, hfuel, hg, hd1,
      hd, hp, hne, hlast, hq, hC, hroot, hnames, hin => by
    simp only [GoodEntries, GoodNode] at hg
    obtain ⟨hn, hfit, hdist, ⟨hlen, hbytes⟩, hgmore⟩ := hg
    simp only [weightEntries, weightNode] at hfuel
    obtain ⟨f, rfl⟩ : ∃ f, fuel = f + 1 := ⟨fuel - 1, by omega⟩
    have hnl : n.length + 28 < 2147483648 := by omega
    rw [encodeEntries, encodeNode_file d n perm content hn hnl hlen hbytes] at hin
    simp only [List.append_assoc] at hin
    have hturn := deserialize_directory_entry PATH_MAX f d st _ (28 + n.length)
      (be_bytes 8 (toUInt64 ((content.length : Nat) : Int))) n _ hd
      (entry_mode_lt _) (be_bytes_length 8 _) (be_bytes_lt 8 _)
      (fun b hb => (hn.2.2.2 b hb).2.2) (Nat.mod_eq_of_lt (by omega)) hnl hin
    have hnew : ∀ e ∈ pre, e.1 ≠ n := fun e he => hnames (n, Node.file perm content)
      (List.mem_cons_self _ _) e he
    rw [List.replicate_succ', ← List.append_assoc] at hp
    have hqk : normalize (b ++ List.replicate k 47) = q := by rw [normalize_slashes, hq]
    obtain ⟨st1, hdis, hp1, hin1, hroot1, _, _, _⟩ := entry_dispatch_file_focus_pushed PATH_MAX
      (deserialize_directory PATH_MAX f) f d
      (st.feed (header 5 (toUInt32 (d : Int)) (content.length + 16) ++
        (content ++ (encodeEntries d more ++ rest))))
      (b ++ List.replicate k 47) n _ content (encodeEntries d more ++ rest) hC p s pre
      (push_after_slash PATH_MAX _ _ n (hp.feed _) hn (by
        simp only [List.length_append, List.length_replicate]
        omega)) hn
      (entry_mode_isreg perm) hd rfl (by omega) hbytes hqk hroot hnew (by omega)
    rw [entry_mode_perm] at hroot1
    have hnames' : ∀ e ∈ more, ∀ e' ∈ pre ++ [(n, Node.file (perm &&& 0o777) content)],
        e'.1 ≠ e.1 := by
      intro e he e' he'
      rcases List.mem_append.mp he' with h | h
      · exact hnames e (List.mem_cons_of_mem _ he) e' h
      · simp only [List.mem_singleton] at h
        rw [h]
        exact fun h' => hdist e he h'.symm
    obtain ⟨fuel', st', es', k', hf', hrun, hp', hin', hroot', hsame⟩ :=
      deserialize_entries_slashes PATH_MAX hPM more k f d st1 b C q p s
        (pre ++ [(n, Node.file (perm &&& 0o777) content)]) rest (by omega)
        (goodEntries_mono PATH_MAX more _ _ d (by omega) hgmore) hd1 hd hp1 hne
        hlast hq hC hroot1 hnames' hin1
    refine ⟨fuel', st', (n, Node.file (perm &&& 0o777) content) :: es', k', ?_, ?_, hp', hin',
      ?_, ?_⟩
    · simp only [weightEntries, weightNode]
      omega
    · rw [hturn, hdis, hrun]
    · rw [hroot', List.append_assoc]
      rfl
    · simp [sameEntries, sameNode, hsame]
  | (n, .dir perm size sub) :: more, k + 1, fuel, d, st, b, C, q, p, s, pre, rest, hfuel, hg, hd1,
      hd, hp, hne, hlast, hq, hC, hroot, hnames, hin => by
    simp only [GoodEntries, GoodNode] at hg
    obtain ⟨hn, hfit, hdist, ⟨hdsub, hgsub⟩, hgmore⟩ := hg
    simp only [weightEntries, weightNode] at hfuel
    obtain ⟨f1, rfl⟩ : ∃ f, fuel = f + 1 + 1 := ⟨fuel - 2, by omega⟩
    have hnl : n.length + 28 < 2147483648 := by omega
    have hcast : (((d + 1 : Nat)) : Int) = (d : Int) + 1 := by push_cast; rfl
    rw [encodeEntries, encodeNode_dir d n perm size sub hn hnl] at hin
    simp only [List.append_assoc] at hin
    have hturn := deserialize_directory_entry PATH_MAX (f1 + 1) d st _ (28 + n.length)
      (be_bytes 8 (toUInt64 ((size : Nat) : Int))) n _ hd
      (entry_mode_lt _) (be_bytes_length 8 _) (be_bytes_lt 8 _)
      (fun b hb => (hn.2.2.2 b hb).2.2) (Nat.mod_eq_of_lt (by omega)) hnl hin
    have hnew : ∀ e ∈ pre, e.1 ≠ n := fun e he => hnames (n, Node.dir perm size sub)
      (List.mem_cons_self _ _) e he
    rw [List.replicate_succ', ← List.append_assoc] at hp
    have hqk : normalize (b ++ List.replicate k 47) = q := by rw [normalize_slashes, hq]
    obtain ⟨st1, perm1, hdis, hp1, hin1, hroot1, _, _, _⟩ := entry_dispatch_dir_focus_pushed
      PATH_MAX (deserialize_directory PATH_MAX (f1 + 1)) (f1 + 1) d
      (st.feed (header 2 (toUInt32 ((d : Int) + 1)) 16 ++ (encodeEntries (d + 1) sub ++
        (header 3 (toUInt32 ((d : Int) + 1)) 16 ++ (encodeEntries d more ++ rest)))))
      (b ++ List.replicate k 47) n _ hC p s pre
      (push_after_slash PATH_MAX _ _ n (hp.feed _) hn (by
        simp only [List.length_append, List.length_replicate]
        omega)) hn (entry_mode_isdir perm) hqk hroot hnew
    -- START_OF_DIRECTORY of the sub-directory
    have hstart := deserialize_directory_start PATH_MAX f1 (d + 1) st1
      (encodeEntries (d + 1) sub ++
        (header 3 (toUInt32 ((d : Int) + 1)) 16 ++ (encodeEntries d more ++ rest)))
      hdsub (by rw [hcast, hin1]; rfl)
    -- the entries of the sub-directory
    have hlen : (b ++ List.replicate k 47 ++ 47 :: n).length ≤
        b.length + (k + 1) + 1 + n.length := by
      simp only [List.length_append, List.length_cons, List.length_replicate]
      omega
    obtain ⟨fuel2, st2, es2, hf2, hrun2, hp2, hin2, hroot2, hsame2⟩ :=
      deserialize_entries_good PATH_MAX hPM sub f1 (d + 1)
        (st1.feed (encodeEntries (d + 1) sub ++
          (header 3 (toUInt32 ((d : Int) + 1)) 16 ++ (encodeEntries d more ++ rest))))
        (b ++ List.replicate k 47 ++ 47 :: n) (fun y => C (Node.dir p s (pre ++ [(n, y)])))
        (q ++ [n]) perm1
        st.fs.newDirSize [] (header 3 (toUInt32 ((d : Int) + 1)) 16 ++ (encodeEntries d more ++ rest))
        (by omega) (goodEntries_mono PATH_MAX sub _ _ (d + 1) hlen hgsub) (by omega) hdsub
        (hp1.feed _) (by simp)
        (getLast?_push _ n hn) (by rw [good_normalize _ n hn, hqk])
        (focus_child hC p s pre n hnew) hroot1 (fun _ _ e' he' => by simp at he') rfl
    -- END_OF_DIRECTORY of the sub-directory
    obtain ⟨f3, rfl⟩ : ∃ f, fuel2 = f + 1 := ⟨fuel2 - 1, by omega⟩
    obtain ⟨st3, hend, hp3, hin3, hfs3, _⟩ := deserialize_directory_end PATH_MAX f3 d st2
      (b ++ List.replicate k 47) n
      (encodeEntries d more ++ rest) hdsub hd1 hp2 hn hin2
    have hroot3 : st3.fs.root =
        C (Node.dir p s (pre ++ [(n, Node.dir perm1 st.fs.newDirSize es2)])) := by
      rw [hfs3, hroot2, List.nil_append]
    have hnames' : ∀ e ∈ more, ∀ e' ∈ pre ++ [(n, Node.dir perm1 st.fs.newDirSize es2)],
        e'.1 ≠ e.1 := by
      intro e he e' he'
      rcases List.mem_append.mp he' with h | h
      · exact hnames e (List.mem_cons_of_mem _ he) e' h
      · simp only [List.mem_singleton] at h
        rw [h]
        exact fun h' => hdist e he h'.symm
    obtain ⟨fuel', st', es', k', hf', hrun, hp', hin', hroot', hsame⟩ :=
      deserialize_entries_slashes PATH_MAX hPM more k f3 d st3 b C q p s
        (pre ++ [(n, Node.dir perm1 st.fs.newDirSize es2)]) rest (by omega)
        (goodEntries_mono PATH_MAX more _ _ d (by omega) hgmore) hd1 hd hp3 hne
        hlast hq hC hroot3 hnames' hin3
    refine ⟨fuel', st', (n, Node.dir perm1 st.fs.newDirSize es2) :: es', k', ?_, ?_, hp', hin',
      ?_, ?_⟩
    · simp only [weightEntries, weightNode]
      omega
    · rw [hturn, hdis, ← hcast, hstart, hrun2, hcast, hend, hrun]
    · rw [hroot', List.append_assoc]
      rfl
    · simp [sameEntries, sameNode, hsame, hsame2]
  | (n, .fifo perm) :: more, k + 1, fuel, d, st, b, C, q, p, s, pre, rest, _, hg, _, _, _, _, _, _,
      _, _, _, _ => by
    simp only [GoodEntries, GoodNode] at hg
    exact absurd hg.2.2.2.1 id

/-- The run of `-d` on the encoding of a tree of good entries, into an existing
empty base directory, for a base path that holds a character other than `/`:
success, and the base directory then holds entries that agree with the encoded
ones. -/
theorem run_deserialize_usable (PATH_MAX : Nat) (hPM : PATH_MAX ≤ 2147483620) (fuel : Nat)
    (fs : FileSys) (options : Nat) (base : List Nat) (perm size : Nat)
    (entries : List (Name × Node)) (hb : UsableBase PATH_MAX base)
    (hlook : fs.lookup base = some (Node.dir perm size []))
    (hg : GoodEntries PATH_MAX base.length 1 entries)
    (hfuel : weightEntries entries + 2 ≤ fuel) :
    ∃ st' es', run_deserialize PATH_MAX fuel fs options base (encodeTree entries) =
        some (0, st') ∧
      st'.fs.lookup base = some (Node.dir perm size es') ∧ sameEntries entries es' = true ∧
      st'.stdin = [] := by
  obtain ⟨hchar, hnul, hfit⟩ := hb
  obtain ⟨buf, hinit, hp⟩ := path_init_good PATH_MAX base
    (initial PATH_MAX fs options (encodeTree entries)) (List.length_replicate _ _) hnul hfit
  obtain ⟨b, k, rfl, hne, hlast⟩ := split_usable base hchar
  obtain ⟨st0, hst0⟩ : ∃ x, x = ({ initial PATH_MAX fs options (encodeTree entries) with
      path_buf := buf, path_length := (b ++ List.replicate k 47).length } : State) := ⟨_, rfl⟩
  rw [← hst0] at hinit hp
  have hfs0 : st0.fs = fs := by rw [hst0]; rfl
  have hin0 : st0.stdin = header 0 0 16 ++ (header 2 (toUInt32 1) 16 ++
      (encodeEntries 1 entries ++ (header 3 (toUInt32 1) 16 ++ (header 1 0 16 ++ [])))) := by
    rw [hst0]
    show encodeTree entries = _
    simp only [encodeTree, List.append_assoc, List.append_nil]
  have hlookb : fs.lookup b = some (Node.dir perm size []) := by
    rw [← lookup_slashes fs b k]
    exact hlook
  obtain ⟨C, hC, hroot⟩ := focus_exists (normalize b) fs.root _ hlookb
  obtain ⟨f, rfl⟩ : ∃ f, fuel = f + 1 := ⟨fuel - 1, by omega⟩
  have ht0 := read_transmission_good 0 st0 _ (by decide) hin0
  have hstart := deserialize_directory_start PATH_MAX f 1 (st0.feed
    (header 2 (toUInt32 1) 16 ++
      (encodeEntries 1 entries ++ (header 3 (toUInt32 1) 16 ++ (header 1 0 16 ++ [])))))
    (encodeEntries 1 entries ++ (header 3 (toUInt32 1) 16 ++ (header 1 0 16 ++ [])))
    (by decide) (by simp only [feed_stdin, Nat.cast_one])
  rw [feed_feed] at hstart
  have hlen : (b ++ List.replicate k 47).length = b.length + k := by simp
  rw [hlen] at hg
  obtain ⟨fuel2, st2, es2, k', hf2, hrun2, hp2, hin2, hroot2, hsame2⟩ :=
    deserialize_entries_slashes PATH_MAX hPM entries k f 1
      (st0.feed (encodeEntries 1 entries ++ (header 3 (toUInt32 1) 16 ++ (header 1 0 16 ++ []))))
      b C (normalize b) perm size [] (header 3 (toUInt32 1) 16 ++ (header 1 0 16 ++ []))
      (by omega) hg (by decide) (by decide) (hp.feed _) hne hlast rfl hC
      (by rw [feed_fs, hfs0, hroot]) (fun _ _ e' he' => by simp at he') rfl
  obtain ⟨f3, rfl⟩ : ∃ f, fuel2 = f + 1 := ⟨fuel2 - 1, by omega⟩
  have hlen2 : st2.path_length ≠ 0 := by
    obtain ⟨_, _, hl, _, _⟩ := hp2
    rw [hl]
    intro h
    apply hne
    have := List.length_eq_zero.mp h
    exact (List.append_eq_nil.mp this).1
  obtain ⟨st3, hlast3, hin3, hfs3⟩ := deserialize_directory_last PATH_MAX f3 st2
    (header 1 0 16 ++ []) hlen2 hin2
  have ht1 := read_transmission_good 1 st3 [] (by decide) hin3
  have h01 : ¬ ((0 : Int) = -1) := by decide
  refine ⟨st3.feed [], es2, ?_, ?_, hsame2, rfl⟩
  · rw [run_deserialize, hinit]
    simp only [h01, if_false]
    rw [deserialize, ht0]
    simp only [h01, if_false]
    simp only [Nat.cast_one] at hstart hrun2
    rw [hstart, hrun2, hlast3]
    simp only [ne_eq, not_true_eq_false, if_false, ht1, h01]
  · rw [lookup_slashes, feed_fs, hfs3]
    unfold FileSys.lookup
    rw [hroot2, List.nil_append]
    have := hC.get (Node.dir perm size es2) []
    rw [List.append_nil] at this
    rw [this]
    simp [Node.get]

/-- The copy loop reaches the end of a string that fits below `path_end`. -/
theorem copy_string_rest_fits (PATH_MAX : Nat) (name : List Nat) :
    ∀ (buf : List Nat) (dest : Nat), dest + (cstr name).length ≤ PATH_MAX - 1 →
      deref (copy_string PATH_MAX name buf dest).1 = 0 := by
  induction name with
  | nil => intro buf dest _; rfl
  | cons c cs ih =>
    intro buf dest h
    rw [copy_string]
    by_cases hc : c = 0
    · rw [if_neg (fun hh => hh.1 hc), hc]
      rfl
    · have hcs : cstr (c :: cs) = c :: cstr cs := by simp [cstr, hc]
      rw [hcs, List.length_cons] at h
      rw [if_pos ⟨hc, by omega⟩]
      exact ih _ _ (by omega)

/-- The tail of `path_push` succeeds when the component fits below `path_end`. -/
theorem push_copy_fits (PATH_MAX : Nat) (name : List Nat) (st : State) (buf : List Nat)
    (dest : Nat) (h : dest + (cstr name).length ≤ PATH_MAX - 1) :
    (push_copy PATH_MAX name st buf dest).1 = 0 := by
  have hrest := copy_string_rest_fits PATH_MAX name buf dest h
  unfold push_copy
  rcases hcp : copy_string PATH_MAX name buf dest with ⟨r, b, d⟩
  rw [hcp] at hrest
  simp only at hrest ⊢
  rw [if_neg (by rw [hrest]; exact fun hh => hh rfl)]

/-- The two outcomes of `path_push`: it fails at the separator test or at the
capacity test, before any write, or it returns 0. -/
theorem path_push_cases (PATH_MAX : Nat) (name : List Nat) (st : State) :
    ((47 ∈ cstr name ∨ PATH_MAX ≤ st.path_length + 1 + (cstr name).length) ∧
        path_push PATH_MAX name st = (-1, st)) ∨
    ((47 ∉ cstr name ∧ st.path_length + 1 + (cstr name).length < PATH_MAX) ∧
        (path_push PATH_MAX name st).1 = 0) := by
  by_cases h47 : 47 ∈ cstr name
  · left
    refine ⟨Or.inl h47, ?_⟩
    unfold path_push
    rw [scan_component_eq, if_pos h47]
  · by_cases hcap : PATH_MAX ≤ st.path_length + 1 + (cstr name).length
    · left
      refine ⟨Or.inr hcap, ?_⟩
      unfold path_push
      rw [scan_component_eq, if_neg h47]
      simp only [Nat.zero_add]
      rw [if_pos hcap]
    · right
      refine ⟨⟨h47, by omega⟩, ?_⟩
      unfold path_push
      rw [scan_component_eq, if_neg h47]
      simp only [Nat.zero_add]
      rw [if_neg hcap]
      by_cases hsep : st.path_length > 0 ∧ st.path_buf.getD (st.path_length - 1) 0 ≠ 47
      · rw [if_pos hsep, if_pos (by omega)]
        exact push_copy_fits PATH_MAX name st _ _ (by omega)
      · rw [if_neg hsep]
        exact push_copy_fits PATH_MAX name st _ _ (by omega)

/-- Claim C21, amended. Function `path_push(c)` on a component `c` (a string,
without NUL) fails if and only if `c` contains `/` or the existing path, a
separator, `c` and the terminating NUL together would be longer than
`PATH_MAX`; the room for the separator is counted whether or not one is added.
So a push with separator whose result exactly fills the buffer succeeds, and a
push without separator needs one spare cell. A push that does not fail
returns 0. -/
theorem path_push_fails_iff (PATH_MAX : Nat) (c : List Nat) (st : State)
    (hc : ∀ x ∈ c, x ≠ 0) :
    ((path_push PATH_MAX c st).1 = -1 ↔
      (47 ∈ c ∨ PATH_MAX < st.path_length + 1 + c.length + 1)) ∧
    ((path_push PATH_MAX c st).1 ≠ -1 → (path_push PATH_MAX c st).1 = 0) := by
  have hcs : cstr c = c := cstr_of_no_nul c hc
  rcases path_push_cases PATH_MAX c st with ⟨hwhy, hres⟩ | ⟨⟨h47, hfit⟩, hres⟩
  · rw [hcs] at hwhy
    rw [hres]
    refine ⟨⟨fun _ => ?_, fun _ => rfl⟩, fun h => absurd rfl h⟩
    rcases hwhy with h | h
    · exact Or.inl h
    · exact Or.inr (by omega)
  · rw [hcs] at h47 hfit
    rw [hres]
    refine ⟨⟨fun h => absurd h (by decide), fun h => ?_⟩, fun _ => rfl⟩
    rcases h with h | h
    · exact absurd h h47
    · omega

set_option maxRecDepth 1000000 in
/-- Witness of C21: onto the path `.`, a component of 4093 letters is pushed
with a separator; the result, 4095 characters and the NUL, exactly fills the
buffer of 4096 cells, and the push does not fail. -/
theorem path_push_fails_iff_witness :
    (∀ x ∈ longName, x ≠ 0) ∧
    (((path_push 4096 longName scenarioInit).1 = -1 ↔
      (47 ∈ longName ∨ 4096 < scenarioInit.path_length + 1 + longName.length + 1)) ∧
    ((path_push 4096 longName scenarioInit).1 ≠ -1 →
      (path_push 4096 longName scenarioInit).1 = 0)) :=
  have hc : ∀ x ∈ longName, x ≠ 0 := by
    intro x hx
    rw [longName, List.mem_replicate] at hx
    omega
  ⟨hc, path_push_fails_iff 4096 longName scenarioInit hc⟩

set_option maxRecDepth 1000000 in
/-- Claim C21 as stated fails when no separator is added: the buffer of 4096
cells holds `d/` (length 2) and the component has 4093 letters and no `/`, so
the result would be 4095 characters and, with its NUL, exactly fill the
buffer; `path_push` returns -1. -/
theorem path_push_exact_fill_without_separator_fails :
    (slashStart []).path = [100, 47] ∧ (slashStart []).path_length = 2 ∧
    longName.length = 4093 ∧ 47 ∉ longName ∧
    ([100, 47] ++ longName).length + 1 = 4096 ∧
    (path_push 4096 longName (slashStart [])).1 = -1 := by
  have hlen : longName.length = 4093 := List.length_replicate _ _
  have hc : ∀ x ∈ longName, x ≠ 0 := by
    intro x hx
    rw [longName, List.mem_replicate] at hx
    omega
  have hpl : (slashStart []).path_length = 2 := by rfl
  refine ⟨by rfl, hpl, hlen, fun hx => absurd (List.mem_replicate.mp hx).2 (by decide), ?_, ?_⟩
  · rw [List.length_append, hlen]
    rfl
  · rcases path_push_cases 4096 longName (slashStart []) with ⟨_, hres⟩ | ⟨⟨_, hfit⟩, _⟩
    · rw [hres]
    · rw [cstr_of_no_nul longName hc, hlen, hpl] at hfit
      omega

/-- Claim C22. A `path_push` that does not return 0 returns -1, leaves the
whole state, so `path_buf` and `path_length`, exactly as it was, and has failed
at one of the two tests made before the first write: the component contains
`/`, or `path_length + 1 + name_length >= PATH_MAX`. Once these tests have
passed the two failure branches inside the copy are not taken. -/
theorem failing_path_push_changes_nothing (PATH_MAX : Nat) (c : List Nat) (st : State)
    (hfail : (path_push PATH_MAX c st).1 ≠ 0) :
    (path_push PATH_MAX c st).2 = st ∧ (path_push PATH_MAX c st).1 = -1 ∧
    (47 ∈ cstr c ∨ PATH_MAX ≤ st.path_length + 1 + (cstr c).length) := by
  rcases path_push_cases PATH_MAX c st with ⟨hwhy, hres⟩ | ⟨_, hres⟩
  · rw [hres]
    exact ⟨rfl, rfl, hwhy⟩
  · exact absurd hres hfail

set_option maxRecDepth 1000000 in
/-- Witness of C22: `path_push("c/d")` onto the path `./a`. -/
theorem failing_path_push_changes_nothing_witness :
    (path_push 4096 [99, 47, 100] scenarioPop).1 ≠ 0 ∧
    ((path_push 4096 [99, 47, 100] scenarioPop).2 = scenarioPop ∧
      (path_push 4096 [99, 47, 100] scenarioPop).1 = -1 ∧
      (47 ∈ cstr [99, 47, 100] ∨
        4096 ≤ scenarioPop.path_length + 1 + (cstr [99, 47, 100]).length)) :=
  have hfail : (path_push 4096 [99, 47, 100] scenarioPop).1 ≠ 0 := by
    rw [show (path_push 4096 [99, 47, 100] scenarioPop).1 = -1 from by rfl]
    decide
  ⟨hfail, failing_path_push_changes_nothing 4096 [99, 47, 100] scenarioPop hfail⟩

set_option maxRecDepth 1000000 in
/-- Claim C25. The path-buffer scenario: `path_init(".")` succeeds and leaves
`.` (length 1); `path_push("a")` gives `./a` (length 3); `path_push("b")`
gives `./a/b` (length 5); `path_pop()` gives `./a` (length 3);
`path_push("c/d")` then returns -1 and leaves the state as it was, the buffer
still holding `./a`. -/
theorem path_buffer_scenario :
    (path_init 4096 [46] (initial 4096 (fsOf emptyBase) 0 [])).1 = 0 ∧
    scenarioInit.path = [46] ∧ scenarioInit.path_length = 1 ∧
    (path_push 4096 [97] scenarioInit).1 = 0 ∧
    scenarioA.path = [46, 47, 97] ∧ scenarioA.path_length = 3 ∧
    (path_push 4096 [98] scenarioA).1 = 0 ∧
    scenarioAB.path = [46, 47, 97, 47, 98] ∧ scenarioAB.path_length = 5 ∧
    (path_pop scenarioAB).1 = 0 ∧
    scenarioPop.path = [46, 47, 97] ∧ scenarioPop.path_length = 3 ∧
    (path_push 4096 [99, 47, 100] scenarioPop).1 = -1 ∧
    (path_push 4096 [99, 47, 100] scenarioPop).2 = scenarioPop ∧
    (path_push 4096 [99, 47, 100] scenarioPop).2.path = [46, 47, 97] ∧
    (path_push 4096 [99, 47, 100] scenarioPop).2.path_length = 3 :=
  ⟨by rfl, by rfl, by rfl, by rfl, by rfl, by rfl, by rfl, by rfl, by rfl, by rfl, by rfl,
    by rfl, by rfl, by rfl, by rfl, by rfl⟩

/-- The copy loop on a string without NUL that does not fit: it fills the cells
up to `path_end` with the first characters of the string and leaves the rest of
the buffer as it was. -/
theorem copy_string_long_buf (PATH_MAX : Nat) (name : List Nat) :
    ∀ (pre junk : List Nat), (∀ c ∈ name, c ≠ 0) → pre.length ≤ PATH_MAX - 1 →
      PATH_MAX - 1 - pre.length < name.length → PATH_MAX - 1 - pre.length ≤ junk.length →
      copy_string PATH_MAX name (pre ++ junk) pre.length =
        (name.drop (PATH_MAX - 1 - pre.length),
          pre ++ name.take (PATH_MAX - 1 - pre.length) ++ junk.drop (PATH_MAX - 1 - pre.length),
          PATH_MAX - 1) := by
  induction name with
  | nil => intro pre junk _ _ h; simp at h
  | cons c cs ih =>
    intro pre junk hnul hpre hlong hjunk
    have hc : c ≠ 0 := hnul c (List.mem_cons_self _ _)
    rw [copy_string]
    by_cases hroom : pre.length < PATH_MAX - 1
    · rw [if_pos ⟨hc, hroom⟩]
      obtain ⟨k, hk⟩ : ∃ k, PATH_MAX - 1 - pre.length = k + 1 := ⟨PATH_MAX - 1 - pre.length - 1, by omega⟩
      cases junk with
      | nil => simp at hjunk; omega
      | cons j junk' =>
        have hset : (pre ++ j :: junk').set pre.length c = (pre ++ [c]) ++ junk' := by
          rw [set_at_length]
          simp
        have hlen1 : pre.length + 1 = (pre ++ [c]).length := by simp
        rw [hset, hlen1]
        have hk' : PATH_MAX - 1 - (pre ++ [c]).length = k := by
          rw [← hlen1]
          omega
        rw [ih (pre ++ [c]) junk' (fun x hx => hnul x (List.mem_cons_of_mem _ hx))
          (by rw [← hlen1]; omega)
          (by rw [hk']; simp only [List.length_cons] at hlong; omega)
          (by rw [hk']; simp only [List.length_cons] at hjunk; omega)]
        rw [hk', hk]
        simp
    · rw [if_neg (fun h => hroom h.2)]
      have h0 : PATH_MAX - 1 - pre.length = 0 := by omega
      rw [h0]
      have : pre.length = PATH_MAX - 1 := by omega
      simp [this]

/-- Function `path_init` on a string that does not fit. -/
theorem path_init_long (PATH_MAX : Nat) (name : List Nat) (st : State)
    (hPM : 0 < PATH_MAX) (hbuf : st.path_buf.length = PATH_MAX) (hnul : ∀ c ∈ name, c ≠ 0)
    (hlong : PATH_MAX < name.length + 1) :
    path_init PATH_MAX name st =
      (-1, { st with path_buf := name.take (PATH_MAX - 1) ++ st.path_buf.drop (PATH_MAX - 1) }) := by
  have h := copy_string_long_buf PATH_MAX name [] st.path_buf hnul (by simp) (by simp; omega)
    (by simp; omega)
  simp only [List.nil_append, List.length_nil, Nat.sub_zero] at h
  have hd : deref (name.drop (PATH_MAX - 1)) ≠ 0 := by
    cases hdr : name.drop (PATH_MAX - 1) with
    | nil =>
      have := congrArg List.length hdr
      simp only [List.length_drop, List.length_nil] at this
      omega
    | cons x xs =>
      have hx : x ∈ name := List.mem_of_mem_drop (by rw [hdr]; exact List.mem_cons_self _ _)
      exact hnul x hx
  unfold path_init
  rw [h]
  simp only
  rw [if_pos hd]

/-- Claim C23, amended. A `path_init` that does not return 0 (on a string
without NUL, for a buffer of `PATH_MAX` cells) returns -1 and leaves
`path_length` and everything but `path_buf` as it was; `path_buf` has been
overwritten: its first `PATH_MAX - 1` cells hold the first `PATH_MAX - 1`
characters of the name, its last cell is unchanged. -/
theorem failing_path_init_keeps_length (PATH_MAX : Nat) (name : List Nat) (st : State)
    (hPM : 0 < PATH_MAX) (hbuf : st.path_buf.length = PATH_MAX) (hnul : ∀ c ∈ name, c ≠ 0)
    (hfail : (path_init PATH_MAX name st).1 ≠ 0) :
    (path_init PATH_MAX name st).1 = -1 ∧
    (path_init PATH_MAX name st).2.path_length = st.path_length ∧
    (path_init PATH_MAX name st).2.path_buf =
      name.take (PATH_MAX - 1) ++ st.path_buf.drop (PATH_MAX - 1) ∧
    (path_init PATH_MAX name st).2 =
      { st with path_buf := name.take (PATH_MAX - 1) ++ st.path_buf.drop (PATH_MAX - 1) } := by
  have hlong : PATH_MAX < name.length + 1 := by
    by_contra hfit
    obtain ⟨buf, h, _⟩ := path_init_good PATH_MAX name st hbuf hnul (by omega)
    rw [h] at hfail
    exact hfail rfl
  rw [path_init_long PATH_MAX name st hPM hbuf hnul hlong]
  exact ⟨rfl, rfl, rfl, rfl⟩

/-- Witness of C23: `path_init` on a name of 4096 letters, from the initial
state. -/
theorem failing_path_init_keeps_length_witness :
    (0 < 4096 ∧ (initial 4096 (fsOf emptyBase) 0 []).path_buf.length = 4096 ∧
      (∀ c ∈ tooLongName, c ≠ 0) ∧
      (path_init 4096 tooLongName (initial 4096 (fsOf emptyBase) 0 [])).1 ≠ 0) ∧
    ((path_init 4096 tooLongName (initial 4096 (fsOf emptyBase) 0 [])).1 = -1 ∧
      (path_init 4096 tooLongName (initial 4096 (fsOf emptyBase) 0 [])).2.path_length =
        (initial 4096 (fsOf emptyBase) 0 []).path_length ∧
      (path_init 4096 tooLongName (initial 4096 (fsOf emptyBase) 0 [])).2.path_buf =
        tooLongName.take (4096 - 1) ++ (initial 4096 (fsOf emptyBase) 0 []).path_buf.drop (4096 - 1) ∧
      (path_init 4096 tooLongName (initial 4096 (fsOf emptyBase) 0 [])).2 =
        { initial 4096 (fsOf emptyBase) 0 [] with
          path_buf := tooLongName.take (4096 - 1) ++
            (initial 4096 (fsOf emptyBase) 0 []).path_buf.drop (4096 - 1) }) :=
  have hc : ∀ c ∈ tooLongName, c ≠ 0 := by
    intro x hx
    rw [tooLongName, List.mem_replicate] at hx
    omega
  have hlen : (initial 4096 (fsOf emptyBase) 0 []).path_buf.length = 4096 :=
    List.length_replicate 4096 0
  have hfail : (path_init 4096 tooLongName (initial 4096 (fsOf emptyBase) 0 [])).1 ≠ 0 := by
    rw [path_init_long 4096 tooLongName _ (by decide) hlen hc
      (by rw [tooLongName, List.length_replicate]; decide)]
    decide
  ⟨⟨by decide, hlen, hc, hfail⟩,
    failing_path_init_keeps_length 4096 tooLongName (initial 4096 (fsOf emptyBase) 0 [])
      (by decide) hlen hc hfail⟩

/-- Claim C23 as stated fails: `path_init` on a name of 4096 letters `a`, from
the initial state (a buffer of 4096 NUL cells), returns -1 and leaves 4095
letters `a` in the buffer: the copy is made before the test. -/
theorem failing_path_init_overwrites_buffer :
    (initial 4096 (fsOf emptyBase) 0 []).path_buf = List.replicate 4096 0 ∧
    (path_init 4096 tooLongName (initial 4096 (fsOf emptyBase) 0 [])).1 = -1 ∧
    (path_init 4096 tooLongName (initial 4096 (fsOf emptyBase) 0 [])).2.path_buf =
      List.replicate 4095 97 ++ [0] ∧
    (path_init 4096 tooLongName (initial 4096 (fsOf emptyBase) 0 [])).2.path_buf ≠
      (initial 4096 (fsOf emptyBase) 0 []).path_buf := by
  have hc : ∀ c ∈ tooLongName, c ≠ 0 := by
    intro x hx
    rw [tooLongName, List.mem_replicate] at hx
    omega
  have hlen : (initial 4096 (fsOf emptyBase) 0 []).path_buf.length = 4096 :=
    List.length_replicate 4096 0
  have hinit : (initial 4096 (fsOf emptyBase) 0 []).path_buf = List.replicate 4096 0 := rfl
  have hbuf : (path_init 4096 tooLongName (initial 4096 (fsOf emptyBase) 0 [])).2.path_buf =
      List.replicate 4095 97 ++ [0] := by
    rw [path_init_long 4096 tooLongName _ (by decide) hlen hc
      (by rw [tooLongName, List.length_replicate]; decide)]
    show tooLongName.take (4096 - 1) ++ (List.replicate 4096 0).drop (4096 - 1) = _
    rw [tooLongName, List.take_replicate, List.drop_replicate]
    rfl
  refine ⟨hinit, ?_, hbuf, ?_⟩
  · rw [path_init_long 4096 tooLongName _ (by decide) hlen hc
      (by rw [tooLongName, List.length_replicate]; decide)]
  · rw [hbuf, hinit]
    intro h
    have e1 : List.replicate 4095 97 = 97 :: List.replicate 4094 97 :=
      List.replicate_succ 97 4094
    have e2 : List.replicate 4096 0 = 0 :: List.replicate 4095 0 :=
      List.replicate_succ 0 4095
    rw [e1, e2, List.cons_append] at h
    exact absurd (List.cons.inj h).1 (by decide)

/-- The backward search of `path_pop` returns the index of the last `/` among
the first `k` cells. -/
theorem find_slash_some (buf : List Nat) : ∀ (k i : Nat), find_slash buf k = some i →
    i < k ∧ buf.getD i 0 = 47 ∧ ∀ j, i < j → j < k → buf.getD j 0 ≠ 47 := by
  intro k
  induction k with
  | zero => intro i h; simp [find_slash] at h
  | succ k ih =>
    intro i h
    rw [find_slash] at h
    by_cases hk : buf.getD k 0 = 47
    · rw [if_pos hk] at h
      have hik : k = i := Option.some.inj h
      subst hik
      exact ⟨by omega, hk, fun j h1 h2 => by omega⟩
    · rw [if_neg hk] at h
      obtain ⟨h1, h2, h3⟩ := ih i h
      refine ⟨by omega, h2, fun j hj1 hj2 => ?_⟩
      by_cases hjk : j = k
      · rw [hjk]; exact hk
      · exact h3 j hj1 (by omega)

/-- The backward search of `path_pop` finds nothing only when there is no `/`
among the first `k` cells. -/
theorem find_slash_none (buf : List Nat) : ∀ (k : Nat), find_slash buf k = none →
    ∀ j, j < k → buf.getD j 0 ≠ 47 := by
  intro k
  induction k with
  | zero => intro _ j hj; omega
  | succ k ih =>
    intro h j hj
    rw [find_slash] at h
    by_cases hk : buf.getD k 0 = 47
    · rw [if_pos hk] at h
      exact absurd h (by simp)
    · rw [if_neg hk] at h
      by_cases hjk : j = k
      · rw [hjk]; exact hk
      · exact ih h j (by omega)

/-- The index at which `path_pop` cuts: that of the last `/` among the first
`path_length` cells, or 0 when there is none; the new state. -/
theorem path_pop_cut (st : State) (hne : st.path_length ≠ 0) :
    ∃ i, ((i < st.path_length ∧ st.path_buf.getD i 0 = 47 ∧
          ∀ j, i < j → j < st.path_length → st.path_buf.getD j 0 ≠ 47) ∨
        (i = 0 ∧ ∀ j, j < st.path_length → st.path_buf.getD j 0 ≠ 47)) ∧
      path_pop st = (0, { st with path_buf := st.path_buf.set i 0, path_length := i }) := by
  unfold path_pop
  rw [if_neg hne]
  cases hf : find_slash st.path_buf st.path_length with
  | none => exact ⟨0, Or.inr ⟨rfl, find_slash_none _ _ hf⟩, rfl⟩
  | some i => exact ⟨i, Or.inl (find_slash_some _ _ _ hf), rfl⟩

/-- Claim C24. Function `path_pop` returns -1 if and only if `path_length` is
0, and then leaves the state as it was. Otherwise it returns 0, sets
`path_length` to the index `i` of the last `/` among the first `path_length`
cells of `path_buf` (0 when there is none), writes NUL at index `i` and leaves
all other cells, so the characters before `i`, unchanged. -/
theorem path_pop_cuts_at_last_slash (st : State)
    (hlen : st.path_length < st.path_buf.length) :
    ((path_pop st).1 = -1 ↔ st.path_length = 0) ∧
    (st.path_length = 0 → path_pop st = (-1, st)) ∧
    (st.path_length ≠ 0 → (path_pop st).1 = 0 ∧
      ∃ i, ((i < st.path_length ∧ st.path_buf.getD i 0 = 47 ∧
            ∀ j, i < j → j < st.path_length → st.path_buf.getD j 0 ≠ 47) ∨
          (i = 0 ∧ ∀ j, j < st.path_length → st.path_buf.getD j 0 ≠ 47)) ∧
        (path_pop st).2.path_length = i ∧
        (path_pop st).2.path_buf = st.path_buf.set i 0 ∧
        (path_pop st).2.path_buf[i]? = some 0 ∧
        (∀ j, j ≠ i → (path_pop st).2.path_buf[j]? = st.path_buf[j]?) ∧
        (path_pop st).2 = { st with path_buf := st.path_buf.set i 0, path_length := i }) := by
  have hzero : st.path_length = 0 → path_pop st = (-1, st) := by
    intro h
    unfold path_pop
    rw [if_pos h]
  refine ⟨⟨fun h => ?_, fun h => by rw [hzero h]⟩, hzero, fun hne => ?_⟩
  · by_contra hne
    rw [path_pop_nonempty st hne] at h
    exact absurd h (by decide)
  · obtain ⟨i, hi, hpop⟩ := path_pop_cut st hne
    have hilt : i < st.path_buf.length := by
      rcases hi with ⟨h, _⟩ | ⟨h, _⟩ <;> omega
    rw [hpop]
    refine ⟨rfl, i, hi, rfl, rfl, ?_, ?_, rfl⟩
    · show (st.path_buf.set i 0)[i]? = some 0
      rw [List.getElem?_set_self hilt]
    · intro j hj
      show (st.path_buf.set i 0)[j]? = st.path_buf[j]?
      rw [List.getElem?_set_ne (Ne.symm hj)]

/-- The path-buffer scenario: after `path_init(".")` the buffer holds `.`. -/
theorem scenarioInit_pathIs : PathIs 4096 scenarioInit [46] :=
  deserializeStart_pathIs emptyBase 0 []

/-- The path-buffer scenario: after the two pushes the buffer holds `./a/b`. -/
theorem scenarioAB_pathIs : PathIs 4096 scenarioAB [46, 47, 97, 47, 98] := by
  obtain ⟨buf, h, hp⟩ := path_push_good 4096 [97] scenarioInit [46] scenarioInit_pathIs
    (by decide) (by decide) (by decide) (by decide)
  have hA : PathIs 4096 scenarioA [46, 47, 97] := by
    unfold scenarioA
    rw [h]
    exact hp
  obtain ⟨buf2, h2, hp2⟩ := path_push_good 4096 [98] scenarioA [46, 47, 97] hA
    (by decide) (by decide) (by decide) (by decide)
  unfold scenarioAB
  rw [h2]
  exact hp2

set_option maxRecDepth 1000000 in
/-- Witness of C24: `path_pop` on the path `./a/b`, which is cut at index 3. -/
theorem path_pop_cuts_at_last_slash_witness :
    scenarioAB.path_length < scenarioAB.path_buf.length ∧
    (((path_pop scenarioAB).1 = -1 ↔ scenarioAB.path_length = 0) ∧
    (scenarioAB.path_length = 0 → path_pop scenarioAB = (-1, scenarioAB)) ∧
    (scenarioAB.path_length ≠ 0 → (path_pop scenarioAB).1 = 0 ∧
      ∃ i, ((i < scenarioAB.path_length ∧ scenarioAB.path_buf.getD i 0 = 47 ∧
            ∀ j, i < j → j < scenarioAB.path_length → scenarioAB.path_buf.getD j 0 ≠ 47) ∨
          (i = 0 ∧ ∀ j, j < scenarioAB.path_length → scenarioAB.path_buf.getD j 0 ≠ 47)) ∧
        (path_pop scenarioAB).2.path_length = i ∧
        (path_pop scenarioAB).2.path_buf = scenarioAB.path_buf.set i 0 ∧
        (path_pop scenarioAB).2.path_buf[i]? = some 0 ∧
        (∀ j, j ≠ i → (path_pop scenarioAB).2.path_buf[j]? = scenarioAB.path_buf[j]?) ∧
        (path_pop scenarioAB).2 =
          { scenarioAB with path_buf := scenarioAB.path_buf.set i 0, path_length := i })) :=
  have hlen : scenarioAB.path_length < scenarioAB.path_buf.length := by
    obtain ⟨_, _, h1, _, h2⟩ := scenarioAB_pathIs
    rw [h1, h2]
    decide
  ⟨hlen, path_pop_cuts_at_last_slash scenarioAB hlen⟩

/-- A buffer that holds the string `p` satisfies the path-buffer invariant. -/
theorem pathInv_of_pathIs {PATH_MAX : Nat} {st : State} {p : List Nat}
    (h : PathIs PATH_MAX st p) : PathInv PATH_MAX st := by
  obtain ⟨tail, hbuf, hlen, hnul, hsize⟩ := h
  refine ⟨hsize, ?_, ?_, ?_⟩
  · rw [hbuf] at hsize
    simp only [List.length_append, List.length_cons] at hsize
    omega
  · rw [hbuf, hlen, List.getElem?_append_right (Nat.le_refl _)]
    simp
  · intro i hi h0
    rw [hlen] at hi
    rw [hbuf, List.getElem?_append_left hi] at h0
    exact hnul 0 (List.mem_iff_getElem?.mpr ⟨i, h0⟩) rfl

/-- A buffer that satisfies the path-buffer invariant holds a string. -/
theorem pathIs_of_pathInv {PATH_MAX : Nat} {st : State} (h : PathInv PATH_MAX st) :
    ∃ p, PathIs PATH_MAX st p := by
  obtain ⟨hsize, hlt, hnul, hbefore⟩ := h
  have hlt' : st.path_length < st.path_buf.length := by omega
  refine ⟨st.path_buf.take st.path_length, st.path_buf.drop (st.path_length + 1), ?_, ?_, ?_, hsize⟩
  · have h0 : st.path_buf[st.path_length] = 0 := by
      rw [List.getElem?_eq_getElem hlt'] at hnul
      exact Option.some.inj hnul
    rw [← h0, ← List.drop_eq_getElem_cons hlt', List.take_append_drop]
  · rw [List.length_take]
    omega
  · intro c hc hc0
    rw [hc0] at hc
    obtain ⟨i, hi, hget⟩ := List.getElem_of_mem hc
    rw [List.length_take] at hi
    have hi1 : i < st.path_length := by omega
    rw [List.getElem_take] at hget
    apply hbefore i hi1
    rw [List.getElem?_eq_getElem (by omega), hget]

/-- Function `path_init`, when it returns 0, establishes the invariant. -/
theorem path_init_establishes (PATH_MAX : Nat) (name : List Nat) (st : State)
    (hPM : 0 < PATH_MAX) (hbuf : st.path_buf.length = PATH_MAX) (hnul : ∀ c ∈ name, c ≠ 0)
    (hok : (path_init PATH_MAX name st).1 = 0) :
    PathInv PATH_MAX (path_init PATH_MAX name st).2 := by
  by_cases hfit : name.length < PATH_MAX
  · obtain ⟨buf, h, hp⟩ := path_init_good PATH_MAX name st hbuf hnul hfit
    rw [h]
    exact pathInv_of_pathIs hp
  · have hlong := copy_string_long PATH_MAX name st.path_buf 0 hnul (by omega) (by omega)
    exfalso
    unfold path_init at hok
    rcases hcp : copy_string PATH_MAX name st.path_buf 0 with ⟨r, b, dst⟩
    rw [hcp] at hlong hok
    simp only at hlong hok
    rw [if_pos hlong] at hok
    exact absurd hok (show ¬ ((-1 : Int) = 0) by decide)

/-- Function `path_push` preserves the invariant, whether it fails or not. -/
theorem path_push_preserves (PATH_MAX : Nat) (c : List Nat) (st : State)
    (hc : ∀ x ∈ c, x ≠ 0) (hinv : PathInv PATH_MAX st) :
    PathInv PATH_MAX (path_push PATH_MAX c st).2 := by
  have hcs : cstr c = c := cstr_of_no_nul c hc
  rcases path_push_cases PATH_MAX c st with ⟨_, hres⟩ | ⟨⟨h47, hfit⟩, _⟩
  · rw [hres]
    exact hinv
  · rw [hcs] at h47 hfit
    obtain ⟨p, hp⟩ := pathIs_of_pathInv hinv
    by_cases hcase : p = [] ∨ p.getLast? = some 47
    · exact pathInv_of_pathIs (path_push_nosep_good PATH_MAX c st p hp hc h47 hfit hcase).2
    · have hne : p ≠ [] := fun h => hcase (Or.inl h)
      have hlast : p.getLast hne ≠ 47 := by
        intro h
        apply hcase
        right
        rw [List.getLast?_eq_getLast _ hne, h]
      obtain ⟨buf, h, hp'⟩ := path_push_good PATH_MAX c st p hp hne hlast
        (fun x hx => ⟨hc x hx, fun h => h47 (h ▸ hx)⟩)
        (by obtain ⟨_, _, hlen, _, _⟩ := hp; rw [← hlen]; exact hfit)
      rw [h]
      exact pathInv_of_pathIs hp'

/-- Function `path_pop` preserves the invariant, whether it fails or not. -/
theorem path_pop_preserves (PATH_MAX : Nat) (st : State) (hinv : PathInv PATH_MAX st) :
    PathInv PATH_MAX (path_pop st).2 := by
  by_cases hz : st.path_length = 0
  · have : path_pop st = (-1, st) := by
      unfold path_pop
      rw [if_pos hz]
    rw [this]
    exact hinv
  · obtain ⟨i, hi, hpop⟩ := path_pop_cut st hz
    obtain ⟨hsize, hlt, _, hbefore⟩ := hinv
    have hile : i < st.path_length := by
      rcases hi with ⟨h, _⟩ | ⟨h, _⟩ <;> omega
    rw [hpop]
    refine ⟨?_, ?_, ?_, ?_⟩
    · show (st.path_buf.set i 0).length = PATH_MAX
      rw [List.length_set]
      exact hsize
    · show i < PATH_MAX
      omega
    · show (st.path_buf.set i 0)[i]? = some 0
      rw [List.getElem?_set_self (by omega)]
    · intro j hj
      show (st.path_buf.set i 0)[j]? ≠ some 0
      have hj' : j < i := hj
      rw [List.getElem?_set_ne (by omega)]
      exact hbefore j (by omega)

/-- Claim C26. The path-buffer invariant (`path_length < PATH_MAX`, NUL at
index `path_length`, no NUL before it, in the buffer of `PATH_MAX > 0` cells):
every `path_init` that returns 0 establishes it, and every `path_push` and
every `path_pop`, whether it returns 0 or -1, preserves it. The strings passed
to `path_init` and `path_push` are given by their characters, without NUL. -/
theorem path_buffer_invariant (PATH_MAX : Nat) (hPM : 0 < PATH_MAX) :
    (∀ (name : List Nat) (st : State), st.path_buf.length = PATH_MAX → (∀ c ∈ name, c ≠ 0) →
      (path_init PATH_MAX name st).1 = 0 → PathInv PATH_MAX (path_init PATH_MAX name st).2) ∧
    (∀ (c : List Nat) (st : State), (∀ x ∈ c, x ≠ 0) → PathInv PATH_MAX st →
      PathInv PATH_MAX (path_push PATH_MAX c st).2) ∧
    (∀ (st : State), PathInv PATH_MAX st → PathInv PATH_MAX (path_pop st).2) :=
  ⟨fun name st hbuf hnul hok => path_init_establishes PATH_MAX name st hPM hbuf hnul hok,
    fun c st hc hinv => path_push_preserves PATH_MAX c st hc hinv,
    fun st hinv => path_pop_preserves PATH_MAX st hinv⟩

set_option maxRecDepth 1000000 in
/-- Witness of C26: `path_init(".")` from the initial state, then
`path_push("a")`, `path_pop()`, the failing `path_push("c/d")` and, on the
emptied buffer, a second `path_pop()` and a third, failing one. -/
theorem path_buffer_invariant_witness :
    0 < 4096 ∧ PathInv 4096 scenarioInit ∧
    PathInv 4096 scenarioA ∧
    PathInv 4096 (path_push 4096 [99, 47, 100] scenarioA).2 ∧
    PathInv 4096 (path_pop scenarioA).2 ∧
    PathInv 4096 (path_pop (path_pop scenarioA).2).2 ∧
    PathInv 4096 (path_pop (path_pop (path_pop scenarioA).2).2).2 :=
  have h0 : PathInv 4096 scenarioInit :=
    (path_buffer_invariant 4096 (by decide)).1 [46] (initial 4096 (fsOf emptyBase) 0 [])
      (List.length_replicate 4096 0) (by decide) (by rfl)
  have h1 : PathInv 4096 scenarioA :=
    (path_buffer_invariant 4096 (by decide)).2.1 [97] scenarioInit (by decide) h0
  have h2 : PathInv 4096 (path_pop scenarioA).2 := (path_buffer_invariant 4096 (by decide)).2.2 scenarioA h1
  have h3 : PathInv 4096 (path_pop (path_pop scenarioA).2).2 :=
    (path_buffer_invariant 4096 (by decide)).2.2 _ h2
  ⟨by decide, h0, h1, (path_buffer_invariant 4096 (by decide)).2.1 [99, 47, 100] scenarioA (by decide) h1, h2, h3,
    (path_buffer_invariant 4096 (by decide)).2.2 _ h3⟩

/-- A header has sixteen bytes. -/
theorem header_length (type depth size : Nat) : (header type depth size).length = 16 := by
  simp [header, be_bytes_length]

/-- Function `serialize_file` on a path that names a regular file: the header,
then the outcome of the copy loop and of the final test on `size`. -/
theorem serialize_file_open (depth : Int) (size : Int) (st : State) (perm : Nat)
    (content : List Nat) (hne : size ≠ -1)
    (hfile : st.fs.lookup st.path = some (.file perm content)) :
    serialize_file depth size st =
      if (copy_file size.toNat content []).1 = -1 then
        (-1, ((st.put (header 5 (toUInt32 depth) (toUInt64 (toInt32 (size + 16))))).log
          (.fopen st.path false)).put (copy_file size.toNat content []).2)
      else if size - ((copy_file size.toNat content []).2.length : Int) ≠ 0 then
        (-1, ((st.put (header 5 (toUInt32 depth) (toUInt64 (toInt32 (size + 16))))).log
          (.fopen st.path false)).put (copy_file size.toNat content []).2)
      else
        (0, ((st.put (header 5 (toUInt32 depth) (toUInt64 (toInt32 (size + 16))))).log
          (.fopen st.path false)).put (copy_file size.toNat content []).2) := by
  simp only [serialize_file, hne, if_false, sys_fopen_r, put_fs, put_path, FileSys.fopen_r, hfile]

/-- Claim C28. Function `serialize_file(depth, size)` returns -1 for every
negative `size`: for -1 at the first test, for the others when the file cannot
be opened or, the copy loop being skipped, at the final test `size != 0`. -/
theorem serialize_file_rejects_negative_size (depth size : Int) (st : State)
    (hneg : size < 0) : (serialize_file depth size st).1 = -1 := by
  unfold serialize_file
  by_cases h1 : size = -1
  · rw [if_pos h1]
  · rw [if_neg h1]
    have hnat : size.toNat = 0 := Int.toNat_of_nonpos (by omega)
    rcases hopen : sys_fopen_r
      (st.put (header 5 (toUInt32 depth) (toUInt64 (toInt32 (size + 16))))) with ⟨f, st1⟩
    cases f with
    | none => rfl
    | some content =>
      simp only [hnat, copy_file]
      rw [if_neg (by decide), if_pos (by simp only [List.length_nil, Nat.cast_zero]; omega)]

set_option maxRecDepth 1000000 in
/-- Witness of C28: size -5 for the existing one-byte file `./f`. -/
theorem serialize_file_rejects_negative_size_witness :
    (-5 : Int) < 0 ∧ (serialize_file 1 (-5) (entryStart fBase 0 fName [])).1 = -1 :=
  ⟨by decide, serialize_file_rejects_negative_size 1 (-5) (entryStart fBase 0 fName [])
    (by decide)⟩

/-- Claim C29. Function `serialize_file(depth, s)` for `s > 0`, when the path
buffer names a regular file (of bytes): if the file holds fewer than `s` bytes
it returns -1; if it holds at least `s` bytes it returns 0, and what it has
written is the 16-byte header followed by exactly the first `s` bytes of the
file, in order. -/
theorem serialize_file_copies_first_bytes (depth : Int) (s : Nat) (st : State) (perm : Nat)
    (content : List Nat) (hs : 0 < s)
    (hfile : st.fs.lookup st.path = some (.file perm content))
    (hbytes : ∀ b ∈ content, b < 256) :
    (content.length < s → (serialize_file depth s st).1 = -1) ∧
    (s ≤ content.length →
      (serialize_file depth s st).1 = 0 ∧
      (serialize_file depth s st).2.stdout =
        st.stdout ++ header 5 (toUInt32 depth) (toUInt64 (toInt32 ((s : Int) + 16)))
          ++ content.take s ∧
      (header 5 (toUInt32 depth) (toUInt64 (toInt32 ((s : Int) + 16)))).length = 16) := by
  have hne : (s : Int) ≠ -1 := by omega
  have hopen := serialize_file_open depth s st perm content hne hfile
  rw [Int.toNat_ofNat] at hopen
  constructor
  · intro hshort
    rw [hopen, copy_file_short s content [] hshort, if_pos rfl]
  · intro henough
    rw [hopen, copy_file_enough s content [] henough]
    have hlen : ((([] : List Nat) ++ (content.take s).map (fun c => c % 256)).length : Int) = s := by
      rw [List.nil_append, List.length_map, List.length_take, Nat.min_eq_left henough]
    rw [if_neg (show ¬ ((0 : Int) = -1) by decide), if_neg (by rw [hlen]; simp)]
    refine ⟨rfl, ?_, header_length _ _ _⟩
    simp only [put_stdout, log_stdout, List.nil_append]
    rw [map_mod_of_bytes _ (fun b hb => hbytes b (List.mem_of_mem_take hb))]

set_option maxRecDepth 1000000 in
/-- Witness of C29: size 1 for the file `./f`, whose content is the byte `09`. -/
theorem serialize_file_copies_first_bytes_witness :
    ((0 : Nat) < 1 ∧
      (entryStart fBase 0 fName []).fs.lookup (entryStart fBase 0 fName []).path =
        some (Node.file 0o644 [9]) ∧ (∀ b ∈ ([9] : List Nat), b < 256)) ∧
    ((([9] : List Nat).length < 1 →
        (serialize_file 1 (1 : Nat) (entryStart fBase 0 fName [])).1 = -1) ∧
    (1 ≤ ([9] : List Nat).length →
      (serialize_file 1 (1 : Nat) (entryStart fBase 0 fName [])).1 = 0 ∧
      (serialize_file 1 (1 : Nat) (entryStart fBase 0 fName [])).2.stdout =
        (entryStart fBase 0 fName []).stdout
          ++ header 5 (toUInt32 1) (toUInt64 (toInt32 (((1 : Nat) : Int) + 16)))
          ++ ([9] : List Nat).take 1 ∧
      (header 5 (toUInt32 1) (toUInt64 (toInt32 (((1 : Nat) : Int) + 16)))).length = 16)) :=
  ⟨⟨by decide, by rfl, by decide⟩,
    serialize_file_copies_first_bytes 1 1 (entryStart fBase 0 fName []) 0o644 [9] (by decide)
      (by rfl) (by decide)⟩

set_option maxRecDepth 1000000 in
/-- Claim C27 fails on the code: for a regular file of 2^32 bytes,
`serialize_file` succeeds and writes a FILE_DATA record whose size field is
`00 00 00 00 00 00 00 10`, that is 16, the size field of the record of an empty
file, and not the big-endian encoding `00 00 00 01 00 00 00 10` of
16 + 2^32: `size + 16` is stored in an `int` before it is written. -/
theorem file_data_size_field_of_4GiB_file :
    (serialize_file 1 4294967296 hugeFileState).1 = 0 ∧
    (serialize_file 1 4294967296 hugeFileState).2.stdout =
      [0x0C, 0x0D, 0xED, 5, 0, 0, 0, 1, 0, 0, 0, 0, 0, 0, 0, 0x10]
        ++ List.replicate 4294967296 0 ∧
    bigEndian64 (16 + 4294967296) = [0, 0, 0, 1, 0, 0, 0, 0x10] ∧
    bigEndian64 16 = [0, 0, 0, 0, 0, 0, 0, 0x10] := by
  have hfile : hugeFileState.fs.lookup hugeFileState.path
      = some (.file 0o644 (List.replicate 4294967296 0)) := by rfl
  have hlen : ((List.replicate 4294967296 0 : List Nat).length : Int) = 4294967296 := by
    rw [List.length_replicate]; rfl
  have h := serialize_file_whole 1 hugeFileState 0o644 (List.replicate 4294967296 0) hfile
  rw [hlen] at h
  have hmap : (List.replicate 4294967296 0).map (fun c => c % 256)
      = List.replicate 4294967296 0 := by
    rw [List.map_replicate]
  have hout : hugeFileState.stdout = [] := by rfl
  have hhdr : header 5 (toUInt32 1) (toUInt64 (toInt32 ((4294967296 : Int) + 16)))
      = [0x0C, 0x0D, 0xED, 5, 0, 0, 0, 1, 0, 0, 0, 0, 0, 0, 0, 0x10] := by decide
  refine ⟨by rw [h], ?_, by decide, by decide⟩
  rw [h]
  simp only [put_stdout, log_stdout, hmap, hout, hhdr, List.nil_append]

/-- The test of `serialize_directory` on a name (a string, without NUL) is true
exactly for `.` and `..`. -/
theorem is_dot_entry_iff (n : Name) (hn : ∀ c ∈ n, c ≠ 0) :
    is_dot_entry n = true ↔ (n = [46] ∨ n = [46, 46]) := by
  match n, hn with
  | [], _ => simp [is_dot_entry, List.getD]
  | [a], _ => simp [is_dot_entry, List.getD]
  | [a, b], hn =>
    have hb : b ≠ 0 := hn b (by simp)
    simp [is_dot_entry, List.getD, hb]
  | a :: b :: c :: r, hn =>
    have hb : b ≠ 0 := hn b (by simp)
    have hc : c ≠ 0 := hn c (by simp)
    simp [is_dot_entry, List.getD, hb, hc]

set_option maxRecDepth 1000000 in
/-- Claim C30. In the entry loop of `serialize_directory` an entry is skipped if
and only if its name is exactly `.` or exactly `..`: the test is true for these
two names only, and then the loop goes on with the next entry, the state
unchanged; for any other name `path_push` is called, and the loop returns -1
when it fails. Names that merely start with dots are not skipped: the test is
false for `.x`, `...` and `..a`, and the base directory that holds the files
`.x` and `...` and the directory `..a` is serialized with the records of all
three. -/
theorem dot_entries_skipped_exactly (PATH_MAX : Nat)
    (recurse : Int → State → Option (Int × State)) (depth : Int) (n : Name)
    (rest : List Name) (st : State) (hn : ∀ c ∈ n, c ≠ 0) :
    (is_dot_entry n = true ↔ (n = [46] ∨ n = [46, 46])) ∧
    ((n = [46] ∨ n = [46, 46]) →
      serialize_entries PATH_MAX recurse depth (n :: rest) st =
        serialize_entries PATH_MAX recurse depth rest st) ∧
    (¬ (n = [46] ∨ n = [46, 46]) → (path_push PATH_MAX n st).1 = -1 →
      serialize_entries PATH_MAX recurse depth (n :: rest) st =
        some (-1, (path_push PATH_MAX n st).2)) ∧
    is_dot_entry [46, 120] = false ∧ is_dot_entry [46, 46, 46] = false ∧
    is_dot_entry [46, 46, 97] = false ∧
    run_serialize 4096 3 (fsOf dottedTree) [46] = some (0, encodeTree dottedEntries) ∧
    encodeTree dottedEntries =
      header 0 0 16 ++ header 2 1 16
        ++ entry_record 1 [46, 120] { st_mode := 0o100644, st_size := 1 }
        ++ header 5 1 17 ++ [1]
        ++ entry_record 1 [46, 46, 46] { st_mode := 0o100644, st_size := 1 }
        ++ header 5 1 17 ++ [2]
        ++ entry_record 1 [46, 46, 97] { st_mode := 0o40755, st_size := 4096 }
        ++ header 2 2 16 ++ header 3 2 16
        ++ header 3 1 16 ++ header 1 0 16 := by
  have hiff := is_dot_entry_iff n hn
  refine ⟨hiff, fun h => ?_, fun h hpush => ?_, by rfl, by rfl, by rfl, by rfl, by rfl⟩
  · rw [serialize_entries, if_pos (hiff.mpr h)]
  · have hf : ¬ (is_dot_entry n = true) := fun hd => h (hiff.mp hd)
    rw [serialize_entries, if_neg hf]
    rcases hp : path_push PATH_MAX n st with ⟨r1, st1⟩
    rw [hp] at hpush
    simp only at hpush ⊢
    rw [if_pos hpush]

set_option maxRecDepth 1000000 in
/-- Witness of C30: the name `..` at the head of a listing. -/
theorem dot_entries_skipped_exactly_witness :
    (∀ c ∈ ([46, 46] : List Nat), c ≠ 0) ∧
    (is_dot_entry [46, 46] = true ↔
      (([46, 46] : List Nat) = [46] ∨ ([46, 46] : List Nat) = [46, 46])) ∧
    serialize_entries 4096 (serialize_directory 4096 1) 1 ([46, 46] :: [[46, 120]])
        (serializeStart dottedTree) =
      serialize_entries 4096 (serialize_directory 4096 1) 1 [[46, 120]]
        (serializeStart dottedTree) :=
  have h := dot_entries_skipped_exactly 4096 (serialize_directory 4096 1) 1 [46, 46] [[46, 120]]
    (serializeStart dottedTree) (by decide)
  ⟨by decide, h.1, h.2.1 (Or.inr rfl)⟩

/-- At the end of the input the read of an 8-byte field into a `uint64_t`
yields eight bytes 255: `debug_getchar` never yields `EOF`. -/
theorem read64_eof (st : State) (h : st.stdin = []) :
    read_be debug_getchar_int 64 8 0 st = (some 18446744073709551615, st) := by
  have hg : debug_getchar_int st = (255, st) := by
    simp only [debug_getchar_int, debug_getchar_eq, h]
    rfl
  have hne : ¬ ((255 : Int) = EOF) := by simp only [EOF]; decide
  simp only [read_be, hg, hne, if_false]
  rfl

/-- Function `deserialize_file` never returns when the input ends after the
depth field of the FILE_DATA header: the size field is read as eight bytes
255, and the copy loop never ends. -/
theorem deserialize_file_cut_never (depth : Int) (st : State)
    (hdepth : -2147483648 ≤ depth ∧ depth < 2147483648)
    (hgo : ¬ ((st.fs.stat st.path).isSome ∧ ¬ clobber st))
    (hin : st.stdin = 0x0C :: 0x0D :: 0xED :: 5 :: (be_bytes 4 (toUInt32 depth) ++ []))
    (hopen : (st.fs.fopen_w st.path).isSome) (fuel : Nat) :
    deserialize_file fuel depth st = none := by
  obtain ⟨fs1, hopen⟩ := Option.isSome_iff_exists.mp hopen
  have h0 : sys_stat st = (st.fs.stat st.path, st.log (.stat st.path)) := rfl
  have h1 := read_magic_good (st.log (.stat st.path)) _ hin
  have h2 := debug_getchar_byte ((st.log (.stat st.path)).feed
    (5 :: (be_bytes 4 (toUInt32 depth) ++ []))) 5
    (be_bytes 4 (toUInt32 depth) ++ []) rfl (by decide)
  rw [feed_feed] at h2
  have h3 := read32_debug4 ((st.log (.stat st.path)).feed
    (be_bytes 4 (toUInt32 depth) ++ [])) (toUInt32 depth) [] rfl
  rw [feed_feed, Nat.mod_eq_of_lt (toUInt32_lt depth)] at h3
  have h4 := read64_eof ((st.log (.stat st.path)).feed []) rfl
  have h5 : sys_fopen_w ((st.log (.stat st.path)).feed []) =
      (0, (((st.log (.stat st.path)).feed []).log (.fopen st.path true)).withFs fs1) := by
    have hp : ((st.log (.stat st.path)).feed []).path = st.path := rfl
    have hf : ((st.log (.stat st.path)).feed []).fs = st.fs := rfl
    simp only [sys_fopen_w, hp, hf, hopen]
    rfl
  have h6 := write_loop_never (content_size 18446744073709551615) (by decide) fuel 0
    ((((st.log (.stat st.path)).feed []).log (.fopen st.path true)).withFs fs1) []
    (by decide)
  rw [deserialize_file, h0]
  simp only [clobber_log]
  rw [if_neg hgo, h1]
  simp only [h2, h3, toInt32_toUInt32 depth hdepth, h4, h5, h6]
  simp [EOF]

set_option maxRecDepth 1000000 in
/-- Claim C37 fails in the code for a size field below 16. The input is a
FILE_DATA header of depth 1 whose size field holds 0, the target `./f` does
not exist and its directory does: `file_size - 16` is computed in `uint64_t`
and gives 2^64 - 16, and `deserialize_file(1)` does not return, whatever the
fuel: the loop counter `unsigned int i` stays below that value, and at the end
of the input `debug_getchar` yields the byte 255, which is written to the
file. -/
theorem deserialize_file_size_below_16_never_returns (fuel : Nat) :
    (entryStart emptyBase 0 fName smallSizeInput).stdin = header 5 1 0 ∧
    (entryStart emptyBase 0 fName smallSizeInput).fs.lookup
      (entryStart emptyBase 0 fName smallSizeInput).path = none ∧
    content_size 0 = 18446744073709551600 ∧
    deserialize_file fuel 1 (entryStart emptyBase 0 fName smallSizeInput) = none :=
  ⟨by rfl, by rfl, by decide,
    deserialize_file_never 1 (entryStart emptyBase 0 fName smallSizeInput) 0 []
      (by decide)
      (fun h => by
        have h' : ((entryStart emptyBase 0 fName smallSizeInput).fs.stat
            (entryStart emptyBase 0 fName smallSizeInput).path).isSome = false := by rfl
        rw [h'] at h
        exact Bool.false_ne_true h.1)
      (by rfl) (by decide) (by decide) (by rfl) fuel⟩

set_option maxRecDepth 1000000 in
/-- The run of `-d` on `cutInput` does not return. -/
theorem run_on_cut_never : ∀ fuel : Nat,
    run_deserialize 4096 fuel (fsOf emptyBase) 4 [46] cutInput = none
  | 0 => by rfl
  | 1 => by rfl
  | f + 2 => by
    have hA : path_init 4096 [46] (initial 4096 (fsOf emptyBase) 4 cutInput) =
        (0, deserializeStart emptyBase 4 cutInput) := by rfl
    have hB := read_transmission_good 0 (deserializeStart emptyBase 4 cutInput)
      (header 2 (toUInt32 ((1 : Nat) : Int)) 16 ++
        (header 4 (toUInt32 ((1 : Nat) : Int)) (28 + fName.length) ++
          (be_bytes 4 0o100644 ++ (be_bytes 8 3 ++ (fName ++ [0x0C, 0x0D, 0xED, 5, 0, 0, 0, 1])))))
      (by decide) (by rfl)
    have hC := deserialize_directory_start 4096 (f + 1) 1
      ((deserializeStart emptyBase 4 cutInput).feed
        (header 2 (toUInt32 ((1 : Nat) : Int)) 16 ++
          (header 4 (toUInt32 ((1 : Nat) : Int)) (28 + fName.length) ++
            (be_bytes 4 0o100644 ++ (be_bytes 8 3 ++
              (fName ++ [0x0C, 0x0D, 0xED, 5, 0, 0, 0, 1]))))))
      (header 4 (toUInt32 ((1 : Nat) : Int)) (28 + fName.length) ++
        (be_bytes 4 0o100644 ++ (be_bytes 8 3 ++ (fName ++ [0x0C, 0x0D, 0xED, 5, 0, 0, 0, 1]))))
      (by decide) rfl
    rw [feed_feed] at hC
    have hD := deserialize_directory_entry 4096 f 1
      ((deserializeStart emptyBase 4 cutInput).feed
        (header 4 (toUInt32 ((1 : Nat) : Int)) (28 + fName.length) ++
          (be_bytes 4 0o100644 ++ (be_bytes 8 3 ++
            (fName ++ [0x0C, 0x0D, 0xED, 5, 0, 0, 0, 1])))))
      0o100644 (28 + fName.length) (be_bytes 8 3) fName [0x0C, 0x0D, 0xED, 5, 0, 0, 0, 1]
      (by decide) (by decide) (be_bytes_length 8 3) (be_bytes_lt 8 3) (by decide) (by rfl)
      (by decide) rfl
    rw [feed_feed] at hD
    have hE : path_push 4096 fName
        ((deserializeStart emptyBase 4 cutInput).feed [0x0C, 0x0D, 0xED, 5, 0, 0, 0, 1]) =
        (0, cutFileState) := by rfl
    have hF : deserialize_file f ((1 : Nat) : Int) cutFileState = none :=
      deserialize_file_cut_never 1 cutFileState (by decide)
        (fun h => by
          have h' : (cutFileState.fs.stat cutFileState.path).isSome = false := by rfl
          rw [h'] at h
          exact Bool.false_ne_true h.1)
        (by rfl) (by rfl) f
    have h01 : ¬ ((0 : Int) = -1) := by decide
    have hdir : S_ISDIR 0o100644 = false := by rfl
    have hreg : S_ISREG 0o100644 = true := by rfl
    rw [run_deserialize, hA]
    simp only [h01, if_false]
    simp only [Nat.cast_one] at hB hC hD hF
    rw [deserialize, hB]
    simp only [h01, if_false]
    rw [show f + 2 = f + 1 + 1 from rfl, hC, hD, entry_dispatch, hE]
    simp only [h01, if_false, hdir, hreg, if_true, hF, Bool.false_eq_true]

set_option maxRecDepth 1000000 in
/-- Claim C36 fails in the code. The stream of a base directory that holds the
file `f` (content `01 02 03`) is accepted by `-d` in an empty base directory,
all of its bytes being consumed. On its first 69 bytes, a proper prefix that
ends after the depth field of the FILE_DATA header, `-d` does not return -1:
it does not return, whatever the fuel. The size field is read at the end of
the input as eight bytes 255, and the copy loop of `deserialize_file`, whose
32-bit counter stays below `file_size`, writes bytes 255 for ever. -/
theorem deserialize_does_not_return_on_prefix (fuel : Nat) :
    run_deserialize 4096 8 (fsOf emptyBase) 4 [46] (encodeTree oneFileEntries) =
      some (0, oneFileDone) ∧
    oneFileDone.stdin = [] ∧
    cutInput ++ ([0, 0, 0, 0, 0, 0, 0, 19, 1, 2, 3] ++ header 3 1 16 ++ header 1 0 16) =
      encodeTree oneFileEntries ∧
    cutInput.length = 69 ∧
    run_deserialize 4096 fuel (fsOf emptyBase) 4 [46] cutInput = none :=
  ⟨by rfl, by rfl, by rfl, by rfl, run_on_cut_never fuel⟩

set_option maxRecDepth 1000000 in
/-- Claim C39 fails in the code. The working directory holds the empty
directory `d`, the base path is `d`, and the stream holds a directory entry
called `..` with the file `x` in it. With the clobber bit (`-d -c`),
`opendir("d/..")` is called and succeeds, the deserializer goes down into it,
`fopen("d/../x", "wb")` and `chmod("d/../x", 0o644)` are called, the run
returns 0, and the file `x` has been created beside `d`, outside the base
directory. Without the clobber bit the run returns -1, but after
`opendir("d/..")` has been called. -/
theorem dotdot_entry_leaves_base_directory :
    (fsOf dBase).root = Node.dir 0o755 4096 [(dName, Node.dir 0o755 4096 [])] ∧
    run_deserialize 4096 8 (fsOf dBase) 12 dName dotdotInput = some (0, dotdotDone) ∧
    dotdotDone.fs.root =
      Node.dir 0o755 4096 [(dName, Node.dir 0o755 4096 []), (xName, Node.file 0o644 [7])] ∧
    dotdotDone.calls =
      [Call.opendir [100, 47, 46, 46], Call.stat [100, 47, 46, 46, 47, 120],
        Call.fopen [100, 47, 46, 46, 47, 120] true,
        Call.chmod [100, 47, 46, 46, 47, 120] 0o644] ∧
    run_deserialize 4096 8 (fsOf dBase) 4 dName dotdotInput = some (-1, dotdotRefused) ∧
    dotdotRefused.calls = [Call.opendir [100, 47, 46, 46]] :=
  ⟨by rfl, by rfl, by rfl, by rfl, by rfl, by rfl⟩

/-- The loop that skips bytes drops them, whatever they are. -/
theorem skip_bytes_drop (bytes : List Nat) : ∀ (st : State) (rest : List Nat),
    st.stdin = bytes ++ rest → skip_bytes bytes.length st = st.feed rest := by
  induction bytes with
  | nil =>
    intro st rest h
    simp only [List.nil_append] at h
    simp only [List.length_nil, skip_bytes, ← h]
    rfl
  | cons b bs ih =>
    intro st rest h
    have hg : (debug_getchar st).2 = st.feed (bs ++ rest) := by
      rw [debug_getchar_eq, h]
      rfl
    rw [List.length_cons, skip_bytes, hg, ih (st.feed (bs ++ rest)) rest rfl, feed_feed]

/-- Function `check_while_condition` returns -1 or the type byte of the record,
read as a `char`. -/
theorem check_while_type (depth : Int) (st : State) (m1 m2 m3 t : Nat) (rest : List Nat)
    (h : st.stdin = m1 :: m2 :: m3 :: t :: rest) :
    (check_while_condition depth st).1 = -1 ∨
      (check_while_condition depth st).1 = toSChar t := by
  have hm : ∃ r, read_magic st = (r, st.feed (t :: rest)) := by
    simp only [read_magic, debug_getchar_eq, h]
    split
    · exact ⟨_, rfl⟩
    · split
      · exact ⟨_, rfl⟩
      · exact ⟨_, rfl⟩
  obtain ⟨r, hr⟩ := hm
  have ht : debug_getchar (st.feed (t :: rest)) = (t % 256, st.feed rest) := by
    rw [debug_getchar_eq]
    rfl
  have hs : toSChar (t % 256) = toSChar t := by
    simp only [toSChar, Nat.mod_mod]
  unfold check_while_condition
  rw [hr]
  simp only [ht]
  split
  · left; rfl
  · split
    · left; rfl
    · rcases hd : read_be debug_getchar_int 32 4 0 (st.feed rest) with ⟨v, st3⟩
      cases v with
      | none => left; rfl
      | some dp =>
        simp only
        split
        · left; rfl
        · right; exact hs

/-- A DIRECTORY_ENTRY whose mode word is neither that of a directory nor that of
a regular file is fatal, whatever the name. -/
theorem entry_dispatch_other (PATH_MAX : Nat) (recurse : Int → State → Option (Int × State))
    (fuel : Nat) (depth : Int) (mode : Nat) (name_buf : List Nat) (st : State)
    (hdir : S_ISDIR mode = false) (hreg : S_ISREG mode = false) :
    ∃ st', entry_dispatch PATH_MAX recurse fuel depth mode name_buf st = some (-1, st') := by
  unfold entry_dispatch
  rcases path_push PATH_MAX name_buf st with ⟨r, st5⟩
  simp only [hdir, hreg, Bool.false_eq_true, if_false]
  split
  · exact ⟨_, rfl⟩
  · exact ⟨_, rfl⟩

/-- Claim C32. In the loop of `deserialize_directory` a record whose type byte
is not 2, 3 or 4 (so 0, 1, 5 and every value above 5) makes the function
return -1, whatever its other bytes; and so does a DIRECTORY_ENTRY record (of
the expected depth) whose mode word is neither that of a directory nor that of
a regular file, whatever its name and what follows. -/
theorem unexpected_type_or_mode_is_fatal (PATH_MAX fuel : Nat) :
    (∀ (depth : Int) (st : State) (m1 m2 m3 t : Nat) (rest : List Nat),
      st.stdin = m1 :: m2 :: m3 :: t :: rest → t % 256 ≠ 2 → t % 256 ≠ 3 → t % 256 ≠ 4 →
      ∃ st', deserialize_directory PATH_MAX (fuel + 1) depth st = some (-1, st')) ∧
    (∀ (d : Nat) (st : State) (total m : Nat) (rest : List Nat), d < 2147483648 →
      m < 4294967296 → S_ISDIR m = false → S_ISREG m = false →
      st.stdin = header 4 (toUInt32 (d : Int)) total ++ (be_bytes 4 m ++ rest) →
      ∃ st', deserialize_directory PATH_MAX (fuel + 1) (d : Int) st = some (-1, st')) := by
  constructor
  · intro depth st m1 m2 m3 t rest h h2 h3 h4
    have hty := check_while_type depth st m1 m2 m3 t rest h
    have hs : toSChar t ≠ 2 ∧ toSChar t ≠ 3 ∧ toSChar t ≠ 4 := by
      unfold toSChar
      split <;> omega
    rw [deserialize_directory]
    rcases hc : check_while_condition depth st with ⟨type, st1⟩
    rw [hc] at hty
    simp only at hty ⊢
    rcases hty with hty | hty
    · rw [if_pos hty]
      exact ⟨_, rfl⟩
    · rw [hty]
      by_cases hm1 : toSChar t = -1
      · rw [if_pos hm1]
        exact ⟨_, rfl⟩
      · rw [if_neg hm1, if_neg hs.1, if_neg hs.2.1, if_neg hs.2.2]
        exact ⟨_, rfl⟩
  · intro d st total m rest hd hm hdir hreg hin
    have h1 := check_while_header st 4 d total _ (by decide) hd hin
    have h2 := read32_debug8 (st.feed (be_bytes 8 total ++ (be_bytes 4 m ++ rest))) total _ rfl
    rw [feed_feed] at h2
    have h3 := read32_debug4 (st.feed (be_bytes 4 m ++ rest)) m _ rfl
    rw [feed_feed, Nat.mod_eq_of_lt hm] at h3
    rw [deserialize_directory]
    simp only [h1]
    rw [if_neg (by decide), if_neg (by decide), if_neg (by decide),
      if_pos (show ((4 : Nat) : Int) = 4 from rfl), directory_entry]
    simp only [h2, h3]
    exact entry_dispatch_other PATH_MAX _ fuel _ m _ _ hdir hreg

set_option maxRecDepth 1000000 in
/-- Witness of C32: a record of type 5 in the loop, and a DIRECTORY_ENTRY whose
mode word 0o10644 is that of a FIFO. -/
theorem unexpected_type_or_mode_is_fatal_witness :
    ((deserializeStart emptyBase 0 (header 5 1 16)).stdin =
        0x0C :: 0x0D :: 0xED :: 5 :: [0, 0, 0, 1, 0, 0, 0, 0, 0, 0, 0, 16] ∧
      S_ISDIR 0o10644 = false ∧ S_ISREG 0o10644 = false) ∧
    (∃ st', deserialize_directory 4096 (0 + 1) 1 (deserializeStart emptyBase 0 (header 5 1 16)) =
      some (-1, st')) ∧
    (∃ st', deserialize_directory 4096 (0 + 1) ((1 : Nat) : Int)
        (deserializeStart emptyBase 0
          (header 4 (toUInt32 ((1 : Nat) : Int)) 29 ++
            (be_bytes 4 0o10644 ++ [0, 0, 0, 0, 0, 0, 0, 0, 112]))) =
      some (-1, st')) :=
  ⟨⟨by rfl, by rfl, by rfl⟩,
    (unexpected_type_or_mode_is_fatal 4096 0).1 1 (deserializeStart emptyBase 0 (header 5 1 16))
      0x0C 0x0D 0xED 5 [0, 0, 0, 1, 0, 0, 0, 0, 0, 0, 0, 16] (by rfl) (by decide) (by decide)
      (by decide),
    (unexpected_type_or_mode_is_fatal 4096 0).2 1
      (deserializeStart emptyBase 0
        (header 4 (toUInt32 ((1 : Nat) : Int)) 29 ++
          (be_bytes 4 0o10644 ++ [0, 0, 0, 0, 0, 0, 0, 0, 112])))
      29 0o10644 [0, 0, 0, 0, 0, 0, 0, 0, 112] (by decide) (by decide) (by rfl) (by rfl)
      (by rfl)⟩

/-- A turn of the loop of `deserialize_directory` on a DIRECTORY_ENTRY record of
the expected depth: the eight bytes after the mode word are dropped, and the
turn goes on with the name read from what follows them. -/
theorem entry_turn_skips_size (PATH_MAX fuel d : Nat) (st : State) (total m : Nat)
    (skip rest : List Nat) (hd : d < 2147483648) (hskip : skip.length = 8)
    (hin : st.stdin = header 4 (toUInt32 (d : Int)) total ++ (be_bytes 4 m ++ (skip ++ rest))) :
    deserialize_directory PATH_MAX (fuel + 1) (d : Int) st =
      entry_dispatch PATH_MAX (deserialize_directory PATH_MAX fuel) fuel (d : Int)
        (m % 4294967296)
        (read_name (toInt32 (toInt32 ((total % 4294967296 : Nat) : Int) - 16 - 12)).toNat
          (st.feed rest) []).1
        (read_name (toInt32 (toInt32 ((total % 4294967296 : Nat) : Int) - 16 - 12)).toNat
          (st.feed rest) []).2 := by
  have h1 := check_while_header st 4 d total _ (by decide) hd hin
  have h2 := read32_debug8 (st.feed (be_bytes 8 total ++ (be_bytes 4 m ++ (skip ++ rest))))
    total _ rfl
  rw [feed_feed] at h2
  have h3 := read32_debug4 (st.feed (be_bytes 4 m ++ (skip ++ rest))) m _ rfl
  rw [feed_feed] at h3
  have h4 := skip_bytes_drop skip (st.feed (skip ++ rest)) rest rfl
  rw [hskip, feed_feed] at h4
  rw [deserialize_directory]
  simp only [h1]
  rw [if_neg (by decide), if_neg (by decide), if_neg (by decide),
    if_pos (show ((4 : Nat) : Int) = 4 from rfl), directory_entry]
  simp only [h2, h3, h4]

set_option maxRecDepth 1000000 in
/-- Claim C34. At any point of the decoding at which the loop of
`deserialize_directory(d)` meets a DIRECTORY_ENTRY record of depth `d`, the
eight bytes of its file-size field have no influence: with any other eight
bytes in their place the function returns the same result in the same final
state, so with the same file system, the same record of file-system calls
and arguments, and the same input left. As an instance for whole streams:
`-d` on the stream of a tree with two files and a directory returns 0 and
ends in the same state when the three size fields hold other bytes. -/
theorem entry_size_field_is_ignored (PATH_MAX fuel d : Nat) (st : State) (total m : Nat)
    (s1 s2 rest : List Nat) (hd : d < 2147483648) (h1 : s1.length = 8) (h2 : s2.length = 8) :
    deserialize_directory PATH_MAX fuel (d : Int)
        (st.feed (header 4 (toUInt32 (d : Int)) total ++ (be_bytes 4 m ++ (s1 ++ rest)))) =
      deserialize_directory PATH_MAX fuel (d : Int)
        (st.feed (header 4 (toUInt32 (d : Int)) total ++ (be_bytes 4 m ++ (s2 ++ rest)))) ∧
    (run_deserialize 4096 20 (fsOf emptyBase) 4 [46]
        (sizedStream (be_bytes 8 3) (be_bytes 8 4096) (be_bytes 8 1))).map Prod.fst = some 0 ∧
    run_deserialize 4096 20 (fsOf emptyBase) 4 [46]
        (sizedStream [255, 255, 255, 255, 255, 255, 255, 255] [0, 0, 0, 0, 0, 0, 0, 0]
          [1, 2, 3, 4, 5, 6, 7, 8]) =
      run_deserialize 4096 20 (fsOf emptyBase) 4 [46]
        (sizedStream (be_bytes 8 3) (be_bytes 8 4096) (be_bytes 8 1)) := by
  refine ⟨?_, by rfl, by rfl⟩
  cases fuel with
  | zero => rfl
  | succ f =>
    rw [entry_turn_skips_size PATH_MAX f d _ total m s1 rest hd h1 rfl,
      entry_turn_skips_size PATH_MAX f d _ total m s2 rest hd h2 rfl]
    simp only [feed_feed]

set_option maxRecDepth 1000000 in
/-- Witness of C34: the entry `f` at depth 1, with size field 3 and with eight
bytes 255. -/
theorem entry_size_field_is_ignored_witness :
    ((1 : Nat) < 2147483648 ∧ (be_bytes 8 3).length = 8 ∧
      ([255, 255, 255, 255, 255, 255, 255, 255] : List Nat).length = 8) ∧
    (deserialize_directory 4096 5 ((1 : Nat) : Int)
        ((deserializeStart emptyBase 0 []).feed
          (header 4 (toUInt32 ((1 : Nat) : Int)) 29 ++ (be_bytes 4 0o100644 ++
            (be_bytes 8 3 ++ (fName ++ (header 5 1 19 ++ [1, 2, 3])))))) =
      deserialize_directory 4096 5 ((1 : Nat) : Int)
        ((deserializeStart emptyBase 0 []).feed
          (header 4 (toUInt32 ((1 : Nat) : Int)) 29 ++ (be_bytes 4 0o100644 ++
            ([255, 255, 255, 255, 255, 255, 255, 255] ++
              (fName ++ (header 5 1 19 ++ [1, 2, 3]))))))) :=
  ⟨⟨by decide, by rfl, by rfl⟩,
    (entry_size_field_is_ignored 4096 5 1 (deserializeStart emptyBase 0 []) 29 0o100644
      (be_bytes 8 3) [255, 255, 255, 255, 255, 255, 255, 255]
      (fName ++ (header 5 1 19 ++ [1, 2, 3])) (by decide) (by rfl) (by rfl)).1⟩

/-- An argument is at most one of the options. -/
theorem is_flag_unique (arg : List Nat) (c c' : Nat) (h : is_flag arg c = true) (hne : c' ≠ c) :
    is_flag arg c' = false := by
  simp only [is_flag, Bool.and_eq_true, beq_iff_eq] at h
  simp only [is_flag, h.1.2, Bool.and_eq_false_imp, beq_iff_eq, Bool.and_eq_true]
  intro h1
  exact absurd h1.2.symm hne

/-- The options found in a list of arguments whose head is not `-p`. -/
theorem hasFlag_optionArgs_cons (c : Nat) (arg : List Nat) (rest : List (List Nat))
    (hp : is_flag arg 112 = false) :
    hasFlag c (optionArgs (arg :: rest)) = (is_flag arg c || hasFlag c (optionArgs rest)) := by
  cases rest with
  | nil => simp [optionArgs, hasFlag]
  | cons operand rest' => simp [optionArgs, hasFlag, hp]

/-- The options found in a list of arguments whose head is `-p`. -/
theorem hasFlag_optionArgs_p (c : Nat) (arg operand : List Nat) (rest : List (List Nat))
    (hp : is_flag arg 112 = true) :
    hasFlag c (optionArgs (arg :: operand :: rest)) =
      (is_flag arg c || hasFlag c (optionArgs rest)) := by
  simp [optionArgs, hasFlag, hp]

/-- The invariant does not depend on `p_flag` and `name_buf`. -/
theorem ArgInv.of_flags {a b : ArgState} (h : ArgInv a) (hs : b.s_flag = a.s_flag)
    (hd : b.d_flag = a.d_flag) (hc : b.c_flag = a.c_flag)
    (hp : b.pos_flag_found = a.pos_flag_found) (ho : b.global_options = a.global_options) :
    ArgInv b :=
  ⟨by rw [hs, hd]; exact h.both, by rw [hc, hd]; exact h.clob, by rw [hp, hs, hd]; exact h.pos,
    by rw [ho, hs, hd, hc]; exact h.opts⟩

/-- The end of `validargs`, when it returns 0. -/
theorem validargs_end_ok (NAME_MAX : Nat) (a : ArgState) (hinv : ArgInv a)
    (hok : (validargs_end NAME_MAX a).1 = 0) :
    ArgInv (validargs_end NAME_MAX a).2 ∧
    (validargs_end NAME_MAX a).2.s_flag = a.s_flag ∧
    (validargs_end NAME_MAX a).2.d_flag = a.d_flag ∧
    (validargs_end NAME_MAX a).2.c_flag = a.c_flag ∧
    ((validargs_end NAME_MAX a).2.s_flag = true ∨ (validargs_end NAME_MAX a).2.d_flag = true) := by
  have hdp : (default_path NAME_MAX a).s_flag = a.s_flag ∧
      (default_path NAME_MAX a).d_flag = a.d_flag ∧
      (default_path NAME_MAX a).c_flag = a.c_flag ∧
      (default_path NAME_MAX a).pos_flag_found = a.pos_flag_found ∧
      (default_path NAME_MAX a).global_options = a.global_options := by
    unfold default_path
    split <;> exact ⟨rfl, rfl, rfl, rfl, rfl⟩
  unfold validargs_end at hok ⊢
  by_cases h1 : a.s_flag = false ∧ a.d_flag = false
  · rw [if_pos h1] at hok
    exact absurd hok (show ¬ ((-1 : Int) = 0) by decide)
  · rw [if_neg h1] at hok ⊢
    by_cases h2 : a.c_flag = true ∧ a.d_flag = false
    · rw [if_pos h2] at hok
      exact absurd hok (show ¬ ((-1 : Int) = 0) by decide)
    · rw [if_neg h2]
      refine ⟨hinv.of_flags hdp.1 hdp.2.1 hdp.2.2.1 hdp.2.2.2.1 hdp.2.2.2.2, hdp.1, hdp.2.1,
        hdp.2.2.1, ?_⟩
      show (default_path NAME_MAX a).s_flag = true ∨ (default_path NAME_MAX a).d_flag = true
      rw [hdp.1, hdp.2.1]
      cases hs : a.s_flag <;> cases hd : a.d_flag <;> simp_all

/-- One turn of the loop of `validargs`. -/
theorem validargs_loop_cons (NAME_MAX : Nat) (first : Bool) (arg : List Nat)
    (rest : List (List Nat)) (a : ArgState) :
    validargs_loop NAME_MAX first (arg :: rest) a =
      if is_flag arg 104 then
        if first = false then (-1, a)
        else (0, { a with global_options := a.global_options ||| (1 <<< 0) })
      else if is_flag arg 115 then
        if a.s_flag then (-1, a)
        else if a.pos_flag_found then (-1, a)
        else validargs_loop NAME_MAX false rest (ArgState.mk true a.d_flag a.c_flag a.p_flag true
          (a.global_options ||| (1 <<< 1)) a.name_buf)
      else if is_flag arg 100 then
        if a.d_flag then (-1, a)
        else if a.pos_flag_found then (-1, a)
        else validargs_loop NAME_MAX false rest (ArgState.mk a.s_flag true a.c_flag a.p_flag true
          (a.global_options ||| (1 <<< 2)) a.name_buf)
      else if a.pos_flag_found = false then (-1, a)
      else if is_flag arg 99 then
        if a.d_flag = false then (-1, a)
        else validargs_loop NAME_MAX false rest (ArgState.mk a.s_flag a.d_flag true a.p_flag
          a.pos_flag_found (a.global_options ||| (1 <<< 3)) a.name_buf)
      else if is_flag arg 112 then
        match rest with
        | [] => (-1, a)
        | dir_path :: rest' =>
          validargs_loop NAME_MAX false rest' (ArgState.mk a.s_flag a.d_flag a.c_flag true
            a.pos_flag_found a.global_options (copy_path NAME_MAX dir_path))
      else (-1, a) := by
  cases rest <;> rfl

/-- The loop of `validargs`, when it returns 0 and its first argument is not
`-h`: the flags tell which options are among the arguments. -/
theorem validargs_loop_ok (NAME_MAX : Nat) :
    ∀ (args : List (List Nat)) (first : Bool) (a : ArgState), ArgInv a →
      (first = true → is_flag (args.headD []) 104 = false) →
      (validargs_loop NAME_MAX first args a).1 = 0 →
      ArgInv (validargs_loop NAME_MAX first args a).2 ∧
      (validargs_loop NAME_MAX first args a).2.s_flag =
        (a.s_flag || hasFlag 115 (optionArgs args)) ∧
      (validargs_loop NAME_MAX first args a).2.d_flag =
        (a.d_flag || hasFlag 100 (optionArgs args)) ∧
      (validargs_loop NAME_MAX first args a).2.c_flag =
        (a.c_flag || hasFlag 99 (optionArgs args)) ∧
      ((validargs_loop NAME_MAX first args a).2.s_flag = true ∨
        (validargs_loop NAME_MAX first args a).2.d_flag = true)
  | [], first, a, hinv, _, hok => by
    rw [validargs_loop] at hok ⊢
    obtain ⟨h1, h2, h3, h4, h5⟩ := validargs_end_ok NAME_MAX a hinv hok
    refine ⟨h1, ?_, ?_, ?_, h5⟩
    · rw [h2]; simp [optionArgs, hasFlag]
    · rw [h3]; simp [optionArgs, hasFlag]
    · rw [h4]; simp [optionArgs, hasFlag]
  | arg :: rest, first, a, hinv, hfirst, hok => by
    by_cases hh : is_flag arg 104 = true
    · exfalso
      rw [validargs_loop_cons, if_pos hh] at hok
      cases first with
      | false =>
        rw [if_pos rfl] at hok
        exact absurd hok (show ¬ ((-1 : Int) = 0) by decide)
      | true =>
        have := hfirst rfl
        simp only [List.headD_cons] at this
        rw [this] at hh
        exact Bool.false_ne_true hh
    · by_cases hs : is_flag arg 115 = true
      · have hp : is_flag arg 112 = false := is_flag_unique arg 115 112 hs (by decide)
        have hd' : is_flag arg 100 = false := is_flag_unique arg 115 100 hs (by decide)
        have hc' : is_flag arg 99 = false := is_flag_unique arg 115 99 hs (by decide)
        rw [validargs_loop_cons, if_neg hh, if_pos hs] at hok
        by_cases h1 : a.s_flag = true
        · rw [if_pos h1] at hok
          exact absurd hok (show ¬ ((-1 : Int) = 0) by decide)
        · rw [if_neg h1] at hok
          by_cases h2 : a.pos_flag_found = true
          · rw [if_pos h2] at hok
            exact absurd hok (show ¬ ((-1 : Int) = 0) by decide)
          · rw [if_neg h2] at hok
            have hsf : a.s_flag = false := by simpa using h1
            have hpf : a.pos_flag_found = false := by simpa using h2
            have hdf : a.d_flag = false := by
              have := hinv.pos
              rw [hpf, hsf] at this
              simpa using this.symm
            have hcf : a.c_flag = false := by
              cases hc : a.c_flag with
              | false => rfl
              | true => have := hinv.clob hc; rw [hdf] at this; exact absurd this (by decide)
            have hstep : validargs_loop NAME_MAX first (arg :: rest) a =
                validargs_loop NAME_MAX false rest
                  (ArgState.mk true a.d_flag a.c_flag a.p_flag true
                    (a.global_options ||| (1 <<< 1)) a.name_buf) := by
              rw [validargs_loop_cons, if_neg hh, if_pos hs, if_neg h1, if_neg h2]
            have hinv1 : ArgInv (ArgState.mk true a.d_flag a.c_flag a.p_flag true
                (a.global_options ||| (1 <<< 1)) a.name_buf) :=
              ⟨by simp [hdf], by simp [hcf], by simp, by
                have := hinv.opts
                rw [hsf, hdf, hcf] at this
                simp [this, hdf, hcf]⟩
            obtain ⟨i1, i2, i3, i4, i5⟩ := validargs_loop_ok NAME_MAX rest false _ hinv1
              (fun h => absurd h (by decide)) hok
            rw [hstep]
            refine ⟨i1, ?_, ?_, ?_, i5⟩
            · rw [i2, hasFlag_optionArgs_cons 115 arg rest hp, hs]; simp
            · rw [i3, hasFlag_optionArgs_cons 100 arg rest hp, hd']; simp
            · rw [i4, hasFlag_optionArgs_cons 99 arg rest hp, hc']; simp
      · by_cases hd : is_flag arg 100 = true
        · have hp : is_flag arg 112 = false := is_flag_unique arg 100 112 hd (by decide)
          have hc' : is_flag arg 99 = false := is_flag_unique arg 100 99 hd (by decide)
          have hs' : is_flag arg 115 = false := by simpa using hs
          rw [validargs_loop_cons, if_neg hh, if_neg hs, if_pos hd] at hok
          by_cases h1 : a.d_flag = true
          · rw [if_pos h1] at hok
            exact absurd hok (show ¬ ((-1 : Int) = 0) by decide)
          · rw [if_neg h1] at hok
            by_cases h2 : a.pos_flag_found = true
            · rw [if_pos h2] at hok
              exact absurd hok (show ¬ ((-1 : Int) = 0) by decide)
            · rw [if_neg h2] at hok
              have hdf : a.d_flag = false := by simpa using h1
              have hpf : a.pos_flag_found = false := by simpa using h2
              have hsf : a.s_flag = false := by
                have := hinv.pos
                rw [hpf, hdf] at this
                simpa using this.symm
              have hcf : a.c_flag = false := by
                cases hc : a.c_flag with
                | false => rfl
                | true => have := hinv.clob hc; rw [hdf] at this; exact absurd this (by decide)
              have hstep : validargs_loop NAME_MAX first (arg :: rest) a =
                  validargs_loop NAME_MAX false rest
                    (ArgState.mk a.s_flag true a.c_flag a.p_flag true
                      (a.global_options ||| (1 <<< 2)) a.name_buf) := by
                rw [validargs_loop_cons, if_neg hh, if_neg hs, if_pos hd, if_neg h1, if_neg h2]
              have hinv1 : ArgInv (ArgState.mk a.s_flag true a.c_flag a.p_flag true
                  (a.global_options ||| (1 <<< 2)) a.name_buf) :=
                ⟨by simp [hsf], by simp, by simp, by
                  have := hinv.opts
                  rw [hsf, hdf, hcf] at this
                  simp [this, hsf, hcf]⟩
              obtain ⟨i1, i2, i3, i4, i5⟩ := validargs_loop_ok NAME_MAX rest false _ hinv1
                (fun h => absurd h (by decide)) hok
              rw [hstep]
              refine ⟨i1, ?_, ?_, ?_, i5⟩
              · rw [i2, hasFlag_optionArgs_cons 115 arg rest hp, hs']; simp
              · rw [i3, hasFlag_optionArgs_cons 100 arg rest hp, hd]; simp
              · rw [i4, hasFlag_optionArgs_cons 99 arg rest hp, hc']; simp
        · have hs' : is_flag arg 115 = false := by simpa using hs
          have hd' : is_flag arg 100 = false := by simpa using hd
          rw [validargs_loop_cons, if_neg hh, if_neg hs, if_neg hd] at hok
          by_cases h0 : a.pos_flag_found = false
          · rw [if_pos h0] at hok
            exact absurd hok (show ¬ ((-1 : Int) = 0) by decide)
          · rw [if_neg h0] at hok
            by_cases hc : is_flag arg 99 = true
            · have hp : is_flag arg 112 = false := is_flag_unique arg 99 112 hc (by decide)
              rw [if_pos hc] at hok
              by_cases h1 : a.d_flag = false
              · rw [if_pos h1] at hok
                exact absurd hok (show ¬ ((-1 : Int) = 0) by decide)
              · rw [if_neg h1] at hok
                have hdf : a.d_flag = true := by simpa using h1
                have hstep : validargs_loop NAME_MAX first (arg :: rest) a =
                    validargs_loop NAME_MAX false rest
                      (ArgState.mk a.s_flag a.d_flag true a.p_flag a.pos_flag_found
                        (a.global_options ||| (1 <<< 3)) a.name_buf) := by
                  rw [validargs_loop_cons, if_neg hh, if_neg hs, if_neg hd, if_neg h0, if_pos hc,
                    if_neg h1]
                have hsf : a.s_flag = false := by
                  cases hsv : a.s_flag with
                  | false => rfl
                  | true => exact absurd ⟨hsv, hdf⟩ hinv.both
                have hinv1 : ArgInv (ArgState.mk a.s_flag a.d_flag true a.p_flag
                    a.pos_flag_found (a.global_options ||| (1 <<< 3)) a.name_buf) :=
                  ⟨hinv.both, fun _ => hdf, hinv.pos, by
                    have := hinv.opts
                    rw [hsf, hdf] at this
                    cases hcv : a.c_flag <;> rw [hcv] at this <;> simp [this, hsf, hdf]⟩
                obtain ⟨i1, i2, i3, i4, i5⟩ := validargs_loop_ok NAME_MAX rest false _ hinv1
                  (fun h => absurd h (by decide)) hok
                rw [hstep]
                refine ⟨i1, ?_, ?_, ?_, i5⟩
                · rw [i2, hasFlag_optionArgs_cons 115 arg rest hp, hs']; simp
                · rw [i3, hasFlag_optionArgs_cons 100 arg rest hp, hd']; simp
                · rw [i4, hasFlag_optionArgs_cons 99 arg rest hp, hc]; simp
            · have hc' : is_flag arg 99 = false := by simpa using hc
              rw [if_neg hc] at hok
              by_cases hp : is_flag arg 112 = true
              · rw [if_pos hp] at hok
                match rest, hok with
                | [], hok => exact absurd hok (show ¬ ((-1 : Int) = 0) by decide)
                | dir_path :: rest', hok =>
                  have hstep : validargs_loop NAME_MAX first (arg :: dir_path :: rest') a =
                      validargs_loop NAME_MAX false rest'
                        (ArgState.mk a.s_flag a.d_flag a.c_flag true a.pos_flag_found
                          a.global_options (copy_path NAME_MAX dir_path)) := by
                    rw [validargs_loop_cons, if_neg hh, if_neg hs, if_neg hd, if_neg h0, if_neg hc,
                      if_pos hp]
                  have hinv1 : ArgInv (ArgState.mk a.s_flag a.d_flag a.c_flag true
                      a.pos_flag_found a.global_options (copy_path NAME_MAX dir_path)) :=
                    hinv.of_flags rfl rfl rfl rfl rfl
                  obtain ⟨i1, i2, i3, i4, i5⟩ := validargs_loop_ok NAME_MAX rest' false _ hinv1
                    (fun h => absurd h (by decide)) hok
                  rw [hstep]
                  refine ⟨i1, ?_, ?_, ?_, i5⟩
                  · rw [i2, hasFlag_optionArgs_p 115 arg dir_path rest' hp, hs']; simp
                  · rw [i3, hasFlag_optionArgs_p 100 arg dir_path rest' hp, hd']; simp
                  · rw [i4, hasFlag_optionArgs_p 99 arg dir_path rest' hp, hc']; simp
              · rw [if_neg hp] at hok
                exact absurd hok (show ¬ ((-1 : Int) = 0) by decide)

/-- The end of `validargs` returns 0 or -1. -/
theorem validargs_end_code (NAME_MAX : Nat) (a : ArgState) :
    (validargs_end NAME_MAX a).1 = 0 ∨ (validargs_end NAME_MAX a).1 = -1 := by
  unfold validargs_end
  split
  · right; rfl
  · split
    · right; rfl
    · left; rfl

/-- The loop of `validargs` returns 0 or -1. -/
theorem validargs_loop_code (NAME_MAX : Nat) :
    ∀ (args : List (List Nat)) (first : Bool) (a : ArgState),
      (validargs_loop NAME_MAX first args a).1 = 0 ∨
        (validargs_loop NAME_MAX first args a).1 = -1
  | [], first, a => by
    rw [validargs_loop]
    exact validargs_end_code NAME_MAX a
  | arg :: rest, first, a => by
    rw [validargs_loop_cons]
    split
    · split
      · right; rfl
      · left; rfl
    · split
      · split
        · right; rfl
        · split
          · right; rfl
          · exact validargs_loop_code NAME_MAX rest false _
      · split
        · split
          · right; rfl
          · split
            · right; rfl
            · exact validargs_loop_code NAME_MAX rest false _
        · split
          · right; rfl
          · split
            · split
              · right; rfl
              · exact validargs_loop_code NAME_MAX rest false _
            · split
              · match rest with
                | [] => right; rfl
                | dir_path :: rest' => exact validargs_loop_code NAME_MAX rest' false _
              · right; rfl

/-- Claim C33. For every argument vector whose first argument is not `-h`:
`validargs` returns 0 or -1; when it returns 0, `global_options` is 2 (`-s`),
4 (`-d`) or 12 (`-d -c`), so exactly one of the bits 1 and 2 is set and bit 3
is set only together with bit 2; and it returns -1 when both `-s` and `-d`
are given, when neither is given, and when `-c` is given without `-d`. An
option is given when it is among the arguments other than the operand that
follows a `-p`. -/
theorem validargs_accepts_exactly_one_mode (NAME_MAX : Nat) (argv : List (List Nat))
    (name_buf : List Nat) (hfirst : is_flag (argv.tail.headD []) 104 = false) :
    ((validargs NAME_MAX argv name_buf).1 = 0 ∨ (validargs NAME_MAX argv name_buf).1 = -1) ∧
    ((validargs NAME_MAX argv name_buf).1 = 0 →
      ((validargs NAME_MAX argv name_buf).2.global_options = 2 ∨
        (validargs NAME_MAX argv name_buf).2.global_options = 4 ∨
        (validargs NAME_MAX argv name_buf).2.global_options = 12) ∧
      ((validargs NAME_MAX argv name_buf).2.global_options &&& 2 ≠ 0 ↔
        (validargs NAME_MAX argv name_buf).2.global_options &&& 4 = 0) ∧
      ((validargs NAME_MAX argv name_buf).2.global_options &&& 8 ≠ 0 →
        (validargs NAME_MAX argv name_buf).2.global_options &&& 4 ≠ 0)) ∧
    (hasFlag 115 (optionArgs argv.tail) = true → hasFlag 100 (optionArgs argv.tail) = true →
      (validargs NAME_MAX argv name_buf).1 = -1) ∧
    (hasFlag 115 (optionArgs argv.tail) = false → hasFlag 100 (optionArgs argv.tail) = false →
      (validargs NAME_MAX argv name_buf).1 = -1) ∧
    (hasFlag 99 (optionArgs argv.tail) = true → hasFlag 100 (optionArgs argv.tail) = false →
      (validargs NAME_MAX argv name_buf).1 = -1) := by
  have hcode : (validargs NAME_MAX argv name_buf).1 = 0 ∨
      (validargs NAME_MAX argv name_buf).1 = -1 := by
    unfold validargs
    split
    · right; rfl
    · exact validargs_loop_code NAME_MAX _ _ _
  have hinv0 : ArgInv (ArgState.mk false false false false false 0 name_buf) :=
    ⟨by simp, by simp, by simp, by simp⟩
  have hmain : (validargs NAME_MAX argv name_buf).1 = 0 →
      ArgInv (validargs NAME_MAX argv name_buf).2 ∧
      (validargs NAME_MAX argv name_buf).2.s_flag = hasFlag 115 (optionArgs argv.tail) ∧
      (validargs NAME_MAX argv name_buf).2.d_flag = hasFlag 100 (optionArgs argv.tail) ∧
      (validargs NAME_MAX argv name_buf).2.c_flag = hasFlag 99 (optionArgs argv.tail) ∧
      ((validargs NAME_MAX argv name_buf).2.s_flag = true ∨
        (validargs NAME_MAX argv name_buf).2.d_flag = true) := by
    intro hok
    unfold validargs at hok ⊢
    by_cases hlen : argv.length < 2
    · rw [if_pos hlen] at hok
      exact absurd hok (show ¬ ((-1 : Int) = 0) by decide)
    · rw [if_neg hlen] at hok ⊢
      obtain ⟨i1, i2, i3, i4, i5⟩ := validargs_loop_ok NAME_MAX argv.tail true _ hinv0
        (fun _ => hfirst) hok
      exact ⟨i1, by rw [i2]; simp, by rw [i3]; simp, by rw [i4]; simp, i5⟩
  have hnot : ∀ {r : Int}, (r = 0 ∨ r = -1) → ¬ (r = 0) → r = -1 := by
    intro r h hn
    rcases h with h | h
    · exact absurd h hn
    · exact h
  refine ⟨hcode, fun hok => ?_, fun hs hd => hnot hcode fun hok => ?_,
    fun hs hd => hnot hcode fun hok => ?_, fun hc hd => hnot hcode fun hok => ?_⟩
  · obtain ⟨hinv, _, _, _, hone⟩ := hmain hok
    have hopts := hinv.opts
    have hboth := hinv.both
    have hclob := hinv.clob
    have hg : (validargs NAME_MAX argv name_buf).2.global_options = 2 ∨
        (validargs NAME_MAX argv name_buf).2.global_options = 4 ∨
        (validargs NAME_MAX argv name_buf).2.global_options = 12 := by
      rcases hsv : (validargs NAME_MAX argv name_buf).2.s_flag <;>
        rcases hdv : (validargs NAME_MAX argv name_buf).2.d_flag <;>
        rcases hcv : (validargs NAME_MAX argv name_buf).2.c_flag <;>
        simp only [hsv, hdv, hcv] at hopts hboth hclob hone <;>
        simp_all
    refine ⟨hg, ?_, ?_⟩
    · rcases hg with h | h | h <;> rw [h] <;> decide
    · rcases hg with h | h | h <;> rw [h] <;> decide
  · obtain ⟨hinv, h1, h2, _, _⟩ := hmain hok
    exact hinv.both ⟨by rw [h1]; exact hs, by rw [h2]; exact hd⟩
  · obtain ⟨_, h1, h2, _, hone⟩ := hmain hok
    rw [h1, h2, hs, hd] at hone
    simp at hone
  · obtain ⟨hinv, _, h2, h3, _⟩ := hmain hok
    have := hinv.clob (by rw [h3]; exact hc)
    rw [h2, hd] at this
    exact Bool.false_ne_true this

/-- Witness of C33: `t -d -c -p -s`, where `-s` is the operand of `-p`; the
options given are `-d`, `-c` and `-p`, and `global_options` is 12. -/
theorem validargs_accepts_exactly_one_mode_witness :
    is_flag (sampleArgv.tail.headD []) 104 = false ∧
    optionArgs sampleArgv.tail = [[45, 100], [45, 99], [45, 112]] ∧
    (validargs 255 sampleArgv []).1 = 0 ∧
    (validargs 255 sampleArgv []).2.global_options = 12 ∧
    (validargs 255 sampleArgv []).2.name_buf = [45, 115] ∧
    ((validargs 255 sampleArgv []).2.global_options = 2 ∨
      (validargs 255 sampleArgv []).2.global_options = 4 ∨
      (validargs 255 sampleArgv []).2.global_options = 12) :=
  ⟨by rfl, by rfl, by rfl, by rfl, by rfl,
    ((validargs_accepts_exactly_one_mode 255 sampleArgv [] (by rfl)).2.1 (by rfl)).1⟩

/-- In a list of entries with distinct names, every entry is the one found under
its name. -/
theorem named_lookup : ∀ (entries : List (Name × Node)),
    NamedEntries entries → ∀ e ∈ entries, entries.lookup e.1 = some e.2
  | [], _ => by intro e he; simp at he
  | (n, x) :: rest, hg => by
    intro e he
    simp only [NamedEntries] at hg
    obtain ⟨_, hnew, _, hrest⟩ := hg
    simp only [List.mem_cons] at he
    rcases he with rfl | he
    · simp [List.lookup_cons]
    · have hne : e.1 ≠ n := hnew e he
      have : (e.1 == n) = false := by simp [hne]
      simp only [List.lookup_cons, this]
      exact named_lookup rest hrest e he

/-- One turn of the entry loop of `serialize_directory` for a name that does not
fit in the path buffer: `path_push` fails and the loop returns -1. -/
theorem serialize_entries_nofit (PATH_MAX : Nat) (recurse : Int → State → Option (Int × State))
    (d : Nat) (n : Name) (names : List Name) (st : State) (ps : List Nat)
    (hp : PathIs PATH_MAX st ps) (hn : GoodName n)
    (hnofit : ¬ (ps.length + 1 + n.length < PATH_MAX)) :
    serialize_entries PATH_MAX recurse d (n :: names) st = some (-1, st) := by
  have hcs : cstr n = n := cstr_of_no_nul n (fun c hc => (hn.2.2.2 c hc).1)
  have hlen : st.path_length = ps.length := by
    obtain ⟨_, _, h, _, _⟩ := hp
    exact h
  have hpush : path_push PATH_MAX n st = (-1, st) := by
    rcases path_push_cases PATH_MAX n st with ⟨_, hres⟩ | ⟨⟨_, hfit⟩, _⟩
    · exact hres
    · rw [hcs, hlen] at hfit
      exact absurd hfit hnofit
  simp only [serialize_entries, good_not_dot n hn, Bool.false_eq_true, if_false, hpush, if_true]

/-- One turn of the entry loop of `serialize_directory` for an entry that is
neither a directory nor a regular file: the loop returns -1. -/
theorem serialize_entries_fifo (PATH_MAX : Nat) (recurse : Int → State → Option (Int × State))
    (d : Nat) (n : Name) (names : List Name) (st : State) (ps : List Nat) (p s : Nat)
    (all : List (Name × Node)) (perm : Nat)
    (hp : PathIs PATH_MAX st ps) (hne : ps ≠ []) (hlast : ps.getLast? ≠ some 47)
    (hn : GoodName n) (hfit : ps.length + 1 + n.length < PATH_MAX)
    (hdir : st.fs.lookup ps = some (.dir p s all))
    (hx : all.lookup n = some (.fifo perm)) :
    ∃ st', serialize_entries PATH_MAX recurse d (n :: names) st = some (-1, st') := by
  obtain ⟨st1, hpush, hp1, hfs1, hout1, _, _⟩ := push_entry PATH_MAX st ps n hp hne hlast hn hfit
  have hlook : st1.fs.lookup st1.path = some (.fifo perm) := by
    rw [hp1.path, hfs1, lookup_child st.fs ps n p s all hn hdir, hx]
  have hstat : sys_stat st1 = (some (Node.fifo perm).stat, st1.log (.stat st1.path)) := by
    simp only [sys_stat, FileSys.stat, hlook, Option.map_some']
  have hndir : S_ISDIR (Node.fifo perm).stat.st_mode = false := isdir_fifo perm
  have hnreg : S_ISREG (Node.fifo perm).stat.st_mode = false := isreg_fifo perm
  have h01 : ¬ ((0 : Int) = -1) := by decide
  refine ⟨st1.log (.stat st1.path), ?_⟩
  simp only [serialize_entries, good_not_dot n hn, Bool.false_eq_true, if_false, hpush, h01,
    hstat, hndir, hnreg]

/-- One turn of the entry loop of `serialize_directory` for a directory,
whatever the recursive call returns. -/
theorem serialize_entries_dir_turn (PATH_MAX : Nat)
    (recurse : Int → State → Option (Int × State))
    (d : Nat) (n : Name) (names : List Name) (st : State) (ps : List Nat) (p s : Nat)
    (all : List (Name × Node)) (perm size : Nat) (sub : List (Name × Node))
    (hp : PathIs PATH_MAX st ps) (hne : ps ≠ []) (hlast : ps.getLast? ≠ some 47)
    (hn : GoodName n) (hfit : ps.length + 1 + n.length < PATH_MAX)
    (hdir : st.fs.lookup ps = some (.dir p s all))
    (hx : all.lookup n = some (.dir perm size sub)) :
    ∃ st3, PathIs PATH_MAX st3 (ps ++ 47 :: n) ∧ st3.fs = st.fs ∧
      ∀ r st4, recurse ((d : Int) + 1) st3 = some (r, st4) →
        (r = -1 → serialize_entries PATH_MAX recurse d (n :: names) st =
          some (-1, (path_pop st4).2)) ∧
        (r ≠ -1 → PathIs PATH_MAX st4 (ps ++ 47 :: n) →
          ∃ st', serialize_entries PATH_MAX recurse d (n :: names) st =
              serialize_entries PATH_MAX recurse d names st' ∧
            PathIs PATH_MAX st' ps ∧ st'.fs = st4.fs) := by
  obtain ⟨st1, hpush, hp1, hfs1, hout1, _, _⟩ := push_entry PATH_MAX st ps n hp hne hlast hn hfit
  have hlook : st1.fs.lookup st1.path = some (.dir perm size sub) := by
    rw [hp1.path, hfs1, lookup_child st.fs ps n p s all hn hdir, hx]
  have hstat : sys_stat st1 = (some (Node.dir perm size sub).stat, st1.log (.stat st1.path)) := by
    simp only [sys_stat, FileSys.stat, hlook, Option.map_some']
  have hisdir : S_ISDIR (Node.dir perm size sub).stat.st_mode = true := isdir_dir perm
  have h01 : ¬ ((0 : Int) = -1) := by decide
  refine ⟨(st1.log (.stat st1.path)).put (entry_record (d : Int) n (Node.dir perm size sub).stat),
    hp1, hfs1, ?_⟩
  intro r st4 hrec
  constructor
  · intro hr
    rw [hr] at hrec
    simp only [serialize_entries, good_not_dot n hn, Bool.false_eq_true, if_false, hpush, h01,
      hstat, hisdir, if_true, hrec]
  · intro hr hp4
    obtain ⟨st5, hpop, hp5, hfs5, _, _, _⟩ := pop_entry PATH_MAX st4 ps n hp4 hn
    refine ⟨st5, ?_, hp5, hfs5⟩
    simp only [serialize_entries, good_not_dot n hn, Bool.false_eq_true, if_false, hpush, h01,
      hstat, hisdir, if_true, hrec, hr, hpop]

/-- The entry loop of `serialize_directory(d)` on a directory whose names are
those of directory entries, with enough fuel: it returns; it returns -1 or 0;
and when it returns 0 the entries hold nothing but directories and regular
files, and the path buffer and the file system are what they were. -/
theorem serialize_entries_any (PATH_MAX : Nat) :
    ∀ (entries : List (Name × Node)) (fuel d : Nat) (st : State) (ps : List Nat) (p s : Nat)
      (all : List (Name × Node)),
      heightEntries entries ≤ fuel → NamedEntries entries →
      PathIs PATH_MAX st ps → ps ≠ [] → ps.getLast? ≠ some 47 →
      st.fs.lookup ps = some (.dir p s all) →
      (∀ e ∈ entries, all.lookup e.1 = some e.2) →
      ∃ r st', serialize_entries PATH_MAX (serialize_directory PATH_MAX fuel) d
          (entries.map Prod.fst) st = some (r, st') ∧
        (r = -1 ∨ (r = 0 ∧ hasOtherEntries entries = false ∧ PathIs PATH_MAX st' ps ∧
          st'.fs = st.fs))
  | [], fuel, d, st, ps, p, s, all, _, _, hp, _, _, _, _ =>
    ⟨0, st, rfl, Or.inr ⟨rfl, rfl, hp, rfl⟩⟩
  | (n, .file perm content) :: rest, fuel, d, st, ps, p, s, all, hh, hg, hp, hne, hlast, hdir,
      hall => by
    simp only [NamedEntries] at hg
    obtain ⟨hn, _, _, hgrest⟩ := hg
    have hx : all.lookup n = some (.file perm content) := hall (n, .file perm content) (by simp)
    have hhrest : heightEntries rest ≤ fuel := by
      simp only [heightEntries] at hh
      omega
    by_cases hfit : ps.length + 1 + n.length < PATH_MAX
    · obtain ⟨st1, hstep, _, hp1, hfs1⟩ := serialize_entries_file PATH_MAX
        (serialize_directory PATH_MAX fuel) d n (rest.map Prod.fst) st ps p s all perm content
        hp hne hlast hn hfit hdir hx
      obtain ⟨r, st', h', hres⟩ := serialize_entries_any PATH_MAX rest fuel d st1 ps p s
        all hhrest hgrest hp1 hne hlast (by rw [hfs1]; exact hdir)
        (fun e he => hall e (List.mem_cons_of_mem _ he))
      refine ⟨r, st', by rw [List.map_cons, hstep, h'], ?_⟩
      rcases hres with hr | ⟨hr, ho, hp', hfs'⟩
      · exact Or.inl hr
      · exact Or.inr ⟨hr, by simp only [hasOtherEntries, hasOtherNode, ho, Bool.or_self],
          hp', by rw [hfs', hfs1]⟩
    · exact ⟨-1, st, by
        rw [List.map_cons, serialize_entries_nofit PATH_MAX _ d n _ st ps hp hn hfit],
        Or.inl rfl⟩
  | (n, .fifo perm) :: rest, fuel, d, st, ps, p, s, all, _, hg, hp, hne, hlast, hdir, hall => by
    simp only [NamedEntries] at hg
    obtain ⟨hn, _, _, _⟩ := hg
    have hx : all.lookup n = some (.fifo perm) := hall (n, .fifo perm) (by simp)
    by_cases hfit : ps.length + 1 + n.length < PATH_MAX
    · obtain ⟨st', h'⟩ := serialize_entries_fifo PATH_MAX (serialize_directory PATH_MAX fuel)
        d n (rest.map Prod.fst) st ps p s all perm hp hne hlast hn hfit hdir hx
      exact ⟨-1, st', by rw [List.map_cons, h'], Or.inl rfl⟩
    · exact ⟨-1, st, by
        rw [List.map_cons, serialize_entries_nofit PATH_MAX _ d n _ st ps hp hn hfit],
        Or.inl rfl⟩
  | (n, .dir perm size sub) :: rest, fuel, d, st, ps, p, s, all, hh, hg, hp, hne, hlast, hdir,
      hall => by
    simp only [NamedEntries, NamedNode] at hg
    obtain ⟨hn, _, hgsub, hgrest⟩ := hg
    have hx : all.lookup n = some (.dir perm size sub) := hall (n, .dir perm size sub) (by simp)
    simp only [heightEntries, heightNode] at hh
    have hhrest : heightEntries rest ≤ fuel := by omega
    by_cases hfit : ps.length + 1 + n.length < PATH_MAX
    · obtain ⟨f, rfl⟩ : ∃ f, fuel = f + 1 := ⟨fuel - 1, by omega⟩
      have hhsub : heightEntries sub ≤ f := by omega
      obtain ⟨st3, hp3, hfs3, hturn⟩ := serialize_entries_dir_turn PATH_MAX
        (serialize_directory PATH_MAX (f + 1)) d n (rest.map Prod.fst) st ps p s all perm size
        sub hp hne hlast hn hfit hdir hx
      have hlook3 : st3.fs.lookup (ps ++ 47 :: n) = some (.dir perm size sub) := by
        rw [hfs3, lookup_child st.fs ps n p s all hn hdir, hx]
      obtain ⟨r4, st4, h4, hres4⟩ := serialize_entries_any PATH_MAX sub f (d + 1)
        ((st3.put (header 2 (toUInt32 ((d : Int) + 1)) 16)).log (.opendir (ps ++ 47 :: n)))
        (ps ++ 47 :: n) perm size sub hhsub hgsub hp3 (by simp)
        (getLast?_push ps n hn) hlook3 (named_lookup sub hgsub)
      have hcast : (((d + 1 : Nat) : Int)) = (d : Int) + 1 := by push_cast; rfl
      rw [hcast] at h4
      have hopen := serialize_directory_open PATH_MAX f ((d : Int) + 1) st3 (ps ++ 47 :: n)
        perm size sub hp3 hlook3
      rw [h4] at hopen
      simp only at hopen
      rcases hres4 with hr4 | ⟨hr4, ho4, hp4, hfs4⟩
      · rw [if_pos hr4] at hopen
        have := (hturn (-1) st4 hopen).1 rfl
        exact ⟨-1, (path_pop st4).2, by rw [List.map_cons, this], Or.inl rfl⟩
      · rw [if_neg (by rw [hr4]; decide)] at hopen
        obtain ⟨st5, hstep, hp5, hfs5⟩ := (hturn 0 _ hopen).2 (by decide) hp4
        have hfs53 : st5.fs = st.fs := by
          rw [hfs5]
          show st4.fs = _
          rw [hfs4]
          show st3.fs = _
          rw [hfs3]
        obtain ⟨r, st', h', hres⟩ := serialize_entries_any PATH_MAX rest (f + 1) d st5 ps p s
          all hhrest hgrest hp5 hne hlast (by rw [hfs53]; exact hdir)
          (fun e he => hall e (List.mem_cons_of_mem _ he))
        refine ⟨r, st', by rw [List.map_cons, hstep, h'], ?_⟩
        rcases hres with hr | ⟨hr, ho, hp', hfs'⟩
        · exact Or.inl hr
        · exact Or.inr ⟨hr, by simp only [hasOtherEntries, hasOtherNode, ho, ho4, Bool.or_self],
            hp', by rw [hfs', hfs53]⟩
    · exact ⟨-1, st, by
        rw [List.map_cons, serialize_entries_nofit PATH_MAX _ d n _ st ps hp hn hfit],
        Or.inl rfl⟩

/-- Function `serialize` on a base directory whose names are those of directory
entries, with enough fuel: it returns -1 or 0, and when it returns 0 the tree
holds nothing but directories and regular files and the path buffer holds the
base path again. -/
theorem serialize_named (PATH_MAX fuel : Nat) (st : State) (base : List Nat)
    (perm size : Nat) (entries : List (Name × Node))
    (hp : PathIs PATH_MAX st base) (hne : base ≠ []) (hlast : base.getLast? ≠ some 47)
    (hlook : st.fs.lookup base = some (Node.dir perm size entries))
    (hnames : NamedEntries entries) (hfuel : heightEntries entries < fuel) :
    ∃ r st', serialize PATH_MAX fuel st = some (r, st') ∧
      (r = -1 ∨ (r = 0 ∧ hasOtherEntries entries = false ∧ PathIs PATH_MAX st' base)) := by
  obtain ⟨f, rfl⟩ : ∃ f, fuel = f + 1 := ⟨fuel - 1, by omega⟩
  have hopen := serialize_directory_open PATH_MAX f 1 (st.put (header 0 0 16)) base perm size
    entries (hp.put _) (by rw [put_fs]; exact hlook)
  obtain ⟨r, st2, hent, hres⟩ := serialize_entries_any PATH_MAX entries f 1
    (((st.put (header 0 0 16)).put (header 2 (toUInt32 1) 16)).log (.opendir base)) base perm
    size entries (by omega) hnames (((hp.put _).put _).log _) hne hlast
    (by rw [log_fs, put_fs, put_fs]; exact hlook) (named_lookup entries hnames)
  simp only [Nat.cast_one] at hent
  rw [hent] at hopen
  simp only at hopen
  rcases hres with hr | ⟨hr, ho, hp2, _⟩
  · rw [if_pos hr] at hopen
    refine ⟨-1, st2, ?_, Or.inl rfl⟩
    rw [serialize, hopen]
    simp
  · rw [if_neg (by rw [hr]; decide)] at hopen
    refine ⟨0, (st2.put (header 3 (toUInt32 1) 16)).put (header 1 0 16), ?_,
      Or.inr ⟨rfl, ho, (hp2.put _).put _⟩⟩
    rw [serialize, hopen]
    simp

/-- Claim C31. If the tree below the base directory holds, at any depth, an
entry that is neither a directory nor a regular file, `-s` returns -1 (with
enough fuel for the depth of the tree it does return). The base path is not
empty, does not end in `/` and fits in the path buffer; the names in the tree
are those of directory entries. -/
theorem serialize_fails_on_other_file_type (PATH_MAX fuel : Nat) (fs : FileSys)
    (base : List Nat) (perm size : Nat) (entries : List (Name × Node))
    (hb : GoodBase PATH_MAX base)
    (hlook : fs.lookup base = some (Node.dir perm size entries))
    (hnames : NamedEntries entries) (hother : hasOtherEntries entries = true)
    (hfuel : heightEntries entries < fuel) :
    ∃ out, run_serialize PATH_MAX fuel fs base = some (-1, out) := by
  obtain ⟨hne, hnul, hlast, hfit⟩ := hb
  obtain ⟨buf, hinit, hp⟩ := path_init_good PATH_MAX base (initial PATH_MAX fs 2 [])
    (List.length_replicate _ _) hnul hfit
  obtain ⟨st0, hst0⟩ : ∃ x, x = ({ initial PATH_MAX fs 2 [] with
      path_buf := buf, path_length := base.length } : State) := ⟨_, rfl⟩
  rw [← hst0] at hinit hp
  have hfs0 : st0.fs = fs := by rw [hst0]; rfl
  obtain ⟨r, st', hser, hres⟩ := serialize_named PATH_MAX fuel st0 base perm size entries hp hne
    hlast (by rw [hfs0]; exact hlook) hnames hfuel
  have h01 : ¬ ((0 : Int) = -1) := by decide
  rcases hres with hr | ⟨_, ho, _⟩
  · refine ⟨st'.stdout, ?_⟩
    rw [run_serialize, hinit]
    simp only [h01, if_false]
    rw [hser, hr]
    rfl
  · rw [ho] at hother
    exact absurd hother (by decide)

set_option maxRecDepth 1000000 in
/-- Witness of C31: the base directory `.` holds the file `f` and the directory
`d`, in which there is a FIFO. -/
theorem serialize_fails_on_other_file_type_witness :
    (GoodBase 4096 [46] ∧
      (fsOf fifoTree).lookup [46] = some (Node.dir 0o755 4096 fifoEntries) ∧
      NamedEntries fifoEntries ∧ hasOtherEntries fifoEntries = true ∧
      heightEntries fifoEntries < 3) ∧
    ∃ out, run_serialize 4096 3 (fsOf fifoTree) [46] = some (-1, out) :=
  have hb : GoodBase 4096 [46] := by unfold GoodBase; decide
  have hn : NamedEntries fifoEntries := by
    simp [NamedEntries, NamedNode, GoodName, fifoEntries, fName, dName, xName]
  ⟨⟨hb, by rfl, hn, by rfl, by decide⟩,
    serialize_fails_on_other_file_type 4096 3 (fsOf fifoTree) [46] 0o755 4096 fifoEntries hb
      (by rfl) hn (by rfl) (by decide)⟩

/-- Function `path_pop` on a path without `/`: the path becomes empty. -/
theorem path_pop_noslash (PATH_MAX : Nat) (st : State) (c : List Nat)
    (hp : PathIs PATH_MAX st c) (hne : c ≠ []) (h47 : 47 ∉ c) :
    (path_pop st).1 = 0 ∧ PathIs PATH_MAX (path_pop st).2 [] := by
  obtain ⟨tail, hbuf, hlen, hnul, hsize⟩ := hp
  have hpl : st.path_length ≠ 0 := by
    rw [hlen]
    intro h
    exact hne (List.length_eq_zero.mp h)
  obtain ⟨i, hi, hpop⟩ := path_pop_cut st hpl
  have hi0 : i = 0 := by
    rcases hi with ⟨hlt, h47', _⟩ | ⟨h0, _⟩
    · exfalso
      rw [hlen] at hlt
      rw [hbuf, List.getD_eq_getElem?_getD, List.getElem?_append_left hlt,
        List.getElem?_eq_getElem hlt] at h47'
      simp only [Option.getD_some] at h47'
      exact h47 (h47' ▸ List.getElem_mem hlt)
    · exact h0
  rw [hpop, hi0]
  refine ⟨rfl, ?_⟩
  match c, hne, hbuf with
  | a :: c', _, hbuf =>
    refine ⟨c' ++ 0 :: tail, ?_, rfl, by simp, ?_⟩
    · show st.path_buf.set 0 0 = _
      rw [hbuf]
      rfl
    · show (st.path_buf.set 0 0).length = PATH_MAX
      rw [List.length_set]
      exact hsize

/-- Function `path_push` followed by `path_pop`, on a path that is empty or
does not end in `/`, for a component without `/` that is not empty. -/
theorem push_pop_restores (PATH_MAX : Nat) (c : List Nat) (st : State) (p : List Nat)
    (hp : PathIs PATH_MAX st p) (hlast : p.getLast? ≠ some 47) (hc0 : c ≠ [])
    (hc : ∀ x ∈ c, x ≠ 0 ∧ x ≠ 47) (hok : (path_push PATH_MAX c st).1 = 0) :
    (path_pop (path_push PATH_MAX c st).2).1 = 0 ∧
    PathIs PATH_MAX (path_pop (path_push PATH_MAX c st).2).2 p := by
  have hnul : ∀ x ∈ c, x ≠ 0 := fun x hx => (hc x hx).1
  have h47 : 47 ∉ c := fun h => (hc 47 h).2 rfl
  have hcs : cstr c = c := cstr_of_no_nul c hnul
  obtain ⟨_, hfit⟩ := path_push_ok PATH_MAX c st (by rw [hok]; decide)
  rw [hcs] at hfit
  by_cases hne : p = []
  · obtain ⟨_, hp1⟩ := path_push_nosep_good PATH_MAX c st p hp hnul h47 hfit (Or.inl hne)
    rw [hne, List.nil_append] at hp1
    rw [hne]
    exact path_pop_noslash PATH_MAX _ c hp1 hc0 h47
  · obtain ⟨buf, h, hp1⟩ := path_push_good PATH_MAX c st p hp hne
      (getLast_of_getLast? p hne hlast) hc
      (by obtain ⟨_, _, hlen, _, _⟩ := hp; rw [← hlen]; exact hfit)
    rw [h]
    obtain ⟨buf2, h2, hp2⟩ := path_pop_good PATH_MAX c _ p hp1 h47
    rw [h2]
    exact ⟨rfl, hp2⟩

/-- Claim C38. Push/pop round trip: for a path buffer that holds a string `p`
which is empty or does not end in `/`, and a component `c`, not empty, without
`/` (and NUL), for which `path_push(c)` returns 0: the `path_pop()` that
follows returns 0 and the buffer holds `p` again, with `path_length` what it
was. Consequently a `serialize()` that returns 0, started with a base path
that does not end in `/` (and names an existing directory, the names in the
tree being those of directory entries), leaves the base path in the path
buffer. -/
theorem push_then_pop_restores_path (PATH_MAX : Nat) :
    (∀ (c : List Nat) (st : State) (p : List Nat), PathIs PATH_MAX st p →
      p.getLast? ≠ some 47 → c ≠ [] → (∀ x ∈ c, x ≠ 0 ∧ x ≠ 47) →
      (path_push PATH_MAX c st).1 = 0 →
      (path_pop (path_push PATH_MAX c st).2).1 = 0 ∧
      PathIs PATH_MAX (path_pop (path_push PATH_MAX c st).2).2 p ∧
      (path_pop (path_push PATH_MAX c st).2).2.path = st.path ∧
      (path_pop (path_push PATH_MAX c st).2).2.path_length = st.path_length) ∧
    (∀ (fuel : Nat) (st st' : State) (base : List Nat) (perm size : Nat)
      (entries : List (Name × Node)), PathIs PATH_MAX st base → base ≠ [] →
      base.getLast? ≠ some 47 → st.fs.lookup base = some (Node.dir perm size entries) →
      NamedEntries entries → heightEntries entries < fuel →
      serialize PATH_MAX fuel st = some (0, st') →
      PathIs PATH_MAX st' base ∧ st'.path = st.path ∧ st'.path_length = st.path_length) := by
  constructor
  · intro c st p hp hlast hc0 hc hok
    obtain ⟨h1, h2⟩ := push_pop_restores PATH_MAX c st p hp hlast hc0 hc hok
    refine ⟨h1, h2, by rw [h2.path, hp.path], ?_⟩
    obtain ⟨_, _, ha, _, _⟩ := h2
    obtain ⟨_, _, hb, _, _⟩ := hp
    rw [ha, hb]
  · intro fuel st st' base perm size entries hp hne hlast hlook hnames hfuel hser
    obtain ⟨r, st2, hser2, hres⟩ := serialize_named PATH_MAX fuel st base perm size entries hp
      hne hlast hlook hnames hfuel
    rw [hser] at hser2
    have heq := Option.some.inj hser2
    have hr : r = 0 := (congrArg Prod.fst heq).symm
    have hst : st2 = st' := (congrArg Prod.snd heq).symm
    rcases hres with hbad | ⟨_, _, hp2⟩
    · rw [hr] at hbad
      exact absurd hbad (by decide)
    · rw [hst] at hp2
      refine ⟨hp2, by rw [hp2.path, hp.path], ?_⟩
      obtain ⟨_, _, ha, _, _⟩ := hp2
      obtain ⟨_, _, hb, _, _⟩ := hp
      rw [ha, hb]

set_option maxRecDepth 1000000 in
/-- Witness of C38: `path_push("a")` and `path_pop()` on the path `.`, and `-s`
on the base directory `.` that holds a file and a directory with a file. -/
theorem push_then_pop_restores_path_witness :
    (PathIs 4096 scenarioInit [46] ∧ (path_push 4096 [97] scenarioInit).1 = 0 ∧
      (serializeStart tripSource).fs.lookup [46] = some (Node.dir 0o755 4096 tripEntries) ∧
      NamedEntries tripEntries ∧
      (serialize 4096 3 (serializeStart tripSource)).map Prod.fst = some 0) ∧
    (PathIs 4096 (path_pop (path_push 4096 [97] scenarioInit).2).2 [46] ∧
      (path_pop (path_push 4096 [97] scenarioInit).2).2.path_length =
        scenarioInit.path_length) ∧
    PathIs 4096 ((serialize 4096 3 (serializeStart tripSource)).getD
      (0, serializeStart tripSource)).2 [46] :=
  have hn : NamedEntries tripEntries := by
    simp [NamedEntries, NamedNode, GoodName, tripEntries, fName, dName]
  have h1 := (push_then_pop_restores_path 4096).1 [97] scenarioInit [46] scenarioInit_pathIs
    (by decide) (by decide) (by decide) (by rfl)
  have hs : serialize 4096 3 (serializeStart tripSource) =
      some (0, ((serialize 4096 3 (serializeStart tripSource)).getD
        (0, serializeStart tripSource)).2) := by rfl
  have h2 := (push_then_pop_restores_path 4096).2 3 (serializeStart tripSource) _ [46] 0o755 4096
    tripEntries (deserializeStart_pathIs tripSource 2 []) (by decide) (by decide) (by rfl) hn
    (by decide) hs
  ⟨⟨scenarioInit_pathIs, by rfl, by rfl, hn, by rfl⟩, ⟨h1.2.1, h1.2.2.2⟩, h2.1⟩

/-- In lists of entries that agree, a name is found on both sides or on none,
and the nodes found agree. -/
theorem sameEntries_lookup : ∀ (es es' : List (Name × Node)) (c : Name),
    sameEntries es es' = true →
    (es.lookup c = none ∧ es'.lookup c = none) ∨
      ∃ x x', es.lookup c = some x ∧ es'.lookup c = some x' ∧ sameNode x x' = true
  | [], [], c, _ => Or.inl ⟨rfl, rfl⟩
  | [], _ :: _, c, h => by simp [sameEntries] at h
  | _ :: _, [], c, h => by simp [sameEntries] at h
  | (n, x) :: r, (n', x') :: r', c, h => by
    simp only [sameEntries, Bool.and_eq_true, beq_iff_eq] at h
    obtain ⟨⟨hn, hx⟩, hr⟩ := h
    subst hn
    by_cases hc : c = n'
    · right
      exact ⟨x, x', by simp [List.lookup_cons, hc], by simp [List.lookup_cons, hc], hx⟩
    · have hb : (c == n') = false := by simp [hc]
      simp only [List.lookup_cons, hb]
      exact sameEntries_lookup r r' c hr

/-- In nodes that agree, what is found at a relative path agrees. -/
theorem sameNode_get : ∀ (q : List Name) (x x' : Node), sameNode x x' = true →
    agreeAt (Node.get x q) (Node.get x' q)
  | [], x, x', h => by
    cases x <;> cases x' <;> simp [sameNode] at h <;> simp [Node.get, agreeAt]
    exact h
  | c :: cs, x, x', h => by
    cases x with
    | file p ct =>
      cases x' <;> simp [sameNode] at h
      simp [Node.get, agreeAt]
    | fifo p => cases x' <;> simp [sameNode] at h
    | dir p s es =>
      cases x' with
      | file p' ct' => simp [sameNode] at h
      | fifo p' => simp [sameNode] at h
      | dir p' s' es' =>
        simp only [sameNode] at h
        rcases sameEntries_lookup es es' c h with ⟨h1, h2⟩ | ⟨y, y', h1, h2, hy⟩
        · simp [Node.get, h1, h2, agreeAt]
        · simp only [Node.get, h1, h2]
          exact sameNode_get cs y y' hy

/-- Claim C35, amended. Weak round trip: for a source base directory that holds
only directories and regular files of bytes, with distinct names free of `/`
and NUL, every path (under the source and under the target base path) shorter
than `PATH_MAX`, every file shorter than 2^31 - 16 bytes, and a target base
path that holds a character other than `/` and names an existing empty
directory: `-s` returns 0, `-d` (clobber off) on its output returns 0, and
then at every relative path there is nothing under the target where there is
nothing under the source, a directory where there is a directory, and a
regular file where there is a regular file, with the same content and with
the permission bits of the source `& 0o777`. -/
theorem weak_round_trip (PATH_MAX : Nat) (hPM : PATH_MAX ≤ 2147483620) (fuelS fuelD : Nat)
    (fsS fsD : FileSys) (sbase dbase : List Nat) (sp ss dp ds : Nat)
    (entries : List (Name × Node))
    (hsn : ∀ c ∈ sbase, c ≠ 0) (hsf : sbase.length < PATH_MAX)
    (hdb : UsableBase PATH_MAX dbase)
    (hs : fsS.lookup sbase = some (Node.dir sp ss entries))
    (hd : fsD.lookup dbase = some (Node.dir dp ds []))
    (hgs : GoodEntries PATH_MAX sbase.length 1 entries)
    (hgd : GoodEntries PATH_MAX dbase.length 1 entries)
    (hfs : heightEntries entries < fuelS) (hfd : weightEntries entries + 2 ≤ fuelD) :
    ∃ out st' root', run_serialize PATH_MAX fuelS fsS sbase = some (0, out) ∧
      run_deserialize PATH_MAX fuelD fsD 4 dbase out = some (0, st') ∧
      st'.fs.lookup dbase = some root' ∧
      ∀ q : List Name, agreeAt (Node.get (Node.dir sp ss entries) q) (Node.get root' q) := by
  obtain ⟨st', es', hrun, hlook, hsame, _⟩ := run_deserialize_usable PATH_MAX hPM fuelD fsD 4
    dbase dp ds entries hdb hd hgd hfd
  refine ⟨encodeTree entries, st', Node.dir dp ds es',
    run_serialize_any PATH_MAX fuelS fsS sbase sp ss entries hsn hsf hs hgs hfs, hrun, hlook, ?_⟩
  intro q
  exact sameNode_get q (Node.dir sp ss entries) (Node.dir dp ds es')
    (by simp only [sameNode]; exact hsame)

set_option maxRecDepth 1000000 in
/-- Witness of C35: the tree with the file `f` and the directory `d` holding
the file `g`, from the base path `.` into the empty directory `d` of another
file system, named by the base path `d//`. -/
theorem weak_round_trip_witness :
    (4096 ≤ 2147483620 ∧ (∀ c ∈ [46], c ≠ 0) ∧ [46].length < 4096 ∧
      UsableBase 4096 [100, 47, 47] ∧
      (fsOf tripSource).lookup [46] = some (Node.dir 0o755 4096 tripEntries) ∧
      (fsOf dBase).lookup [100, 47, 47] = some (Node.dir 0o755 4096 []) ∧
      GoodEntries 4096 1 1 tripEntries ∧ GoodEntries 4096 3 1 tripEntries ∧
      heightEntries tripEntries < 3 ∧ weightEntries tripEntries + 2 ≤ 13) ∧
    ∃ out st' root', run_serialize 4096 3 (fsOf tripSource) [46] = some (0, out) ∧
      run_deserialize 4096 13 (fsOf dBase) 4 [100, 47, 47] out = some (0, st') ∧
      st'.fs.lookup [100, 47, 47] = some root' ∧
      ∀ q : List Name, agreeAt (Node.get (Node.dir 0o755 4096 tripEntries) q) (Node.get root' q) :=
  have hn : ∀ c ∈ [46], c ≠ 0 := by decide
  have hb : UsableBase 4096 [100, 47, 47] := by unfold UsableBase; decide
  have hg1 : GoodEntries 4096 1 1 tripEntries := by
    simp [GoodEntries, GoodNode, GoodName, tripEntries, fName, dName]
  have hg3 : GoodEntries 4096 3 1 tripEntries := by
    simp [GoodEntries, GoodNode, GoodName, tripEntries, fName, dName]
  ⟨⟨by decide, hn, by decide, hb, by rfl, by rfl, hg1, hg3, by decide, by decide⟩,
    weak_round_trip 4096 (by decide) 3 13 (fsOf tripSource) (fsOf dBase) [46] [100, 47, 47]
      0o755 4096 0o755 4096 tripEntries hn (by decide) hb (by rfl) (by rfl) hg1 hg3 (by decide)
      (by decide)⟩

set_option maxRecDepth 1000000 in
/-- Claim C35 as stated fails for the target base path `/`: the output of a
successful `-s` on a base directory that holds the file `f`, given to `-d`
(clobber off) with the base path `/` that names an existing empty directory,
is not accepted. The file is created, but `path_pop` after it leaves the path
buffer empty, so the `path_pop` of the END_OF_DIRECTORY record of depth 1
fails and the run returns -1, the END_OF_TRANSMISSION record unread. With the
base path `.` the same input is accepted. -/
theorem weak_round_trip_fails_into_root :
    run_serialize 4096 2 (fsOf (Node.dir 0o755 4096 oneFileEntries)) [46] =
      some (0, encodeTree oneFileEntries) ∧
    (fsOf emptyBase).lookup [47] = some (Node.dir 0o755 4096 []) ∧
    (run_deserialize 4096 8 (fsOf emptyBase) 4 [47] (encodeTree oneFileEntries)).map
      (fun r => (r.1, r.2.fs.root, r.2.path, r.2.stdin)) =
      some (-1, Node.dir 0o755 4096 oneFileEntries, [], header 1 0 16) ∧
    (run_deserialize 4096 8 (fsOf emptyBase) 4 [46] (encodeTree oneFileEntries)).map
      (fun r => (r.1, r.2.fs.root, r.2.stdin)) =
      some (0, Node.dir 0o755 4096 oneFileEntries, []) :=
  ⟨by rfl, by rfl, by rfl, by rfl⟩

end Transplant
